import Mathlib

/-!
Mathler-Helper: a shallow embedding of `mathler.c`.

The C program has two parts: a backtracking generator that enumerates the
fixed-width arithmetic expressions evaluating to a target rational, and a
minimax guesser working on a feedback state.  Both are embedded here as
executable Lean definitions, followed by the theorems about them.

Conventions of the embedding:
* `integer` (C `int`) is `Int`; C division and remainder are `Int.tdiv` and
  `Int.tmod` (truncation towards zero).  The products, sums and differences of
  the rational operations are reduced to 32 bits (`to_integer`), and the
  `int64_t` arithmetic of `rat_double` to 64 bits (`to_int64`), as the compiled
  code does when a signed operation overflows; a division that traps is `none`
  in `rat_double`.  `gcd` is given on mathematical integers: it works on the
  absolute values of its arguments, which it takes without overflow unless an
  argument is `INT_MIN`.  So are `ipow` and the counters, whose values stay
  within `int` for every variant of the program (`SIZE` is at most 8).
* `mask` values are `Nat` bit sets; `~m` and `-m` are taken in the 32-bit
  frame the C operands are promoted to.
* the preprocessor configuration is a value of type `Config`.
* loops are structural recursions on an explicit iteration bound.
* the parameters `from` and `to` of the C functions are called `frm` and
  `upto`, since both words are reserved in Lean.
-/

namespace Mathler

/-! ## Build configuration -/

/-- The preprocessor configuration: `SIZE`, `MAX_OP`, `ALLOW_PARENTHESIS`
and whether `NUMBLE` is defined. -/
structure Config where
  SIZE : Nat
  MAX_OP : Nat
  ALLOW_PARENTHESIS : Bool
  NUMBLE : Bool
  deriving DecidableEq, Repr

/-- Build with `-DEASY`. -/
def EASY : Config := ⟨5, 1, false, false⟩
/-- Build with `-DNORMAL`. -/
def NORMAL : Config := ⟨6, 2, false, false⟩
/-- Build with `-DHARD`: `SIZE >= 8` and not `NUMBLE`, so parentheses are allowed. -/
def HARD : Config := ⟨8, 3, true, false⟩
/-- Build with `-DTHENUMBLE`: `MAX_OP` defaults to `SIZE`. -/
def THENUMBLE : Config := ⟨7, 7, false, false⟩
/-- Build with `-DNUMBLE`: `MAX_OP` defaults to `SIZE`, the glyph `=` replaces the parentheses. -/
def NUMBLE : Config := ⟨8, 8, false, true⟩

/-- The constant `MAX_FORMULAE_EXACT`. -/
def MAX_FORMULAE_EXACT : Nat := 15000

/-! ## Rational arithmetic -/

/-- The C struct `rat`: numerator `p`, denominator `q`. -/
structure rat where
  p : Int
  q : Int
  deriving DecidableEq, Repr

/-- The exact value of a `rat`. -/
def rat.toRat (r : rat) : ℚ := (r.p : ℚ) / (r.q : ℚ)

/-- `rat_whole`: the denominator is one. -/
def rat_whole (p : rat) : Bool := p.q == 1

/-- `rat_integer`: the fraction `n/1`. -/
def rat_integer (n : Int) : rat := ⟨n, 1⟩

/-- The value of an expression of type `integer` (which is `int`), and the
conversion of an `int64_t` to `integer`: the mathematical value reduced modulo
`2 ^ 32` to the range from `-2 ^ 31` to `2 ^ 31 - 1`. -/
def to_integer (x : Int) : Int := (x + 2 ^ 31) % 2 ^ 32 - 2 ^ 31

/-- The loop `while ((a %= b) && (b %= a));` of `gcd`, with an iteration bound. -/
def gcd_loop : Nat → Int → Int → Int × Int
  | 0, a, b => (a, b)
  | fuel + 1, a, b =>
    let a := a.tmod b
    if a ≠ 0 then
      let b := b.tmod a
      if b ≠ 0 then gcd_loop fuel a b else (a, b)
    else (a, b)

/-- `gcd`: both arguments are made non-negative, then Euclid's loop runs when
`b` is not zero; the result is `a+b`.  The second argument strictly decreases
in every iteration, so `b+1` iterations are enough. -/
def gcd (a b : Int) : Int :=
  let a := if a < 0 then -a else a
  let b := if b < 0 then -b else b
  let r := if b ≠ 0 then gcd_loop (b.toNat + 1) a b else (a, b)
  r.1 + r.2

/-- `rat_norm`: divide numerator and denominator by their gcd.  When both are
zero the gcd is zero and the C division traps; `Int.tdiv` by zero is zero, so
the pair `(0, 0)` stands for that case.  For every other pair of `int` values
without `INT_MIN` (see `abs_is_int`) the result is the pair the C code
stores. -/
def rat_norm (p q : Int) : rat :=
  let t := gcd p q
  ⟨p.tdiv t, q.tdiv t⟩

/-- `rat_add` (without `SLOW_RAT`); every product and the sum are `int` values. -/
def rat_add (u v : rat) : rat :=
  rat_norm (to_integer (to_integer (u.p * v.q) + to_integer (v.p * u.q)))
    (to_integer (u.q * v.q))

/-- `rat_sub` (without `SLOW_RAT`); every product and the difference are `int` values. -/
def rat_sub (u v : rat) : rat :=
  rat_norm (to_integer (to_integer (u.p * v.q) - to_integer (v.p * u.q)))
    (to_integer (u.q * v.q))

/-- `rat_mul` (without `SLOW_RAT`); the products are `int` values. -/
def rat_mul (u v : rat) : rat := rat_norm (to_integer (u.p * v.p)) (to_integer (u.q * v.q))

/-- `rat_div` (without `SLOW_RAT`); the products are `int` values. -/
def rat_div (u v : rat) : rat := rat_norm (to_integer (u.p * v.q)) (to_integer (u.q * v.p))

/-! ## Symbols -/

def MSK0 : Nat := 1
def MSK1 : Nat := 2
def MSK2 : Nat := 4
def MSK3 : Nat := 8
def MSK4 : Nat := 16
def MSK5 : Nat := 32
def MSK6 : Nat := 64
def MSK7 : Nat := 128
def MSK8 : Nat := 256
def MSK9 : Nat := 512
def MSKadd : Nat := 1024
def MSKsub : Nat := 2048
def MSKmul : Nat := 4096
def MSKdiv : Nat := 8192
/-- Only declared when `ALLOW_PARENTHESIS`. -/
def MSKbra : Nat := 16384
/-- Only declared when `ALLOW_PARENTHESIS`. -/
def MSKket : Nat := 32768
/-- Only declared when `NUMBLE` (and parentheses are not allowed). -/
def MSKequ : Nat := 16384
def MSKnone : Nat := 0

/-- `MSKall`: the union of the glyph bits of the variant. -/
def MSKall (cfg : Config) : Nat :=
  MSKnone ||| MSK0 ||| MSK1 ||| MSK2 ||| MSK3 ||| MSK4 ||| MSK5 ||| MSK6 ||| MSK7
    ||| MSK8 ||| MSK9 ||| MSKadd ||| MSKsub ||| MSKmul ||| MSKdiv
    ||| (if cfg.ALLOW_PARENTHESIS then MSKbra ||| MSKket
         else if cfg.NUMBLE then MSKequ else MSKnone)
    ||| MSKnone

/-- `char_to_mask`. -/
def char_to_mask (cfg : Config) (symbol : Char) : Nat :=
  if symbol = '0' then MSK0
  else if symbol = '1' then MSK1
  else if symbol = '2' then MSK2
  else if symbol = '3' then MSK3
  else if symbol = '4' then MSK4
  else if symbol = '5' then MSK5
  else if symbol = '6' then MSK6
  else if symbol = '7' then MSK7
  else if symbol = '8' then MSK8
  else if symbol = '9' then MSK9
  else if symbol = '+' then MSKadd
  else if symbol = '-' then MSKsub
  else if symbol = '*' then MSKmul
  else if symbol = '/' then MSKdiv
  else if cfg.ALLOW_PARENTHESIS && symbol = '(' then MSKbra
  else if cfg.ALLOW_PARENTHESIS && symbol = ')' then MSKket
  else if !cfg.ALLOW_PARENTHESIS && cfg.NUMBLE && symbol = '=' then MSKequ
  else MSKnone

/-- `mask_to_char`; the NUL character is `Char.ofNat 0`. -/
def mask_to_char (cfg : Config) (mask : Nat) : Char :=
  if mask = MSK0 then '0'
  else if mask = MSK1 then '1'
  else if mask = MSK2 then '2'
  else if mask = MSK3 then '3'
  else if mask = MSK4 then '4'
  else if mask = MSK5 then '5'
  else if mask = MSK6 then '6'
  else if mask = MSK7 then '7'
  else if mask = MSK8 then '8'
  else if mask = MSK9 then '9'
  else if mask = MSKadd then '+'
  else if mask = MSKsub then '-'
  else if mask = MSKmul then '*'
  else if mask = MSKdiv then '/'
  else if cfg.ALLOW_PARENTHESIS && mask = MSKbra then '('
  else if cfg.ALLOW_PARENTHESIS && mask = MSKket then ')'
  else if !cfg.ALLOW_PARENTHESIS && cfg.NUMBLE && mask = MSKequ then '='
  else Char.ofNat 0

/-- `popcount` of a 32-bit value: the number of set bits. -/
def popcount (x : Nat) : Nat := (List.range 32).countP (fun i => x.testBit i)

/-! ## The expression search engine -/

/-- The C struct `opt_rat`: a rational together with a flag telling whether it is set. -/
structure opt_rat where
  set : Bool
  val : rat
  deriving DecidableEq, Repr

/-- The C struct `formula`. -/
structure formula where
  used : Nat
  mask : List Nat
  used_count : Nat
  deriving DecidableEq, Repr

/-- The global variables the search works on: the work `buffer` and the
candidate store `formulae`.  Globals are not restored when the search
backtracks. -/
structure Globals where
  buffer : List Char
  formulae : List formula
  deriving DecidableEq, Repr

/-- A computation that may contain choice points.  It receives the rest of
the program as a continuation and the globals, and returns the globals as
they are when every alternative has been tried. -/
abbrev Search (α : Type) : Type := (α → Globals → Globals) → Globals → Globals

/-- Modelled from the spec: `Backtrack()` of the CBack library, which is not
part of the sources.  The current branch is abandoned: the continuation is
not run and control goes back to the last choice point. -/
def Backtrack {α : Type} : Search α := fun _ g => g

/-- Modelled from the spec: `Choice(N)` of the CBack library, which is not
part of the sources.  A choice point is an ordered list of alternatives tried
in sequence: the rest of the program is run with `1`, then `2`, up to `N`
(chronological backtracking); with `N <= 0` there is no alternative and the
branch is abandoned.  The stack is restored at each alternative, the globals
are not. -/
def Choice (N : Int) : Search Int := fun k g =>
  (List.range N.toNat).foldl (fun g (i : Nat) => k ((i : Int) + 1) g) g

/-- The `do ... while(n && from<j)` loop of `num`, with an iteration bound.
It returns the final `n`, `j` and buffer. -/
def num_loop : Nat → Int → Nat → Nat → List Char → Int × Nat × List Char
  | 0, n, _, j, buf => (n, j, buf)
  | fuel + 1, n, frm, j, buf =>
    let j := j - 1
    let buf := buf.set j (Char.ofNat (48 + n.tmod 10).toNat)
    let n := n.tdiv 10
    if n ≠ 0 ∧ frm < j then num_loop fuel n frm j buf else (n, j, buf)

/-- `num`: writes the decimal digits of `n` from position `upto-1` downwards
and tells whether they exactly fill `[frm, upto)`.  The loop body runs at most
`upto - frm` times (once when that is zero). -/
def num (n : Int) (frm upto : Nat) (buf : List Char) : Bool × List Char :=
  let r := num_loop (upto - frm + 1) n frm upto buf
  (decide (r.1 = 0 ∧ frm = r.2.1), r.2.2)

/-- The loop of `ipow`, with an iteration bound. -/
def ipow_loop : Nat → Int → Int → Nat → Int
  | 0, x, _, _ => x
  | fuel + 1, x, y, z =>
    if z > 0 then
      ipow_loop fuel (if z &&& 1 ≠ 0 then x * y else x) (y * y) (z >>> 1)
    else x

/-- `ipow`: `a` to the power `b` (`b` is never negative in the program). -/
def ipow (a : Int) (b : Nat) : Int := ipow_loop (b + 1) 1 a b

/-- The type `goal` of the grammar functions. -/
abbrev goal : Type := opt_rat → Nat → Nat → Search opt_rat

/-- `solve`: solves `T = U op V`.  The operator is written at `buffer[upto]`;
when `T` is set the left operand `U` is computed from it and `goal` is run on
the set `U`, otherwise `goal` is run on the unset `U` and `T` is computed.
The `default:` branch is `assert(false)`. -/
def solve (T : opt_rat) (goal : goal) (U : opt_rat) (frm upto : Nat) (op : Char)
    (V : opt_rat) : Search opt_rat := fun k g =>
  let g : Globals := { g with buffer := g.buffer.set upto op }
  if op = '+' then
    if T.set then
      goal ⟨true, rat_sub T.val V.val⟩ frm upto (fun _ g => k T g) g
    else
      goal { U with set := false } frm upto
        (fun U g => k ⟨true, rat_add U.val V.val⟩ g) g
  else if op = '=' ∨ op = '-' then
    if T.set then
      goal ⟨true, rat_add T.val V.val⟩ frm upto (fun _ g => k T g) g
    else
      goal { U with set := false } frm upto
        (fun U g => k ⟨true, rat_sub U.val V.val⟩ g) g
  else if op = '/' then
    if V.val.p = 0 then Backtrack k g
    else if T.set then
      goal ⟨true, rat_mul T.val V.val⟩ frm upto (fun _ g => k T g) g
    else
      goal { U with set := false } frm upto
        (fun U g => k ⟨true, rat_div U.val V.val⟩ g) g
  else if op = '*' then
    if !T.set || Int.lor T.val.p V.val.p = 0 then
      goal { U with set := false } frm upto
        (fun U g => k ⟨true, rat_mul U.val V.val⟩ g) g
    else
      if V.val.p = 0 then Backtrack k g
      else goal ⟨true, rat_div T.val V.val⟩ frm upto (fun _ g => k T g) g
  else Backtrack k g

/-- `number`: a set target must be a non-negative integer whose digits fill
the span; an unset target enumerates the numbers of that width. -/
def number (T : opt_rat) (frm upto : Nat) : Search opt_rat := fun k g =>
  if T.set then
    if T.val.q ≠ 1 ∨ T.val.p < 0 then Backtrack k g
    else
      let r := num T.val.p frm upto g.buffer
      if !r.1 then Backtrack k { g with buffer := r.2 }
      else k T { g with buffer := r.2 }
  else
    let i := ipow 10 (upto - frm - 1)
    Choice (if i = 1 then 10 else 9 * i) (fun c g =>
      let T : opt_rat := ⟨true, rat_integer (c + i - (if i = 1 then 2 else 1))⟩
      k T { g with buffer := (num T.val.p frm upto g.buffer).2 }) g

/-- An uninitialised local `opt_rat`. -/
def opt_rat.uninit : opt_rat := ⟨false, ⟨0, 0⟩⟩

mutual
/-- `expression ::= term | expression + term | expression - term`.
The first argument bounds the nesting of calls. -/
def expression (cfg : Config) : Nat → goal
  | 0, _, _, _ => Backtrack
  | fuel + 1, T, frm, upto => fun k =>
    Choice 3 (fun c =>
      if c = 1 then term cfg fuel T frm upto k
      else
        let op : Char := if c = 2 then '+' else '-'
        Choice ((upto : Int) - frm - 2) (fun c =>
          let split := frm + c.toNat
          let U := opt_rat.uninit
          let V := { opt_rat.uninit with set := false }
          term cfg fuel V (split + 1) upto (fun V =>
            solve T (expression cfg fuel) U frm split op V k)))
termination_by structural fuel => fuel
/-- `term ::= factor | term * factor | term / factor`. -/
def term (cfg : Config) : Nat → goal
  | 0, _, _, _ => Backtrack
  | fuel + 1, T, frm, upto => fun k =>
    Choice 3 (fun c =>
      if c = 1 then factor cfg fuel T frm upto k
      else
        let op : Char := if c = 2 then '*' else '/'
        Choice ((upto : Int) - frm - 2) (fun c =>
          let split := frm + c.toNat
          let U := opt_rat.uninit
          let V := { opt_rat.uninit with set := false }
          factor cfg fuel V (split + 1) upto (fun V =>
            solve T (term cfg fuel) U frm split op V k)))
termination_by structural fuel => fuel
/-- `factor ::= number | ( expression )`, the second alternative only when
`ALLOW_PARENTHESIS`. -/
def factor (cfg : Config) : Nat → goal
  | 0, _, _, _ => Backtrack
  | fuel + 1, T, frm, upto => fun k =>
    Choice (1 + (if cfg.ALLOW_PARENTHESIS then 1 else 0)) (fun c =>
      if c = 1 then number T frm upto k
      else fun g =>
        if (upto : Int) - frm < 3 then Backtrack k g
        else
          let g : Globals := { g with buffer := g.buffer.set frm '(' }
          let g : Globals := { g with buffer := g.buffer.set (upto - 1) ')' }
          expression cfg fuel T (frm + 1) (upto - 1) k g)
termination_by structural fuel => fuel
end

/-- The operator count of `findall`: the positions of the buffer holding one of `+ - * /`. -/
def count_op (cfg : Config) (buffer : List Char) : Nat :=
  (List.range cfg.SIZE).foldl (fun op i =>
    let c := buffer.getD i (Char.ofNat 0)
    if c = '+' ∨ c = '-' ∨ c = '*' ∨ c = '/' then op + 1 else op) 0

/-- The formula `findall` builds from the buffer: the mask of each
character, their union and its population count. -/
def make_formula (cfg : Config) (buffer : List Char) : formula :=
  let f := (List.range cfg.SIZE).foldl (fun (f : formula) i =>
    let m := char_to_mask cfg (buffer.getD i (Char.ofNat 0))
    { f with mask := f.mask.set i m, used := f.used ||| m })
    ⟨0, List.replicate cfg.SIZE 0, 0⟩
  { f with used_count := popcount f.used }

/-- The nesting bound given to `expression` by `findall`; every call chain of
the grammar functions on a span of `SIZE` characters is shorter. -/
def search_depth (cfg : Config) : Nat := 3 * cfg.SIZE + 3

/-- `findall`: runs the grammar on the whole buffer with the target set (for
`NUMBLE`: an equation `expression = term`), rejects more than `MAX_OP`
operators, appends the formula to the store and backtracks for the next
solution. -/
def findall (cfg : Config) (num : rat) : Globals → Globals := fun g =>
  let T : opt_rat := ⟨true, num⟩
  let rest : opt_rat → Globals → Globals := fun _ g =>
    if count_op cfg g.buffer > cfg.MAX_OP then g
    else { g with formulae := g.formulae ++ [make_formula cfg g.buffer] }
  if cfg.NUMBLE then
    Choice ((cfg.SIZE : Int) - 2) (fun c =>
      let split := c.toNat
      let U := opt_rat.uninit
      let V := { opt_rat.uninit with set := false }
      term cfg (search_depth cfg) V (split + 1) cfg.SIZE (fun V =>
        solve T (expression cfg (search_depth cfg)) U 0 split '=' V rest)) g
  else expression cfg (search_depth cfg) T 0 cfg.SIZE rest g

/-- The globals when `main` starts the search: the zero-initialised buffer
and the empty store (`formulae.len = 0`). -/
def Globals.init (cfg : Config) : Globals := ⟨List.replicate cfg.SIZE (Char.ofNat 0), []⟩

/-- The candidate store after `_Backtracking(findall(&target))`. -/
def generate (cfg : Config) (target : rat) : List formula :=
  (findall cfg target (Globals.init cfg)).formulae

/-! ## Feedback state -/

/-- The C struct `state` (`USE_IMPOSSIBLE` is 0, so there is no `impossible` field). -/
structure state where
  mandatory : Nat
  possible : List Nat
  deriving DecidableEq, Repr

def GREEN : Nat := 0
def YELLOW : Nat := 1
def BLACK : Nat := 2

/-- The C expression `~m` on a mask, in the 32-bit frame. -/
def mask_not (m : Nat) : Nat := 2 ^ 32 - 1 - m % 2 ^ 32

/-- The C expression `-m` on a mask, in the 32-bit frame (two's complement). -/
def mask_neg (m : Nat) : Nat := (2 ^ 32 - m % 2 ^ 32) % 2 ^ 32

/-- `state_init`. -/
def state_init (cfg : Config) : state := ⟨MSKnone, List.replicate cfg.SIZE (MSKall cfg)⟩

/-- `state_relax`: every position whose possible set passes the test
`(m & -m)==m` receives the union of all possible sets. -/
def state_relax (cfg : Config) (s : state) : state :=
  let possible := (List.range cfg.SIZE).foldl (fun acc i => acc ||| s.possible.getD i 0) MSKnone
  (List.range cfg.SIZE).foldl (fun (s : state) i =>
    let m := s.possible.getD i 0
    if m &&& mask_neg m = m then { s with possible := s.possible.set i possible } else s) s

/-- The first loop of `state_update` ("update yellow").  The accumulator is
the running quotient of `colors`, the state and `yellow_ones`. -/
def update_yellow (cfg : Config) (st : state) (formula : List Nat) (colors : Nat) :
    Nat × state × Nat :=
  (List.range cfg.SIZE).foldl (fun (acc : Nat × state × Nat) i =>
    let rem := acc.1 % 3
    let quot := acc.1 / 3
    let st := acc.2.1
    if rem = YELLOW then
      let m := formula.getD i 0
      (quot, { st with possible := st.possible.set i (st.possible.getD i 0 &&& mask_not m),
                       mandatory := st.mandatory ||| m }, acc.2.2 ||| m)
    else (quot, st, acc.2.2)) (colors, st, MSKnone)

/-- The second loop of `state_update` ("update green & find impossible
ones").  The accumulator is the running quotient, a flag that is false once
`return false` has been executed, the state and `impossible`. -/
def update_green (cfg : Config) (st : state) (formula : List Nat) (colors : Nat)
    (yellow_ones : Nat) : Nat × Bool × state × Nat :=
  (List.range cfg.SIZE).foldl (fun (acc : Nat × Bool × state × Nat) i =>
    if !acc.2.1 then acc
    else
      let m := formula.getD i 0
      let rem := acc.1 % 3
      let quot := acc.1 / 3
      let st := acc.2.2.1
      let impossible := acc.2.2.2
      if rem = GREEN then
        if st.possible.getD i 0 &&& m ≠ 0 then
          (quot, true, { st with possible := st.possible.set i m,
                                 mandatory := st.mandatory ||| m },
            if cfg.NUMBLE && m = MSKequ then impossible ||| m else impossible)
        else (quot, false, st, impossible)
      else if rem = BLACK then
        (quot, true, st, if MSKnone = (yellow_ones &&& m) then impossible ||| m else impossible)
      else (quot, true, st, impossible)) (colors, true, st, MSKnone)

/-- The third loop of `state_update` ("remove impossible ones"); `impossible`
is already complemented. -/
def remove_impossible_ones (cfg : Config) (st : state) (impossible : Nat) : state :=
  (List.range cfg.SIZE).foldl (fun (st : state) i =>
    let m := st.possible.getD i 0
    if m &&& mask_neg m ≠ m then
      { st with possible := st.possible.set i (st.possible.getD i 0 &&& impossible) }
    else st) st

/-- `state_update`: the returned state is the state as the C function leaves
it, also when it returns false.  `colors` is never negative in the program. -/
def state_update (cfg : Config) (st : state) (formula : List Nat) (colors : Nat) :
    Bool × state :=
  let y := update_yellow cfg st formula colors
  let r := update_green cfg y.2.1 formula colors y.2.2
  if !r.2.1 then (false, r.2.2.1)
  else (true, remove_impossible_ones cfg r.2.2.1 (mask_not r.2.2.2))

/-- The loop `while(i && (*a++ & *b++)) --i;` of `state_compatible`; the
pointers are the remaining parts of the two arrays.  Returns the final `i`. -/
def compatible_loop : Nat → List Nat → List Nat → Nat
  | 0, _, _ => 0
  | i + 1, a, b =>
    if a.headD 0 &&& b.headD 0 ≠ 0 then compatible_loop i a.tail b.tail else i + 1

/-- `state_compatible`, the variant that is compiled (`#if 1`). -/
def state_compatible (cfg : Config) (state : state) (formula : formula) : Bool :=
  if (((state.mandatory &&& formula.used : Nat) : Int) - (state.mandatory : Int)) ≠ 0 then false
  else compatible_loop cfg.SIZE formula.mask state.possible == 0

/-- The loop of the alternative `state_compatible` kept under `#elif 1`. -/
def compatible_ref_loop (state : state) (formula : formula) : Nat → Nat → Bool
  | 0, _ => true
  | n + 1, i =>
    if MSKnone = (formula.mask.getD i 0 &&& state.possible.getD i 0) then false
    else compatible_ref_loop state formula n (i + 1)

/-- The alternative `state_compatible` kept in the source under `#elif 1`. -/
def state_compatible_ref (cfg : Config) (state : state) (formula : formula) : Bool :=
  if (state.mandatory &&& formula.used) ≠ state.mandatory then false
  else compatible_ref_loop state formula cfg.SIZE 0

/-- The loop of `state_compatible_count`, which walks the table from its last
entry to its first; the list argument is the part still to visit, last entry
first. -/
def compatible_count_loop (cfg : Config) (state : state) (threshold : Nat) :
    List formula → Nat → Nat
  | [], n => n
  | f :: rest, n =>
    if state_compatible cfg state f then
      if n + 1 > threshold then n + 1
      else compatible_count_loop cfg state threshold rest (n + 1)
    else compatible_count_loop cfg state threshold rest n

/-- `state_compatible_count` (the variant compiled, `#if 1`); `tab` holds the
`len` entries of the table. -/
def state_compatible_count (cfg : Config) (state : state) (threshold : Nat)
    (tab : List formula) : Nat :=
  compatible_count_loop cfg state threshold tab.reverse 0

/-! ## Minimax guesser -/

/-- The loop of the sequential `find_worst`; the first argument is `colors`
before `--colors`. -/
def find_worst_loop (cfg : Config) (state : state) (candidate : formula)
    (tab : List formula) (least_c : Nat) : Nat → Nat → Nat
  | 0, worst => worst
  | colors + 1, worst =>
    let state2 := (state_update cfg state candidate.mask colors).2
    let count := state_compatible_count cfg state2 least_c tab
    if count > worst then
      if count > least_c then count
      else find_worst_loop cfg state candidate tab least_c colors count
    else find_worst_loop cfg state candidate tab least_c colors worst

/-- `find_worst`, sequential (`nthreads` is 1). -/
def find_worst (cfg : Config) (state : state) (candidate : formula) (all_colors : Nat)
    (tab : List formula) (least_c : Nat) : Nat :=
  find_worst_loop cfg state candidate tab least_c all_colors 0

/-- The macro `ARRAY_REM`: the last entry is moved to `INDEX` and the length
decreases by one. -/
def ARRAY_REM {α : Type} (array : List α) (index : Nat) : List α :=
  match array.getLast? with
  | none => array
  | some x => (array.set index x).dropLast

/-- The loop `for(i=0; i<len;) if(keep(tab[i])) ++i; else ARRAY_REM(tab, i);`
used by `least_worst` and `remove_impossible`.  Every iteration increases `i`
or shortens the array, so the length bounds the iterations. -/
def prune_loop {α : Type} (keep : α → Bool) : Nat → Nat → List α → List α
  | 0, _, tab => tab
  | fuel + 1, i, tab =>
    match tab[i]? with
    | none => tab
    | some f =>
      if keep f then prune_loop keep fuel (i + 1) tab
      else prune_loop keep fuel i (ARRAY_REM tab i)

/-- The constants of the C library the program reads. -/
structure Libc where
  RAND_MAX : Nat
  INT_MAX : Nat
  deriving DecidableEq, Repr

/-- `_rnd` (XORSHIFT) on the 32-bit seed: returns the value and the new seed. -/
def _rnd (libc : Libc) (seed : Nat) : Nat × Nat :=
  let x := seed
  let x := x ^^^ ((x <<< 13) % 2 ^ 32)
  let x := x ^^^ (x >>> 17)
  let x := x ^^^ ((x <<< 5) % 2 ^ 32)
  (if libc.RAND_MAX = libc.INT_MAX then x >>> 1 else x &&& libc.RAND_MAX, x)

/-- The refresh of the sample list in `least_worst`: the samples are emptied
and every formula `j` with `j==i || rand()<=rnd_thr` is added (`rand` is not
called when `j==i`).  Returns the samples and the new seed. -/
def refresh_samples (libc : Libc) (formulae : List formula) (i : Nat) (rnd_thr : Int)
    (seed : Nat) : List formula × Nat :=
  (List.range formulae.length).foldl (fun (acc : List formula × Nat) j =>
    match formulae[j]? with
    | none => acc
    | some f =>
      if j = i then (acc.1 ++ [f], acc.2)
      else
        let r := _rnd libc acc.2
        if (r.1 : Int) ≤ rnd_thr then (acc.1 ++ [f], r.2) else (acc.1, r.2)) ([], seed)

/-- The local variables of the main loop of `least_worst`. -/
structure least_worst_vars where
  least_c : Nat
  least_f : Option formula
  samples : List formula
  seed : Nat
  deriving DecidableEq, Repr

/-- The main loop of `least_worst` over the candidates. -/
def least_worst_loop (cfg : Config) (libc : Libc) (state : state) (formulae : List formula)
    (all_colors : Nat) (rnd_thr : Int) (candidates : List formula)
    (vars : least_worst_vars) : least_worst_vars :=
  (List.range candidates.length).foldl (fun (v : least_worst_vars) i =>
    match candidates[i]? with
    | none => v
    | some candidate =>
      let v : least_worst_vars :=
        if rnd_thr ≥ 0 ∧ 0 = (i &&& 7) then
          let r := refresh_samples libc formulae i rnd_thr v.seed
          { v with samples := r.1, seed := r.2 }
        else v
      let worst := find_worst cfg state candidate all_colors v.samples v.least_c
      if worst < v.least_c then { v with least_c := worst, least_f := some candidate }
      else v) vars

/-- The write of a formula into the work buffer, `buffer[i] = mask_to_char(f->mask[i])`. -/
def write_guess (cfg : Config) (f : formula) (buffer : List Char) : List Char :=
  (List.range cfg.SIZE).foldl (fun buf i => buf.set i (mask_to_char cfg (f.mask.getD i 0))) buffer

/-- `least_worst`: returns the result, the buffer and the seed of the random
generator.  `least_f` starts as `formulae.tab[0]`, which is read before
`formulae.len` is tested: the function is modelled for a store whose table
has been allocated (every call of `play_round`, which is left at once with
fewer than two formulas); the call of `main` is `main_least_worst`. -/
def least_worst (cfg : Config) (libc : Libc) (state : state) (formulae : List formula)
    (buffer : List Char) (seed : Nat) : Bool × List Char × Nat :=
  let use_sampling_threshold : Nat := MAX_FORMULAE_EXACT * MAX_FORMULAE_EXACT
  let all_colors : Nat := (ipow 3 cfg.SIZE).toNat
  let least_c := formulae.length + 1
  let least_f := formulae[0]?
  if formulae.length = 0 then (false, buffer, seed)
  else if formulae.length = 1 then
    (true, write_guess cfg (formulae.getD 0 ⟨0, [], 0⟩) buffer, seed)
  else
    let candidates := formulae
    let samples := formulae
    let candidates :=
      if candidates.length ≥ MAX_FORMULAE_EXACT then
        let candidates :=
          prune_loop (fun f => f.used_count = cfg.SIZE) candidates.length 0 candidates
        if candidates.length ≥ MAX_FORMULAE_EXACT then
          prune_loop (fun f => (f.used &&& MSK0) = MSKnone) candidates.length 0 candidates
        else candidates
      else candidates
    let rnd_thr : Int :=
      if formulae.length * candidates.length ≥ use_sampling_threshold then
        (((use_sampling_threshold * libc.RAND_MAX : Nat) : Int).tdiv formulae.length).tdiv
          candidates.length
      else -1
    let v := least_worst_loop cfg libc state formulae all_colors rnd_thr candidates
      ⟨least_c, least_f, samples, seed⟩
    match v.least_f with
    | none => (decide (v.least_c > 0), buffer, v.seed)
    | some f => (decide (v.least_c > 0), write_guess cfg f buffer, v.seed)

/-- The call `least_worst(&state)` of `main`, on the store `findall` has left
(variants other than `NUMBLE`).  When nothing was found, `ARRAY_ADD` never
allocated the table: `formulae.tab` is `NULL`, and the read of
`formulae.tab[0]` at the head of `least_worst` ends the program with a
segmentation fault (`none`). -/
def main_least_worst (cfg : Config) (libc : Libc) (formulae : List formula)
    (buffer : List Char) (seed : Nat) : Option (Bool × List Char × Nat) :=
  if formulae.length = 0 then none
  else some (least_worst cfg libc (state_init cfg) formulae buffer seed)

/-! ## Definitions used to state the properties -/

/-- The colour that a feedback code gives to position `i`: the `i`-th base 3 digit. -/
def color_at (colors i : Nat) : Nat := (colors / 3 ^ i) % 3

/-- The possible set of position `j` after the yellow and the green loop of
`state_update`, before the impossible symbols are removed. -/
def after_green (st : state) (formula : List Nat) (colors j : Nat) : Nat :=
  if color_at colors j = GREEN then formula.getD j 0
  else if color_at colors j = YELLOW then st.possible.getD j 0 &&& mask_not (formula.getD j 0)
  else st.possible.getD j 0

/-- The number of positions `j < n` where the hidden formula `h` holds the
symbol `x` and the guess `g` is not GREEN. -/
def hidden_count (g h : List Nat) (x n : Nat) : Nat :=
  ((List.range n).filter (fun j => decide (h.getD j 0 = x ∧ g.getD j 0 ≠ h.getD j 0))).length

/-- The number of positions `j < i` where the guess `g` holds the symbol `x`
and is not GREEN. -/
def guess_count (g h : List Nat) (x i : Nat) : Nat :=
  ((List.range i).filter (fun j => decide (g.getD j 0 = x ∧ g.getD j 0 ≠ h.getD j 0))).length

/-- The colour the game gives to position `i` of the guess `g` when the hidden
formula is `h`: GREEN where both agree; otherwise YELLOW when the symbol occurs
in `h` at more non-GREEN positions than there are earlier non-GREEN positions
of `g` holding it; otherwise BLACK. -/
def score_at (cfg : Config) (g h : List Nat) (i : Nat) : Nat :=
  if g.getD i 0 = h.getD i 0 then GREEN
  else if guess_count g h (g.getD i 0) i < hidden_count g h (g.getD i 0) cfg.SIZE then YELLOW
  else BLACK

/-- The feedback code of the guess `g` against the hidden formula `h`: the
colours packed in base 3, position 0 first. -/
def score (cfg : Config) (g h : List Nat) : Nat :=
  (List.range cfg.SIZE).foldl (fun acc i => acc + score_at cfg g h i * 3 ^ i) 0

/-- The union of the symbols of a formula, as `findall` accumulates it in `used`. -/
def used_of (cfg : Config) (mask : List Nat) : Nat :=
  (List.range cfg.SIZE).foldl (fun u i => u ||| mask.getD i 0) 0

/-- The number of formulas of `tab` that are `state_compatible` with a state. -/
def compatible_total (cfg : Config) (st : state) (tab : List formula) : Nat :=
  tab.countP (state_compatible cfg st)

/-- The maximum, over the feedback codes `c < n`, of the number of formulas of
`tab` compatible with the result of `state_update` applied to a copy of the
state with the masks of `g` and `c`. -/
def worst_upto (cfg : Config) (st : state) (g : formula) (tab : List formula) (n : Nat) : Nat :=
  (List.range n).foldl
    (fun w c => max w (compatible_total cfg (state_update cfg st g.mask c).2 tab)) 0

/-- The worst-case count of the guess `g`: the maximum over all `3^SIZE`
feedback codes. -/
def worst_case_count (cfg : Config) (st : state) (g : formula) (tab : List formula) : Nat :=
  worst_upto cfg st g tab (3 ^ cfg.SIZE)

/-! ## The search as a list of solutions

The functions below enumerate, without any global state, the solutions the
grammar functions hand to their continuation, in the order of the search:
the returned `opt_rat` and the characters written into the span.  They are
proved equivalent to the functions above and are used to state and prove the
properties of the generated formulas. -/

/-- A solution of a grammar function: the returned value and the characters of its span. -/
abbrev Found : Type := opt_rat × List Char

/-- The alternatives of `Choice N`, in the order they are tried. -/
def choices (N : Int) : List Int := (List.range N.toNat).map (fun (i : Nat) => (i : Int) + 1)

/-- The `w` low-order decimal digits of `n`, most significant first. -/
def last_digits : Nat → Int → List Char
  | 0, _ => []
  | w + 1, n => last_digits w (n.tdiv 10) ++ [Char.ofNat (48 + n.tmod 10).toNat]

/-- The loop of `num` without the buffer, on a span of `w` characters: the
final `n` and the number of characters of the span left unwritten. -/
def num_scan : Nat → Int → Int × Nat
  | 0, n => (n, 0)
  | w + 1, n => if n.tdiv 10 ≠ 0 ∧ 0 < w then num_scan w (n.tdiv 10) else (n.tdiv 10, w)

/-- The buffer `b` with the characters `s` written from position `frm` on. -/
def splice (b : List Char) (frm : Nat) (s : List Char) : List Char :=
  b.take frm ++ s ++ b.drop (frm + s.length)

/-- The solutions of `number` on a span of `w` characters. -/
def gen_number (T : opt_rat) (w : Nat) : List Found :=
  if T.set then
    if T.val.q ≠ 1 ∨ T.val.p < 0 then []
    else if num_scan w T.val.p = (0, 0) then [(T, last_digits w T.val.p)] else []
  else
    let i := ipow 10 (w - 1)
    (choices (if i = 1 then 10 else 9 * i)).map (fun c =>
      let n := c + i - (if i = 1 then 2 else 1)
      (⟨true, rat_integer n⟩, last_digits w n))

/-- The solutions of `solve`, given the solutions `G` of its goal on the left span. -/
def gen_solve (G : opt_rat → List Found) (T U : opt_rat) (op : Char) (V : opt_rat) :
    List Found :=
  if op = '+' then
    if T.set then (G ⟨true, rat_sub T.val V.val⟩).map (fun rs => (T, rs.2))
    else (G { U with set := false }).map (fun rs => (⟨true, rat_add rs.1.val V.val⟩, rs.2))
  else if op = '=' ∨ op = '-' then
    if T.set then (G ⟨true, rat_add T.val V.val⟩).map (fun rs => (T, rs.2))
    else (G { U with set := false }).map (fun rs => (⟨true, rat_sub rs.1.val V.val⟩, rs.2))
  else if op = '/' then
    if V.val.p = 0 then []
    else if T.set then (G ⟨true, rat_mul T.val V.val⟩).map (fun rs => (T, rs.2))
    else (G { U with set := false }).map (fun rs => (⟨true, rat_div rs.1.val V.val⟩, rs.2))
  else if op = '*' then
    if !T.set || Int.lor T.val.p V.val.p = 0 then
      (G { U with set := false }).map (fun rs => (⟨true, rat_mul rs.1.val V.val⟩, rs.2))
    else
      if V.val.p = 0 then []
      else (G ⟨true, rat_div T.val V.val⟩).map (fun rs => (T, rs.2))
  else []

mutual
/-- The solutions of `expression` on a span of `w` characters. -/
def gen_expression (cfg : Config) : Nat → opt_rat → Nat → List Found
  | 0, _, _ => []
  | fuel + 1, T, w =>
    (choices 3).flatMap (fun c =>
      if c = 1 then gen_term cfg fuel T w
      else
        (choices ((w : Int) - 2)).flatMap (fun c' =>
          (gen_term cfg fuel { opt_rat.uninit with set := false } (w - c'.toNat - 1)).flatMap
            (fun vs =>
              (gen_solve (fun U => gen_expression cfg fuel U c'.toNat) T opt_rat.uninit
                (if c = 2 then '+' else '-') vs.1).map
                (fun rs => (rs.1, rs.2 ++ (if c = 2 then '+' else '-') :: vs.2)))))
termination_by structural fuel => fuel
/-- The solutions of `term` on a span of `w` characters. -/
def gen_term (cfg : Config) : Nat → opt_rat → Nat → List Found
  | 0, _, _ => []
  | fuel + 1, T, w =>
    (choices 3).flatMap (fun c =>
      if c = 1 then gen_factor cfg fuel T w
      else
        (choices ((w : Int) - 2)).flatMap (fun c' =>
          (gen_factor cfg fuel { opt_rat.uninit with set := false } (w - c'.toNat - 1)).flatMap
            (fun vs =>
              (gen_solve (fun U => gen_term cfg fuel U c'.toNat) T opt_rat.uninit
                (if c = 2 then '*' else '/') vs.1).map
                (fun rs => (rs.1, rs.2 ++ (if c = 2 then '*' else '/') :: vs.2)))))
termination_by structural fuel => fuel
/-- The solutions of `factor` on a span of `w` characters. -/
def gen_factor (cfg : Config) : Nat → opt_rat → Nat → List Found
  | 0, _, _ => []
  | fuel + 1, T, w =>
    (choices (1 + (if cfg.ALLOW_PARENTHESIS then 1 else 0))).flatMap (fun c =>
      if c = 1 then gen_number T w
      else if (w : Int) < 3 then []
      else (gen_expression cfg fuel T (w - 2)).map (fun rs => (rs.1, '(' :: rs.2 ++ [')'])))
termination_by structural fuel => fuel
end

/-- The solutions of the search `findall` starts: for the Mathler variants an
expression on the whole buffer, for `NUMBLE` an equation. -/
def gen_findall (cfg : Config) (num : rat) : List Found :=
  if cfg.NUMBLE then
    (choices ((cfg.SIZE : Int) - 2)).flatMap (fun c' =>
      (gen_term cfg (search_depth cfg) { opt_rat.uninit with set := false }
          (cfg.SIZE - c'.toNat - 1)).flatMap
        (fun vs =>
          (gen_solve (fun U => gen_expression cfg (search_depth cfg) U c'.toNat) ⟨true, num⟩
            opt_rat.uninit '=' vs.1).map
            (fun rs => (rs.1, rs.2 ++ '=' :: vs.2))))
  else gen_expression cfg (search_depth cfg) ⟨true, num⟩ cfg.SIZE

/-- The test `findall` makes on a complete buffer and the formula it appends. -/
def accept (cfg : Config) (s : List Char) : List formula :=
  if count_op cfg s > cfg.MAX_OP then [] else [make_formula cfg s]

/-- The positions a continuation may write are those of `W`; the others keep their content. -/
def Frame (W : Nat → Prop) (b b' : List Char) : Prop :=
  b'.length = b.length ∧ ∀ p, ¬ W p → b'[p]? = b[p]?

/-- The computation `c`, started with a buffer `b` of length `L`, writes
only positions of `W` and appends `F b` to the store. -/
def Sem (L : Nat) (W : Nat → Prop) (F : List Char → List formula) (c : Globals → Globals) :
    Prop :=
  ∀ g, g.buffer.length = L →
    Frame W g.buffer (c g).buffer ∧ (c g).formulae = g.formulae ++ F g.buffer

/-- The formulas `F` appends do not depend on the content of the positions of `W`. -/
def Insens (L : Nat) (W : Nat → Prop) (F : List Char → List formula) : Prop :=
  ∀ b b', b.length = L → Frame W b b' → F b' = F b

/-- The grammar function `X`, run on a span `[frm, upto)` inside a buffer of
length `L` with a continuation that writes only positions of `W` outside that
span, hands to the continuation exactly the solutions `G` lists, each with its
characters written in the span. -/
def Realizes (L : Nat) (X : goal) (G : opt_rat → Nat → List Found) : Prop :=
  ∀ (T : opt_rat) (frm upto : Nat) (k : opt_rat → Globals → Globals) (W : Nat → Prop)
    (Fk : opt_rat → List Char → List formula),
    frm < upto → upto ≤ L → (∀ q, W q → ¬ (frm ≤ q ∧ q < upto)) →
    (∀ r, Sem L W (Fk r) (k r)) → (∀ r, Insens L W (Fk r)) →
    Sem L (fun q => W q ∨ (frm ≤ q ∧ q < upto))
      (fun b => (G T (upto - frm)).flatMap (fun rs => Fk rs.1 (splice b frm rs.2)))
      (X T frm upto k)

/-- Every solution listed for a span of `w` characters has `w` characters. -/
def Lengths (G : opt_rat → Nat → List Found) : Prop :=
  ∀ (T : opt_rat) (w : Nat) (rs : Found), rs ∈ G T w → rs.2.length = w

/-! ## The grammar -/

/-- The three nonterminals above `number`. -/
inductive Level where
  | expression
  | term
  | factor
  deriving DecidableEq, Repr

/-- The value of a run of decimal digits. -/
def num_value (ds : List Char) : Nat := ds.foldl (fun a c => 10 * a + (c.toNat - 48)) 0

/-- Derivability of a string from the grammar, together with its exact value:
```
expression ::= term | expression + term | expression - term
term       ::= factor | term * factor | term / factor
factor     ::= number | ( expression )      -- the second only when parentheses are allowed
number     ::= a run of digits, without a leading zero unless it is one digit wide
```
The operators are left-associative, `*` and `/` bind tighter than `+` and `-`,
and a division has a value only when its divisor is not zero. -/
inductive Derives (paren : Bool) : Level → List Char → ℚ → Prop
  | number (ds : List Char) (h1 : ds ≠ []) (h2 : ∀ c, c ∈ ds → c.isDigit = true)
      (h3 : ds.length = 1 ∨ ds.head? ≠ some '0') :
      Derives paren Level.factor ds (num_value ds : ℚ)
  | paren (s : List Char) (v : ℚ) (hp : paren = true)
      (h : Derives paren Level.expression s v) :
      Derives paren Level.factor ('(' :: s ++ [')']) v
  | factor (s : List Char) (v : ℚ) (h : Derives paren Level.factor s v) :
      Derives paren Level.term s v
  | mul (s1 s2 : List Char) (v1 v2 : ℚ) (h1 : Derives paren Level.term s1 v1)
      (h2 : Derives paren Level.factor s2 v2) :
      Derives paren Level.term (s1 ++ '*' :: s2) (v1 * v2)
  | div (s1 s2 : List Char) (v1 v2 : ℚ) (h1 : Derives paren Level.term s1 v1)
      (h2 : Derives paren Level.factor s2 v2) (hz : v2 ≠ 0) :
      Derives paren Level.term (s1 ++ '/' :: s2) (v1 / v2)
  | term (s : List Char) (v : ℚ) (h : Derives paren Level.term s v) :
      Derives paren Level.expression s v
  | add (s1 s2 : List Char) (v1 v2 : ℚ) (h1 : Derives paren Level.expression s1 v1)
      (h2 : Derives paren Level.term s2 v2) :
      Derives paren Level.expression (s1 ++ '+' :: s2) (v1 + v2)
  | sub (s1 s2 : List Char) (v1 v2 : ℚ) (h1 : Derives paren Level.expression s1 v1)
      (h2 : Derives paren Level.term s2 v2) :
      Derives paren Level.expression (s1 ++ '-' :: s2) (v1 - v2)

/-- The value of `a op b` for the four operators. -/
def apply_op (op : Char) (a b : ℚ) : ℚ :=
  if op = '+' then a + b else if op = '-' then a - b else if op = '*' then a * b else a / b

/-- One of the four operator characters `findall` counts. -/
def is_op (c : Char) : Bool := c = '+' || c = '-' || c = '*' || c = '/'

/-- A glyph of the variant: a digit, an operator, a parenthesis when they are
allowed, `=` for `NUMBLE`. -/
def is_glyph (cfg : Config) (c : Char) : Bool :=
  c.isDigit || is_op c || (cfg.ALLOW_PARENTHESIS && (c = '(' || c = ')')) ||
    (cfg.NUMBLE && !cfg.ALLOW_PARENTHESIS && c = '=')

/-- A mask of one of the four operators. -/
def is_op_mask (m : Nat) : Bool := m = MSKadd || m = MSKsub || m = MSKmul || m = MSKdiv

/-! ## The search restricted to one string

`check_expression cfg fuel T s` lists the values returned by the solutions of
`expression` whose characters are exactly `s`: the search with every branch cut
as soon as it writes a character that differs from `s`. -/

/-- The solutions of `number` that write the string `s`. -/
def check_number (T : opt_rat) (s : List Char) : List opt_rat :=
  if T.set then
    if T.val.q ≠ 1 ∨ T.val.p < 0 then []
    else if num_scan s.length T.val.p = (0, 0) ∧ last_digits s.length T.val.p = s then [T]
    else []
  else
    let i := ipow 10 (s.length - 1)
    let n : Int := (num_value s : Int)
    let c := n - i + (if i = 1 then 2 else 1)
    if 1 ≤ c ∧ c ≤ (if i = 1 then 10 else 9 * i) ∧ last_digits s.length n = s then
      [⟨true, rat_integer n⟩]
    else []

/-- The solutions of `solve`, given the solutions `C` of its goal that write the left string. -/
def check_solve (C : opt_rat → List opt_rat) (T U : opt_rat) (op : Char) (V : opt_rat) :
    List opt_rat :=
  if op = '+' then
    if T.set then (C ⟨true, rat_sub T.val V.val⟩).map (fun _ => T)
    else (C { U with set := false }).map (fun r => ⟨true, rat_add r.val V.val⟩)
  else if op = '=' ∨ op = '-' then
    if T.set then (C ⟨true, rat_add T.val V.val⟩).map (fun _ => T)
    else (C { U with set := false }).map (fun r => ⟨true, rat_sub r.val V.val⟩)
  else if op = '/' then
    if V.val.p = 0 then []
    else if T.set then (C ⟨true, rat_mul T.val V.val⟩).map (fun _ => T)
    else (C { U with set := false }).map (fun r => ⟨true, rat_div r.val V.val⟩)
  else if op = '*' then
    if !T.set || Int.lor T.val.p V.val.p = 0 then
      (C { U with set := false }).map (fun r => ⟨true, rat_mul r.val V.val⟩)
    else
      if V.val.p = 0 then []
      else (C ⟨true, rat_div T.val V.val⟩).map (fun _ => T)
  else []

mutual
/-- The solutions of `expression` that write the string `s`. -/
def check_expression (cfg : Config) : Nat → opt_rat → List Char → List opt_rat
  | 0, _, _ => []
  | fuel + 1, T, s =>
    (choices 3).flatMap (fun c =>
      if c = 1 then check_term cfg fuel T s
      else
        (choices ((s.length : Int) - 2)).flatMap (fun c' =>
          if s[c'.toNat]? = some (if c = 2 then '+' else '-') then
            (check_term cfg fuel { opt_rat.uninit with set := false }
                (s.drop (c'.toNat + 1))).flatMap
              (fun V =>
                check_solve (fun U => check_expression cfg fuel U (s.take c'.toNat)) T
                  opt_rat.uninit (if c = 2 then '+' else '-') V)
          else []))
termination_by structural fuel => fuel
/-- The solutions of `term` that write the string `s`. -/
def check_term (cfg : Config) : Nat → opt_rat → List Char → List opt_rat
  | 0, _, _ => []
  | fuel + 1, T, s =>
    (choices 3).flatMap (fun c =>
      if c = 1 then check_factor cfg fuel T s
      else
        (choices ((s.length : Int) - 2)).flatMap (fun c' =>
          if s[c'.toNat]? = some (if c = 2 then '*' else '/') then
            (check_factor cfg fuel { opt_rat.uninit with set := false }
                (s.drop (c'.toNat + 1))).flatMap
              (fun V =>
                check_solve (fun U => check_term cfg fuel U (s.take c'.toNat)) T
                  opt_rat.uninit (if c = 2 then '*' else '/') V)
          else []))
termination_by structural fuel => fuel
/-- The solutions of `factor` that write the string `s`. -/
def check_factor (cfg : Config) : Nat → opt_rat → List Char → List opt_rat
  | 0, _, _ => []
  | fuel + 1, T, s =>
    (choices (1 + (if cfg.ALLOW_PARENTHESIS then 1 else 0))).flatMap (fun c =>
      if c = 1 then check_number T s
      else if (s.length : Int) < 3 then []
      else if s.head? = some '(' ∧ s.getLast? = some ')' then
        check_expression cfg fuel T (s.drop 1).dropLast
      else [])
termination_by structural fuel => fuel
end

/-- Reading a string as an expression of the grammar, divisions by zero
included: `Parses paren lvl s v z` gives the value `v` of the reading (a
quotient by zero counts for zero) and tells by `z` whether some division of the
reading has a right operand of value zero. -/
inductive Parses (paren : Bool) : Level → List Char → ℚ → Bool → Prop
  | number (ds : List Char) (h1 : ds ≠ []) (h2 : ∀ c, c ∈ ds → c.isDigit = true)
      (h3 : ds.length = 1 ∨ ds.head? ≠ some '0') :
      Parses paren Level.factor ds (num_value ds : ℚ) false
  | paren (s : List Char) (v : ℚ) (z : Bool) (hp : paren = true)
      (h : Parses paren Level.expression s v z) :
      Parses paren Level.factor ('(' :: s ++ [')']) v z
  | factor (s : List Char) (v : ℚ) (z : Bool) (h : Parses paren Level.factor s v z) :
      Parses paren Level.term s v z
  | mul (s1 s2 : List Char) (v1 v2 : ℚ) (z1 z2 : Bool)
      (h1 : Parses paren Level.term s1 v1 z1) (h2 : Parses paren Level.factor s2 v2 z2) :
      Parses paren Level.term (s1 ++ '*' :: s2) (v1 * v2) (z1 || z2)
  | div (s1 s2 : List Char) (v1 v2 : ℚ) (z1 z2 : Bool)
      (h1 : Parses paren Level.term s1 v1 z1) (h2 : Parses paren Level.factor s2 v2 z2) :
      Parses paren Level.term (s1 ++ '/' :: s2) (v1 / v2) (z1 || z2 || decide (v2 = 0))
  | term (s : List Char) (v : ℚ) (z : Bool) (h : Parses paren Level.term s v z) :
      Parses paren Level.expression s v z
  | add (s1 s2 : List Char) (v1 v2 : ℚ) (z1 z2 : Bool)
      (h1 : Parses paren Level.expression s1 v1 z1) (h2 : Parses paren Level.term s2 v2 z2) :
      Parses paren Level.expression (s1 ++ '+' :: s2) (v1 + v2) (z1 || z2)
  | sub (s1 s2 : List Char) (v1 v2 : ℚ) (z1 z2 : Bool)
      (h1 : Parses paren Level.expression s1 v1 z1) (h2 : Parses paren Level.term s2 v2 z2) :
      Parses paren Level.expression (s1 ++ '-' :: s2) (v1 - v2) (z1 || z2)

/-- A string that can be read at a level of the grammar, whatever its value. -/
def Shaped (paren : Bool) (lvl : Level) (s : List Char) : Prop :=
  ∃ (v : ℚ) (z : Bool), Parses paren lvl s v z

/-- An integer whose absolute value is an `int` value: every `int` value but
`INT_MIN`, the one that `gcd` cannot negate. -/
def abs_is_int (x : Int) : Prop := |x| < 2 ^ 31

/-- A rational with a non-zero denominator whose numerator and denominator are
at most `B` in absolute value. -/
def Within (B : Int) (r : rat) : Prop := r.q ≠ 0 ∧ |r.p| ≤ B ∧ |r.q| ≤ B

/-- A target that the search on `w` characters handles without overflow: an
unset target when `10 ^ w` is an `int` value, a set target within a bound `B`
such that `B * 10 ^ w` is. -/
def Fits (T : opt_rat) (w : Nat) : Prop :=
  (T.set = true → ∃ B : Int, Within B T.val ∧ B * 10 ^ w < 2 ^ 31) ∧
  (T.set = false → (10 : Int) ^ w < 2 ^ 31)

/-- What is proved of a solution `rs` of a grammar function called on `w`
characters with a target `T` that fits: the string is derivable at the level
of the function, with the value of the target when the target was set, and
otherwise with the value returned, which is set and within `10 ^ w`. -/
def Good (paren : Bool) (lvl : Level) (T : opt_rat) (w : Nat) (rs : Found) : Prop :=
  (T.set = true → Derives paren lvl rs.2 T.val.toRat) ∧
  (T.set = false → rs.1.set = true ∧ Within (10 ^ w) rs.1.val ∧
    Derives paren lvl rs.2 rs.1.val.toRat)

/-- The number of `(` minus the number of `)` in a string. -/
def bal : List Char → Int
  | [] => 0
  | c :: s => (if c = '(' then 1 else if c = ')' then -1 else 0) + bal s

/-! ## The feedback round -/

/-- `remove_impossible`: the formulas that are not `state_compatible` with the
state are taken out of the store with `ARRAY_REM`. -/
def remove_impossible (cfg : Config) (s : state) (formulae : List formula) : List formula :=
  prune_loop (state_compatible cfg s) formulae.length 0 formulae

/-- The loop of `play_round` that reads the feedback from the standard input,
given as the list of the characters still to come (`getchar` returns `EOF`
when it is empty): blanks are skipped, `!`, `+` and `-` are the codes GREEN,
YELLOW and BLACK packed in base 3, any other character starts the reading
again.  The result is the packed code and the input left, or `none` when
`EOF` is met and the program exits. -/
def read_colors (cfg : Config) : List Char → Nat → Nat → Nat → Option (Nat × List Char)
  | [], colors, i, _ => if i < cfg.SIZE then none else some (colors, [])
  | c :: rest, colors, i, index =>
    if i < cfg.SIZE then
      if c = ' ' ∨ c = '\r' ∨ c = '\n' then read_colors cfg rest colors i index
      else if c = '!' then read_colors cfg rest (colors + GREEN * index) (i + 1) (index * 3)
      else if c = '+' then read_colors cfg rest (colors + YELLOW * index) (i + 1) (index * 3)
      else if c = '-' then read_colors cfg rest (colors + BLACK * index) (i + 1) (index * 3)
      else read_colors cfg rest 0 0 1
    else some (colors, c :: rest)

/-- The loop `for(j=0; j<SIZE && f->mask[j]==symbs[j]; ++j);` of `play_round`:
the final `j`. -/
def match_loop (cfg : Config) (mask symbs : List Nat) : Nat → Nat → Nat
  | 0, j => j
  | fuel + 1, j =>
    if j < cfg.SIZE ∧ mask.getD j 0 = symbs.getD j 0 then match_loop cfg mask symbs fuel (j + 1)
    else j

/-- The loop of the relaxed mode of `play_round`: the first formula of the
store whose masks are those of the guess is taken out with `ARRAY_REM`. -/
def remove_guess_loop (cfg : Config) (symbs : List Nat) :
    Nat → Nat → List formula → List formula
  | 0, _, formulae => formulae
  | fuel + 1, i, formulae =>
    match formulae[i]? with
    | none => formulae
    | some f =>
      if match_loop cfg f.mask symbs cfg.SIZE 0 = cfg.SIZE then ARRAY_REM formulae i
      else remove_guess_loop cfg symbs fuel (i + 1) formulae

/-- What `play_round` works on: the state it is given, the globals `formulae`
and `buffer`, the standard input and the seed of the random generator. -/
structure World where
  state : state
  formulae : List formula
  buffer : List Char
  input : List Char
  seed : Nat
  deriving DecidableEq, Repr

/-- The ways one pass of the `while(true)` loop of `play_round` ends: the
function returns, the loop starts its next pass, or the program exits at the
end of the input. -/
inductive Step where
  | ret (b : Bool) (w : World)
  | again (w : World)
  | exit
  deriving DecidableEq, Repr

/-- The loop `symbs[i] = char_to_mask(buffer[i])` of `play_round`: the masks of the guess. -/
def guess_masks (cfg : Config) (buffer : List Char) : List Nat :=
  (List.range cfg.SIZE).map (fun i => char_to_mask cfg (buffer.getD i (Char.ofNat 0)))

/-- The loop `buffer[i] = mask_to_char(symbs[i])` of the error branch of `play_round`. -/
def restore_buffer (cfg : Config) (symbs : List Nat) (buffer : List Char) : List Char :=
  (List.range cfg.SIZE).foldl (fun buf i => buf.set i (mask_to_char cfg (symbs.getD i 0))) buffer

/-- One pass of the `while(true)` loop of `play_round` (what is printed is
left out; `DEBUG` is not defined).  The value returned by `state_update` is
not used. -/
def play_round_body (cfg : Config) (libc : Libc) (relaxed : Bool) (w : World) : Step :=
  let back := w.state
  let symbs := guess_masks cfg w.buffer
  if w.formulae.length ≤ 1 then Step.ret false w
  else
    match read_colors cfg w.input 0 0 1 with
    | none => Step.exit
    | some (colors, input) =>
      if 0 = colors then Step.ret false { w with input := input }
      else
        let st := (state_update cfg w.state symbs colors).2
        if 0 = state_compatible_count cfg st libc.INT_MAX w.formulae then
          Step.again { w with state := back, buffer := restore_buffer cfg symbs w.buffer,
                              input := input }
        else
          let st := if relaxed then state_relax cfg st else st
          let formulae :=
            if relaxed then remove_guess_loop cfg symbs w.formulae.length 0 w.formulae
            else remove_impossible cfg st w.formulae
          let r := least_worst cfg libc st formulae w.buffer w.seed
          let st := if relaxed then (state_update cfg back symbs colors).2 else st
          let w' : World := ⟨st, formulae, r.2.1, input, r.2.2⟩
          if r.1 then Step.ret (decide (colors ≠ 0)) w' else Step.again w'

/-- `play_round`: the passes of the loop, at most as many as the first
argument; `Step.again` is the result when that many passes do not end it. -/
def play_round (cfg : Config) (libc : Libc) (relaxed : Bool) : Nat → World → Step
  | 0, w => Step.again w
  | fuel + 1, w =>
    match play_round_body cfg libc relaxed w with
    | Step.again w' => play_round cfg libc relaxed fuel w'
    | r => r

/-- The world a pass of the loop ends with, when the program does not exit. -/
def Step.world : Step → Option World
  | Step.ret _ w => some w
  | Step.again w => some w
  | Step.exit => none

/-- The feedback codes `c_0, c_1, ...` packed in base 3, `c_0` first:
`c_0 + 3 * (c_1 + 3 * (...))`. -/
def pack : List Nat → Nat
  | [] => 0
  | c :: cs => c + 3 * pack cs

/-- The character that stands for a feedback code on the standard input. -/
def token_char (c : Nat) : Char := if c = GREEN then '!' else if c = YELLOW then '+' else '-'

/-- A feedback as it is typed: each token may be preceded by blanks. -/
def feedback_input (toks : List (List Char × Nat)) (rest : List Char) : List Char :=
  toks.flatMap (fun t => t.1 ++ [token_char t.2]) ++ rest


/-! ## The pieces of `least_worst` -/

/-- The candidates of `least_worst`: a copy of the pool, reduced when it holds
`MAX_FORMULAE_EXACT` formulas or more. -/
def least_worst_candidates (cfg : Config) (formulae : List formula) : List formula :=
  let candidates := formulae
  if candidates.length ≥ MAX_FORMULAE_EXACT then
    let candidates :=
      prune_loop (fun f => f.used_count = cfg.SIZE) candidates.length 0 candidates
    if candidates.length ≥ MAX_FORMULAE_EXACT then
      prune_loop (fun f => (f.used &&& MSK0) = MSKnone) candidates.length 0 candidates
    else candidates
  else candidates

/-- The variable `rnd_thr` of `least_worst`: not negative when sampling is active. -/
def least_worst_rnd_thr (libc : Libc) (formulae candidates : List formula) : Int :=
  if formulae.length * candidates.length ≥ MAX_FORMULAE_EXACT * MAX_FORMULAE_EXACT then
    ((((MAX_FORMULAE_EXACT * MAX_FORMULAE_EXACT) * libc.RAND_MAX : Nat) : Int).tdiv
      formulae.length).tdiv candidates.length
  else -1

/-- The variables of the main loop of `least_worst` when step `i` begins. -/
def vars_at (cfg : Config) (libc : Libc) (state : state) (formulae : List formula)
    (all_colors : Nat) (rnd_thr : Int) (candidates : List formula)
    (vars : least_worst_vars) (i : Nat) : least_worst_vars :=
  least_worst_loop cfg libc state formulae all_colors rnd_thr (candidates.take i) vars

/-- The sample list `find_worst` receives at step `i` of the main loop of
`least_worst`: the list rebuilt at that step when `rnd_thr>=0 && 0==(i & 7)`,
the list left by the steps before otherwise. -/
def samples_at (cfg : Config) (libc : Libc) (state : state) (formulae : List formula)
    (all_colors : Nat) (rnd_thr : Int) (candidates : List formula)
    (vars : least_worst_vars) (i : Nat) : List formula :=
  let v := vars_at cfg libc state formulae all_colors rnd_thr candidates vars i
  if rnd_thr ≥ 0 ∧ 0 = (i &&& 7) then (refresh_samples libc formulae i rnd_thr v.seed).1
  else v.samples

/-! ## Decimal digits -/

/-- The decimal representation of `n` without leading zeros, `0` for zero. -/
def decimal (n : Nat) : List Char :=
  if n = 0 then ['0'] else (Nat.digits 10 n).reverse.map (fun d => Char.ofNat (48 + d))

/-! ## Decimal input -/

/-- A finite `double`, given as the value `± m / 2 ^ s`: every finite `double`
is an integer multiple of a power of two. -/
structure double where
  neg : Bool
  m : Nat
  s : Nat
  deriving DecidableEq, Repr

/-- The value of a `double`. -/
def double.toRat (f : double) : ℚ := (if f.neg then -1 else 1) * ((f.m : ℚ) / 2 ^ f.s)

/-- The value of an expression of type `int64_t`: the mathematical value
reduced modulo `2 ^ 64` to the range from `-2 ^ 63` to `2 ^ 63 - 1`. -/
def to_int64 (x : Int) : Int := (x + 2 ^ 63) % 2 ^ 64 - 2 ^ 63

/-- The quotient `a / b` of two `int64_t`: the division instruction traps
(`SIGFPE`) on a zero divisor and on `INT64_MIN / -1`. -/
def div64 (a b : Int) : Option Int :=
  if b = 0 ∨ (a = -2 ^ 63 ∧ b = -1) then none else some (a.tdiv b)

/-- The remainder `a % b` of two `int64_t`, computed by the same instruction as
the quotient. -/
def mod64 (a b : Int) : Option Int :=
  if b = 0 ∨ (a = -2 ^ 63 ∧ b = -1) then none else some (a.tmod b)

/-- The conversion `d = f` of a non-negative integer-valued `double` to
`int64_t`.  From `2 ^ 63` on the value does not fit: the conversion is then
undefined in C, and the x86-64 instruction `cvttsd2si` yields `-2 ^ 63`. -/
def double_to_int64 (f : Nat) : Int := if f < 2 ^ 63 then (f : Int) else -2 ^ 63

/-- The loop `while (f != floor(f)) { n <<= 1; f *= 2; }` of `rat_double` on
`f = m / 2 ^ s`: `f` is an integer when `2 ^ s` divides `m`, and doubling `f`
is exact.  Returns the integer `f` and `n`; the shift of `n` is an `int64_t`
operation. -/
def scale_loop (m : Nat) : Nat → Int → Nat × Int
  | 0, n => (m, n)
  | s + 1, n =>
    if m % 2 ^ (s + 1) = 0 then (m / 2 ^ (s + 1), n)
    else scale_loop m s (to_int64 (n * 2))

/-- The local `md` of `rat_double`, the maximal denominator. -/
def md : Int := 32767

/-- The loop `for (i = 0; i < 64; i++)` of `rat_double`; the first argument is
the number of iterations left, and `h0 h1 k0 k1` are `h[0] h[1] k[0] k[1]`.
Returns `h[1]` and `k[1]`; `none` is a division that traps.  In the branch
`i = 65` the two updates are done and the loop ends. -/
def cf_loop : Nat → Nat → Int → Int → Int → Int → Int → Int → Option (Int × Int)
  | 0, _, _, _, _, h1, _, k1 => some (h1, k1)
  | fuel + 1, i, d, n, h0, h1, k0, k1 =>
    (if n ≠ 0 then div64 d n else some 0).bind (fun a =>
      if i ≠ 0 ∧ a = 0 then some (h1, k1)
      else
        (mod64 d n).bind (fun r =>
          let d := n
          let n := r
          if to_int64 (to_int64 (k1 * a) + k0) ≥ md then
            (div64 (to_int64 (md - k0)) k1).bind (fun x =>
              if to_int64 (x * 2) ≥ a ∨ k1 ≥ md then
                some (to_int64 (to_int64 (x * h1) + h0), to_int64 (to_int64 (x * k1) + k0))
              else some (h1, k1))
          else
            cf_loop fuel (i + 1) d n h1 (to_int64 (to_int64 (a * h1) + h0))
              k1 (to_int64 (to_int64 (a * k1) + k0))))

/-- `rat_double`: the sign is taken off, the value is scaled to an integer `d`
over a power of two `n`, and the continued fraction of `d / n` is cut at the
denominator `md`.  The result is `none` when a division traps. -/
def rat_double (f : double) : Option rat :=
  let neg := f.neg && decide (f.m ≠ 0)
  let r := scale_loop f.m f.s 1
  (cf_loop 64 0 (double_to_int64 r.1) r.2 0 1 1 0).map (fun hk =>
    ⟨to_integer (if neg then to_int64 (-hk.1) else hk.1), to_integer hk.2⟩)
/-! ## Auxiliary facts on lists, loops and bit sets -/

theorem getD_set_nat (l : List Nat) (i j a : Nat) :
    (l.set i a).getD j 0 = if i = j ∧ i < l.length then a else l.getD j 0 := by
  simp only [List.getD_eq_getElem?_getD, List.getElem?_set]
  by_cases h : i = j
  · subst h
    by_cases h2 : i < l.length
    · simp [h2]
    · have h3 : l[i]? = none := List.getElem?_eq_none (by omega)
      simp [h2, h3]
  · simp [h]

theorem foldl_range_ind {β : Type} (P : Nat → β → Prop) (f : β → Nat → β) (b : β) (n : Nat)
    (h0 : P 0 b) (hs : ∀ i, i < n → ∀ x, P i x → P (i + 1) (f x i)) :
    P n ((List.range n).foldl f b) := by
  induction n with
  | zero => simpa using h0
  | succ m ih =>
    rw [List.range_succ, List.foldl_append]
    simp only [List.foldl_cons, List.foldl_nil]
    exact hs m (Nat.lt_succ_self m) _ (ih (fun i hi x hx => hs i (Nat.lt_succ_of_lt hi) x hx))

theorem testBit_mask_not (m k : Nat) :
    (mask_not m).testBit k = (decide (k < 32) && !m.testBit k) := by
  unfold mask_not
  have h : m % 2 ^ 32 < 2 ^ 32 := Nat.mod_lt _ (by norm_num)
  have e : 2 ^ 32 - 1 - m % 2 ^ 32 = 2 ^ 32 - (m % 2 ^ 32 + 1) := by omega
  rw [e, Nat.testBit_two_pow_sub_succ h, Nat.testBit_mod_two_pow]
  cases decide (k < 32) <;> simp

theorem color_at_step (colors i : Nat) :
    (colors / 3 ^ i) / 3 = colors / 3 ^ (i + 1) := by
  rw [Nat.div_div_eq_div_mul, pow_succ]

theorem color_at_lt (colors i : Nat) : color_at colors i < 3 := by
  unfold color_at; omega

/-- A mask is included in another one. -/
theorem subset_iff_testBit (a b : Nat) :
    a &&& b = a ↔ ∀ k, a.testBit k = true → b.testBit k = true := by
  constructor
  · intro h k hk
    have := congrArg (fun x => x.testBit k) h
    simp only [Nat.testBit_land, hk, Bool.true_and] at this
    exact this
  · intro h
    apply Nat.eq_of_testBit_eq
    intro k
    rw [Nat.testBit_land]
    cases hk : a.testBit k
    · simp
    · simp [h k hk]

theorem land_ne_zero_iff (a b : Nat) :
    a &&& b ≠ 0 ↔ ∃ k, a.testBit k = true ∧ b.testBit k = true := by
  constructor
  · intro h
    obtain ⟨k, hk⟩ := Nat.ne_zero_implies_bit_true h
    rw [Nat.testBit_land] at hk
    simp only [Bool.and_eq_true] at hk
    exact ⟨k, hk⟩
  · rintro ⟨k, h1, h2⟩ h
    have := congrArg (fun x => x.testBit k) h
    simp [Nat.testBit_land, h1, h2] at this

/-! ## The three loops of `state_update` -/

theorem update_yellow_spec (cfg : Config) (st : state) (formula : List Nat) (colors : Nat) :
    (update_yellow cfg st formula colors).1 = colors / 3 ^ cfg.SIZE ∧
    (update_yellow cfg st formula colors).2.1.possible.length = st.possible.length ∧
    (∀ j, (update_yellow cfg st formula colors).2.1.possible.getD j 0 =
      if j < cfg.SIZE ∧ color_at colors j = YELLOW
      then st.possible.getD j 0 &&& mask_not (formula.getD j 0) else st.possible.getD j 0) ∧
    (∀ k, (update_yellow cfg st formula colors).2.1.mandatory.testBit k = true ↔
      (st.mandatory.testBit k = true ∨
        ∃ i, i < cfg.SIZE ∧ color_at colors i = YELLOW ∧ (formula.getD i 0).testBit k = true)) ∧
    (∀ k, (update_yellow cfg st formula colors).2.2.testBit k = true ↔
        ∃ i, i < cfg.SIZE ∧ color_at colors i = YELLOW ∧ (formula.getD i 0).testBit k = true) := by
  unfold update_yellow
  refine foldl_range_ind (fun n (acc : Nat × state × Nat) =>
    acc.1 = colors / 3 ^ n ∧
    acc.2.1.possible.length = st.possible.length ∧
    (∀ j, acc.2.1.possible.getD j 0 =
      if j < n ∧ color_at colors j = YELLOW
      then st.possible.getD j 0 &&& mask_not (formula.getD j 0) else st.possible.getD j 0) ∧
    (∀ k, acc.2.1.mandatory.testBit k = true ↔
      (st.mandatory.testBit k = true ∨
        ∃ i, i < n ∧ color_at colors i = YELLOW ∧ (formula.getD i 0).testBit k = true)) ∧
    (∀ k, acc.2.2.testBit k = true ↔
        ∃ i, i < n ∧ color_at colors i = YELLOW ∧ (formula.getD i 0).testBit k = true))
    _ _ _ ?_ ?_
  · simp [MSKnone]
  · rintro i hi ⟨q, s, y⟩ ⟨h1, h2, h3, h4, h5⟩
    simp only at h1 h2 h3 h4 h5
    have hc : q % 3 = color_at colors i := by rw [h1]; rfl
    have hq : q / 3 = colors / 3 ^ (i + 1) := by rw [h1, color_at_step]
    by_cases hy : color_at colors i = YELLOW
    · simp only [hc, hy, if_true]
      refine ⟨hq, by simp [h2], ?_, ?_, ?_⟩
      · intro j
        rw [getD_set_nat, h3 i, h3 j]
        by_cases hji : i = j
        · subst hji
          have : i < s.possible.length ∨ ¬ i < s.possible.length := Nat.lt_or_ge _ _ |>.imp id (by omega)
          rcases this with hl | hl
          · simp [hl, hy]
          · have h0 : st.possible[i]? = none := List.getElem?_eq_none (by omega)
            simp [hl, hy, h0]
        · have : ¬ (i = j ∧ i < s.possible.length) := fun h => hji h.1
          simp only [this, if_false]
          have e : (j < i + 1 ∧ color_at colors j = YELLOW) ↔ (j < i ∧ color_at colors j = YELLOW) := by
            constructor
            · rintro ⟨a, b⟩; exact ⟨by omega, b⟩
            · rintro ⟨a, b⟩; exact ⟨by omega, b⟩
          simp only [e]
      · intro k
        rw [Nat.testBit_lor, Bool.or_eq_true, h4 k]
        constructor
        · rintro ((h | ⟨i', hi', hc', hb⟩) | h)
          · exact Or.inl h
          · exact Or.inr ⟨i', by omega, hc', hb⟩
          · exact Or.inr ⟨i, by omega, hy, h⟩
        · rintro (h | ⟨i', hi', hc', hb⟩)
          · exact Or.inl (Or.inl h)
          · by_cases e : i' = i
            · subst e; exact Or.inr hb
            · exact Or.inl (Or.inr ⟨i', by omega, hc', hb⟩)
      · intro k
        rw [Nat.testBit_lor, Bool.or_eq_true, h5 k]
        constructor
        · rintro (⟨i', hi', hc', hb⟩ | h)
          · exact ⟨i', by omega, hc', hb⟩
          · exact ⟨i, by omega, hy, h⟩
        · rintro ⟨i', hi', hc', hb⟩
          by_cases e : i' = i
          · subst e; exact Or.inr hb
          · exact Or.inl ⟨i', by omega, hc', hb⟩
    · simp only [hc, hy, if_false]
      refine ⟨hq, h2, ?_, ?_, ?_⟩
      · intro j
        rw [h3 j]
        have e : (j < i + 1 ∧ color_at colors j = YELLOW) ↔ (j < i ∧ color_at colors j = YELLOW) := by
          constructor
          · rintro ⟨a, b⟩
            refine ⟨?_, b⟩
            rcases Nat.lt_succ_iff_lt_or_eq.mp a with h | h
            · exact h
            · subst h; exact absurd b hy
          · rintro ⟨a, b⟩; exact ⟨by omega, b⟩
        simp only [e]
      · intro k
        rw [h4 k]
        constructor
        · rintro (h | ⟨i', hi', hc', hb⟩)
          · exact Or.inl h
          · exact Or.inr ⟨i', by omega, hc', hb⟩
        · rintro (h | ⟨i', hi', hc', hb⟩)
          · exact Or.inl h
          · by_cases e : i' = i
            · subst e; exact absurd hc' hy
            · exact Or.inr ⟨i', by omega, hc', hb⟩
      · intro k
        rw [h5 k]
        constructor
        · rintro ⟨i', hi', hc', hb⟩
          exact ⟨i', by omega, hc', hb⟩
        · rintro ⟨i', hi', hc', hb⟩
          by_cases e : i' = i
          · subst e; exact absurd hc' hy
          · exact ⟨i', by omega, hc', hb⟩

theorem update_green_spec (cfg : Config) (st : state) (formula : List Nat) (colors y : Nat) :
    ((update_green cfg st formula colors y).2.1 = true ↔
      ∀ i, i < cfg.SIZE → color_at colors i = GREEN →
        st.possible.getD i 0 &&& formula.getD i 0 ≠ 0) ∧
    (update_green cfg st formula colors y).2.2.1.possible.length = st.possible.length ∧
    (∀ j, (update_green cfg st formula colors y).2.2.1.possible.getD j 0 = st.possible.getD j 0 ∨
      (j < cfg.SIZE ∧ color_at colors j = GREEN ∧
        st.possible.getD j 0 &&& formula.getD j 0 ≠ 0 ∧
        (update_green cfg st formula colors y).2.2.1.possible.getD j 0 = formula.getD j 0)) ∧
    (∀ k, st.mandatory.testBit k = true →
      (update_green cfg st formula colors y).2.2.1.mandatory.testBit k = true) ∧
    ((update_green cfg st formula colors y).2.1 = true →
      (∀ j, (update_green cfg st formula colors y).2.2.1.possible.getD j 0 =
        if j < cfg.SIZE ∧ color_at colors j = GREEN then formula.getD j 0
        else st.possible.getD j 0) ∧
      (∀ k, (update_green cfg st formula colors y).2.2.1.mandatory.testBit k = true ↔
        (st.mandatory.testBit k = true ∨
          ∃ i, i < cfg.SIZE ∧ color_at colors i = GREEN ∧ (formula.getD i 0).testBit k = true)) ∧
      (∀ k, (update_green cfg st formula colors y).2.2.2.testBit k = true ↔
        ((∃ i, i < cfg.SIZE ∧ color_at colors i = BLACK ∧ y &&& formula.getD i 0 = 0 ∧
            (formula.getD i 0).testBit k = true) ∨
         (cfg.NUMBLE = true ∧ ∃ i, i < cfg.SIZE ∧ color_at colors i = GREEN ∧
            st.possible.getD i 0 &&& formula.getD i 0 ≠ 0 ∧
            formula.getD i 0 = MSKequ ∧ (formula.getD i 0).testBit k = true)))) := by
  unfold update_green
  refine foldl_range_ind (fun n (acc : Nat × Bool × state × Nat) =>
    (acc.2.1 = true → acc.1 = colors / 3 ^ n) ∧
    (acc.2.1 = true ↔
      ∀ i, i < n → color_at colors i = GREEN →
        st.possible.getD i 0 &&& formula.getD i 0 ≠ 0) ∧
    acc.2.2.1.possible.length = st.possible.length ∧
    (∀ j, acc.2.2.1.possible.getD j 0 = st.possible.getD j 0 ∨
      (j < n ∧ color_at colors j = GREEN ∧
        st.possible.getD j 0 &&& formula.getD j 0 ≠ 0 ∧
        acc.2.2.1.possible.getD j 0 = formula.getD j 0)) ∧
    (∀ k, st.mandatory.testBit k = true → acc.2.2.1.mandatory.testBit k = true) ∧
    (acc.2.1 = true →
      (∀ j, acc.2.2.1.possible.getD j 0 =
        if j < n ∧ color_at colors j = GREEN then formula.getD j 0
        else st.possible.getD j 0) ∧
      (∀ k, acc.2.2.1.mandatory.testBit k = true ↔
        (st.mandatory.testBit k = true ∨
          ∃ i, i < n ∧ color_at colors i = GREEN ∧ (formula.getD i 0).testBit k = true)) ∧
      (∀ k, acc.2.2.2.testBit k = true ↔
        ((∃ i, i < n ∧ color_at colors i = BLACK ∧ y &&& formula.getD i 0 = 0 ∧
            (formula.getD i 0).testBit k = true) ∨
         (cfg.NUMBLE = true ∧ ∃ i, i < n ∧ color_at colors i = GREEN ∧
            st.possible.getD i 0 &&& formula.getD i 0 ≠ 0 ∧
            formula.getD i 0 = MSKequ ∧ (formula.getD i 0).testBit k = true)))))
    _ _ cfg.SIZE ?_ ?_ |>.2
  · simp [MSKnone]
  · rintro i hi ⟨q, ok, s, imp⟩ ⟨h1, h2, h3, h4, h5, h6⟩
    simp only at h1 h2 h3 h4 h5 h6
    cases ok with
    | false =>
      simp only [Bool.not_false, if_true]
      have hex : ¬ ∀ i', i' < i → color_at colors i' = GREEN →
          st.possible.getD i' 0 &&& formula.getD i' 0 ≠ 0 := fun h => by
        have := h2.mpr h; cases this
      refine ⟨(fun h => by cases h), ?_, h3, ?_, h5, (fun h => by cases h)⟩
      · constructor
        · intro h; cases h
        · intro h
          exact absurd (fun i' hi' => h i' (by omega)) hex
      · intro j
        rcases h4 j with h | ⟨a, b, c, d⟩
        · exact Or.inl h
        · exact Or.inr ⟨by omega, b, c, d⟩
    | true =>
      have h1 := h1 rfl
      obtain ⟨h6a, h6b, h6c⟩ := h6 rfl
      have h2 := h2.mp rfl
      have hc : q % 3 = color_at colors i := by rw [h1]; rfl
      have hq : q / 3 = colors / 3 ^ (i + 1) := by rw [h1, color_at_step]
      have hcur : s.possible.getD i 0 = st.possible.getD i 0 := by
        rw [h6a i]; simp
      simp only [Bool.not_true, Bool.false_eq_true, if_false, hc, hcur]
      by_cases hg : color_at colors i = GREEN
      · simp only [hg, if_true]
        by_cases hin : st.possible.getD i 0 &&& formula.getD i 0 ≠ 0
        · simp only [if_pos hin]
          have hlen : i < s.possible.length ∨ s.possible.length ≤ i := Nat.lt_or_ge _ _
          have hiL : i < s.possible.length := by
            rcases hlen with h | h
            · exact h
            · exfalso
              apply hin
              have h0 : st.possible[i]? = none := List.getElem?_eq_none (by omega)
              simp [List.getD_eq_getElem?_getD, h0]
          have hposs : ∀ j, (s.possible.set i (formula.getD i 0)).getD j 0 =
              if j < i + 1 ∧ color_at colors j = GREEN then formula.getD j 0
              else st.possible.getD j 0 := by
            intro j
            rw [getD_set_nat, h6a j]
            by_cases hji : i = j
            · subst hji; simp [hiL, hg]
            · have : ¬ (i = j ∧ i < s.possible.length) := fun h => hji h.1
              simp only [this, if_false]
              have e : (j < i + 1 ∧ color_at colors j = GREEN) ↔
                  (j < i ∧ color_at colors j = GREEN) := by
                constructor
                · rintro ⟨a, b⟩; exact ⟨by omega, b⟩
                · rintro ⟨a, b⟩; exact ⟨by omega, b⟩
              simp only [e]
          refine ⟨fun _ => hq, ?_, by simp [h3], ?_, ?_, fun _ => ⟨hposs, ?_, ?_⟩⟩
          · constructor
            · intro _ i' hi' hc'
              by_cases e : i' = i
              · subst e; exact hin
              · exact h2 i' (by omega) hc'
            · intro _; trivial
          · intro j
            rw [hposs j]
            by_cases hj : j < i + 1 ∧ color_at colors j = GREEN
            · right
              refine ⟨hj.1, hj.2, ?_, if_pos hj⟩
              by_cases e : j = i
              · subst e; exact hin
              · exact h2 j (by omega) hj.2
            · left
              exact if_neg hj
          · intro k hk
            rw [Nat.testBit_lor, Bool.or_eq_true]
            exact Or.inl (h5 k hk)
          · intro k
            rw [Nat.testBit_lor, Bool.or_eq_true, h6b k]
            constructor
            · rintro ((h | ⟨i', hi', hc', hb⟩) | h)
              · exact Or.inl h
              · exact Or.inr ⟨i', by omega, hc', hb⟩
              · exact Or.inr ⟨i, by omega, hg, h⟩
            · rintro (h | ⟨i', hi', hc', hb⟩)
              · exact Or.inl (Or.inl h)
              · by_cases e : i' = i
                · subst e; exact Or.inr hb
                · exact Or.inl (Or.inr ⟨i', by omega, hc', hb⟩)
          · intro k
            by_cases hn : (cfg.NUMBLE && decide (formula.getD i 0 = MSKequ)) = true
            · rw [if_pos hn]
              rw [Nat.testBit_lor, Bool.or_eq_true, h6c k]
              simp only [Bool.and_eq_true, decide_eq_true_eq] at hn
              constructor
              · rintro ((⟨i', hi', hc', hy', hb⟩ | ⟨hN, i', hi', hc', hp', he', hb⟩) | h)
                · exact Or.inl ⟨i', by omega, hc', hy', hb⟩
                · exact Or.inr ⟨hN, i', by omega, hc', hp', he', hb⟩
                · exact Or.inr ⟨hn.1, i, by omega, hg, hin, hn.2, h⟩
              · rintro (⟨i', hi', hc', hy', hb⟩ | ⟨hN, i', hi', hc', hp', he', hb⟩)
                · by_cases e : i' = i
                  · subst e; rw [hg] at hc'; cases hc'
                  · exact Or.inl (Or.inl ⟨i', by omega, hc', hy', hb⟩)
                · by_cases e : i' = i
                  · subst e; exact Or.inr hb
                  · exact Or.inl (Or.inr ⟨hN, i', by omega, hc', hp', he', hb⟩)
            · rw [if_neg hn, h6c k]
              simp only [Bool.and_eq_true, decide_eq_true_eq, not_and] at hn
              constructor
              · rintro (⟨i', hi', hc', hy', hb⟩ | ⟨hN, i', hi', hc', hp', he', hb⟩)
                · exact Or.inl ⟨i', by omega, hc', hy', hb⟩
                · exact Or.inr ⟨hN, i', by omega, hc', hp', he', hb⟩
              · rintro (⟨i', hi', hc', hy', hb⟩ | ⟨hN, i', hi', hc', hp', he', hb⟩)
                · by_cases e : i' = i
                  · subst e; rw [hg] at hc'; cases hc'
                  · exact Or.inl ⟨i', by omega, hc', hy', hb⟩
                · by_cases e : i' = i
                  · subst e; exact absurd he' (hn hN)
                  · exact Or.inr ⟨hN, i', by omega, hc', hp', he', hb⟩
        · simp only [hin, if_false]
          refine ⟨(fun h => by cases h), ?_, h3, ?_, h5, (fun h => by cases h)⟩
          · constructor
            · intro h; cases h
            · intro h; exact absurd (h i (by omega) hg) hin
          · intro j
            rcases h4 j with h | ⟨a, b, c, d⟩
            · exact Or.inl h
            · exact Or.inr ⟨by omega, b, c, d⟩
      · have hng : ¬ color_at colors i = GREEN := hg
        simp only [hg, if_false]
        have key : ∀ imp' : Nat,
            (∀ k, imp'.testBit k = true ↔
              ((∃ i', i' < i + 1 ∧ color_at colors i' = BLACK ∧ y &&& formula.getD i' 0 = 0 ∧
                  (formula.getD i' 0).testBit k = true) ∨
               (cfg.NUMBLE = true ∧ ∃ i', i' < i + 1 ∧ color_at colors i' = GREEN ∧
                  st.possible.getD i' 0 &&& formula.getD i' 0 ≠ 0 ∧
                  formula.getD i' 0 = MSKequ ∧ (formula.getD i' 0).testBit k = true))) →
            ((True → q / 3 = colors / 3 ^ (i + 1)) ∧
            (True ↔
              ∀ i', i' < i + 1 → color_at colors i' = GREEN →
                st.possible.getD i' 0 &&& formula.getD i' 0 ≠ 0) ∧
            s.possible.length = st.possible.length ∧
            (∀ j, s.possible.getD j 0 = st.possible.getD j 0 ∨
              (j < i + 1 ∧ color_at colors j = GREEN ∧
                st.possible.getD j 0 &&& formula.getD j 0 ≠ 0 ∧
                s.possible.getD j 0 = formula.getD j 0)) ∧
            (∀ k, st.mandatory.testBit k = true → s.mandatory.testBit k = true) ∧
            (True →
              (∀ j, s.possible.getD j 0 =
                if j < i + 1 ∧ color_at colors j = GREEN then formula.getD j 0
                else st.possible.getD j 0) ∧
              (∀ k, s.mandatory.testBit k = true ↔
                (st.mandatory.testBit k = true ∨
                  ∃ i', i' < i + 1 ∧ color_at colors i' = GREEN ∧
                    (formula.getD i' 0).testBit k = true)) ∧
              (∀ k, imp'.testBit k = true ↔
                ((∃ i', i' < i + 1 ∧ color_at colors i' = BLACK ∧ y &&& formula.getD i' 0 = 0 ∧
                    (formula.getD i' 0).testBit k = true) ∨
                 (cfg.NUMBLE = true ∧ ∃ i', i' < i + 1 ∧ color_at colors i' = GREEN ∧
                    st.possible.getD i' 0 &&& formula.getD i' 0 ≠ 0 ∧
                    formula.getD i' 0 = MSKequ ∧ (formula.getD i' 0).testBit k = true))))) := by
          intro imp' himp
          refine ⟨fun _ => hq, ?_, h3, ?_, h5, fun _ => ⟨?_, ?_, himp⟩⟩
          · constructor
            · intro _ i' hi' hc'
              by_cases e : i' = i
              · subst e; exact absurd hc' hng
              · exact h2 i' (by omega) hc'
            · intro _; trivial
          · intro j
            rcases h4 j with h | ⟨a, b, c, d⟩
            · exact Or.inl h
            · exact Or.inr ⟨by omega, b, c, d⟩
          · intro j
            rw [h6a j]
            have e : (j < i + 1 ∧ color_at colors j = GREEN) ↔
                (j < i ∧ color_at colors j = GREEN) := by
              constructor
              · rintro ⟨a, b⟩
                refine ⟨?_, b⟩
                rcases Nat.lt_succ_iff_lt_or_eq.mp a with h | h
                · exact h
                · subst h; exact absurd b hng
              · rintro ⟨a, b⟩; exact ⟨by omega, b⟩
            simp only [e]
          · intro k
            rw [h6b k]
            constructor
            · rintro (h | ⟨i', hi', hc', hb⟩)
              · exact Or.inl h
              · exact Or.inr ⟨i', by omega, hc', hb⟩
            · rintro (h | ⟨i', hi', hc', hb⟩)
              · exact Or.inl h
              · by_cases e : i' = i
                · subst e; exact absurd hc' hng
                · exact Or.inr ⟨i', by omega, hc', hb⟩
        have hgreen_part : ∀ k, (cfg.NUMBLE = true ∧ ∃ i', i' < i + 1 ∧ color_at colors i' = GREEN ∧
              st.possible.getD i' 0 &&& formula.getD i' 0 ≠ 0 ∧
              formula.getD i' 0 = MSKequ ∧ (formula.getD i' 0).testBit k = true) ↔
            (cfg.NUMBLE = true ∧ ∃ i', i' < i ∧ color_at colors i' = GREEN ∧
              st.possible.getD i' 0 &&& formula.getD i' 0 ≠ 0 ∧
              formula.getD i' 0 = MSKequ ∧ (formula.getD i' 0).testBit k = true) := by
          intro k
          constructor
          · rintro ⟨hN, i', hi', hc', r⟩
            by_cases e : i' = i
            · subst e; exact absurd hc' hng
            · exact ⟨hN, i', by omega, hc', r⟩
          · rintro ⟨hN, i', hi', hc', r⟩
            exact ⟨hN, i', by omega, hc', r⟩
        by_cases hb : color_at colors i = BLACK
        · simp only [hb, if_true]
          by_cases hy : MSKnone = y &&& formula.getD i 0
          · simp only [hy, if_true]
            apply key
            intro k
            rw [Nat.testBit_lor, Bool.or_eq_true, h6c k, hgreen_part k]
            constructor
            · rintro ((⟨i', hi', hc', hy', hb'⟩ | h) | h)
              · exact Or.inl ⟨i', by omega, hc', hy', hb'⟩
              · exact Or.inr h
              · exact Or.inl ⟨i, by omega, hb, hy.symm, h⟩
            · rintro (⟨i', hi', hc', hy', hb'⟩ | h)
              · by_cases e : i' = i
                · subst e; exact Or.inr hb'
                · exact Or.inl (Or.inl ⟨i', by omega, hc', hy', hb'⟩)
              · exact Or.inl (Or.inr h)
          · simp only [hy, if_false]
            apply key
            intro k
            rw [h6c k, hgreen_part k]
            constructor
            · rintro (⟨i', hi', hc', hy', hb'⟩ | h)
              · exact Or.inl ⟨i', by omega, hc', hy', hb'⟩
              · exact Or.inr h
            · rintro (⟨i', hi', hc', hy', hb'⟩ | h)
              · by_cases e : i' = i
                · subst e; exact absurd hy'.symm hy
                · exact Or.inl ⟨i', by omega, hc', hy', hb'⟩
              · exact Or.inr h
        · simp only [hb, if_false]
          apply key
          intro k
          rw [h6c k, hgreen_part k]
          constructor
          · rintro (⟨i', hi', hc', hy', hb'⟩ | h)
            · exact Or.inl ⟨i', by omega, hc', hy', hb'⟩
            · exact Or.inr h
          · rintro (⟨i', hi', hc', hy', hb'⟩ | h)
            · by_cases e : i' = i
              · subst e; exact absurd hc' hb
              · exact Or.inl ⟨i', by omega, hc', hy', hb'⟩
            · exact Or.inr h

theorem remove_impossible_ones_spec (cfg : Config) (st : state) (imp : Nat) :
    (remove_impossible_ones cfg st imp).mandatory = st.mandatory ∧
    (remove_impossible_ones cfg st imp).possible.length = st.possible.length ∧
    (∀ j, (remove_impossible_ones cfg st imp).possible.getD j 0 =
      if j < cfg.SIZE ∧
          st.possible.getD j 0 &&& mask_neg (st.possible.getD j 0) ≠ st.possible.getD j 0
      then st.possible.getD j 0 &&& imp else st.possible.getD j 0) := by
  unfold remove_impossible_ones
  refine foldl_range_ind (fun n (s : state) =>
    s.mandatory = st.mandatory ∧ s.possible.length = st.possible.length ∧
    (∀ j, s.possible.getD j 0 =
      if j < n ∧
          st.possible.getD j 0 &&& mask_neg (st.possible.getD j 0) ≠ st.possible.getD j 0
      then st.possible.getD j 0 &&& imp else st.possible.getD j 0)) _ _ _ ?_ ?_
  · simp
  · rintro i hi s ⟨h1, h2, h3⟩
    have hcur : s.possible.getD i 0 = st.possible.getD i 0 := by rw [h3 i]; simp
    rw [hcur]
    by_cases hs : st.possible.getD i 0 &&& mask_neg (st.possible.getD i 0) ≠ st.possible.getD i 0
    · rw [if_pos hs]
      refine ⟨h1, by simp [h2], ?_⟩
      intro j
      rw [getD_set_nat, h3 j]
      by_cases hji : i = j
      · subst hji
        by_cases hl : i < s.possible.length
        · rw [if_pos ⟨rfl, hl⟩, if_pos ⟨Nat.lt_succ_self i, hs⟩]
        · have h0 : st.possible.getD i 0 = 0 := by
            have h0' : st.possible[i]? = none := List.getElem?_eq_none (by omega)
            simp [List.getD_eq_getElem?_getD, h0']
          rw [if_neg (fun h => hl h.2), h0]
          simp
      · rw [if_neg (fun h => hji h.1)]
        have e : (j < i + 1 ∧
            st.possible.getD j 0 &&& mask_neg (st.possible.getD j 0) ≠ st.possible.getD j 0) ↔
            (j < i ∧
            st.possible.getD j 0 &&& mask_neg (st.possible.getD j 0) ≠ st.possible.getD j 0) := by
          constructor
          · rintro ⟨a, b⟩; exact ⟨by omega, b⟩
          · rintro ⟨a, b⟩; exact ⟨by omega, b⟩
        simp only [e]
    · rw [if_neg hs]
      refine ⟨h1, h2, ?_⟩
      intro j
      rw [h3 j]
      have e : (j < i + 1 ∧
          st.possible.getD j 0 &&& mask_neg (st.possible.getD j 0) ≠ st.possible.getD j 0) ↔
          (j < i ∧
          st.possible.getD j 0 &&& mask_neg (st.possible.getD j 0) ≠ st.possible.getD j 0) := by
        constructor
        · rintro ⟨a, b⟩
          refine ⟨?_, b⟩
          rcases Nat.lt_succ_iff_lt_or_eq.mp a with h | h
          · exact h
          · subst h; exact absurd b hs
        · rintro ⟨a, b⟩; exact ⟨by omega, b⟩
      simp only [e]

/-- The possible set of position `j` after the yellow and the green loop of a
successful `state_update`. -/
theorem state_update_fst (cfg : Config) (st : state) (formula : List Nat) (colors : Nat) :
    (state_update cfg st formula colors).1 =
      (update_green cfg (update_yellow cfg st formula colors).2.1 formula colors
        (update_yellow cfg st formula colors).2.2).2.1 := by
  unfold state_update
  simp only []
  cases (update_green cfg (update_yellow cfg st formula colors).2.1 formula colors
        (update_yellow cfg st formula colors).2.2).2.1 <;> simp

theorem state_update_snd (cfg : Config) (st : state) (formula : List Nat) (colors : Nat) :
    (state_update cfg st formula colors).2 =
      if (update_green cfg (update_yellow cfg st formula colors).2.1 formula colors
        (update_yellow cfg st formula colors).2.2).2.1 = true
      then remove_impossible_ones cfg
        (update_green cfg (update_yellow cfg st formula colors).2.1 formula colors
          (update_yellow cfg st formula colors).2.2).2.2.1
        (mask_not (update_green cfg (update_yellow cfg st formula colors).2.1 formula colors
          (update_yellow cfg st formula colors).2.2).2.2.2)
      else (update_green cfg (update_yellow cfg st formula colors).2.1 formula colors
        (update_yellow cfg st formula colors).2.2).2.2.1 := by
  unfold state_update
  simp only []
  cases (update_green cfg (update_yellow cfg st formula colors).2.1 formula colors
        (update_yellow cfg st formula colors).2.2).2.1 <;> simp

theorem green_ne_yellow : GREEN ≠ YELLOW := by decide
theorem black_ne_yellow : BLACK ≠ YELLOW := by decide
theorem black_ne_green : BLACK ≠ GREEN := by decide

theorem state_update_true_iff (cfg : Config) (st : state) (formula : List Nat) (colors : Nat) :
    (state_update cfg st formula colors).1 = true ↔
      ∀ i, i < cfg.SIZE → color_at colors i = GREEN →
        st.possible.getD i 0 &&& formula.getD i 0 ≠ 0 := by
  rw [state_update_fst]
  obtain ⟨_, _, hy, _, _⟩ := update_yellow_spec cfg st formula colors
  rw [(update_green_spec cfg _ formula colors _).1]
  constructor
  · intro h i hi hc
    have := h i hi hc
    rw [hy i, if_neg (fun hh => green_ne_yellow (hc ▸ hh.2))] at this
    exact this
  · intro h i hi hc
    rw [hy i, if_neg (fun hh => green_ne_yellow (hc ▸ hh.2))]
    exact h i hi hc

theorem two_pow_subset_of_land_ne_zero (x e : Nat) (h : x &&& 2 ^ e ≠ 0) :
    2 ^ e &&& x = 2 ^ e := by
  rw [subset_iff_testBit]
  intro k hk
  obtain ⟨k', h1, h2⟩ := (land_ne_zero_iff _ _).mp h
  rw [Nat.testBit_two_pow] at hk h2
  simp only [decide_eq_true_eq] at hk h2
  subst hk; subst h2; exact h1

theorem land_subset_left (x y : Nat) : (x &&& y) &&& x = x &&& y := by
  rw [subset_iff_testBit]
  intro k hk
  rw [Nat.testBit_land] at hk
  simp only [Bool.and_eq_true] at hk
  exact hk.1

theorem subset_trans {a b c : Nat} (h1 : a &&& b = a) (h2 : b &&& c = b) : a &&& c = a := by
  rw [subset_iff_testBit] at *
  intro k hk
  exact h2 k (h1 k hk)

theorem subset_refl (a : Nat) : a &&& a = a := by
  rw [subset_iff_testBit]; intro k hk; exact hk

/-- Monotonicity of the three loops, position by position. -/
theorem state_update_possible_subset (cfg : Config) (st : state) (formula : List Nat)
    (colors : Nat) (hsym : ∀ i, i < cfg.SIZE → ∃ e, formula.getD i 0 = 2 ^ e) (j : Nat) :
    (state_update cfg st formula colors).2.possible.getD j 0 &&& st.possible.getD j 0 =
      (state_update cfg st formula colors).2.possible.getD j 0 := by
  obtain ⟨_, _, hy, _, _⟩ := update_yellow_spec cfg st formula colors
  obtain ⟨_, _, hg, _, _⟩ := update_green_spec cfg (update_yellow cfg st formula colors).2.1
    formula colors (update_yellow cfg st formula colors).2.2
  have hY : (update_yellow cfg st formula colors).2.1.possible.getD j 0 &&& st.possible.getD j 0 =
      (update_yellow cfg st formula colors).2.1.possible.getD j 0 := by
    rw [hy j]
    split
    · exact land_subset_left _ _
    · exact subset_refl _
  have hG : (update_green cfg (update_yellow cfg st formula colors).2.1 formula colors
        (update_yellow cfg st formula colors).2.2).2.2.1.possible.getD j 0 &&&
      (update_yellow cfg st formula colors).2.1.possible.getD j 0 =
      (update_green cfg (update_yellow cfg st formula colors).2.1 formula colors
        (update_yellow cfg st formula colors).2.2).2.2.1.possible.getD j 0 := by
    rcases hg j with h | ⟨hj, _, hne, h⟩
    · rw [h]; exact subset_refl _
    · rw [h]
      obtain ⟨e, he⟩ := hsym j hj
      rw [he] at hne ⊢
      exact two_pow_subset_of_land_ne_zero _ _ hne
  rw [state_update_snd]
  split
  · obtain ⟨_, _, hr⟩ := remove_impossible_ones_spec cfg
      (update_green cfg (update_yellow cfg st formula colors).2.1 formula colors
          (update_yellow cfg st formula colors).2.2).2.2.1
      (mask_not (update_green cfg (update_yellow cfg st formula colors).2.1 formula colors
          (update_yellow cfg st formula colors).2.2).2.2.2)
    rw [hr j]
    split
    · exact subset_trans (land_subset_left _ _) (subset_trans hG hY)
    · exact subset_trans hG hY
  · exact subset_trans hG hY

theorem state_update_mandatory_superset (cfg : Config) (st : state) (formula : List Nat)
    (colors : Nat) :
    st.mandatory &&& (state_update cfg st formula colors).2.mandatory = st.mandatory := by
  obtain ⟨_, _, _, hy, _⟩ := update_yellow_spec cfg st formula colors
  obtain ⟨_, _, _, hg, _⟩ := update_green_spec cfg (update_yellow cfg st formula colors).2.1
    formula colors (update_yellow cfg st formula colors).2.2
  rw [subset_iff_testBit]
  intro k hk
  have h1 := hg k ((hy k).mpr (Or.inl hk))
  rw [state_update_snd]
  split
  · rw [(remove_impossible_ones_spec cfg _ _).1]; exact h1
  · exact h1

theorem state_update_length (cfg : Config) (st : state) (formula : List Nat) (colors : Nat) :
    (state_update cfg st formula colors).2.possible.length = st.possible.length := by
  obtain ⟨_, hy, _⟩ := update_yellow_spec cfg st formula colors
  obtain ⟨_, hg, _⟩ := update_green_spec cfg (update_yellow cfg st formula colors).2.1
    formula colors (update_yellow cfg st formula colors).2.2
  rw [state_update_snd]
  split
  · rw [(remove_impossible_ones_spec cfg _ _).2.1, hg, hy]
  · rw [hg, hy]

/-! ## `state_compatible` -/

theorem compatible_loop_eq_zero_iff (n : Nat) (a b : List Nat) :
    compatible_loop n a b = 0 ↔ ∀ i, i < n → a.getD i 0 &&& b.getD i 0 ≠ 0 := by
  induction n generalizing a b with
  | zero => simp [compatible_loop]
  | succ n ih =>
    have ha : ∀ i, a.tail.getD i 0 = a.getD (i + 1) 0 := by
      intro i; cases a <;> simp
    have hb : ∀ i, b.tail.getD i 0 = b.getD (i + 1) 0 := by
      intro i; cases b <;> simp
    have ha0 : a.headD 0 = a.getD 0 0 := by cases a <;> simp
    have hb0 : b.headD 0 = b.getD 0 0 := by cases b <;> simp
    unfold compatible_loop
    by_cases h : a.headD 0 &&& b.headD 0 ≠ 0
    · rw [if_pos h, ih]
      constructor
      · intro hh i hi
        cases i with
        | zero => rw [← ha0, ← hb0]; exact h
        | succ i => rw [← ha, ← hb]; exact hh i (by omega)
      · intro hh i hi
        rw [ha, hb]; exact hh (i + 1) (by omega)
    · rw [if_neg h]
      constructor
      · intro hh; omega
      · intro hh
        exact absurd (by rw [ha0, hb0]; exact hh 0 (by omega)) h

theorem compatible_ref_loop_iff (st : state) (f : formula) (n i : Nat) :
    compatible_ref_loop st f n i = true ↔
      ∀ j, i ≤ j → j < i + n → f.mask.getD j 0 &&& st.possible.getD j 0 ≠ 0 := by
  induction n generalizing i with
  | zero =>
    simp only [compatible_ref_loop, true_iff]
    intro j h1 h2; omega
  | succ n ih =>
    unfold compatible_ref_loop
    by_cases h : MSKnone = f.mask.getD i 0 &&& st.possible.getD i 0
    · rw [if_pos h]
      constructor
      · intro hh; cases hh
      · intro hh
        exact absurd h.symm (hh i (le_refl i) (by omega))
    · rw [if_neg h, ih]
      constructor
      · intro hh j h1 h2
        by_cases e : j = i
        · subst e; exact fun h' => h h'.symm
        · exact hh j (by omega) (by omega)
      · intro hh j h1 h2
        exact hh j (by omega) (by omega)

theorem mandatory_test_iff (m u : Nat) :
    (((m &&& u : Nat) : Int) - (m : Int) ≠ 0) ↔ m &&& u ≠ m := by
  constructor
  · intro h e
    apply h
    rw [e]; simp
  · intro h e
    apply h
    have : ((m &&& u : Nat) : Int) = (m : Int) := by linarith
    exact_mod_cast this

/-- `state_compatible` in terms of intersections. -/
theorem state_compatible_iff_inter (cfg : Config) (st : state) (f : formula) :
    state_compatible cfg st f = true ↔
      st.mandatory &&& f.used = st.mandatory ∧
      ∀ i, i < cfg.SIZE → f.mask.getD i 0 &&& st.possible.getD i 0 ≠ 0 := by
  unfold state_compatible
  by_cases h : st.mandatory &&& f.used = st.mandatory
  · have h' : ¬ (((st.mandatory &&& f.used : Nat) : Int) - (st.mandatory : Int) ≠ 0) := by
      rw [mandatory_test_iff]; exact fun hh => hh h
    rw [if_neg h']
    simp only [beq_iff_eq, compatible_loop_eq_zero_iff, h, true_and]
  · have h' : (((st.mandatory &&& f.used : Nat) : Int) - (st.mandatory : Int) ≠ 0) := by
      rw [mandatory_test_iff]; exact h
    rw [if_pos h']
    simp [h]

theorem state_compatible_ref_iff_inter (cfg : Config) (st : state) (f : formula) :
    state_compatible_ref cfg st f = true ↔
      st.mandatory &&& f.used = st.mandatory ∧
      ∀ i, i < cfg.SIZE → f.mask.getD i 0 &&& st.possible.getD i 0 ≠ 0 := by
  unfold state_compatible_ref
  by_cases h : st.mandatory &&& f.used = st.mandatory
  · rw [if_neg (fun hh => hh h), compatible_ref_loop_iff]
    simp only [h, true_and]
    constructor
    · intro hh i hi; exact hh i (Nat.zero_le i) (by omega)
    · intro hh j _ hj; exact hh j (by omega)
  · rw [if_pos h]
    simp [h]

theorem two_pow_land_ne_zero_iff (e x : Nat) : 2 ^ e &&& x ≠ 0 ↔ x.testBit e = true := by
  rw [land_ne_zero_iff]
  constructor
  · rintro ⟨k, h1, h2⟩
    rw [Nat.testBit_two_pow] at h1
    simp only [decide_eq_true_eq] at h1
    subst h1; exact h2
  · intro h
    exact ⟨e, Nat.testBit_two_pow_self, h⟩

/-! ## The result of a successful `state_update` -/

theorem state_update_ok_bits (cfg : Config) (st : state) (formula : List Nat) (colors : Nat)
    (hok : (state_update cfg st formula colors).1 = true) (j k : Nat) (hj : j < cfg.SIZE) :
    ((state_update cfg st formula colors).2.possible.getD j 0).testBit k = true ↔
      (after_green st formula colors j).testBit k = true ∧
      (after_green st formula colors j &&& mask_neg (after_green st formula colors j) =
          after_green st formula colors j ∨
        (k < 32 ∧
          ¬ ((∃ i, i < cfg.SIZE ∧ color_at colors i = BLACK ∧
                (formula.getD i 0).testBit k = true ∧
                ∀ i', i' < cfg.SIZE → color_at colors i' = YELLOW →
                  formula.getD i' 0 &&& formula.getD i 0 = 0) ∨
             (cfg.NUMBLE = true ∧ ∃ i, i < cfg.SIZE ∧ color_at colors i = GREEN ∧
                formula.getD i 0 = MSKequ ∧ (formula.getD i 0).testBit k = true)))) := by
  have hok' := hok
  rw [state_update_fst] at hok'
  have hall := (state_update_true_iff cfg st formula colors).mp hok
  obtain ⟨_, _, hy, _, hyo⟩ := update_yellow_spec cfg st formula colors
  obtain ⟨_, _, _, _, hg⟩ := update_green_spec cfg (update_yellow cfg st formula colors).2.1
    formula colors (update_yellow cfg st formula colors).2.2
  obtain ⟨hga, _, hgi⟩ := hg hok'
  have hG : (update_green cfg (update_yellow cfg st formula colors).2.1 formula colors
      (update_yellow cfg st formula colors).2.2).2.2.1.possible.getD j 0 =
      after_green st formula colors j := by
    rw [hga j, hy j]
    unfold after_green
    by_cases h1 : color_at colors j = GREEN
    · rw [if_pos ⟨hj, h1⟩, if_pos h1]
    · rw [if_neg (fun h => h1 h.2), if_neg h1]
      by_cases h2 : color_at colors j = YELLOW
      · rw [if_pos ⟨hj, h2⟩, if_pos h2]
      · rw [if_neg (fun h => h2 h.2), if_neg h2]
  have hyz : ∀ i, (update_yellow cfg st formula colors).2.2 &&& formula.getD i 0 = 0 ↔
      ∀ i', i' < cfg.SIZE → color_at colors i' = YELLOW →
        formula.getD i' 0 &&& formula.getD i 0 = 0 := by
    intro i
    constructor
    · intro h i' hi' hc'
      by_contra hne
      obtain ⟨k', h1, h2⟩ := (land_ne_zero_iff _ _).mp hne
      have : (update_yellow cfg st formula colors).2.2 &&& formula.getD i 0 ≠ 0 :=
        (land_ne_zero_iff _ _).mpr ⟨k', (hyo k').mpr ⟨i', hi', hc', h1⟩, h2⟩
      exact this h
    · intro h
      by_contra hne
      obtain ⟨k', h1, h2⟩ := (land_ne_zero_iff _ _).mp hne
      obtain ⟨i', hi', hc', hb⟩ := (hyo k').mp h1
      exact (land_ne_zero_iff _ _).mpr ⟨k', hb, h2⟩ (h i' hi' hc')
  rw [state_update_snd, if_pos hok', (remove_impossible_ones_spec cfg _ _).2.2 j, hG]
  by_cases hs : after_green st formula colors j &&& mask_neg (after_green st formula colors j) =
      after_green st formula colors j
  · rw [if_neg (fun h => h.2 hs)]
    simp [hs]
  · rw [if_pos ⟨hj, hs⟩, Nat.testBit_land, Bool.and_eq_true, testBit_mask_not]
    simp only [hs, false_or, Bool.and_eq_true, decide_eq_true_eq, Bool.not_eq_true',
      ← Bool.not_eq_true, hgi k]
    constructor
    · rintro ⟨h1, h2, h3⟩
      refine ⟨h1, h2, ?_⟩
      rintro (⟨i, hi, hc, hb, hz⟩ | ⟨hN, i, hi, hc, he, hb⟩)
      · exact h3 (Or.inl ⟨i, hi, hc, (hyz i).mpr hz, hb⟩)
      · refine h3 (Or.inr ⟨hN, i, hi, hc, ?_, he, hb⟩)
        have := hall i hi hc
        rw [hy i, if_neg (fun hh => green_ne_yellow (hc ▸ hh.2))]
        exact this
    · rintro ⟨h1, h2, h3⟩
      refine ⟨h1, h2, ?_⟩
      rintro (⟨i, hi, hc, hz, hb⟩ | ⟨hN, i, hi, hc, _, he, hb⟩)
      · exact h3 (Or.inl ⟨i, hi, hc, hb, (hyz i).mp hz⟩)
      · exact h3 (Or.inr ⟨hN, i, hi, hc, he, hb⟩)

theorem state_update_ok_mandatory (cfg : Config) (st : state) (formula : List Nat)
    (colors : Nat) (hok : (state_update cfg st formula colors).1 = true) (k : Nat) :
    (state_update cfg st formula colors).2.mandatory.testBit k = true ↔
      (st.mandatory.testBit k = true ∨
        ∃ i, i < cfg.SIZE ∧ (color_at colors i = YELLOW ∨ color_at colors i = GREEN) ∧
          (formula.getD i 0).testBit k = true) := by
  have hok' := hok
  rw [state_update_fst] at hok'
  obtain ⟨_, _, _, hym, _⟩ := update_yellow_spec cfg st formula colors
  obtain ⟨_, _, _, _, hg⟩ := update_green_spec cfg (update_yellow cfg st formula colors).2.1
    formula colors (update_yellow cfg st formula colors).2.2
  obtain ⟨_, hgm, _⟩ := hg hok'
  rw [state_update_snd, if_pos hok', (remove_impossible_ones_spec cfg _ _).1, hgm k, hym k]
  constructor
  · rintro ((h | ⟨i, hi, hc, hb⟩) | ⟨i, hi, hc, hb⟩)
    · exact Or.inl h
    · exact Or.inr ⟨i, hi, Or.inl hc, hb⟩
    · exact Or.inr ⟨i, hi, Or.inr hc, hb⟩
  · rintro (h | ⟨i, hi, hc | hc, hb⟩)
    · exact Or.inl (Or.inl h)
    · exact Or.inl (Or.inr ⟨i, hi, hc, hb⟩)
    · exact Or.inr ⟨i, hi, hc, hb⟩

/-! ## The feedback code of a guess against a hidden formula -/

theorem score_at_lt (cfg : Config) (g h : List Nat) (i : Nat) : score_at cfg g h i < 3 := by
  unfold score_at GREEN YELLOW BLACK
  split
  · omega
  · split <;> omega

theorem color_at_add_high (acc d n i : Nat) (hi : i < n) :
    color_at (acc + d * 3 ^ n) i = color_at acc i := by
  unfold color_at
  have e : d * 3 ^ n = 3 ^ i * (3 * (d * 3 ^ (n - i - 1))) := by
    have : n = i + (1 + (n - i - 1)) := by omega
    conv_lhs => rw [this, pow_add, pow_add]
    ring
  rw [e, Nat.add_mul_div_left _ _ (by positivity), Nat.add_mul_mod_self_left]

theorem color_at_add_top (acc d n : Nat) (hacc : acc < 3 ^ n) (hd : d < 3) :
    color_at (acc + d * 3 ^ n) n = d := by
  unfold color_at
  rw [Nat.add_mul_div_right _ _ (by positivity), Nat.div_eq_of_lt hacc, Nat.zero_add,
    Nat.mod_eq_of_lt hd]

theorem score_spec (cfg : Config) (g h : List Nat) :
    score cfg g h < 3 ^ cfg.SIZE ∧
    ∀ i, i < cfg.SIZE → color_at (score cfg g h) i = score_at cfg g h i := by
  unfold score
  refine foldl_range_ind (fun n acc => acc < 3 ^ n ∧
    ∀ i, i < n → color_at acc i = score_at cfg g h i) _ _ _ ?_ ?_
  · simp
  · rintro n hn acc ⟨h1, h2⟩
    have hd := score_at_lt cfg g h n
    refine ⟨?_, ?_⟩
    · have : score_at cfg g h n * 3 ^ n ≤ 2 * 3 ^ n := Nat.mul_le_mul_right _ (by omega)
      rw [pow_succ]; omega
    · intro i hi
      by_cases e : i = n
      · subst e; exact color_at_add_top _ _ _ h1 hd
      · rw [color_at_add_high _ _ _ _ (by omega)]; exact h2 i (by omega)

theorem score_at_green_iff (cfg : Config) (g h : List Nat) (i : Nat) :
    score_at cfg g h i = GREEN ↔ g.getD i 0 = h.getD i 0 := by
  unfold score_at
  constructor
  · intro hh
    by_contra hne
    rw [if_neg hne] at hh
    split at hh
    · exact green_ne_yellow hh.symm
    · exact black_ne_green hh
  · intro hh; rw [if_pos hh]

theorem score_at_yellow (cfg : Config) (g h : List Nat) (i : Nat)
    (hy : score_at cfg g h i = YELLOW) :
    g.getD i 0 ≠ h.getD i 0 ∧
      guess_count g h (g.getD i 0) i < hidden_count g h (g.getD i 0) cfg.SIZE := by
  unfold score_at at hy
  by_cases h1 : g.getD i 0 = h.getD i 0
  · rw [if_pos h1] at hy; exact absurd hy green_ne_yellow
  · rw [if_neg h1] at hy
    refine ⟨h1, ?_⟩
    by_contra h2
    rw [if_neg h2] at hy
    exact black_ne_yellow hy

theorem score_at_black (cfg : Config) (g h : List Nat) (i : Nat)
    (hb : score_at cfg g h i = BLACK) :
    g.getD i 0 ≠ h.getD i 0 ∧
      ¬ guess_count g h (g.getD i 0) i < hidden_count g h (g.getD i 0) cfg.SIZE := by
  unfold score_at at hb
  by_cases h1 : g.getD i 0 = h.getD i 0
  · rw [if_pos h1] at hb; exact absurd hb.symm black_ne_green
  · rw [if_neg h1] at hb
    refine ⟨h1, ?_⟩
    intro h2
    rw [if_pos h2] at hb
    exact black_ne_yellow hb.symm

theorem length_filter_pos_iff {α : Type} (l : List α) (p : α → Bool) :
    0 < (l.filter p).length ↔ ∃ a, a ∈ l ∧ p a = true := by
  rw [List.length_pos]
  constructor
  · intro h
    obtain ⟨a, ha⟩ := List.exists_mem_of_ne_nil _ h
    rw [List.mem_filter] at ha
    exact ⟨a, ha⟩
  · rintro ⟨a, ha, hp⟩ h
    have : a ∈ l.filter p := List.mem_filter.mpr ⟨ha, hp⟩
    rw [h] at this
    cases this

theorem hidden_count_pos_iff (g h : List Nat) (x n : Nat) :
    0 < hidden_count g h x n ↔ ∃ j, j < n ∧ h.getD j 0 = x ∧ g.getD j 0 ≠ h.getD j 0 := by
  unfold hidden_count
  rw [length_filter_pos_iff]
  simp only [List.mem_range, decide_eq_true_eq]

theorem guess_count_pos_iff (g h : List Nat) (x n : Nat) :
    0 < guess_count g h x n ↔ ∃ j, j < n ∧ g.getD j 0 = x ∧ g.getD j 0 ≠ h.getD j 0 := by
  unfold guess_count
  rw [length_filter_pos_iff]
  simp only [List.mem_range, decide_eq_true_eq]

/-- When the hidden formula holds `x` at a position that is not GREEN, the
first non-GREEN position of the guess holding `x` is YELLOW. -/
theorem first_occurrence_yellow (cfg : Config) (g h : List Nat) (x i : Nat)
    (hi : i < cfg.SIZE) (hx : g.getD i 0 = x) (hne : g.getD i 0 ≠ h.getD i 0)
    (hh : 0 < hidden_count g h x cfg.SIZE) :
    ∃ i0, i0 < cfg.SIZE ∧ g.getD i0 0 = x ∧ score_at cfg g h i0 = YELLOW := by
  classical
  have hex : ∃ m, g.getD m 0 = x ∧ g.getD m 0 ≠ h.getD m 0 := ⟨i, hx, hne⟩
  have hspec := Nat.find_spec hex
  have hle : Nat.find hex ≤ i := Nat.find_min' hex ⟨hx, hne⟩
  refine ⟨Nat.find hex, by omega, hspec.1, ?_⟩
  have hz : guess_count g h x (Nat.find hex) = 0 := by
    by_contra hnz
    obtain ⟨j, hj, hq⟩ := (guess_count_pos_iff g h x _).mp (Nat.pos_of_ne_zero hnz)
    exact Nat.find_min hex hj hq
  unfold score_at
  rw [if_neg hspec.2, hspec.1, hz, if_pos hh]

theorem used_of_testBit (cfg : Config) (mask : List Nat) (k : Nat) :
    (used_of cfg mask).testBit k = true ↔
      ∃ i, i < cfg.SIZE ∧ (mask.getD i 0).testBit k = true := by
  unfold used_of
  refine foldl_range_ind (fun n (u : Nat) => u.testBit k = true ↔
    ∃ i, i < n ∧ (mask.getD i 0).testBit k = true) _ _ _ ?_ ?_
  · simp
  · intro n _ u hu
    rw [Nat.testBit_lor, Bool.or_eq_true, hu]
    constructor
    · rintro (⟨i, hi, hb⟩ | hb)
      · exact ⟨i, by omega, hb⟩
      · exact ⟨n, by omega, hb⟩
    · rintro ⟨i, hi, hb⟩
      by_cases e : i = n
      · subst e; exact Or.inr hb
      · exact Or.inl ⟨i, by omega, hb⟩

theorem two_pow_singleton (e : Nat) (he : e < 32) : 2 ^ e &&& mask_neg (2 ^ e) = 2 ^ e := by
  interval_cases e <;> decide

theorem two_pow_inj_of_testBit (a b : Nat) (h : (2 ^ a).testBit b = true) : a = b := by
  rw [Nat.testBit_two_pow] at h
  simpa using h

/-- Soundness of narrowing, shared by the statements below: after the update
with the feedback the hidden formula really gives, the hidden formula is still
compatible. -/
theorem narrowing_sound_aux (cfg : Config) (hN : cfg.NUMBLE = false) (st : state)
    (g h : formula) (eg eh : Nat → Nat)
    (hg : ∀ i, i < cfg.SIZE → g.mask.getD i 0 = 2 ^ eg i)
    (hh : ∀ i, i < cfg.SIZE → h.mask.getD i 0 = 2 ^ eh i ∧ eh i < 32)
    (hused : h.used = used_of cfg h.mask)
    (hc : state_compatible cfg st h = true) :
    (state_update cfg st g.mask (score cfg g.mask h.mask)).1 = true ∧
    state_compatible cfg (state_update cfg st g.mask (score cfg g.mask h.mask)).2 h = true := by
  obtain ⟨hcm, hcp⟩ := (state_compatible_iff_inter cfg st h).mp hc
  have hcol := (score_spec cfg g.mask h.mask).2
  have hok : (state_update cfg st g.mask (score cfg g.mask h.mask)).1 = true := by
    rw [state_update_true_iff]
    intro i hi hgr
    rw [hcol i hi, score_at_green_iff] at hgr
    rw [hgr, Nat.land_comm]
    exact hcp i hi
  refine ⟨hok, ?_⟩
  rw [state_compatible_iff_inter]
  constructor
  · rw [subset_iff_testBit]
    intro k hk
    rw [state_update_ok_mandatory cfg st g.mask _ hok] at hk
    rcases hk with hk | ⟨i, hi, hyg, hb⟩
    · exact (subset_iff_testBit _ _).mp hcm k hk
    · rw [hused, used_of_testBit]
      rw [hcol i hi] at hyg
      rcases hyg with hy | hgr
      · obtain ⟨_, hlt⟩ := score_at_yellow cfg g.mask h.mask i hy
        obtain ⟨j, hj, hx, _⟩ := (hidden_count_pos_iff _ _ _ _).mp (Nat.lt_of_le_of_lt (Nat.zero_le _) hlt)
        exact ⟨j, hj, by rw [hx]; exact hb⟩
      · rw [score_at_green_iff] at hgr
        exact ⟨i, hi, by rw [← hgr]; exact hb⟩
  · intro j hj
    obtain ⟨hhj, he32⟩ := hh j hj
    have hst : (st.possible.getD j 0).testBit (eh j) = true := by
      have := hcp j hj
      rw [hhj, two_pow_land_ne_zero_iff] at this
      exact this
    rw [hhj, two_pow_land_ne_zero_iff, state_update_ok_bits cfg st g.mask _ hok j _ hj]
    by_cases hgr : g.mask.getD j 0 = h.mask.getD j 0
    · have hcg : color_at (score cfg g.mask h.mask) j = GREEN := by
        rw [hcol j hj, score_at_green_iff]; exact hgr
      have hag : after_green st g.mask (score cfg g.mask h.mask) j = 2 ^ eh j := by
        unfold after_green
        rw [if_pos hcg, hgr, hhj]
      rw [hag]
      exact ⟨Nat.testBit_two_pow_self, Or.inl (two_pow_singleton _ he32)⟩
    · have hcg : color_at (score cfg g.mask h.mask) j ≠ GREEN := by
        rw [hcol j hj, Ne, score_at_green_iff]; exact hgr
      have hne : eg j ≠ eh j := by
        intro e; apply hgr; rw [hg j hj, hhj, e]
      constructor
      · unfold after_green
        rw [if_neg hcg]
        split
        · rw [Nat.testBit_land, testBit_mask_not, hg j hj, hst, Nat.testBit_two_pow]
          simp [he32, hne]
        · exact hst
      · right
        refine ⟨he32, ?_⟩
        rintro (⟨i, hi, hbl, hb, hny⟩ | ⟨hN', _⟩)
        · rw [hg i hi] at hb
          have hei := two_pow_inj_of_testBit _ _ hb
          have hx : g.mask.getD i 0 = h.mask.getD j 0 := by rw [hg i hi, hhj, hei]
          rw [hcol i hi] at hbl
          obtain ⟨hnei, _⟩ := score_at_black cfg g.mask h.mask i hbl
          have hpos : 0 < hidden_count g.mask h.mask (h.mask.getD j 0) cfg.SIZE :=
            (hidden_count_pos_iff _ _ _ _).mpr ⟨j, hj, rfl, hgr⟩
          obtain ⟨i0, hi0, hx0, hy0⟩ :=
            first_occurrence_yellow cfg g.mask h.mask _ i hi hx hnei hpos
          have := hny i0 hi0 (by rw [hcol i0 hi0]; exact hy0)
          rw [hx0, hx, subset_refl, hhj] at this
          exact absurd this (by positivity)
        · rw [hN] at hN'; cases hN'

/-! ## The minimax guesser -/

theorem ipow_loop_eq (fuel : Nat) (x y : Int) (z : Nat) (h : z < fuel) :
    ipow_loop fuel x y z = x * y ^ z := by
  induction fuel generalizing x y z with
  | zero => omega
  | succ fuel ih =>
    unfold ipow_loop
    by_cases hz : z > 0
    · rw [if_pos hz, ih _ _ _ (by rw [Nat.shiftRight_one]; omega)]
      have h2 : z >>> 1 = z / 2 := Nat.shiftRight_one z
      have hm : z &&& 1 = z % 2 := Nat.and_one_is_mod z
      rw [h2, hm]
      have hz2 : z = 2 * (z / 2) + z % 2 := (Nat.div_add_mod z 2).symm
      rcases Nat.mod_two_eq_zero_or_one z with h0 | h1
      · rw [h0, if_neg (by decide)]
        conv_rhs => rw [hz2, h0, Nat.add_zero, pow_mul]
        rw [pow_two]
      · rw [h1, if_pos (by decide)]
        conv_rhs => rw [hz2, h1, pow_add, pow_mul, pow_one]
        rw [pow_two]; ring
    · rw [if_neg hz]
      have : z = 0 := by omega
      subst this; simp

theorem ipow_eq (a : Int) (b : Nat) : ipow a b = a ^ b := by
  unfold ipow
  rw [ipow_loop_eq _ _ _ _ (Nat.lt_succ_self b), one_mul]

theorem all_colors_eq (cfg : Config) : (ipow 3 cfg.SIZE).toNat = 3 ^ cfg.SIZE := by
  rw [ipow_eq]
  have : ((3 : Int) ^ cfg.SIZE) = ((3 ^ cfg.SIZE : Nat) : Int) := by push_cast; rfl
  rw [this, Int.toNat_ofNat]

theorem compatible_count_loop_eq (cfg : Config) (st : state) (thr : Nat) (l : List formula)
    (n : Nat) (hn : n ≤ thr) :
    compatible_count_loop cfg st thr l n =
      min (n + l.countP (state_compatible cfg st)) (thr + 1) := by
  induction l generalizing n with
  | nil => simp [compatible_count_loop]; omega
  | cons f rest ih =>
    unfold compatible_count_loop
    by_cases hf : state_compatible cfg st f = true
    · rw [if_pos hf, List.countP_cons_of_pos _ _ hf]
      by_cases hgt : n + 1 > thr
      · rw [if_pos hgt]; omega
      · rw [if_neg hgt, ih _ (by omega)]; congr 1; omega
    · rw [if_neg hf, List.countP_cons_of_neg _ _ hf, ih _ hn]

theorem state_compatible_count_eq (cfg : Config) (st : state) (thr : Nat) (tab : List formula) :
    state_compatible_count cfg st thr tab = min (compatible_total cfg st tab) (thr + 1) := by
  unfold state_compatible_count compatible_total
  rw [compatible_count_loop_eq _ _ _ _ _ (Nat.zero_le _), List.countP_reverse, Nat.zero_add]

theorem worst_upto_succ (cfg : Config) (st : state) (g : formula) (tab : List formula)
    (n : Nat) :
    worst_upto cfg st g tab (n + 1) =
      max (worst_upto cfg st g tab n)
        (compatible_total cfg (state_update cfg st g.mask n).2 tab) := by
  unfold worst_upto
  rw [List.range_succ, List.foldl_append]
  rfl

theorem find_worst_loop_eq (cfg : Config) (st : state) (g : formula) (tab : List formula)
    (least_c colors worst : Nat) (hw : worst ≤ least_c + 1) :
    find_worst_loop cfg st g tab least_c colors worst =
      min (max worst (worst_upto cfg st g tab colors)) (least_c + 1) := by
  induction colors generalizing worst with
  | zero =>
    simp only [find_worst_loop, worst_upto, List.range_zero, List.foldl_nil]
    omega
  | succ c ih =>
    unfold find_worst_loop
    simp only []
    rw [state_compatible_count_eq, worst_upto_succ]
    generalize compatible_total cfg (state_update cfg st g.mask c).2 tab = tc
    by_cases h1 : min tc (least_c + 1) > worst
    · rw [if_pos h1]
      by_cases h2 : min tc (least_c + 1) > least_c
      · rw [if_pos h2]; omega
      · rw [if_neg h2, ih _ (by omega)]; omega
    · rw [if_neg h1, ih _ hw]; omega

/-- The sequential `find_worst` is the worst-case count cut at `least_c + 1`. -/
theorem find_worst_eq (cfg : Config) (st : state) (g : formula) (tab : List formula)
    (least_c : Nat) :
    find_worst cfg st g (3 ^ cfg.SIZE) tab least_c =
      min (worst_case_count cfg st g tab) (least_c + 1) := by
  unfold find_worst worst_case_count
  rw [find_worst_loop_eq _ _ _ _ _ _ _ (Nat.zero_le _), Nat.zero_max]

theorem compatible_total_le (cfg : Config) (st : state) (tab : List formula) :
    compatible_total cfg st tab ≤ tab.length := List.countP_le_length _

theorem worst_upto_le (cfg : Config) (st : state) (g : formula) (tab : List formula)
    (n : Nat) : worst_upto cfg st g tab n ≤ tab.length := by
  induction n with
  | zero => simp [worst_upto]
  | succ n ih =>
    rw [worst_upto_succ]
    exact max_le ih (compatible_total_le _ _ _)

theorem worst_case_count_le (cfg : Config) (st : state) (g : formula) (tab : List formula) :
    worst_case_count cfg st g tab ≤ tab.length := worst_upto_le _ _ _ _ _

theorem least_worst_loop_spec (cfg : Config) (libc : Libc) (st : state) (pool : List formula)
    (seed : Nat) (hpos : 0 < pool.length) :
    ∃ (idx : Nat) (f : formula), pool[idx]? = some f ∧
      (least_worst_loop cfg libc st pool (3 ^ cfg.SIZE) (-1) pool
        ⟨pool.length + 1, pool[0]?, pool, seed⟩).least_f = some f ∧
      (least_worst_loop cfg libc st pool (3 ^ cfg.SIZE) (-1) pool
        ⟨pool.length + 1, pool[0]?, pool, seed⟩).seed = seed ∧
      (least_worst_loop cfg libc st pool (3 ^ cfg.SIZE) (-1) pool
        ⟨pool.length + 1, pool[0]?, pool, seed⟩).least_c = worst_case_count cfg st f pool ∧
      (∀ (j : Nat) (g : formula), pool[j]? = some g →
        worst_case_count cfg st f pool ≤ worst_case_count cfg st g pool) ∧
      (∀ (j : Nat) (g : formula), j < idx → pool[j]? = some g →
        worst_case_count cfg st f pool < worst_case_count cfg st g pool) := by
  obtain ⟨P, hP⟩ : ∃ P : Nat → least_worst_vars → Prop, P =
      (fun (m : Nat) (v : least_worst_vars) =>
        v.samples = pool ∧ v.seed = seed ∧
        ((m = 0 ∧ v.least_c = pool.length + 1) ∨
         (∃ (idx : Nat) (f : formula), idx < m ∧ pool[idx]? = some f ∧ v.least_f = some f ∧
            v.least_c = worst_case_count cfg st f pool ∧
            (∀ (j : Nat) (g : formula), j < m → pool[j]? = some g →
              worst_case_count cfg st f pool ≤ worst_case_count cfg st g pool) ∧
            (∀ (j : Nat) (g : formula), j < idx → pool[j]? = some g →
              worst_case_count cfg st f pool < worst_case_count cfg st g pool)))) := ⟨_, rfl⟩
  have key : ∀ m, m ≤ pool.length → P m
        ((List.range m).foldl (fun (v : least_worst_vars) i =>
          match pool[i]? with
          | none => v
          | some candidate =>
            let v : least_worst_vars :=
              if (-1 : Int) ≥ 0 ∧ 0 = (i &&& 7) then
                let r := refresh_samples libc pool i (-1) v.seed
                { v with samples := r.1, seed := r.2 }
              else v
            let worst := find_worst cfg st candidate (3 ^ cfg.SIZE) v.samples v.least_c
            if worst < v.least_c then { v with least_c := worst, least_f := some candidate }
            else v) ⟨pool.length + 1, pool[0]?, pool, seed⟩) := by
    intro m hm
    refine foldl_range_ind P _ _ m ?_ ?_
    · subst hP; exact ⟨rfl, rfl, Or.inl ⟨rfl, rfl⟩⟩
    · subst hP
      rintro i hi v ⟨hs, hseed, hv⟩
      have hil : i < pool.length := by omega
      have hget : pool[i]? = some pool[i] := List.getElem?_eq_getElem hil
      simp only [hget]
      have hno : ¬ ((-1 : Int) ≥ 0 ∧ 0 = (i &&& 7)) := fun h => absurd h.1 (by decide)
      rw [if_neg hno, hs, find_worst_eq]
      have hWle := worst_case_count_le cfg st pool[i] pool
      rcases hv with ⟨hm0, hlc⟩ | ⟨idx, f, hidx, hf, hlf, hlc, hmin, hfirst⟩
      · subst hm0
        rw [hlc]
        have hlt : min (worst_case_count cfg st pool[0] pool) (pool.length + 1 + 1) <
            pool.length + 1 := by omega
        rw [if_pos hlt]
        refine ⟨rfl, hseed, Or.inr ⟨0, pool[0], by omega, hget, rfl, by simp only []; omega, ?_, ?_⟩⟩
        · intro j g hj hg
          have : j = 0 := by omega
          subst this
          rw [hget] at hg
          cases hg; exact le_refl _
        · intro j g hj; omega
      · rw [hlc]
        by_cases hlt : min (worst_case_count cfg st pool[i] pool)
            (worst_case_count cfg st f pool + 1) < worst_case_count cfg st f pool
        · rw [if_pos hlt]
          have hlt' : worst_case_count cfg st pool[i] pool < worst_case_count cfg st f pool := by
            omega
          refine ⟨rfl, hseed, Or.inr ⟨i, pool[i], by omega, hget, rfl, by simp only []; omega,
            ?_, ?_⟩⟩
          · intro j g hj hg
            by_cases e : j = i
            · subst e; rw [hget] at hg; cases hg; exact le_refl _
            · exact le_of_lt (lt_of_lt_of_le hlt' (hmin j g (by omega) hg))
          · intro j g hj hg
            exact lt_of_lt_of_le hlt' (hmin j g hj hg)
        · rw [if_neg hlt]
          have hge : worst_case_count cfg st f pool ≤ worst_case_count cfg st pool[i] pool := by
            omega
          refine ⟨hs, hseed, Or.inr ⟨idx, f, by omega, hf, hlf, hlc, ?_, hfirst⟩⟩
          intro j g hj hg
          by_cases e : j = i
          · subst e; rw [hget] at hg; cases hg; exact hge
          · exact hmin j g (by omega) hg
  have hkey := key pool.length (le_refl _)
  subst hP
  obtain ⟨_, hseed, hv⟩ := hkey
  rcases hv with ⟨h0, _⟩ | ⟨idx, f, hidx, hf, hlf, hlc, hmin, hfirst⟩
  · omega
  · refine ⟨idx, f, hf, hlf, hseed, hlc, ?_, hfirst⟩
    intro j g hg
    have hj : j < pool.length := by
      by_contra hge
      rw [List.getElem?_eq_none (by omega)] at hg
      cases hg
    exact hmin j g hj hg

theorem least_worst_exact (cfg : Config) (libc : Libc) (st : state) (pool : List formula)
    (buffer : List Char) (seed : Nat) (h2 : 2 ≤ pool.length)
    (hlt : pool.length < MAX_FORMULAE_EXACT) :
    least_worst cfg libc st pool buffer seed =
      match (least_worst_loop cfg libc st pool (3 ^ cfg.SIZE) (-1) pool
          ⟨pool.length + 1, pool[0]?, pool, seed⟩).least_f with
      | none => (decide ((least_worst_loop cfg libc st pool (3 ^ cfg.SIZE) (-1) pool
          ⟨pool.length + 1, pool[0]?, pool, seed⟩).least_c > 0), buffer,
          (least_worst_loop cfg libc st pool (3 ^ cfg.SIZE) (-1) pool
          ⟨pool.length + 1, pool[0]?, pool, seed⟩).seed)
      | some f => (decide ((least_worst_loop cfg libc st pool (3 ^ cfg.SIZE) (-1) pool
          ⟨pool.length + 1, pool[0]?, pool, seed⟩).least_c > 0), write_guess cfg f buffer,
          (least_worst_loop cfg libc st pool (3 ^ cfg.SIZE) (-1) pool
          ⟨pool.length + 1, pool[0]?, pool, seed⟩).seed) := by
  unfold least_worst
  simp only []
  have h0 : ¬ pool.length = 0 := by omega
  have h1 : ¬ pool.length = 1 := by omega
  have h3 : ¬ pool.length ≥ MAX_FORMULAE_EXACT := by omega
  have h4 : ¬ pool.length * pool.length ≥ MAX_FORMULAE_EXACT * MAX_FORMULAE_EXACT := by
    have : pool.length * pool.length < MAX_FORMULAE_EXACT * MAX_FORMULAE_EXACT :=
      Nat.mul_lt_mul'' hlt hlt
    omega
  rw [if_neg h0, if_neg h1]
  simp only [if_neg h3, if_neg h4, all_colors_eq]

/-! ## The search writes a buffer that backtracking does not restore -/

theorem Frame.refl (W : Nat → Prop) (b : List Char) : Frame W b b :=
  ⟨rfl, fun _ _ => rfl⟩

theorem Frame.trans {W : Nat → Prop} {a b c : List Char} (h1 : Frame W a b)
    (h2 : Frame W b c) : Frame W a c :=
  ⟨h2.1.trans h1.1, fun p hp => (h2.2 p hp).trans (h1.2 p hp)⟩

theorem Frame.symm {W : Nat → Prop} {a b : List Char} (h : Frame W a b) : Frame W b a :=
  ⟨h.1.symm, fun p hp => (h.2 p hp).symm⟩

theorem Frame.mono {W W' : Nat → Prop} {a b : List Char} (hW : ∀ p, W p → W' p)
    (h : Frame W a b) : Frame W' a b :=
  ⟨h.1, fun p hp => h.2 p (fun hw => hp (hW p hw))⟩

theorem Sem_congr {L : Nat} {W W' : Nat → Prop} {F F' : List Char → List formula}
    {c : Globals → Globals} (hW : ∀ p, W p → W' p)
    (hF : ∀ b, b.length = L → F b = F' b) (h : Sem L W F c) : Sem L W' F' c := by
  intro g hg
  obtain ⟨h1, h2⟩ := h g hg
  exact ⟨h1.mono hW, by rw [h2, hF _ hg]⟩

theorem Insens_congr {L : Nat} {W W' : Nat → Prop} {F F' : List Char → List formula}
    (hW : ∀ p, W' p → W p)
    (hF : ∀ b, b.length = L → F b = F' b) (h : Insens L W F) : Insens L W' F' := by
  intro b b' hb hfr
  rw [← hF b hb, ← hF b' (hfr.1.trans hb)]
  exact h b b' hb (hfr.mono hW)

theorem Sem_backtrack (L : Nat) (W : Nat → Prop) : Sem L W (fun _ => []) (fun g => g) := by
  intro g _
  exact ⟨Frame.refl _ _, by simp⟩

theorem Insens_nil (L : Nat) (W : Nat → Prop) : Insens L W (fun _ => []) :=
  fun _ _ _ _ => rfl

theorem Sem_foldl {α : Type} (L : Nat) (W : Nat → Prop) (l : List α)
    (F : α → List Char → List formula) (k : α → Globals → Globals)
    (hk : ∀ x, x ∈ l → Sem L W (F x) (k x)) (hF : ∀ x, x ∈ l → Insens L W (F x)) :
    Sem L W (fun b => l.flatMap (fun x => F x b)) (fun g => l.foldl (fun g x => k x g) g) := by
  induction l with
  | nil => intro g _; exact ⟨Frame.refl _ _, by simp⟩
  | cons x rest ih =>
    intro g hg
    obtain ⟨f1, e1⟩ := hk x (List.mem_cons_self _ _) g hg
    have hg1 : (k x g).buffer.length = L := f1.1.trans hg
    obtain ⟨f2, e2⟩ := ih (fun y hy => hk y (List.mem_cons_of_mem _ hy))
      (fun y hy => hF y (List.mem_cons_of_mem _ hy)) (k x g) hg1
    refine ⟨f1.trans f2, ?_⟩
    simp only [List.foldl_cons, List.flatMap_cons] at e2 ⊢
    rw [e2, e1, List.append_assoc]
    congr 1
    congr 1
    apply List.flatMap_congr
    intro y hy
    exact hF y (List.mem_cons_of_mem _ hy) g.buffer (k x g).buffer hg f1

theorem Insens_flatMap {α : Type} (L : Nat) (W : Nat → Prop) (l : List α)
    (F : α → List Char → List formula) (hF : ∀ x, x ∈ l → Insens L W (F x)) :
    Insens L W (fun b => l.flatMap (fun x => F x b)) := by
  intro b b' hb hfr
  apply List.flatMap_congr
  intro x hx
  exact hF x hx b b' hb hfr

theorem Choice_eq_foldl (N : Int) (k : Int → Globals → Globals) (g : Globals) :
    Choice N k g = (choices N).foldl (fun g c => k c g) g := by
  unfold Choice choices
  rw [List.foldl_map]

theorem Sem_Choice (L : Nat) (W : Nat → Prop) (N : Int)
    (F : Int → List Char → List formula) (k : Int → Globals → Globals)
    (hk : ∀ c, c ∈ choices N → Sem L W (F c) (k c))
    (hF : ∀ c, c ∈ choices N → Insens L W (F c)) :
    Sem L W (fun b => (choices N).flatMap (fun c => F c b)) (Choice N k) := by
  have := Sem_foldl L W (choices N) F k hk hF
  intro g hg
  rw [Choice_eq_foldl]
  exact this g hg

theorem mem_choices (N c : Int) : c ∈ choices N ↔ 1 ≤ c ∧ c ≤ N := by
  unfold choices
  simp only [List.mem_map, List.mem_range]
  constructor
  · rintro ⟨i, hi, rfl⟩
    omega
  · rintro ⟨h1, h2⟩
    exact ⟨(c - 1).toNat, by omega, by omega⟩

theorem Frame_set (W : Nat → Prop) (b : List Char) (p : Nat) (ch : Char) (hp : W p) :
    Frame W b (b.set p ch) := by
  refine ⟨List.length_set _ _ _, fun q hq => ?_⟩
  rw [List.getElem?_set]
  have : p ≠ q := fun e => hq (e ▸ hp)
  simp [this]

/-- A write at position `p` before a computation. -/
theorem Sem_set {L : Nat} {W : Nat → Prop} {F : List Char → List formula}
    {c : Globals → Globals} (p : Nat) (ch : Char) (h : Sem L W F c) :
    Sem L (fun q => W q ∨ q = p) (fun b => F (b.set p ch))
      (fun g => c { g with buffer := g.buffer.set p ch }) := by
  intro g hg
  obtain ⟨f1, e1⟩ := h { g with buffer := g.buffer.set p ch }
    (by simp [hg])
  refine ⟨?_, e1⟩
  exact (Frame_set (fun q => W q ∨ q = p) g.buffer p ch (Or.inr rfl)).trans
    (f1.mono (fun q hq => Or.inl hq))

theorem Frame_set_set {W : Nat → Prop} {b b' : List Char} (p : Nat) (ch : Char)
    (h : Frame (fun q => W q ∨ q = p) b b') : Frame W (b.set p ch) (b'.set p ch) := by
  refine ⟨by simp [h.1], fun q hq => ?_⟩
  rw [List.getElem?_set, List.getElem?_set, h.1]
  by_cases e : p = q
  · simp [e]
  · simp only [e, if_false]
    exact h.2 q (fun hh => hh.elim hq (fun e' => e e'.symm))

theorem Insens_set {L : Nat} {W : Nat → Prop} {F : List Char → List formula}
    (p : Nat) (ch : Char) (h : Insens L W F) :
    Insens L (fun q => W q ∨ q = p) (fun b => F (b.set p ch)) := by
  intro b b' hb hfr
  exact h _ _ (by simp [hb]) (Frame_set_set p ch hfr)

/-! ## `num` -/

theorem last_digits_length (w : Nat) (n : Int) : (last_digits w n).length = w := by
  induction w generalizing n with
  | zero => rfl
  | succ w ih => simp [last_digits, ih]

theorem splice_length (b : List Char) (frm : Nat) (s : List Char)
    (h : frm + s.length ≤ b.length) : (splice b frm s).length = b.length := by
  unfold splice
  simp only [List.length_append, List.length_take, List.length_drop]
  omega

theorem getElem?_splice (b : List Char) (frm : Nat) (s : List Char)
    (h : frm + s.length ≤ b.length) (p : Nat) :
    (splice b frm s)[p]? =
      if p < frm then b[p]? else if p < frm + s.length then s[p - frm]? else b[p]? := by
  unfold splice
  have hl : (List.take frm b).length = frm := by rw [List.length_take]; omega
  rw [List.append_assoc, List.getElem?_append, hl]
  by_cases h1 : p < frm
  · rw [if_pos h1, if_pos h1, List.getElem?_take_of_lt h1]
  · rw [if_neg h1, if_neg h1, List.getElem?_append]
    by_cases h2 : p < frm + s.length
    · rw [if_pos (by omega), if_pos h2]
    · rw [if_neg (by omega), if_neg h2, List.getElem?_drop]
      congr 1; omega

theorem Frame_splice (b : List Char) (frm : Nat) (s : List Char)
    (h : frm + s.length ≤ b.length) :
    Frame (fun q => frm ≤ q ∧ q < frm + s.length) b (splice b frm s) := by
  refine ⟨splice_length b frm s h, fun p hp => ?_⟩
  rw [getElem?_splice b frm s h]
  by_cases h1 : p < frm
  · rw [if_pos h1]
  · rw [if_neg h1, if_neg (fun h2 => hp ⟨by omega, h2⟩)]

theorem set_eq_splice (b : List Char) (p : Nat) (ch : Char) (h : p < b.length) :
    b.set p ch = splice b p [ch] := by
  unfold splice
  rw [List.set_eq_take_append_cons_drop, if_pos h]
  simp

theorem num_loop_spec (fuel : Nat) (n : Int) (frm j : Nat) (buf : List Char)
    (h1 : frm < j) (h2 : j ≤ buf.length) (h3 : j - frm ≤ fuel) :
    ((num_loop fuel n frm j buf).1, (num_loop fuel n frm j buf).2.1 - frm) =
        num_scan (j - frm) n ∧
    frm ≤ (num_loop fuel n frm j buf).2.1 ∧ (num_loop fuel n frm j buf).2.1 < j ∧
    (num_loop fuel n frm j buf).2.2 =
      splice buf (num_loop fuel n frm j buf).2.1
        (last_digits (j - (num_loop fuel n frm j buf).2.1) n) := by
  induction fuel generalizing n j buf with
  | zero => omega
  | succ fuel ih =>
    obtain ⟨w, hw⟩ : ∃ w, j - frm = w + 1 := ⟨j - frm - 1, by omega⟩
    unfold num_loop
    simp only []
    rw [hw]
    unfold num_scan
    have hcond : (n.tdiv 10 ≠ 0 ∧ frm < j - 1) ↔ (n.tdiv 10 ≠ 0 ∧ 0 < w) := by
      constructor
      · rintro ⟨a, b⟩; exact ⟨a, by omega⟩
      · rintro ⟨a, b⟩; exact ⟨a, by omega⟩
    by_cases hc : n.tdiv 10 ≠ 0 ∧ frm < j - 1
    · rw [if_pos hc, if_pos (hcond.mp hc)]
      have hlen : (buf.set (j - 1) (Char.ofNat (48 + n.tmod 10).toNat)).length = buf.length :=
        List.length_set _ _ _
      obtain ⟨e1, e2, e3, e4⟩ := ih (n.tdiv 10) (j - 1)
        (buf.set (j - 1) (Char.ofNat (48 + n.tmod 10).toNat)) hc.2 (by omega) (by omega)
      have hw' : j - 1 - frm = w := by omega
      rw [hw'] at e1
      refine ⟨e1, e2, by omega, ?_⟩
      rw [e4]
      generalize (num_loop fuel (n.tdiv 10) frm (j - 1)
        (buf.set (j - 1) (Char.ofNat (48 + n.tmod 10).toNat))).2.1 = j' at e2 e3 ⊢
      have hd : j - j' = (j - 1 - j') + 1 := by omega
      rw [hd, last_digits]
      apply List.ext_getElem?
      intro p
      rw [getElem?_splice _ _ _ (by rw [last_digits_length, hlen]; omega),
        getElem?_splice _ _ _ (by
          rw [List.length_append, last_digits_length, List.length_singleton]; omega)]
      rw [last_digits_length, List.length_append, last_digits_length, List.length_singleton,
        List.getElem?_set]
      by_cases q1 : p < j'
      · rw [if_pos q1, if_pos q1, if_neg (by omega)]
      · rw [if_neg q1, if_neg q1]
        by_cases q2 : p < j' + (j - 1 - j')
        · rw [if_pos q2, if_pos (by omega), List.getElem?_append_left
            (by rw [last_digits_length]; omega)]
        · rw [if_neg q2]
          by_cases q3 : j - 1 = p
          · rw [if_pos q3, if_pos (by omega), if_pos (by omega),
              List.getElem?_append_right (by rw [last_digits_length]; omega),
              last_digits_length]
            have : p - j' - (j - 1 - j') = 0 := by omega
            rw [this]; rfl
          · rw [if_neg q3, if_neg (by omega)]
    · rw [if_neg hc, if_neg (fun h => hc (hcond.mpr h))]
      have hw' : j - 1 - frm = w := by omega
      dsimp only
      refine ⟨by rw [hw'], by omega, by omega, ?_⟩
      have hd : j - (j - 1) = 0 + 1 := by omega
      rw [hd, last_digits, last_digits, List.nil_append]
      exact set_eq_splice _ _ _ (by omega)

/-- The result of `num` on a span inside the buffer. -/
theorem num_spec (n : Int) (frm upto : Nat) (buf : List Char) (h1 : frm < upto)
    (h2 : upto ≤ buf.length) :
    ((num n frm upto buf).1 = true ↔ num_scan (upto - frm) n = (0, 0)) ∧
    Frame (fun q => frm ≤ q ∧ q < upto) buf (num n frm upto buf).2 ∧
    ((num_scan (upto - frm) n).2 = 0 →
      (num n frm upto buf).2 = splice buf frm (last_digits (upto - frm) n)) := by
  obtain ⟨e1, e2, e3, e4⟩ := num_loop_spec (upto - frm + 1) n frm upto buf h1 h2 (by omega)
  unfold num
  simp only []
  generalize num_loop (upto - frm + 1) n frm upto buf = r at e1 e2 e3 e4
  obtain ⟨n', j', buf'⟩ := r
  simp only at e1 e2 e3 e4 ⊢
  refine ⟨?_, ?_, ?_⟩
  · rw [← e1]
    simp only [decide_eq_true_eq, Prod.mk.injEq]
    constructor
    · rintro ⟨a, b⟩; exact ⟨a, by omega⟩
    · rintro ⟨a, b⟩; exact ⟨a, by omega⟩
  · rw [e4]
    refine (Frame_splice buf j' _ (by rw [last_digits_length]; omega)).mono ?_
    intro q hq
    rw [last_digits_length] at hq
    omega
  · intro hz
    rw [← e1] at hz
    simp only at hz
    have : j' = frm := by omega
    rw [e4, this]

/-! ## Writes followed by the continuation -/

theorem Frame_splice_splice {W : Nat → Prop} {b b' : List Char} (frm upto : Nat)
    (s : List Char) (hs : s.length = upto - frm) (h1 : frm ≤ upto) (h2 : upto ≤ b.length)
    (h : Frame (fun q => W q ∨ (frm ≤ q ∧ q < upto)) b b') :
    Frame W (splice b frm s) (splice b' frm s) := by
  have hl : b'.length = b.length := h.1
  refine ⟨by rw [splice_length _ _ _ (by omega), splice_length _ _ _ (by omega), hl], ?_⟩
  intro p hp
  rw [getElem?_splice _ _ _ (by omega), getElem?_splice _ _ _ (by omega)]
  by_cases q1 : p < frm
  · rw [if_pos q1, if_pos q1]
    exact h.2 p (fun hh => hh.elim hp (fun hh' => by omega))
  · rw [if_neg q1, if_neg q1]
    by_cases q2 : p < frm + s.length
    · rw [if_pos q2, if_pos q2]
    · rw [if_neg q2, if_neg q2]
      exact h.2 p (fun hh => hh.elim hp (fun hh' => by omega))

theorem Insens_splice {L : Nat} {W : Nat → Prop} {F : List Char → List formula}
    (frm upto : Nat) (s : List Char) (hs : s.length = upto - frm) (h1 : frm ≤ upto)
    (h2 : upto ≤ L) (h : Insens L W F) :
    Insens L (fun q => W q ∨ (frm ≤ q ∧ q < upto)) (fun b => F (splice b frm s)) := by
  intro b b' hb hfr
  exact h _ _ (by rw [splice_length _ _ _ (by omega), hb])
    (Frame_splice_splice frm upto s hs h1 (by omega) hfr)

/-- The formulas listed for a span do not depend on what the span held before. -/
theorem Insens_solutions {L : Nat} {W : Nat → Prop} (l : List Found)
    (Fk : opt_rat → List Char → List formula) (frm upto : Nat)
    (hl : ∀ rs, rs ∈ l → rs.2.length = upto - frm) (h1 : frm ≤ upto) (h2 : upto ≤ L)
    (hI : ∀ r, Insens L W (Fk r)) :
    Insens L (fun q => W q ∨ (frm ≤ q ∧ q < upto))
      (fun b => l.flatMap (fun rs => Fk rs.1 (splice b frm rs.2))) :=
  Insens_flatMap L _ l (fun rs b => Fk rs.1 (splice b frm rs.2))
    (fun rs hrs => Insens_splice frm upto rs.2 (hl rs hrs) h1 h2 (hI rs.1))

/-- The continuation runs after the span has been overwritten by `f`. -/
theorem Sem_after_write {L : Nat} {W : Nat → Prop} {F : List Char → List formula}
    {c : Globals → Globals} (frm upto : Nat) (f : List Char → List Char)
    (hf : ∀ b, b.length = L → Frame (fun q => frm ≤ q ∧ q < upto) b (f b))
    (h : Sem L W F c) :
    Sem L (fun q => W q ∨ (frm ≤ q ∧ q < upto)) (fun b => F (f b))
      (fun g => c { g with buffer := f g.buffer }) := by
  intro g hg
  have hfr := hf g.buffer hg
  obtain ⟨f1, e1⟩ := h { g with buffer := f g.buffer } (hfr.1.trans hg)
  exact ⟨(hfr.mono (fun q hq => Or.inr hq)).trans (f1.mono (fun q hq => Or.inl hq)), e1⟩

/-- The branch is abandoned after the span has been overwritten by `f`. -/
theorem Sem_fail_write (L : Nat) (W : Nat → Prop) (frm upto : Nat)
    (f : List Char → List Char)
    (hf : ∀ b, b.length = L → Frame (fun q => frm ≤ q ∧ q < upto) b (f b)) :
    Sem L (fun q => W q ∨ (frm ≤ q ∧ q < upto)) (fun _ => [])
      (fun g => { g with buffer := f g.buffer }) := by
  intro g hg
  exact ⟨(hf g.buffer hg).mono (fun q hq => Or.inr hq), by simp⟩

/-! ## Arithmetic of `num` -/

theorem natCast_tdiv_ten (m : Nat) : ((m : Int)).tdiv 10 = ((m / 10 : Nat) : Int) := by
  rw [Int.tdiv_eq_ediv (by omega) (by omega)]
  omega

theorem natCast_tmod_ten (m : Nat) : ((m : Int)).tmod 10 = ((m % 10 : Nat) : Int) := by
  rw [Int.tmod_eq_emod (by omega) (by omega)]
  omega

theorem num_scan_nat (w m : Nat) :
    ((num_scan (w + 1) (m : Int)).2 = 0 ↔ (w = 0 ∨ 10 ^ w ≤ m)) ∧
    ((num_scan (w + 1) (m : Int)).2 = 0 →
      (num_scan (w + 1) (m : Int)).1 = ((m / 10 ^ (w + 1) : Nat) : Int)) := by
  induction w generalizing m with
  | zero =>
    unfold num_scan
    rw [if_neg (fun h => Nat.lt_irrefl 0 h.2)]
    simp [natCast_tdiv_ten]
  | succ w ih =>
    unfold num_scan
    rw [natCast_tdiv_ten]
    by_cases hz : m / 10 = 0
    · rw [if_neg (fun h => h.1 (by rw [hz]; rfl))]
      have hlt : m < 10 := by omega
      have hp : 10 ≤ 10 ^ (w + 1) := by
        calc 10 = 10 ^ 1 := by norm_num
          _ ≤ 10 ^ (w + 1) := Nat.pow_le_pow_right (by norm_num) (by omega)
      simp only
      constructor
      · constructor
        · intro h; omega
        · rintro (h | h) <;> omega
      · intro h; omega
    · rw [if_pos ⟨by exact_mod_cast hz, by omega⟩]
      obtain ⟨ih1, ih2⟩ := ih (m / 10)
      have hpow : 10 ^ (w + 1) ≤ m ↔ (w = 0 ∨ 10 ^ w ≤ m / 10) := by
        rw [Nat.le_div_iff_mul_le (by norm_num), pow_succ]
        constructor
        · intro h; exact Or.inr h
        · rintro (h | h)
          · subst h; simp; omega
          · exact h
      constructor
      · rw [ih1]
        constructor
        · intro h; exact Or.inr (hpow.mpr h)
        · rintro (h | h)
          · omega
          · exact hpow.mp h
      · intro h
        rw [ih2 h, Nat.div_div_eq_div_mul, pow_succ 10 (w + 1), Nat.mul_comm]

theorem ten_pow_eq_one_iff (k : Nat) : (10 : Int) ^ k = 1 ↔ k = 0 := by
  constructor
  · intro h
    by_contra hk
    have h10 : (10 : Int) ^ 1 ≤ 10 ^ k := pow_le_pow_right₀ (by norm_num) (by omega)
    rw [h] at h10
    norm_num at h10
  · intro h; subst h; rfl

/-- The numbers an unset `number` enumerates fill the span exactly. -/
theorem num_scan_unset (w : Nat) (hw : 0 < w) (c : Int)
    (hc : c ∈ choices (if ipow 10 (w - 1) = 1 then 10 else 9 * ipow 10 (w - 1))) :
    0 ≤ c + ipow 10 (w - 1) - (if ipow 10 (w - 1) = 1 then 2 else 1) ∧
    num_scan w (c + ipow 10 (w - 1) - (if ipow 10 (w - 1) = 1 then 2 else 1)) = (0, 0) := by
  rw [mem_choices] at hc
  rw [ipow_eq] at hc ⊢
  obtain ⟨w', rfl⟩ : ∃ w', w = w' + 1 := ⟨w - 1, by omega⟩
  simp only [Nat.add_sub_cancel] at hc ⊢
  by_cases h1 : (10 : Int) ^ w' = 1
  · have hw0 := (ten_pow_eq_one_iff w').mp h1
    subst hw0
    simp only [pow_zero, if_true] at hc ⊢
    obtain ⟨m, hm⟩ : ∃ m : Nat, c + 1 - 2 = (m : Int) := ⟨(c + 1 - 2).toNat, by omega⟩
    rw [hm]
    refine ⟨by omega, ?_⟩
    obtain ⟨a, b⟩ := num_scan_nat 0 m
    have hz := a.mpr (Or.inl rfl)
    have hf := b hz
    have hm10 : m / 10 ^ (0 + 1) = 0 := by
      rw [Nat.div_eq_zero_iff (by norm_num)]; omega
    rw [hm10] at hf
    exact Prod.ext hf hz
  · rw [if_neg h1] at hc ⊢
    have hpos : (0 : Int) < 10 ^ w' := by positivity
    obtain ⟨m, hm⟩ : ∃ m : Nat, c + 10 ^ w' - 1 = (m : Int) :=
      ⟨(c + 10 ^ w' - 1).toNat, by omega⟩
    rw [hm]
    refine ⟨by omega, ?_⟩
    have hlo : 10 ^ w' ≤ m := by
      have : ((10 ^ w' : Nat) : Int) ≤ (m : Int) := by push_cast; omega
      exact_mod_cast this
    have hhi : m < 10 ^ (w' + 1) := by
      have : (m : Int) < ((10 ^ (w' + 1) : Nat) : Int) := by
        push_cast; rw [pow_succ]; omega
      exact_mod_cast this
    obtain ⟨a, b⟩ := num_scan_nat w' m
    have hz := a.mpr (Or.inr hlo)
    have hf := b hz
    rw [Nat.div_eq_of_lt hhi] at hf
    exact Prod.ext hf hz

theorem gen_number_length : Lengths gen_number := by
  intro T w rs hrs
  unfold gen_number at hrs
  split at hrs
  · split at hrs
    · cases hrs
    · split at hrs
      · rw [List.mem_singleton] at hrs
        rw [hrs]; exact last_digits_length _ _
      · cases hrs
  · simp only [List.mem_map] at hrs
    obtain ⟨c, _, rfl⟩ := hrs
    exact last_digits_length _ _

theorem Realizes_number (L : Nat) : Realizes L number gen_number := by
  intro T frm upto k W Fk h1 h2 hW hk hI
  have hnum := fun (n : Int) (b : List Char) (hb : b.length = L) =>
    num_spec n frm upto b h1 (by omega)
  unfold number gen_number
  by_cases hset : T.set = true
  · simp only [hset, if_true]
    by_cases hq : T.val.q ≠ 1 ∨ T.val.p < 0
    · simp only [if_pos hq, List.flatMap_nil]
      exact Sem_congr (fun q hq => Or.inl hq) (fun _ _ => rfl) (Sem_backtrack L W)
    · simp only [if_neg hq]
      intro g hg
      obtain ⟨e1, e2, e3⟩ := hnum T.val.p g.buffer hg
      by_cases hfit : num_scan (upto - frm) T.val.p = (0, 0)
      · have hr : (num T.val.p frm upto g.buffer).1 = true := e1.mpr hfit
        simp only [hr, Bool.not_true, Bool.false_eq_true, if_false, if_pos hfit,
          List.flatMap_singleton]
        have hz : (num_scan (upto - frm) T.val.p).2 = 0 := by rw [hfit]
        rw [← e3 hz]
        obtain ⟨f1, e4⟩ := hk T { g with buffer := (num T.val.p frm upto g.buffer).2 }
          (e2.1.trans hg)
        exact ⟨(e2.mono (fun q hq => Or.inr hq)).trans (f1.mono (fun q hq => Or.inl hq)), e4⟩
      · have hr : (num T.val.p frm upto g.buffer).1 = false := by
          rw [← Bool.not_eq_true]; exact fun h => hfit (e1.mp h)
        simp only [hr, Bool.not_false, if_true, if_neg hfit, List.flatMap_nil, Backtrack]
        exact ⟨e2.mono (fun q hq => Or.inr hq), by simp⟩
  · simp only [hset, Bool.false_eq_true, if_false]
    simp only [List.flatMap_map]
    refine Sem_Choice L _ _ (fun c b => Fk ⟨true, rat_integer
      (c + ipow 10 (upto - frm - 1) - (if ipow 10 (upto - frm - 1) = 1 then 2 else 1))⟩
      (splice b frm (last_digits (upto - frm)
        (c + ipow 10 (upto - frm - 1) - (if ipow 10 (upto - frm - 1) = 1 then 2 else 1)))))
      _ ?_ ?_
    · intro c hc
      obtain ⟨_, hscan⟩ := num_scan_unset (upto - frm) (by omega) c hc
      have hz : (num_scan (upto - frm) (c + ipow 10 (upto - frm - 1) -
          (if ipow 10 (upto - frm - 1) = 1 then 2 else 1))).2 = 0 := by rw [hscan]
      refine Sem_congr (fun q hq => hq) ?_
        (Sem_after_write frm upto (fun b => (num (c + ipow 10 (upto - frm - 1) -
          (if ipow 10 (upto - frm - 1) = 1 then 2 else 1)) frm upto b).2)
          (fun b hb => (hnum _ b hb).2.1) (hk _))
      intro b hb
      simp only [rat_integer]
      rw [(hnum _ b hb).2.2 hz]
    · intro c _
      exact Insens_splice frm upto _ (last_digits_length _ _) (by omega) h2 (hI _)

/-! ## `solve` -/

/-- The shape of `solve`: either the branch is abandoned once the operator is
written, or the goal is run on a target `T'` and the continuation receives
`post` of what the goal returns. -/
theorem solve_cases (T U : opt_rat) (op : Char) (V : opt_rat) :
    (∃ (T' : opt_rat) (post : opt_rat → opt_rat),
      (∀ (goal : goal) (frm upto : Nat) (k : opt_rat → Globals → Globals) (g : Globals),
        solve T goal U frm upto op V k g =
          goal T' frm upto (fun r g => k (post r) g)
            { g with buffer := g.buffer.set upto op }) ∧
      (∀ G : opt_rat → List Found,
        gen_solve G T U op V = (G T').map (fun rs => (post rs.1, rs.2)))) ∨
    ((∀ (goal : goal) (frm upto : Nat) (k : opt_rat → Globals → Globals) (g : Globals),
        solve T goal U frm upto op V k g = { g with buffer := g.buffer.set upto op }) ∧
      (∀ G : opt_rat → List Found, gen_solve G T U op V = [])) := by
  unfold solve gen_solve
  by_cases h1 : op = '+'
  · by_cases hT : T.set = true
    · left
      exact ⟨⟨true, rat_sub T.val V.val⟩, fun _ => T,
        fun _ _ _ _ _ => by simp only [h1, hT, if_true],
        fun _ => by simp only [h1, hT, if_true]⟩
    · left
      exact ⟨{ U with set := false }, fun r => ⟨true, rat_add r.val V.val⟩,
        fun _ _ _ _ _ => by simp only [h1, hT, if_true, if_false, Bool.false_eq_true],
        fun _ => by simp only [h1, hT, if_true, if_false, Bool.false_eq_true]⟩
  · by_cases h2 : op = '=' ∨ op = '-'
    · by_cases hT : T.set = true
      · left
        exact ⟨⟨true, rat_add T.val V.val⟩, fun _ => T,
          fun _ _ _ _ _ => by simp only [if_neg h1, if_pos h2, hT, if_true],
          fun _ => by simp only [if_neg h1, if_pos h2, hT, if_true]⟩
      · left
        exact ⟨{ U with set := false }, fun r => ⟨true, rat_sub r.val V.val⟩,
          fun _ _ _ _ _ => by simp only [if_neg h1, if_pos h2, hT, if_false, Bool.false_eq_true],
          fun _ => by simp only [if_neg h1, if_pos h2, hT, if_false, Bool.false_eq_true]⟩
    · by_cases h3 : op = '/'
      · by_cases hV : V.val.p = 0
        · right
          exact ⟨fun _ _ _ _ _ => by simp only [if_neg h1, if_neg h2, if_pos h3, if_pos hV,
              Backtrack],
            fun _ => by simp only [if_neg h1, if_neg h2, if_pos h3, if_pos hV]⟩
        · by_cases hT : T.set = true
          · left
            exact ⟨⟨true, rat_mul T.val V.val⟩, fun _ => T,
              fun _ _ _ _ _ => by
                simp only [if_neg h1, if_neg h2, if_pos h3, if_neg hV, hT, if_true],
              fun _ => by simp only [if_neg h1, if_neg h2, if_pos h3, if_neg hV, hT, if_true]⟩
          · left
            exact ⟨{ U with set := false }, fun r => ⟨true, rat_div r.val V.val⟩,
              fun _ _ _ _ _ => by
                simp only [if_neg h1, if_neg h2, if_pos h3, if_neg hV, hT, if_false, Bool.false_eq_true],
              fun _ => by simp only [if_neg h1, if_neg h2, if_pos h3, if_neg hV, hT, if_false, Bool.false_eq_true]⟩
      · by_cases h4 : op = '*'
        · by_cases hc : (!T.set || decide (Int.lor T.val.p V.val.p = 0)) = true
          · left
            exact ⟨{ U with set := false }, fun r => ⟨true, rat_mul r.val V.val⟩,
              fun _ _ _ _ _ => by
                simp only [if_neg h1, if_neg h2, if_neg h3, if_pos h4, if_pos hc],
              fun _ => by simp only [if_neg h1, if_neg h2, if_neg h3, if_pos h4, if_pos hc]⟩
          · by_cases hV : V.val.p = 0
            · right
              exact ⟨fun _ _ _ _ _ => by
                  simp only [if_neg h1, if_neg h2, if_neg h3, if_pos h4, if_neg hc, if_pos hV,
                    Backtrack],
                fun _ => by
                  simp only [if_neg h1, if_neg h2, if_neg h3, if_pos h4, if_neg hc, if_pos hV]⟩
            · left
              exact ⟨⟨true, rat_div T.val V.val⟩, fun _ => T,
                fun _ _ _ _ _ => by
                  simp only [if_neg h1, if_neg h2, if_neg h3, if_pos h4, if_neg hc, if_neg hV],
                fun _ => by
                  simp only [if_neg h1, if_neg h2, if_neg h3, if_pos h4, if_neg hc, if_neg hV]⟩
        · right
          exact ⟨fun _ _ _ _ _ => by
              simp only [if_neg h1, if_neg h2, if_neg h3, if_neg h4, Backtrack],
            fun _ => by simp only [if_neg h1, if_neg h2, if_neg h3, if_neg h4]⟩

theorem gen_solve_length (G : opt_rat → List Found) (w : Nat)
    (hG : ∀ T rs, rs ∈ G T → rs.2.length = w) (T U : opt_rat) (op : Char) (V : opt_rat)
    (rs : Found) (hrs : rs ∈ gen_solve G T U op V) : rs.2.length = w := by
  rcases solve_cases T U op V with ⟨T', post, _, hg⟩ | ⟨_, hg⟩
  · rw [hg G, List.mem_map] at hrs
    obtain ⟨rs', h', rfl⟩ := hrs
    exact hG T' rs' h'
  · rw [hg G] at hrs; cases hrs

theorem Sem_solve (L : Nat) (W : Nat → Prop) (self : goal) (Gself : opt_rat → Nat → List Found)
    (hself : Realizes L self Gself) (T U : opt_rat) (frm split : Nat) (op : Char) (V : opt_rat)
    (k : opt_rat → Globals → Globals) (Fk : opt_rat → List Char → List formula)
    (h1 : frm < split) (h2 : split < L) (hW : ∀ q, W q → ¬ (frm ≤ q ∧ q < split + 1))
    (hk : ∀ r, Sem L W (Fk r) (k r)) (hI : ∀ r, Insens L W (Fk r)) :
    Sem L (fun q => W q ∨ (frm ≤ q ∧ q < split + 1))
      (fun b => (gen_solve (fun U' => Gself U' (split - frm)) T U op V).flatMap
        (fun rs => Fk rs.1 (splice (b.set split op) frm rs.2)))
      (solve T self U frm split op V k) := by
  rcases solve_cases T U op V with ⟨T', post, hs, hg⟩ | ⟨hs, hg⟩
  · have hr := hself T' frm split (fun r g => k (post r) g) W (fun r => Fk (post r)) h1
      (le_of_lt h2) (fun q hq hh => hW q hq ⟨hh.1, by omega⟩) (fun r => hk (post r))
      (fun r => hI (post r))
    have hr2 := Sem_set split op hr
    intro g hg'
    rw [hs self frm split k g, hg]
    obtain ⟨f1, e1⟩ := hr2 g hg'
    refine ⟨f1.mono ?_, ?_⟩
    · rintro q ((hq | hq) | hq)
      · exact Or.inl hq
      · exact Or.inr ⟨hq.1, by omega⟩
      · exact Or.inr ⟨by omega, by omega⟩
    · rw [e1]; simp only [List.flatMap_map]
  · intro g hg'
    rw [hs self frm split k g, hg]
    exact ⟨Frame_set _ _ _ _ (Or.inr ⟨by omega, by omega⟩), by simp⟩

theorem Insens_solve (L : Nat) (W : Nat → Prop) (l : List Found)
    (Fk : opt_rat → List Char → List formula) (frm split : Nat) (op : Char)
    (hl : ∀ rs, rs ∈ l → rs.2.length = split - frm) (h1 : frm < split) (h2 : split < L)
    (hI : ∀ r, Insens L W (Fk r)) :
    Insens L (fun q => W q ∨ (frm ≤ q ∧ q < split + 1))
      (fun b => l.flatMap (fun rs => Fk rs.1 (splice (b.set split op) frm rs.2))) := by
  refine Insens_flatMap L _ l (fun rs b => Fk rs.1 (splice (b.set split op) frm rs.2)) ?_
  intro rs hrs
  have h3 := Insens_set split op
    (Insens_splice frm split rs.2 (hl rs hrs) (le_of_lt h1) (le_of_lt h2) (hI rs.1))
  refine Insens_congr ?_ (fun _ _ => rfl) h3
  rintro q (hq | hq)
  · exact Or.inl (Or.inl hq)
  · by_cases e : q = split
    · exact Or.inr e
    · exact Or.inl (Or.inr ⟨hq.1, by omega⟩)

/-! ## Concatenation of spans -/

theorem splice_binop (b : List Char) (frm split upto : Nat) (s1 s2 : List Char) (op : Char)
    (hs1 : s1.length = split - frm) (hs2 : s2.length = upto - split - 1) (h : frm ≤ split)
    (h' : split < upto) (hb : upto ≤ b.length) :
    splice ((splice b (split + 1) s2).set split op) frm s1 = splice b frm (s1 ++ op :: s2) := by
  have hl1 : (splice b (split + 1) s2).length = b.length := splice_length _ _ _ (by omega)
  apply List.ext_getElem?
  intro p
  rw [getElem?_splice _ _ _ (by rw [List.length_set, hl1]; omega),
    getElem?_splice _ _ _ (by rw [List.length_append, List.length_cons]; omega),
    List.getElem?_set, hl1, getElem?_splice _ _ _ (by omega),
    List.length_append, List.length_cons]
  by_cases q1 : p < frm
  · rw [if_pos q1, if_pos q1, if_neg (by omega), if_pos (by omega)]
  · rw [if_neg q1, if_neg q1]
    by_cases q2 : p < frm + s1.length
    · rw [if_pos q2, if_pos (by omega), List.getElem?_append_left (by omega)]
    · rw [if_neg q2]
      by_cases q3 : split = p
      · rw [if_pos q3, if_pos (by omega), if_pos (by omega),
          List.getElem?_append_right (by omega)]
        have : p - frm - s1.length = 0 := by omega
        rw [this]; simp
      · rw [if_neg q3, if_neg (by omega)]
        by_cases q4 : p < split + 1 + s2.length
        · rw [if_pos q4, if_pos (by omega), List.getElem?_append_right (by omega)]
          have : p - frm - s1.length = (p - (split + 1)) + 1 := by omega
          rw [this, List.getElem?_cons_succ]
        · rw [if_neg q4, if_neg (by omega)]

theorem splice_paren (b : List Char) (frm upto : Nat) (s : List Char)
    (hs : s.length = upto - frm - 2) (h : frm + 2 ≤ upto) (hb : upto ≤ b.length) :
    splice ((b.set frm '(').set (upto - 1) ')') (frm + 1) s =
      splice b frm ('(' :: s ++ [')']) := by
  apply List.ext_getElem?
  intro p
  rw [getElem?_splice _ _ _ (by simp only [List.length_set]; omega),
    getElem?_splice _ _ _ (by
      simp only [List.length_append, List.length_cons, List.length_nil]; omega),
    List.getElem?_set, List.getElem?_set]
  simp only [List.length_set, List.length_append, List.length_cons, List.length_nil,
    List.cons_append]
  by_cases q1 : p < frm
  · rw [if_pos (by omega), if_pos q1, if_neg (by omega), if_neg (by omega)]
  · rw [if_neg q1]
    by_cases q2 : p = frm
    · subst q2
      rw [if_pos (by omega), if_neg (by omega), if_pos rfl, if_pos (by omega),
        if_pos (by omega)]
      simp
    · rw [if_neg (by omega)]
      by_cases q3 : p < frm + 1 + s.length
      · rw [if_pos q3, if_pos (by omega)]
        have : p - frm = (p - (frm + 1)) + 1 := by omega
        rw [this, List.getElem?_cons_succ, List.getElem?_append_left (by omega)]
      · rw [if_neg q3]
        by_cases q4 : upto - 1 = p
        · rw [if_pos q4, if_pos (by omega), if_pos (by omega)]
          have : p - frm = (p - (frm + 1)) + 1 := by omega
          rw [this, List.getElem?_cons_succ, List.getElem?_append_right (by omega)]
          have : p - (frm + 1) - s.length = 0 := by omega
          rw [this]; simp
        · rw [if_neg q4, if_neg (by omega), if_neg (by omega)]

/-! ## The binary productions -/

theorem binop_length (Gsub Gself : opt_rat → Nat → List Found) (lsub : Lengths Gsub)
    (lself : Lengths Gself) (T U Vun : opt_rat) (w : Nat) (op : Char) (rs : Found)
    (hrs : rs ∈ (choices ((w : Int) - 2)).flatMap (fun c' =>
      (Gsub Vun (w - c'.toNat - 1)).flatMap (fun vs =>
        (gen_solve (fun U' => Gself U' c'.toNat) T U op vs.1).map
          (fun rs => (rs.1, rs.2 ++ op :: vs.2))))) :
    rs.2.length = w := by
  simp only [List.mem_flatMap, List.mem_map] at hrs
  obtain ⟨c', hc', vs, hvs, rs', hrs', rfl⟩ := hrs
  rw [mem_choices] at hc'
  have h1 := lsub _ _ _ hvs
  have h2 := gen_solve_length _ c'.toNat (fun T' x hx => lself T' _ x hx) _ _ _ _ _ hrs'
  simp only [List.length_append, List.length_cons, h1, h2]
  omega

theorem Sem_binop (L : Nat) (W : Nat → Prop) (sub self : goal)
    (Gsub Gself : opt_rat → Nat → List Found)
    (hsub : Realizes L sub Gsub) (hself : Realizes L self Gself)
    (lsub : Lengths Gsub) (lself : Lengths Gself) (T U Vun : opt_rat) (frm upto : Nat)
    (op : Char) (k : opt_rat → Globals → Globals) (Fk : opt_rat → List Char → List formula)
    (h1 : frm < upto) (h2 : upto ≤ L) (hW : ∀ q, W q → ¬ (frm ≤ q ∧ q < upto))
    (hk : ∀ r, Sem L W (Fk r) (k r)) (hI : ∀ r, Insens L W (Fk r)) :
    Sem L (fun q => W q ∨ (frm ≤ q ∧ q < upto))
      (fun b => ((choices (((upto - frm : Nat) : Int) - 2)).flatMap (fun c' =>
        (Gsub Vun (upto - frm - c'.toNat - 1)).flatMap (fun vs =>
          (gen_solve (fun U' => Gself U' c'.toNat) T U op vs.1).map
            (fun rs => (rs.1, rs.2 ++ op :: vs.2))))).flatMap
        (fun rs => Fk rs.1 (splice b frm rs.2)))
      (Choice ((upto : Int) - frm - 2) (fun c =>
        sub Vun (frm + c.toNat + 1) upto (fun V =>
          solve T self U frm (frm + c.toNat) op V k))) := by
  have hN : ((upto - frm : Nat) : Int) - 2 = (upto : Int) - frm - 2 := by omega
  simp only [hN, List.flatMap_assoc, List.flatMap_map]
  refine Sem_Choice L _ _ (fun c b =>
    (Gsub Vun (upto - frm - c.toNat - 1)).flatMap (fun vs =>
      (gen_solve (fun U' => Gself U' c.toNat) T U op vs.1).flatMap
        (fun rs => Fk rs.1 (splice b frm (rs.2 ++ op :: vs.2))))) _ ?_ ?_
  · intro c hc
    rw [mem_choices] at hc
    have hlenS : ∀ V rs, rs ∈ gen_solve (fun U' => Gself U' (frm + c.toNat - frm)) T U op V →
        rs.2.length = frm + c.toNat - frm :=
      fun V rs hrs => gen_solve_length _ _ (fun T' x hx => lself T' _ x hx) _ _ _ _ _ hrs
    have hsolve := fun V => Sem_solve L W self Gself hself T U frm (frm + c.toNat) op V k Fk
      (by omega) (by omega) (fun q hq hh => hW q hq ⟨hh.1, by omega⟩) hk hI
    have hIsolve := fun V => Insens_solve L W
      (gen_solve (fun U' => Gself U' (frm + c.toNat - frm)) T U op V) Fk frm (frm + c.toNat) op
      (hlenS V) (by omega) (by omega) hI
    have hr := hsub Vun (frm + c.toNat + 1) upto
      (fun V => solve T self U frm (frm + c.toNat) op V k)
      (fun q => W q ∨ (frm ≤ q ∧ q < frm + c.toNat + 1)) _ (by omega) h2
      (fun q hq hh => hq.elim (fun hq' => hW q hq' ⟨by omega, hh.2⟩) (fun hq' => by omega))
      hsolve hIsolve
    refine Sem_congr ?_ ?_ hr
    · rintro q ((hq | hq) | hq)
      · exact Or.inl hq
      · exact Or.inr ⟨hq.1, by omega⟩
      · exact Or.inr ⟨by omega, hq.2⟩
    · intro b hb
      have e1 : upto - (frm + c.toNat + 1) = upto - frm - c.toNat - 1 := by omega
      have e2 : frm + c.toNat - frm = c.toNat := by omega
      simp only [e1, e2] at hlenS ⊢
      apply List.flatMap_congr
      intro vs hvs
      apply List.flatMap_congr
      intro rs hrs
      rw [splice_binop b frm (frm + c.toNat) upto rs.2 vs.2 op (by rw [hlenS _ _ hrs]; omega)
        (by rw [lsub _ _ _ hvs]; omega) (by omega) (by omega) (by omega)]
  · intro c hc
    rw [mem_choices] at hc
    refine Insens_flatMap L _ _ _ ?_
    intro vs hvs
    refine Insens_flatMap L _ _ _ ?_
    intro rs hrs
    refine Insens_splice frm upto _ ?_ (le_of_lt h1) h2 (hI rs.1)
    have a1 := lsub _ _ _ hvs
    have a2 := gen_solve_length _ c.toNat (fun T' x hx => lself T' _ x hx) _ _ _ _ _ hrs
    simp only [List.length_append, List.length_cons, a1, a2]
    omega

/-! ## The grammar functions and the lists of their solutions -/

theorem gen_lengths (cfg : Config) (fuel : Nat) :
    Lengths (gen_expression cfg fuel) ∧ Lengths (gen_term cfg fuel) ∧
      Lengths (gen_factor cfg fuel) := by
  induction fuel with
  | zero =>
    refine ⟨?_, ?_, ?_⟩ <;> intro T w rs hrs
    · rw [gen_expression] at hrs; cases hrs
    · rw [gen_term] at hrs; cases hrs
    · rw [gen_factor] at hrs; cases hrs
  | succ fuel ih =>
    obtain ⟨ihe, iht, ihf⟩ := ih
    refine ⟨?_, ?_, ?_⟩ <;> intro T w rs hrs
    · rw [gen_expression, List.mem_flatMap] at hrs
      obtain ⟨c, _, hrs⟩ := hrs
      split at hrs
      · exact iht _ _ _ hrs
      · exact binop_length _ _ iht ihe _ _ _ _ _ _ hrs
    · rw [gen_term, List.mem_flatMap] at hrs
      obtain ⟨c, _, hrs⟩ := hrs
      split at hrs
      · exact ihf _ _ _ hrs
      · exact binop_length _ _ ihf iht _ _ _ _ _ _ hrs
    · rw [gen_factor, List.mem_flatMap] at hrs
      obtain ⟨c, _, hrs⟩ := hrs
      split at hrs
      · exact gen_number_length _ _ _ hrs
      · split at hrs
        · cases hrs
        · rw [List.mem_map] at hrs
          obtain ⟨rs', hrs', rfl⟩ := hrs
          have := ihe _ _ _ hrs'
          simp only [List.length_cons, List.length_append, List.length_nil, this]
          omega

theorem realizes_zero (L : Nat) (X : goal) (G : opt_rat → Nat → List Found)
    (hX : ∀ T frm upto, X T frm upto = Backtrack) (hG : ∀ T w, G T w = []) :
    Realizes L X G := by
  intro T frm upto k W Fk _ _ _ _ _
  rw [hX]
  simp only [hG, List.flatMap_nil]
  exact Sem_congr (fun q hq => Or.inl hq) (fun _ _ => rfl) (Sem_backtrack L W)

/-- The step of `expression` and of `term`: a choice between the next
grammar level and the two binary productions. -/
theorem realizes_step (L : Nat) (sub self : goal) (Gsub Gself : opt_rat → Nat → List Found)
    (hsub : Realizes L sub Gsub) (hself : Realizes L self Gself)
    (lsub : Lengths Gsub) (lself : Lengths Gself) (op2 op3 : Char) :
    Realizes L
      (fun T frm upto k =>
        Choice 3 (fun c =>
          if c = 1 then sub T frm upto k
          else
            Choice ((upto : Int) - frm - 2) (fun c' =>
              sub { opt_rat.uninit with set := false } (frm + c'.toNat + 1) upto (fun V =>
                solve T self opt_rat.uninit frm (frm + c'.toNat)
                  (if c = 2 then op2 else op3) V k))))
      (fun T w =>
        (choices 3).flatMap (fun c =>
          if c = 1 then Gsub T w
          else
            (choices ((w : Int) - 2)).flatMap (fun c' =>
              (Gsub { opt_rat.uninit with set := false } (w - c'.toNat - 1)).flatMap
                (fun vs =>
                  (gen_solve (fun U => Gself U c'.toNat) T opt_rat.uninit
                    (if c = 2 then op2 else op3) vs.1).map
                    (fun rs => (rs.1, rs.2 ++ (if c = 2 then op2 else op3) :: vs.2)))))) := by
  intro T frm upto k W Fk h1 h2 hW hk hI
  simp only [List.flatMap_assoc]
  refine Sem_Choice L (fun q => W q ∨ (frm ≤ q ∧ q < upto)) 3 (fun c b =>
    (if c = 1 then Gsub T (upto - frm)
      else
        (choices (((upto - frm : Nat) : Int) - 2)).flatMap (fun c' =>
          (Gsub { opt_rat.uninit with set := false } (upto - frm - c'.toNat - 1)).flatMap
            (fun vs =>
              (gen_solve (fun U => Gself U c'.toNat) T opt_rat.uninit
                (if c = 2 then op2 else op3) vs.1).map
                (fun rs => (rs.1, rs.2 ++ (if c = 2 then op2 else op3) :: vs.2))))).flatMap
      (fun rs => Fk rs.1 (splice b frm rs.2)))
    (fun c =>
      if c = 1 then sub T frm upto k
      else
        Choice ((upto : Int) - frm - 2) (fun c' =>
          sub { opt_rat.uninit with set := false } (frm + c'.toNat + 1) upto (fun V =>
            solve T self opt_rat.uninit frm (frm + c'.toNat)
              (if c = 2 then op2 else op3) V k))) ?_ ?_
  · intro c _
    by_cases hc : c = 1
    · simp only [hc, if_true]
      exact hsub T frm upto k W Fk h1 h2 hW hk hI
    · simp only [hc, if_false]
      exact Sem_binop L W sub self Gsub Gself hsub hself lsub lself T opt_rat.uninit
        { opt_rat.uninit with set := false } frm upto (if c = 2 then op2 else op3) k Fk
        h1 h2 hW hk hI
  · intro c _
    refine Insens_solutions _ Fk frm upto ?_ (le_of_lt h1) h2 hI
    intro rs hrs
    split at hrs
    · exact lsub _ _ _ hrs
    · exact binop_length _ _ lsub lself _ _ _ _ _ _ hrs

theorem realizes_factor (cfg : Config) (L fuel : Nat)
    (he : Realizes L (expression cfg fuel) (gen_expression cfg fuel))
    (le : Lengths (gen_expression cfg fuel)) :
    Realizes L (factor cfg (fuel + 1)) (gen_factor cfg (fuel + 1)) := by
  intro T frm upto k W Fk h1 h2 hW hk hI
  rw [factor]
  simp only [gen_factor, List.flatMap_assoc]
  refine Sem_Choice L (fun q => W q ∨ (frm ≤ q ∧ q < upto))
    (1 + (if cfg.ALLOW_PARENTHESIS then 1 else 0)) (fun c b =>
    (if c = 1 then gen_number T (upto - frm)
      else if ((upto - frm : Nat) : Int) < 3 then []
      else (gen_expression cfg fuel T (upto - frm - 2)).map
        (fun rs => (rs.1, '(' :: rs.2 ++ [')']))).flatMap
      (fun rs => Fk rs.1 (splice b frm rs.2)))
    (fun c =>
      if c = 1 then number T frm upto k
      else fun g =>
        if (upto : Int) - frm < 3 then Backtrack k g
        else
          expression cfg fuel T (frm + 1) (upto - 1) k
            { buffer := ({ g with buffer := g.buffer.set frm '(' } : Globals).buffer.set
                (upto - 1) ')',
              formulae := g.formulae }) ?_ ?_
  · intro c _
    by_cases hc : c = 1
    · simp only [hc, if_true]
      exact Realizes_number L T frm upto k W Fk h1 h2 hW hk hI
    · simp only [hc, if_false]
      have hcast : ((upto - frm : Nat) : Int) = (upto : Int) - frm := by omega
      by_cases hw : (upto : Int) - frm < 3
      · simp only [hcast, if_pos hw, List.flatMap_nil, Backtrack]
        exact Sem_congr (fun q hq => Or.inl hq) (fun _ _ => rfl) (Sem_backtrack L W)
      · simp only [hcast, if_neg hw]
        have hr := he T (frm + 1) (upto - 1) k W Fk (by omega) (by omega)
          (fun q hq hh => hW q hq ⟨by omega, by omega⟩) hk hI
        have hr2 := Sem_set frm '(' (Sem_set (upto - 1) ')' hr)
        refine Sem_congr ?_ ?_ hr2
        · rintro q ((hq | hq) | hq)
          · rcases hq with hq | hq
            · exact Or.inl hq
            · exact Or.inr ⟨by omega, by omega⟩
          · exact Or.inr ⟨by omega, by omega⟩
          · exact Or.inr ⟨by omega, by omega⟩
        · intro b hb
          have e1 : upto - 1 - (frm + 1) = upto - frm - 2 := by omega
          simp only [e1, List.flatMap_map]
          apply List.flatMap_congr
          intro rs hrs
          rw [splice_paren b frm upto rs.2 (le _ _ _ hrs) (by omega) (by omega)]
  · intro c _
    refine Insens_solutions _ Fk frm upto ?_ (le_of_lt h1) h2 hI
    intro rs hrs
    split at hrs
    · exact gen_number_length _ _ _ hrs
    · split at hrs
      · cases hrs
      · rw [List.mem_map] at hrs
        obtain ⟨rs', hrs', rfl⟩ := hrs
        have := le _ _ _ hrs'
        simp only [List.length_cons, List.length_append, List.length_nil, this]
        have : ¬ ((upto - frm : Nat) : Int) < 3 := by assumption
        omega

/-- The grammar functions hand to their continuation exactly the solutions
the lists enumerate, whatever earlier abandoned branches left in the buffer. -/
theorem realizes_all (cfg : Config) (L fuel : Nat) :
    Realizes L (expression cfg fuel) (gen_expression cfg fuel) ∧
    Realizes L (term cfg fuel) (gen_term cfg fuel) ∧
    Realizes L (factor cfg fuel) (gen_factor cfg fuel) := by
  induction fuel with
  | zero =>
    exact ⟨realizes_zero L _ _ (fun _ _ _ => by rw [expression]) (fun _ _ => by rw [gen_expression]),
      realizes_zero L _ _ (fun _ _ _ => by rw [term]) (fun _ _ => by rw [gen_term]),
      realizes_zero L _ _ (fun _ _ _ => by rw [factor]) (fun _ _ => by rw [gen_factor])⟩
  | succ fuel ih =>
    obtain ⟨ihe, iht, ihf⟩ := ih
    obtain ⟨le, lt, lf⟩ := gen_lengths cfg fuel
    refine ⟨?_, ?_, realizes_factor cfg L fuel ihe le⟩
    · have := realizes_step L (term cfg fuel) (expression cfg fuel) (gen_term cfg fuel)
        (gen_expression cfg fuel) iht ihe lt le '+' '-'
      intro T frm upto k W Fk h1 h2 hW hk hI
      have h := this T frm upto k W Fk h1 h2 hW hk hI
      rw [expression]
      simp only [gen_expression]
      exact h
    · have := realizes_step L (factor cfg fuel) (term cfg fuel) (gen_factor cfg fuel)
        (gen_term cfg fuel) ihf iht lf lt '*' '/'
      intro T frm upto k W Fk h1 h2 hW hk hI
      have h := this T frm upto k W Fk h1 h2 hW hk hI
      rw [term]
      simp only [gen_term]
      exact h

/-! ## `findall` -/

theorem splice_whole (b s : List Char) (h : s.length = b.length) : splice b 0 s = s := by
  unfold splice
  rw [List.take_zero, List.nil_append, Nat.zero_add, h, List.drop_length, List.append_nil]

theorem Frame_empty_eq {b b' : List Char} (h : Frame (fun _ => False) b b') : b' = b :=
  List.ext_getElem? (fun p => h.2 p (fun hh => hh))

theorem Sem_accept (cfg : Config) (L : Nat) (r : opt_rat) :
    Sem L (fun _ => False) (accept cfg)
      ((fun (_ : opt_rat) (g : Globals) =>
        if count_op cfg g.buffer > cfg.MAX_OP then g
        else { g with formulae := g.formulae ++ [make_formula cfg g.buffer] }) r) := by
  intro g _
  unfold accept
  simp only []
  by_cases h : count_op cfg g.buffer > cfg.MAX_OP
  · rw [if_pos h, if_pos h]
    exact ⟨Frame.refl _ _, by simp⟩
  · rw [if_neg h, if_neg h]
    exact ⟨Frame.refl _ _, rfl⟩

theorem Insens_accept (cfg : Config) (L : Nat) : Insens L (fun _ => False) (accept cfg) := by
  intro b b' _ h
  rw [Frame_empty_eq h]

/-- The store after `findall`: the formulas of the accepted solutions are
appended in the order of the search. -/
theorem findall_formulae (cfg : Config) (num : rat) (g : Globals)
    (hg : g.buffer.length = cfg.SIZE) (hS : 0 < cfg.SIZE) :
    (findall cfg num g).formulae =
      g.formulae ++ (gen_findall cfg num).flatMap (fun rs => accept cfg rs.2) := by
  obtain ⟨he, ht, _⟩ := realizes_all cfg cfg.SIZE (search_depth cfg)
  obtain ⟨le, lt, _⟩ := gen_lengths cfg (search_depth cfg)
  unfold findall gen_findall
  simp only []
  by_cases hN : cfg.NUMBLE = true
  · simp only [hN, if_true]
    have hb := Sem_binop cfg.SIZE (fun _ => False) (term cfg (search_depth cfg))
      (expression cfg (search_depth cfg)) _ _ ht he lt le ⟨true, num⟩ opt_rat.uninit
      { opt_rat.uninit with set := false } 0 cfg.SIZE '='
      (fun (_ : opt_rat) (g : Globals) =>
        if count_op cfg g.buffer > cfg.MAX_OP then g
        else { g with formulae := g.formulae ++ [make_formula cfg g.buffer] })
      (fun _ => accept cfg) hS (le_refl _) (fun _ hq => hq.elim)
      (Sem_accept cfg cfg.SIZE) (fun _ => Insens_accept cfg cfg.SIZE)
    obtain ⟨_, e⟩ := hb g hg
    simp only [Nat.sub_zero, Nat.zero_add, Nat.cast_zero, sub_zero, Int.sub_zero] at e
    rw [e]
    congr 1
    apply List.flatMap_congr
    intro rs hrs
    have hl := binop_length _ _ lt le _ _ _ _ _ _ hrs
    rw [splice_whole _ _ (by rw [hl, hg])]
  · simp only [hN, Bool.false_eq_true, if_false]
    have hb := he ⟨true, num⟩ 0 cfg.SIZE
      (fun (_ : opt_rat) (g : Globals) =>
        if count_op cfg g.buffer > cfg.MAX_OP then g
        else { g with formulae := g.formulae ++ [make_formula cfg g.buffer] })
      (fun _ => False) (fun _ => accept cfg) hS (le_refl _) (fun _ hq => hq.elim)
      (Sem_accept cfg cfg.SIZE) (fun _ => Insens_accept cfg cfg.SIZE)
    obtain ⟨_, e⟩ := hb g hg
    rw [e]
    congr 1
    apply List.flatMap_congr
    intro rs hrs
    have hl := le _ _ _ hrs
    rw [Nat.sub_zero] at hl
    rw [splice_whole _ _ (by rw [hl, hg])]

/-- The candidate store is the list of the formulas of the accepted solutions. -/
theorem generate_eq (cfg : Config) (target : rat) (hS : 0 < cfg.SIZE) :
    generate cfg target = (gen_findall cfg target).flatMap (fun rs => accept cfg rs.2) := by
  unfold generate
  rw [findall_formulae cfg target _ (by simp [Globals.init]) hS]
  simp [Globals.init]

theorem mem_generate_iff (cfg : Config) (target : rat) (hS : 0 < cfg.SIZE) (f : formula) :
    f ∈ generate cfg target ↔
      ∃ rs, rs ∈ gen_findall cfg target ∧ count_op cfg rs.2 ≤ cfg.MAX_OP ∧
        f = make_formula cfg rs.2 := by
  rw [generate_eq cfg target hS, List.mem_flatMap]
  constructor
  · rintro ⟨rs, hrs, hf⟩
    unfold accept at hf
    split at hf
    · cases hf
    · rw [List.mem_singleton] at hf
      exact ⟨rs, hrs, by omega, hf⟩
  · rintro ⟨rs, hrs, hc, hf⟩
    refine ⟨rs, hrs, ?_⟩
    unfold accept
    rw [if_neg (by omega), List.mem_singleton]
    exact hf

/-! ## Rational arithmetic -/

theorem natCast_tmod (a b : Nat) : ((a : Int)).tmod (b : Int) = ((a % b : Nat) : Int) := by
  rw [Int.tmod_eq_emod (Int.natCast_nonneg a) (Int.natCast_nonneg b), Int.natCast_mod]

theorem gcd_loop_nat (fuel a b : Nat) (hb : 0 < b) (hf : b < fuel) :
    (gcd_loop fuel (a : Int) (b : Int)).1 + (gcd_loop fuel (a : Int) (b : Int)).2 =
      ((Nat.gcd a b : Nat) : Int) := by
  induction fuel generalizing a b with
  | zero => omega
  | succ fuel ih =>
    unfold gcd_loop
    simp only [natCast_tmod]
    have e1 : Nat.gcd a b = Nat.gcd (a % b) b := by rw [Nat.gcd_comm a b, Nat.gcd_rec b a]
    have e2 : Nat.gcd (a % b) b = Nat.gcd (b % (a % b)) (a % b) := Nat.gcd_rec _ _
    by_cases h1 : a % b = 0
    · rw [if_neg (by rw [h1]; simp)]
      have : Nat.gcd a b = b := Nat.gcd_eq_right (Nat.dvd_of_mod_eq_zero h1)
      simp only [h1, this]
      simp
    · rw [if_pos (by exact_mod_cast h1)]
      by_cases h2 : b % (a % b) = 0
      · rw [if_neg (by rw [h2]; simp)]
        have : Nat.gcd a b = a % b := by
          rw [e1]; exact Nat.gcd_eq_left (Nat.dvd_of_mod_eq_zero h2)
        simp only [h2, this]
        simp
      · rw [if_pos (by exact_mod_cast h2)]
        have hlt1 : a % b < b := Nat.mod_lt _ hb
        have hlt2 : b % (a % b) < a % b := Nat.mod_lt _ (Nat.pos_of_ne_zero h1)
        rw [ih (a % b) (b % (a % b)) (Nat.pos_of_ne_zero h2) (by omega)]
        congr 1
        rw [e1, e2, Nat.gcd_comm]

/-- The C function `gcd` computes the greatest common divisor of the absolute values. -/
theorem gcd_eq (a b : Int) : gcd a b = ((Int.gcd a b : Nat) : Int) := by
  unfold gcd
  simp only []
  have ha : (if a < 0 then -a else a) = ((a.natAbs : Nat) : Int) := by
    split <;> omega
  have hb : (if b < 0 then -b else b) = ((b.natAbs : Nat) : Int) := by
    split <;> omega
  rw [ha, hb, Int.gcd_def]
  by_cases hz : b.natAbs = 0
  · rw [if_neg (by rw [hz]; simp)]
    simp [hz]
  · rw [if_pos (by exact_mod_cast hz)]
    exact gcd_loop_nat _ _ _ (Nat.pos_of_ne_zero hz) (by omega)

theorem rat_norm_spec (p q : Int) (hq : q ≠ 0) :
    (rat_norm p q).q ≠ 0 ∧ (rat_norm p q).toRat = (p : ℚ) / (q : ℚ) := by
  unfold rat_norm rat.toRat
  simp only []
  rw [gcd_eq]
  have ht : ((Int.gcd p q : Nat) : Int) ≠ 0 := by
    have : Int.gcd p q ≠ 0 := fun h => hq (Int.gcd_eq_zero_iff.mp h).2
    exact_mod_cast this
  have hp' : p.tdiv (Int.gcd p q) * (Int.gcd p q) = p := Int.tdiv_mul_cancel Int.gcd_dvd_left
  have hq' : q.tdiv (Int.gcd p q) * (Int.gcd p q) = q := Int.tdiv_mul_cancel Int.gcd_dvd_right
  have hqn : q.tdiv (Int.gcd p q) ≠ 0 := by
    intro h
    rw [h, zero_mul] at hq'
    exact hq hq'.symm
  refine ⟨hqn, ?_⟩
  have htq : ((Int.gcd p q : Int) : ℚ) ≠ 0 := by exact_mod_cast ht
  have hqq : ((q.tdiv (Int.gcd p q) : Int) : ℚ) ≠ 0 := by exact_mod_cast hqn
  have hpQ : (p : ℚ) = ((p.tdiv (Int.gcd p q) : Int) : ℚ) * ((Int.gcd p q : Int) : ℚ) := by
    exact_mod_cast hp'.symm
  have hqQ : (q : ℚ) = ((q.tdiv (Int.gcd p q) : Int) : ℚ) * ((Int.gcd p q : Int) : ℚ) := by
    exact_mod_cast hq'.symm
  calc ((p.tdiv (Int.gcd p q) : Int) : ℚ) / ((q.tdiv (Int.gcd p q) : Int) : ℚ)
      = (((p.tdiv (Int.gcd p q) : Int) : ℚ) * ((Int.gcd p q : Int) : ℚ)) /
          (((q.tdiv (Int.gcd p q) : Int) : ℚ) * ((Int.gcd p q : Int) : ℚ)) :=
        (mul_div_mul_right _ _ htq).symm
    _ = (p : ℚ) / (q : ℚ) := by rw [← hpQ, ← hqQ]

theorem to_integer_small (x : Int) (h1 : -2 ^ 31 ≤ x) (h2 : x < 2 ^ 31) : to_integer x = x := by
  unfold to_integer
  omega

theorem to_integer_of_abs_is_int (x : Int) (h : abs_is_int x) : to_integer x = x := by
  have h1 := abs_lt.mp h
  exact to_integer_small x (le_of_lt h1.1) h1.2

theorem to_integer_range (x : Int) : -2 ^ 31 ≤ to_integer x ∧ to_integer x < 2 ^ 31 := by
  unfold to_integer
  omega

theorem to_integer_add (a b : Int) :
    to_integer (to_integer a + to_integer b) = to_integer (a + b) := by
  unfold to_integer
  omega

theorem to_integer_sub (a b : Int) :
    to_integer (to_integer a - to_integer b) = to_integer (a - b) := by
  unfold to_integer
  omega

/-- The operations, with the numerator reduced once. -/
theorem rat_add_eq (u v : rat) :
    rat_add u v = rat_norm (to_integer (u.p * v.q + v.p * u.q)) (to_integer (u.q * v.q)) := by
  unfold rat_add
  rw [to_integer_add]

theorem rat_sub_eq (u v : rat) :
    rat_sub u v = rat_norm (to_integer (u.p * v.q - v.p * u.q)) (to_integer (u.q * v.q)) := by
  unfold rat_sub
  rw [to_integer_sub]

/-- `rat_add` is exact when its numerator and its denominator are `int` values. -/
theorem rat_add_spec (u v : rat) (hu : u.q ≠ 0) (hv : v.q ≠ 0)
    (h1 : abs_is_int (u.p * v.q + v.p * u.q)) (h2 : abs_is_int (u.q * v.q)) :
    (rat_add u v).q ≠ 0 ∧ (rat_add u v).toRat = u.toRat + v.toRat := by
  rw [rat_add_eq, to_integer_of_abs_is_int _ h1, to_integer_of_abs_is_int _ h2]
  obtain ⟨h1, h2⟩ := rat_norm_spec (u.p * v.q + v.p * u.q) (u.q * v.q) (mul_ne_zero hu hv)
  refine ⟨h1, ?_⟩
  rw [h2]
  unfold rat.toRat
  have hu' : (u.q : ℚ) ≠ 0 := by exact_mod_cast hu
  have hv' : (v.q : ℚ) ≠ 0 := by exact_mod_cast hv
  push_cast
  field_simp

/-- `rat_sub` is exact when its numerator and its denominator are `int` values. -/
theorem rat_sub_spec (u v : rat) (hu : u.q ≠ 0) (hv : v.q ≠ 0)
    (h1 : abs_is_int (u.p * v.q - v.p * u.q)) (h2 : abs_is_int (u.q * v.q)) :
    (rat_sub u v).q ≠ 0 ∧ (rat_sub u v).toRat = u.toRat - v.toRat := by
  rw [rat_sub_eq, to_integer_of_abs_is_int _ h1, to_integer_of_abs_is_int _ h2]
  obtain ⟨h1, h2⟩ := rat_norm_spec (u.p * v.q - v.p * u.q) (u.q * v.q) (mul_ne_zero hu hv)
  refine ⟨h1, ?_⟩
  rw [h2]
  unfold rat.toRat
  have hu' : (u.q : ℚ) ≠ 0 := by exact_mod_cast hu
  have hv' : (v.q : ℚ) ≠ 0 := by exact_mod_cast hv
  push_cast
  field_simp
  ring

/-- `rat_mul` is exact when its numerator and its denominator are `int` values. -/
theorem rat_mul_spec (u v : rat) (hu : u.q ≠ 0) (hv : v.q ≠ 0)
    (h1 : abs_is_int (u.p * v.p)) (h2 : abs_is_int (u.q * v.q)) :
    (rat_mul u v).q ≠ 0 ∧ (rat_mul u v).toRat = u.toRat * v.toRat := by
  unfold rat_mul
  rw [to_integer_of_abs_is_int _ h1, to_integer_of_abs_is_int _ h2]
  obtain ⟨h1, h2⟩ := rat_norm_spec (u.p * v.p) (u.q * v.q) (mul_ne_zero hu hv)
  refine ⟨h1, ?_⟩
  rw [h2]
  unfold rat.toRat
  have hu' : (u.q : ℚ) ≠ 0 := by exact_mod_cast hu
  have hv' : (v.q : ℚ) ≠ 0 := by exact_mod_cast hv
  push_cast
  field_simp

/-- `rat_div` is exact when its numerator and its denominator are `int` values. -/
theorem rat_div_spec (u v : rat) (hu : u.q ≠ 0) (hv : v.q ≠ 0) (hvp : v.p ≠ 0)
    (h1 : abs_is_int (u.p * v.q)) (h2 : abs_is_int (u.q * v.p)) :
    (rat_div u v).q ≠ 0 ∧ (rat_div u v).toRat = u.toRat / v.toRat := by
  unfold rat_div
  rw [to_integer_of_abs_is_int _ h1, to_integer_of_abs_is_int _ h2]
  obtain ⟨h1, h2⟩ := rat_norm_spec (u.p * v.q) (u.q * v.p) (mul_ne_zero hu hvp)
  refine ⟨h1, ?_⟩
  rw [h2]
  unfold rat.toRat
  have hu' : (u.q : ℚ) ≠ 0 := by exact_mod_cast hu
  have hv' : (v.q : ℚ) ≠ 0 := by exact_mod_cast hv
  have hp' : (v.p : ℚ) ≠ 0 := by exact_mod_cast hvp
  push_cast
  field_simp

theorem toRat_ne_zero (v : rat) (hv : v.q ≠ 0) (hvp : v.p ≠ 0) : v.toRat ≠ 0 := by
  unfold rat.toRat
  have hv' : (v.q : ℚ) ≠ 0 := by exact_mod_cast hv
  have hp' : (v.p : ℚ) ≠ 0 := by exact_mod_cast hvp
  exact div_ne_zero hp' hv'

theorem toRat_eq_zero (v : rat) (hvp : v.p = 0) : v.toRat = 0 := by
  unfold rat.toRat
  rw [hvp]; simp

theorem lor_eq_zero (a b : Int) (h : Int.lor a b = 0) : a = 0 ∧ b = 0 := by
  cases a with
  | ofNat m =>
    cases b with
    | ofNat n =>
      have h' : ((m ||| n : Nat) : Int) = 0 := h
      have h'' : m ||| n = 0 := by exact_mod_cast h'
      have hm : m = 0 := by
        apply Nat.eq_of_testBit_eq
        intro i
        have := congrArg (fun x => x.testBit i) h''
        simp only [Nat.testBit_lor, Nat.zero_testBit, Bool.or_eq_false_iff] at this
        rw [this.1, Nat.zero_testBit]
      have hn : n = 0 := by
        apply Nat.eq_of_testBit_eq
        intro i
        have := congrArg (fun x => x.testBit i) h''
        simp only [Nat.testBit_lor, Nat.zero_testBit, Bool.or_eq_false_iff] at this
        rw [this.2, Nat.zero_testBit]
      subst hm; subst hn
      exact ⟨rfl, rfl⟩
    | negSucc n => exact absurd h (by simp [Int.lor])
  | negSucc m =>
    cases b with
    | ofNat n => exact absurd h (by simp [Int.lor])
    | negSucc n => exact absurd h (by simp [Int.lor])

/-! ## Decimal digits -/

theorem digit_char_facts (d : Nat) (hd : d < 10) :
    (Char.ofNat (48 + d)).isDigit = true ∧ (Char.ofNat (48 + d)).toNat - 48 = d ∧
      (Char.ofNat (48 + d) = '0' ↔ d = 0) := by
  interval_cases d <;> decide

theorem last_digits_succ_nat (w m : Nat) :
    last_digits (w + 1) (m : Int) =
      last_digits w ((m / 10 : Nat) : Int) ++ [Char.ofNat (48 + m % 10)] := by
  rw [last_digits, natCast_tdiv_ten, natCast_tmod_ten]
  congr 3

theorem num_value_append (xs : List Char) (c : Char) :
    num_value (xs ++ [c]) = 10 * num_value xs + (c.toNat - 48) := by
  unfold num_value
  rw [List.foldl_append]
  rfl

theorem num_value_last_digits (w m : Nat) :
    num_value (last_digits w (m : Int)) = m % 10 ^ w := by
  induction w generalizing m with
  | zero => simp [last_digits, num_value, Nat.mod_one]
  | succ w ih =>
    rw [last_digits_succ_nat, num_value_append, ih,
      (digit_char_facts (m % 10) (Nat.mod_lt _ (by norm_num))).2.1, pow_succ,
      Nat.mul_comm (10 ^ w) 10, Nat.mod_mul]
    omega

theorem last_digits_isDigit (w m : Nat) (c : Char) (hc : c ∈ last_digits w (m : Int)) :
    c.isDigit = true := by
  induction w generalizing m with
  | zero => simp [last_digits] at hc
  | succ w ih =>
    rw [last_digits_succ_nat, List.mem_append, List.mem_singleton] at hc
    rcases hc with hc | hc
    · exact ih _ hc
    · rw [hc]; exact (digit_char_facts (m % 10) (Nat.mod_lt _ (by norm_num))).1

theorem last_digits_head (w m : Nat) :
    (last_digits (w + 1) (m : Int)).head? = some (Char.ofNat (48 + (m / 10 ^ w) % 10)) := by
  induction w generalizing m with
  | zero => rw [last_digits_succ_nat]; simp [last_digits]
  | succ w ih =>
    rw [last_digits_succ_nat, List.head?_append_of_ne_nil _ (by
      intro h
      have := congrArg List.length h
      rw [last_digits_length] at this
      cases this), ih, Nat.div_div_eq_div_mul, pow_succ, Nat.mul_comm]

/-- A number that fills its span is a `number` of the grammar with its own value. -/
theorem Derives_number_of_scan (paren : Bool) (w m : Nat)
    (h : num_scan (w + 1) (m : Int) = (0, 0)) :
    Derives paren Level.factor (last_digits (w + 1) (m : Int)) (m : ℚ) := by
  obtain ⟨a, b⟩ := num_scan_nat w m
  have hz : (num_scan (w + 1) (m : Int)).2 = 0 := by rw [h]
  have hf := b hz
  rw [h] at hf
  have hdiv : m / 10 ^ (w + 1) = 0 := by
    have hf' : ((m / 10 ^ (w + 1) : Nat) : Int) = 0 := hf.symm
    exact_mod_cast hf'
  have hlt : m < 10 ^ (w + 1) := by
    rcases Nat.lt_or_ge m (10 ^ (w + 1)) with h' | h'
    · exact h'
    · have := Nat.div_pos h' (by positivity)
      omega
  have hval : num_value (last_digits (w + 1) (m : Int)) = m := by
    rw [num_value_last_digits, Nat.mod_eq_of_lt hlt]
  have hd := @Derives.number paren (last_digits (w + 1) (m : Int))
    (by
      intro h'
      have := congrArg List.length h'
      rw [last_digits_length] at this
      cases this)
    (last_digits_isDigit _ _)
    (by
      rcases a.mp hz with h0 | hge
      · left; rw [last_digits_length, h0]
      · right
        rw [last_digits_head]
        intro h'
        have h'' := Option.some.inj h'
        have hlt9 : m / 10 ^ w < 10 := by
          rw [Nat.div_lt_iff_lt_mul (by positivity)]
          rw [pow_succ, Nat.mul_comm] at hlt
          exact hlt
        have hne : m / 10 ^ w ≠ 0 := by
          have := Nat.div_pos hge (by positivity)
          omega
        rw [Nat.mod_eq_of_lt hlt9] at h''
        exact hne ((digit_char_facts _ hlt9).2.2.mp h''))
  rw [hval] at hd
  exact hd

theorem Derives_number_int (paren : Bool) (w : Nat) (hw : 0 < w) (n : Int) (hn : 0 ≤ n)
    (h : num_scan w n = (0, 0)) :
    Derives paren Level.factor (last_digits w n) (n : ℚ) := by
  obtain ⟨w', rfl⟩ : ∃ w', w = w' + 1 := ⟨w - 1, by omega⟩
  obtain ⟨m, rfl⟩ : ∃ m : Nat, n = (m : Int) := ⟨n.toNat, by omega⟩
  have := Derives_number_of_scan paren w' m h
  exact_mod_cast this

theorem num_value_of_scan (w : Nat) (hw : 0 < w) (n : Int) (hn : 0 ≤ n)
    (h : num_scan w n = (0, 0)) : (num_value (last_digits w n) : Int) = n := by
  obtain ⟨w', rfl⟩ : ∃ w', w = w' + 1 := ⟨w - 1, by omega⟩
  obtain ⟨m, rfl⟩ : ∃ m : Nat, n = (m : Int) := ⟨n.toNat, by omega⟩
  obtain ⟨a, b⟩ := num_scan_nat w' m
  have hz : (num_scan (w' + 1) (m : Int)).2 = 0 := by rw [h]
  have hf := b hz
  rw [h] at hf
  have hdiv : m / 10 ^ (w' + 1) = 0 := by
    have hf' : ((m / 10 ^ (w' + 1) : Nat) : Int) = 0 := hf.symm
    exact_mod_cast hf'
  have hlt : m < 10 ^ (w' + 1) := by
    rcases Nat.lt_or_ge m (10 ^ (w' + 1)) with h' | h'
    · exact h'
    · have := Nat.div_pos h' (by positivity)
      omega
  rw [num_value_last_digits, Nat.mod_eq_of_lt hlt]

/-! ## The formula built from the buffer -/

theorem make_formula_mask (cfg : Config) (s : List Char) (hs : s.length = cfg.SIZE) :
    (make_formula cfg s).mask = s.map (char_to_mask cfg) := by
  unfold make_formula
  simp only []
  obtain ⟨P, hP⟩ : ∃ P : Nat → formula → Prop, P = fun n f =>
      f.mask.length = cfg.SIZE ∧
        ∀ j, j < n → f.mask[j]? = some (char_to_mask cfg (s.getD j (Char.ofNat 0))) :=
    ⟨_, rfl⟩
  have key := foldl_range_ind P (fun (f : formula) i =>
      { f with mask := f.mask.set i (char_to_mask cfg (s.getD i (Char.ofNat 0))),
               used := f.used ||| char_to_mask cfg (s.getD i (Char.ofNat 0)) })
    ⟨0, List.replicate cfg.SIZE 0, 0⟩ cfg.SIZE
    (by subst hP; exact ⟨by simp, fun j hj => absurd hj (Nat.not_lt_zero j)⟩)
    (by
      subst hP
      intro i hi x ⟨hx1, hx2⟩
      refine ⟨by simp [hx1], fun j hj => ?_⟩
      by_cases hji : j = i
      · subst hji
        simp only [List.getElem?_set_self (by omega : j < x.mask.length)]
      · simp only []
        rw [List.getElem?_set_ne (fun h => hji h.symm)]
        exact hx2 j (by omega))
  subst hP
  obtain ⟨k1, k2⟩ := key
  apply List.ext_getElem?
  intro j
  by_cases hj : j < cfg.SIZE
  · rw [k2 j hj, List.getElem?_map, List.getD_eq_getElem?_getD,
      List.getElem?_eq_getElem (by omega : j < s.length)]
    rfl
  · rw [List.getElem?_eq_none (by omega), List.getElem?_eq_none (by simp; omega)]

theorem count_op_take (s : List Char) (n : Nat) (hn : n ≤ s.length) :
    (List.range n).foldl (fun op i =>
      if s.getD i (Char.ofNat 0) = '+' ∨ s.getD i (Char.ofNat 0) = '-' ∨
          s.getD i (Char.ofNat 0) = '*' ∨ s.getD i (Char.ofNat 0) = '/' then op + 1 else op) 0 =
      (s.take n).countP is_op := by
  induction n with
  | zero => simp
  | succ n ih =>
    rw [List.range_succ, List.foldl_append, ih (by omega), List.take_succ,
      List.countP_append]
    simp only [List.foldl_cons, List.foldl_nil]
    rw [List.getD_eq_getElem?_getD, List.getElem?_eq_getElem (by omega : n < s.length)]
    simp only [Option.getD_some, Option.toList_some,
      List.countP_cons, List.countP_nil, is_op, Bool.or_eq_true, decide_eq_true_eq,
      Nat.zero_add, or_assoc]
    split <;> rfl

theorem count_op_eq (cfg : Config) (s : List Char) (hs : s.length = cfg.SIZE) :
    count_op cfg s = s.countP is_op := by
  unfold count_op
  simp only []
  rw [count_op_take s cfg.SIZE (by omega), ← hs, List.take_length]

theorem isDigit_cases (c : Char) (h : c.isDigit = true) :
    c = '0' ∨ c = '1' ∨ c = '2' ∨ c = '3' ∨ c = '4' ∨ c = '5' ∨ c = '6' ∨ c = '7' ∨
      c = '8' ∨ c = '9' := by
  have h1 : 48 ≤ c.toNat ∧ c.toNat ≤ 57 := by
    simp only [Char.isDigit, Bool.and_eq_true, decide_eq_true_eq] at h
    exact ⟨h.1, h.2⟩
  have h2 : c = Char.ofNat c.toNat := (Char.ofNat_toNat c).symm
  obtain ⟨h3, h4⟩ := h1
  generalize c.toNat = n at h2 h3 h4
  subst h2
  interval_cases n <;> decide

theorem is_op_mask_char (cfg : Config) (c : Char) :
    is_op_mask (char_to_mask cfg c) = is_op c := by
  by_cases h : is_op c = true
  · have h' := h
    simp only [is_op, Bool.or_eq_true, decide_eq_true_eq] at h'
    rcases h' with ((h' | h') | h') | h' <;> subst h' <;> rfl
  · by_cases hd : c.isDigit = true
    · rcases isDigit_cases c hd with h | h | h | h | h | h | h | h | h | h <;> subst h <;> rfl
    · have nd : ∀ d : Char, d.isDigit = true → ¬ c = d := fun d hd' hcd => hd (hcd ▸ hd')
      have no : ∀ d : Char, is_op d = true → ¬ c = d := fun d hd' hcd => h (hcd ▸ hd')
      rw [Bool.not_eq_true] at h
      rw [h]
      unfold char_to_mask
      rw [if_neg (nd '0' rfl), if_neg (nd '1' rfl), if_neg (nd '2' rfl), if_neg (nd '3' rfl),
        if_neg (nd '4' rfl), if_neg (nd '5' rfl), if_neg (nd '6' rfl), if_neg (nd '7' rfl),
        if_neg (nd '8' rfl), if_neg (nd '9' rfl), if_neg (no '+' rfl), if_neg (no '-' rfl),
        if_neg (no '*' rfl), if_neg (no '/' rfl)]
      split
      · rfl
      · split
        · rfl
        · split <;> rfl

theorem mask_count_op (cfg : Config) (s : List Char) :
    (s.map (char_to_mask cfg)).countP is_op_mask = s.countP is_op := by
  rw [List.countP_map]
  congr 1
  funext c
  exact is_op_mask_char cfg c

/-! ## Glyphs -/

theorem glyph_mask_aux (cfg : Config) (c : Char) (m : Nat) (h1 : char_to_mask cfg c = m)
    (h3 : mask_to_char cfg m = c) (h4 : m &&& MSKall cfg = m)
    (h2 : [MSK0, MSK1, MSK2, MSK3, MSK4, MSK5, MSK6, MSK7, MSK8, MSK9,
      MSKadd, MSKsub, MSKmul, MSKdiv, MSKbra, MSKket].contains m = true) :
    char_to_mask cfg c ≠ 0 ∧ popcount (char_to_mask cfg c) = 1 ∧
      char_to_mask cfg c &&& MSKall cfg = char_to_mask cfg c ∧
      mask_to_char cfg (char_to_mask cfg c) = c := by
  rw [h1]
  refine ⟨?_, ?_, h4, h3⟩
  · have : ∀ m, m ∈ [MSK0, MSK1, MSK2, MSK3, MSK4, MSK5, MSK6, MSK7, MSK8, MSK9,
        MSKadd, MSKsub, MSKmul, MSKdiv, MSKbra, MSKket] → m ≠ 0 := by decide
    exact this m (List.mem_of_elem_eq_true h2)
  · have : ∀ m, m ∈ [MSK0, MSK1, MSK2, MSK3, MSK4, MSK5, MSK6, MSK7, MSK8, MSK9,
        MSKadd, MSKsub, MSKmul, MSKdiv, MSKbra, MSKket] → popcount m = 1 := by decide
    exact this m (List.mem_of_elem_eq_true h2)

theorem land_MSKall (cfg : Config) (m : Nat)
    (hm : [MSK0, MSK1, MSK2, MSK3, MSK4, MSK5, MSK6, MSK7, MSK8, MSK9,
      MSKadd, MSKsub, MSKmul, MSKdiv].contains m = true ∨
      (cfg.ALLOW_PARENTHESIS = true ∧ [MSKbra, MSKket].contains m = true) ∨
      (cfg.NUMBLE = true ∧ cfg.ALLOW_PARENTHESIS = false ∧ m = MSKequ)) :
    m &&& MSKall cfg = m := by
  unfold MSKall
  rcases hm with hm | ⟨hp, hm⟩ | ⟨hn, hp, hm⟩
  · have hm' := List.mem_of_elem_eq_true hm
    clear hm
    rcases Bool.eq_false_or_eq_true cfg.ALLOW_PARENTHESIS with hp | hp <;>
    rcases Bool.eq_false_or_eq_true cfg.NUMBLE with hn | hn <;>
    simp only [hp, hn, if_true, if_false, Bool.false_eq_true] <;>
    revert m <;> decide
  · have hm' := List.mem_of_elem_eq_true hm
    clear hm
    simp only [hp, if_true]
    revert m
    decide
  · subst hm
    simp only [hp, hn, if_true, if_false, Bool.false_eq_true]
    decide

theorem glyph_mask (cfg : Config) (c : Char)
    (hc : c.isDigit = true ∨ is_op c = true ∨
      (cfg.ALLOW_PARENTHESIS = true ∧ (c = '(' ∨ c = ')')) ∨
      (cfg.NUMBLE = true ∧ cfg.ALLOW_PARENTHESIS = false ∧ c = '=')) :
    char_to_mask cfg c ≠ 0 ∧ popcount (char_to_mask cfg c) = 1 ∧
      char_to_mask cfg c &&& MSKall cfg = char_to_mask cfg c ∧
      mask_to_char cfg (char_to_mask cfg c) = c := by
  rcases hc with hc | hc | ⟨hp, hc⟩ | ⟨hn, hp, hc⟩
  · rcases isDigit_cases c hc with h | h | h | h | h | h | h | h | h | h <;> subst h <;>
    exact glyph_mask_aux _ _ _ rfl rfl (land_MSKall cfg _ (Or.inl rfl)) rfl
  · simp only [is_op, Bool.or_eq_true, decide_eq_true_eq] at hc
    rcases hc with ((h | h) | h) | h <;> subst h <;>
    exact glyph_mask_aux _ _ _ rfl rfl (land_MSKall cfg _ (Or.inl rfl)) rfl
  · have e1 : char_to_mask cfg '(' = MSKbra := by simp only [char_to_mask, hp]; rfl
    have e2 : char_to_mask cfg ')' = MSKket := by simp only [char_to_mask, hp]; rfl
    have e3 : mask_to_char cfg MSKbra = '(' := by simp only [mask_to_char, hp]; rfl
    have e4 : mask_to_char cfg MSKket = ')' := by simp only [mask_to_char, hp]; rfl
    rcases hc with h | h <;> subst h
    · exact glyph_mask_aux _ _ _ e1 e3 (land_MSKall cfg _ (Or.inr (Or.inl ⟨hp, rfl⟩))) rfl
    · exact glyph_mask_aux _ _ _ e2 e4 (land_MSKall cfg _ (Or.inr (Or.inl ⟨hp, rfl⟩))) rfl
  · subst hc
    have e1 : char_to_mask cfg '=' = MSKequ := by simp only [char_to_mask, hp, hn]; rfl
    have e3 : mask_to_char cfg MSKequ = '=' := by simp only [mask_to_char, hp, hn]; rfl
    exact glyph_mask_aux _ _ _ e1 e3 (land_MSKall cfg _ (Or.inr (Or.inr ⟨hn, hp, rfl⟩))) rfl

theorem Derives_glyph (paren : Bool) (lvl : Level) (s : List Char) (v : ℚ)
    (h : Derives paren lvl s v) :
    ∀ c, c ∈ s → c.isDigit = true ∨ is_op c = true ∨ (paren = true ∧ (c = '(' ∨ c = ')')) := by
  induction h with
  | number ds _ h2 _ => exact fun c hc => Or.inl (h2 c hc)
  | paren s v hp _ ih =>
    intro c hc
    simp only [List.cons_append, List.mem_cons, List.mem_append, List.mem_singleton,
      List.not_mem_nil, or_false] at hc
    rcases hc with rfl | hc | rfl
    · exact Or.inr (Or.inr ⟨hp, Or.inl rfl⟩)
    · exact ih c hc
    · exact Or.inr (Or.inr ⟨hp, Or.inr rfl⟩)
  | factor s v _ ih => exact ih
  | term s v _ ih => exact ih
  | mul s1 s2 v1 v2 _ _ ih1 ih2 =>
    intro c hc
    simp only [List.mem_append, List.mem_cons] at hc
    rcases hc with hc | rfl | hc
    · exact ih1 c hc
    · exact Or.inr (Or.inl (by decide))
    · exact ih2 c hc
  | div s1 s2 v1 v2 _ _ _ ih1 ih2 =>
    intro c hc
    simp only [List.mem_append, List.mem_cons] at hc
    rcases hc with hc | rfl | hc
    · exact ih1 c hc
    · exact Or.inr (Or.inl (by decide))
    · exact ih2 c hc
  | add s1 s2 v1 v2 _ _ ih1 ih2 =>
    intro c hc
    simp only [List.mem_append, List.mem_cons] at hc
    rcases hc with hc | rfl | hc
    · exact ih1 c hc
    · exact Or.inr (Or.inl (by decide))
    · exact ih2 c hc
  | sub s1 s2 v1 v2 _ _ ih1 ih2 =>
    intro c hc
    simp only [List.mem_append, List.mem_cons] at hc
    rcases hc with hc | rfl | hc
    · exact ih1 c hc
    · exact Or.inr (Or.inl (by decide))
    · exact ih2 c hc

/-! ## The search restricted to one string lists the solutions that write it -/

theorem map_post_iff (G : opt_rat → List Found) (C : opt_rat → List opt_rat) (s1 : List Char)
    (hGC : ∀ U r, (r, s1) ∈ G U ↔ r ∈ C U) (X : opt_rat) (post : opt_rat → opt_rat)
    (r : opt_rat) :
    (r, s1) ∈ (G X).map (fun rs => (post rs.1, rs.2)) ↔ r ∈ (C X).map post := by
  simp only [List.mem_map, Prod.mk.injEq]
  constructor
  · rintro ⟨⟨r', s'⟩, h, rfl, rfl⟩
    exact ⟨r', (hGC _ _).1 h, rfl⟩
  · rintro ⟨r', h, rfl⟩
    exact ⟨(r', s1), (hGC _ _).2 h, rfl, rfl⟩

theorem check_solve_iff (G : opt_rat → List Found) (C : opt_rat → List opt_rat)
    (s1 : List Char) (hGC : ∀ U r, (r, s1) ∈ G U ↔ r ∈ C U) (T U : opt_rat) (op : Char)
    (V r : opt_rat) :
    (r, s1) ∈ gen_solve G T U op V ↔ r ∈ check_solve C T U op V := by
  unfold gen_solve check_solve
  split
  · split
    · exact map_post_iff G C s1 hGC _ (fun _ => T) r
    · exact map_post_iff G C s1 hGC _ (fun r => ⟨true, rat_add r.val V.val⟩) r
  · split
    · split
      · exact map_post_iff G C s1 hGC _ (fun _ => T) r
      · exact map_post_iff G C s1 hGC _ (fun r => ⟨true, rat_sub r.val V.val⟩) r
    · split
      · split
        · simp
        · split
          · exact map_post_iff G C s1 hGC _ (fun _ => T) r
          · exact map_post_iff G C s1 hGC _ (fun r => ⟨true, rat_div r.val V.val⟩) r
      · split
        · split
          · exact map_post_iff G C s1 hGC _ (fun r => ⟨true, rat_mul r.val V.val⟩) r
          · split
            · simp
            · exact map_post_iff G C s1 hGC _ (fun _ => T) r
        · simp

theorem check_number_iff (T : opt_rat) (s : List Char) (hs : 0 < s.length) (r : opt_rat) :
    r ∈ check_number T s ↔ (r, s) ∈ gen_number T s.length := by
  unfold check_number gen_number
  split
  · split
    · simp
    · by_cases h : num_scan s.length T.val.p = (0, 0)
      · by_cases h2 : last_digits s.length T.val.p = s
        · rw [if_pos ⟨h, h2⟩, if_pos h, h2]
          simp
        · rw [if_neg (fun hh => h2 hh.2), if_pos h]
          simp only [List.not_mem_nil, List.mem_singleton, Prod.mk.injEq, false_iff, not_and]
          exact fun _ hh => h2 hh.symm
      · rw [if_neg (fun hh => h hh.1), if_neg h]
        simp
  · simp only [List.mem_map]
    constructor
    · intro hr
      by_cases hc : 1 ≤ (num_value s : Int) - ipow 10 (s.length - 1) +
          (if ipow 10 (s.length - 1) = 1 then 2 else 1) ∧
          (num_value s : Int) - ipow 10 (s.length - 1) +
            (if ipow 10 (s.length - 1) = 1 then 2 else 1) ≤
            (if ipow 10 (s.length - 1) = 1 then 10 else 9 * ipow 10 (s.length - 1)) ∧
          last_digits s.length (num_value s : Int) = s
      · rw [if_pos hc, List.mem_singleton] at hr
        subst hr
        refine ⟨_, (mem_choices _ _).2 ⟨hc.1, hc.2.1⟩, ?_⟩
        have e : (num_value s : Int) - ipow 10 (s.length - 1) +
            (if ipow 10 (s.length - 1) = 1 then 2 else 1) + ipow 10 (s.length - 1) -
            (if ipow 10 (s.length - 1) = 1 then 2 else 1) = (num_value s : Int) := by ring
        simp only [e, hc.2.2]
      · rw [if_neg hc] at hr
        cases hr
    · rintro ⟨c0, hc0, he⟩
      simp only [Prod.mk.injEq] at he
      obtain ⟨he1, he2⟩ := he
      obtain ⟨hn0, hscan⟩ := num_scan_unset s.length hs c0 hc0
      have hv := num_value_of_scan s.length hs _ hn0 hscan
      rw [he2] at hv
      have e : (num_value s : Int) - ipow 10 (s.length - 1) +
          (if ipow 10 (s.length - 1) = 1 then 2 else 1) = c0 := by rw [hv]; ring
      rw [mem_choices] at hc0
      simp only [e]
      rw [if_pos ⟨hc0.1, hc0.2, by rw [hv]; exact he2⟩, List.mem_singleton, ← he1, hv]

theorem binop_check (Gsub Gself : opt_rat → Nat → List Found)
    (Csub Cself : opt_rat → List Char → List opt_rat)
    (hsubL : Lengths Gsub) (hselfL : Lengths Gself)
    (hsub : ∀ T s r, 0 < s.length → (r ∈ Csub T s ↔ (r, s) ∈ Gsub T s.length))
    (hself : ∀ T s r, 0 < s.length → (r ∈ Cself T s ↔ (r, s) ∈ Gself T s.length))
    (op : Char) (T : opt_rat) (s : List Char) (r : opt_rat) :
    r ∈ (choices ((s.length : Int) - 2)).flatMap (fun c' =>
        if s[c'.toNat]? = some op then
          (Csub { opt_rat.uninit with set := false } (s.drop (c'.toNat + 1))).flatMap
            (fun V => check_solve (fun U => Cself U (s.take c'.toNat)) T opt_rat.uninit op V)
        else []) ↔
    (r, s) ∈ (choices ((s.length : Int) - 2)).flatMap (fun c' =>
      (Gsub { opt_rat.uninit with set := false } (s.length - c'.toNat - 1)).flatMap (fun vs =>
        (gen_solve (fun U' => Gself U' c'.toNat) T opt_rat.uninit op vs.1).map
          (fun rs => (rs.1, rs.2 ++ op :: vs.2)))) := by
  simp only [List.mem_flatMap, List.mem_map]
  constructor
  · rintro ⟨c', hc', hr⟩
    refine ⟨c', hc', ?_⟩
    rw [mem_choices] at hc'
    split at hr
    · rename_i hop
      rw [List.mem_flatMap] at hr
      obtain ⟨V, hV, hr⟩ := hr
      have hlt : c'.toNat < s.length := by omega
      have hdl : (s.drop (c'.toNat + 1)).length = s.length - c'.toNat - 1 := by
        rw [List.length_drop]; omega
      have htl : (s.take c'.toNat).length = c'.toNat := by
        rw [List.length_take]; omega
      refine ⟨(V, s.drop (c'.toNat + 1)), ?_, (r, s.take c'.toNat), ?_, ?_⟩
      · have := (hsub _ _ V (by omega)).1 hV
        rw [hdl] at this
        exact this
      · refine (check_solve_iff _ _ _ ?_ T opt_rat.uninit op V r).2 hr
        intro U r'
        have := hself U (s.take c'.toNat) r' (by omega)
        rw [htl] at this
        exact this.symm
      · simp only [Prod.mk.injEq, true_and]
        have hop' : s[c'.toNat] = op := by
          rw [List.getElem?_eq_getElem hlt] at hop
          exact Option.some.inj hop
        rw [← hop', ← List.drop_eq_getElem_cons hlt, List.take_append_drop]
    · cases hr
  · rintro ⟨c', hc', vs, hvs, rs0, hrs0, he⟩
    refine ⟨c', hc', ?_⟩
    rw [mem_choices] at hc'
    simp only [Prod.mk.injEq] at he
    obtain ⟨he1, he2⟩ := he
    have hl0 : rs0.2.length = c'.toNat :=
      gen_solve_length _ c'.toNat (fun T rs h => hselfL T _ rs h) _ _ _ _ rs0 hrs0
    have hlv : vs.2.length = s.length - c'.toNat - 1 := hsubL _ _ vs hvs
    have ht : s.take c'.toNat = rs0.2 := by
      rw [← he2, List.take_left' hl0]
    have hd : s.drop (c'.toNat + 1) = vs.2 := by
      rw [← he2, List.drop_append_eq_append_drop, hl0]
      simp [List.drop_eq_nil_of_le, hl0]
    have hop : s[c'.toNat]? = some op := by
      rw [← he2, List.getElem?_append_right (by omega), hl0]
      simp
    rw [if_pos hop, List.mem_flatMap]
    refine ⟨vs.1, ?_, ?_⟩
    · rw [hd]
      refine (hsub _ vs.2 vs.1 (by omega)).2 ?_
      rw [hlv]
      exact hvs
    · rw [ht, ← he1]
      refine (check_solve_iff _ _ rs0.2 ?_ T opt_rat.uninit op vs.1 rs0.1).1 hrs0
      intro U r'
      have := hself U rs0.2 r' (by omega)
      rw [hl0] at this
      exact this.symm

theorem check_iff (cfg : Config) (fuel : Nat) :
    (∀ T s r, 0 < s.length →
      (r ∈ check_expression cfg fuel T s ↔ (r, s) ∈ gen_expression cfg fuel T s.length)) ∧
    (∀ T s r, 0 < s.length →
      (r ∈ check_term cfg fuel T s ↔ (r, s) ∈ gen_term cfg fuel T s.length)) ∧
    (∀ T s r, 0 < s.length →
      (r ∈ check_factor cfg fuel T s ↔ (r, s) ∈ gen_factor cfg fuel T s.length)) := by
  induction fuel with
  | zero =>
    refine ⟨?_, ?_, ?_⟩ <;> intro T s r _
    · rw [check_expression, gen_expression]; simp
    · rw [check_term, gen_term]; simp
    · rw [check_factor, gen_factor]; simp
  | succ fuel ih =>
    obtain ⟨ihe, iht, ihf⟩ := ih
    obtain ⟨le, lt, lf⟩ := gen_lengths cfg fuel
    refine ⟨?_, ?_, ?_⟩ <;> intro T s r hs
    · rw [check_expression, gen_expression, List.mem_flatMap, List.mem_flatMap]
      refine exists_congr (fun c => and_congr_right (fun _ => ?_))
      by_cases h1 : c = 1
      · rw [if_pos h1, if_pos h1]
        exact iht T s r hs
      · rw [if_neg h1, if_neg h1]
        exact binop_check _ _ _ _ lt le iht ihe _ T s r
    · rw [check_term, gen_term, List.mem_flatMap, List.mem_flatMap]
      refine exists_congr (fun c => and_congr_right (fun _ => ?_))
      by_cases h1 : c = 1
      · rw [if_pos h1, if_pos h1]
        exact ihf T s r hs
      · rw [if_neg h1, if_neg h1]
        exact binop_check _ _ _ _ lf lt ihf iht _ T s r
    · rw [check_factor, gen_factor, List.mem_flatMap, List.mem_flatMap]
      refine exists_congr (fun c => and_congr_right (fun _ => ?_))
      by_cases h1 : c = 1
      · rw [if_pos h1, if_pos h1]
        exact check_number_iff T s hs r
      · rw [if_neg h1, if_neg h1]
        by_cases h3 : (s.length : Int) < 3
        · rw [if_pos h3, if_pos h3]
          simp
        · rw [if_neg h3, if_neg h3, List.mem_map]
          have hl3 : 3 ≤ s.length := by omega
          constructor
          · intro hr
            split at hr
            · rename_i hh
              obtain ⟨hh1, hh2⟩ := hh
              have hml : ((s.drop 1).dropLast).length = s.length - 2 := by
                rw [List.length_dropLast, List.length_drop]; omega
              refine ⟨(r, (s.drop 1).dropLast), ?_, ?_⟩
              · have := (ihe T _ r (by omega)).1 hr
                rw [hml] at this
                exact this
              · simp only [Prod.mk.injEq, true_and]
                obtain ⟨a, t, rfl⟩ : ∃ a t, s = a :: t := by
                  cases s with
                  | nil => simp at hs
                  | cons a t => exact ⟨a, t, rfl⟩
                simp only [List.head?_cons, Option.some.injEq] at hh1
                subst hh1
                simp only [List.drop_succ_cons, List.drop_zero, List.cons_append,
                  List.cons.injEq, true_and]
                have htne : t ≠ [] := by
                  intro h; subst h; simp at hl3
                cases t with
                | nil => exact absurd rfl htne
                | cons b u =>
                  rw [List.getLast?_cons_cons] at hh2
                  exact List.dropLast_append_getLast? _ hh2
            · cases hr
          · rintro ⟨rs, hrs, he⟩
            simp only [Prod.mk.injEq] at he
            obtain ⟨he1, he2⟩ := he
            have hl := le T _ rs hrs
            have hd : (s.drop 1).dropLast = rs.2 := by
              rw [← he2]; simp
            rw [if_pos ⟨by rw [← he2]; rfl,
              by rw [← he2, List.getLast?_concat]⟩, hd, ← he1]
            refine (ihe T rs.2 rs.1 (by omega)).2 ?_
            rw [hl]
            exact hrs

/-! ## The nesting bound

The grammar functions take a bound on the nesting of their calls.  On a span
of `w` characters `expression` nests at most `3 * w + 3` calls, so with a
larger bound it computes the same thing: the bound `search_depth` that
`findall` gives does not cut any branch. -/

theorem foldl_congr_mem {α β : Type} (F F' : β → α → β) (l : List α)
    (h : ∀ a, a ∈ l → ∀ b, F b a = F' b a) (b : β) : l.foldl F b = l.foldl F' b := by
  induction l generalizing b with
  | nil => rfl
  | cons a l ih =>
    simp only [List.foldl_cons]
    rw [h a (List.mem_cons_self a l) b]
    exact ih (fun a' ha' => h a' (List.mem_cons_of_mem a ha')) _

theorem Choice_congr_range (N : Int) (f f' : Int → Globals → Globals)
    (h : ∀ c g, 1 ≤ c → c ≤ N → f c g = f' c g) (g : Globals) :
    Choice N f g = Choice N f' g := by
  unfold Choice
  apply foldl_congr_mem
  intro i hi b
  rw [List.mem_range] at hi
  exact h _ _ (by omega) (by omega)

theorem solve_goal_congr (T U V : opt_rat) (op : Char) (goalA goalB : goal) (frm upto : Nat)
    (h : ∀ T', goalA T' frm upto = goalB T' frm upto) (k : opt_rat → Globals → Globals)
    (g : Globals) :
    solve T goalA U frm upto op V k g = solve T goalB U frm upto op V k g := by
  rcases solve_cases T U op V with ⟨T', post, he, _⟩ | ⟨he, _⟩
  · rw [he, he, h]
  · rw [he, he]

theorem fuel_stable (cfg : Config) (fuel : Nat) :
    ∀ (fuel' : Nat) (T : opt_rat) (frm upto : Nat),
      (3 * (upto - frm) + 3 ≤ fuel → 3 * (upto - frm) + 3 ≤ fuel' →
        expression cfg fuel T frm upto = expression cfg fuel' T frm upto) ∧
      (3 * (upto - frm) + 2 ≤ fuel → 3 * (upto - frm) + 2 ≤ fuel' →
        term cfg fuel T frm upto = term cfg fuel' T frm upto) ∧
      (3 * (upto - frm) + 1 ≤ fuel → 3 * (upto - frm) + 1 ≤ fuel' →
        factor cfg fuel T frm upto = factor cfg fuel' T frm upto) := by
  induction fuel with
  | zero =>
    intro fuel' T frm upto
    exact ⟨fun h => by omega, fun h => by omega, fun h => by omega⟩
  | succ fuel ih =>
    intro fuel' T frm upto
    cases fuel' with
    | zero => exact ⟨fun _ h => by omega, fun _ h => by omega, fun _ h => by omega⟩
    | succ fuel' =>
      refine ⟨fun h1 h2 => ?_, fun h1 h2 => ?_, fun h1 h2 => ?_⟩
      · rw [expression, expression]
        funext k g
        refine Choice_congr_range _ _ _ (fun c g _ _ => ?_) g
        by_cases hc : c = 1
        · simp only [if_pos hc]
          rw [(ih fuel' T frm upto).2.1 (by omega) (by omega)]
        · simp only [if_neg hc]
          refine Choice_congr_range _ _ _ (fun c' g hc1 hc2 => ?_) g
          rw [(ih fuel' _ (frm + c'.toNat + 1) upto).2.1 (by omega) (by omega)]
          congr 1
          funext V g
          exact solve_goal_congr T _ V _ _ _ frm _
            (fun T' => (ih fuel' T' frm (frm + c'.toNat)).1 (by omega) (by omega)) k g
      · rw [term, term]
        funext k g
        refine Choice_congr_range _ _ _ (fun c g _ _ => ?_) g
        by_cases hc : c = 1
        · simp only [if_pos hc]
          rw [(ih fuel' T frm upto).2.2 (by omega) (by omega)]
        · simp only [if_neg hc]
          refine Choice_congr_range _ _ _ (fun c' g hc1 hc2 => ?_) g
          rw [(ih fuel' _ (frm + c'.toNat + 1) upto).2.2 (by omega) (by omega)]
          congr 1
          funext V g
          exact solve_goal_congr T _ V _ _ _ frm _
            (fun T' => (ih fuel' T' frm (frm + c'.toNat)).2.1 (by omega) (by omega)) k g
      · rw [factor, factor]
        funext k g
        refine Choice_congr_range _ _ _ (fun c g _ _ => ?_) g
        by_cases hc : c = 1
        · simp only [if_pos hc]
        · simp only [if_neg hc]
          split
          · rfl
          · rw [(ih fuel' T (frm + 1) (upto - 1)).1 (by omega) (by omega)]

/-- With any nesting bound of at least `search_depth`, the search that `findall`
starts for a Mathler variant is the one with `search_depth`. -/
theorem search_depth_enough (cfg : Config) (fuel : Nat) (h : search_depth cfg ≤ fuel)
    (T : opt_rat) :
    expression cfg fuel T 0 cfg.SIZE = expression cfg (search_depth cfg) T 0 cfg.SIZE ∧
    (∀ frm upto, upto ≤ cfg.SIZE →
      term cfg fuel T frm upto = term cfg (search_depth cfg) T frm upto) := by
  unfold search_depth at *
  exact ⟨(fuel_stable cfg fuel _ T 0 cfg.SIZE).1 (by omega) (by omega),
    fun frm upto hu => (fuel_stable cfg fuel _ T frm upto).2.1 (by omega) (by omega)⟩

/-! ## The grammar is unambiguous

A string has at most one reading: the operator that splits an expression is
its last `+` or `-` outside parentheses, the operator that splits a term is its
last `*` or `/` outside parentheses. -/

theorem bal_append (a b : List Char) : bal (a ++ b) = bal a + bal b := by
  induction a with
  | nil => simp [bal]
  | cons c a ih =>
    show bal (c :: (a ++ b)) = bal (c :: a) + bal b
    rw [bal, bal, ih]
    ring

theorem bal_digits (s : List Char) (h : ∀ c, c ∈ s → c.isDigit = true) : bal s = 0 := by
  induction s with
  | nil => rfl
  | cons c s ih =>
    have hc := h c (List.mem_cons_self c s)
    have h1 : c ≠ '(' := fun e => by rw [e] at hc; exact absurd hc (by decide)
    have h2 : c ≠ ')' := fun e => by rw [e] at hc; exact absurd hc (by decide)
    simp only [bal, if_neg h1, if_neg h2, ih (fun c' hc' => h c' (List.mem_cons_of_mem c hc'))]
    rfl

/-- A readable string is balanced: as many `(` as `)`, and no prefix closes
more than it opens. -/
theorem Parses_balanced (paren : Bool) (lvl : Level) (s : List Char) (v : ℚ) (z : Bool)
    (h : Parses paren lvl s v z) : bal s = 0 ∧ ∀ a b, s = a ++ b → 0 ≤ bal a := by
  have binop : ∀ (s1 s2 : List Char) (op : Char), op ≠ '(' → op ≠ ')' →
      (bal s1 = 0 ∧ ∀ a b, s1 = a ++ b → 0 ≤ bal a) →
      (bal s2 = 0 ∧ ∀ a b, s2 = a ++ b → 0 ≤ bal a) →
      (bal (s1 ++ op :: s2) = 0 ∧ ∀ a b, s1 ++ op :: s2 = a ++ b → 0 ≤ bal a) := by
    intro s1 s2 op h1 h2 ⟨b1, p1⟩ ⟨b2, p2⟩
    have hop : bal (op :: s2) = bal s2 := by simp only [bal, if_neg h1, if_neg h2]; ring
    refine ⟨by rw [bal_append, hop, b1, b2]; rfl, ?_⟩
    intro a b hab
    rcases List.append_eq_append_iff.1 hab with ⟨a', rfl, hc'⟩ | ⟨c', hs1, _⟩
    · rw [bal_append, b1, zero_add]
      cases a' with
      | nil => exact le_refl _
      | cons x a'' =>
        simp only [List.cons_append, List.cons.injEq] at hc'
        obtain ⟨rfl, hc'⟩ := hc'
        simp only [bal, if_neg h1, if_neg h2, zero_add]
        exact p2 _ _ hc'
    · exact p1 _ _ hs1
  induction h with
  | number ds _ h2 _ =>
    refine ⟨bal_digits ds h2, fun a b hab => ?_⟩
    rw [bal_digits a (fun c hc => h2 c (by rw [hab]; exact List.mem_append_left _ hc))]
  | paren s v z _ _ ih =>
    obtain ⟨b1, p1⟩ := ih
    refine ⟨by
      show bal ('(' :: (s ++ [')'])) = 0
      rw [bal, bal_append, b1]
      rfl, ?_⟩
    intro a b hab
    cases a with
    | nil => exact le_refl _
    | cons x a' =>
      simp only [List.cons_append, List.cons.injEq] at hab
      obtain ⟨rfl, hab⟩ := hab
      simp only [bal, if_true]
      rcases List.append_eq_append_iff.1 hab with ⟨a'', rfl, hc'⟩ | ⟨c', hs, _⟩
      · rw [bal_append, b1]
        cases a'' with
        | nil => simp [bal]
        | cons y c'' =>
          simp only [List.cons_append, List.cons.injEq] at hc'
          obtain ⟨rfl, hc'⟩ := hc'
          have : c'' = [] := by
            have := congrArg List.length hc'
            simp only [List.length_nil, List.length_append] at this
            exact List.eq_nil_of_length_eq_zero (by omega)
          subst this
          simp [bal]
      · have := p1 _ _ hs
        omega
  | factor s v z _ ih => exact ih
  | term s v z _ ih => exact ih
  | mul s1 s2 v1 v2 z1 z2 _ _ ih1 ih2 => exact binop _ _ _ (by decide) (by decide) ih1 ih2
  | div s1 s2 v1 v2 z1 z2 _ _ ih1 ih2 => exact binop _ _ _ (by decide) (by decide) ih1 ih2
  | add s1 s2 v1 v2 z1 z2 _ _ ih1 ih2 => exact binop _ _ _ (by decide) (by decide) ih1 ih2
  | sub s1 s2 v1 v2 z1 z2 _ _ ih1 ih2 => exact binop _ _ _ (by decide) (by decide) ih1 ih2

theorem digit_not_op (c : Char) (h : c.isDigit = true) : is_op c = false := by
  rw [← Bool.not_eq_true]
  intro h'
  simp only [is_op, Bool.or_eq_true, decide_eq_true_eq] at h'
  rcases h' with ((h' | h') | h') | h' <;> rw [h'] at h <;> exact absurd h (by decide)

/-- A factor has no operator outside parentheses, a term has no `+` or `-`
outside parentheses. -/
theorem Parses_top (paren : Bool) (lvl : Level) (s : List Char) (v : ℚ) (z : Bool)
    (h : Parses paren lvl s v z) :
    ∀ a c b, s = a ++ c :: b → bal a = 0 →
      (lvl = Level.factor → is_op c = false) ∧ (lvl = Level.term → c ≠ '+' ∧ c ≠ '-') := by
  have binop : ∀ (s1 s2 : List Char) (op : Char), op ≠ '(' → op ≠ ')' → op ≠ '+' → op ≠ '-' →
      bal s1 = 0 →
      (∀ a c b, s1 = a ++ c :: b → bal a = 0 → c ≠ '+' ∧ c ≠ '-') →
      (∀ a c b, s2 = a ++ c :: b → bal a = 0 → is_op c = false) →
      ∀ a c b, s1 ++ op :: s2 = a ++ c :: b → bal a = 0 → c ≠ '+' ∧ c ≠ '-' := by
    intro s1 s2 op h1 h2 h3 h4 b1 n1 n2 a c b hab hbal
    rcases List.append_eq_append_iff.1 hab with ⟨a', rfl, hc'⟩ | ⟨c', hs1, hc'⟩
    · cases a' with
      | nil =>
        simp only [List.nil_append, List.cons.injEq] at hc'
        rw [← hc'.1]
        exact ⟨h3, h4⟩
      | cons x a'' =>
        simp only [List.cons_append, List.cons.injEq] at hc'
        obtain ⟨rfl, hc'⟩ := hc'
        rw [bal_append, b1, zero_add, bal, if_neg h1, if_neg h2, zero_add] at hbal
        have := n2 _ _ _ hc' hbal
        constructor <;> intro e <;> rw [e] at this <;> exact absurd this (by decide)
    · cases c' with
      | nil =>
        simp only [List.nil_append, List.cons.injEq] at hc'
        rw [hc'.1]
        exact ⟨h3, h4⟩
      | cons y c'' =>
        simp only [List.cons_append, List.cons.injEq] at hc'
        obtain ⟨rfl, _⟩ := hc'
        exact n1 _ _ _ hs1 hbal
  induction h with
  | number ds _ h2 _ =>
    intro a c b hab _
    exact ⟨fun _ => digit_not_op c (h2 c (by rw [hab]; simp)), fun h => by cases h⟩
  | paren s v z _ hin _ =>
    intro a c b hab hbal
    refine ⟨fun _ => ?_, fun h => by cases h⟩
    cases a with
    | nil =>
      simp only [List.nil_append, List.cons_append, List.cons.injEq] at hab
      rw [← hab.1]
      rfl
    | cons x a' =>
      simp only [List.cons_append, List.cons.injEq] at hab
      obtain ⟨rfl, hab⟩ := hab
      simp only [bal, if_true] at hbal
      rcases List.append_eq_append_iff.1 hab with ⟨a'', rfl, hc'⟩ | ⟨c', hs, _⟩
      · cases a'' with
        | nil =>
          simp only [List.nil_append, List.cons.injEq] at hc'
          rw [← hc'.1]
          rfl
        | cons y c'' =>
          have := congrArg List.length hc'
          simp only [List.cons_append, List.length_cons, List.length_append,
            List.length_nil] at this
          omega
      · have := (Parses_balanced _ _ _ _ _ hin).2 _ _ hs
        omega
  | factor s v z _ ih =>
    intro a c b hab hbal
    refine ⟨(fun h => by cases h), fun _ => ?_⟩
    have := (ih a c b hab hbal).1 rfl
    constructor <;> intro e <;> rw [e] at this <;> exact absurd this (by decide)
  | term s v z _ _ =>
    intro a c b _ _
    exact ⟨(fun h => by cases h), fun h => by cases h⟩
  | mul s1 s2 v1 v2 z1 z2 h1 _ ih1 ih2 =>
    intro a c b hab hbal
    exact ⟨(fun h => by cases h), fun _ =>
      binop s1 s2 '*' (by decide) (by decide) (by decide) (by decide)
        (Parses_balanced _ _ _ _ _ h1).1 (fun a c b h h' => (ih1 a c b h h').2 rfl)
        (fun a c b h h' => (ih2 a c b h h').1 rfl) a c b hab hbal⟩
  | div s1 s2 v1 v2 z1 z2 h1 _ ih1 ih2 =>
    intro a c b hab hbal
    exact ⟨(fun h => by cases h), fun _ =>
      binop s1 s2 '/' (by decide) (by decide) (by decide) (by decide)
        (Parses_balanced _ _ _ _ _ h1).1 (fun a c b h h' => (ih1 a c b h h').2 rfl)
        (fun a c b h h' => (ih2 a c b h h').1 rfl) a c b hab hbal⟩
  | add s1 s2 v1 v2 z1 z2 _ _ _ _ =>
    intro a c b _ _
    exact ⟨(fun h => by cases h), fun h => by cases h⟩
  | sub s1 s2 v1 v2 z1 z2 _ _ _ _ =>
    intro a c b _ _
    exact ⟨(fun h => by cases h), fun h => by cases h⟩

/-- Two splits of one string at operators outside parentheses, each with a
right part that holds neither operator outside parentheses, are the same split. -/
theorem split_unique (s1 s2 t1 t2 : List Char) (op op' : Char)
    (hop : op ≠ '(' ∧ op ≠ ')') (hop' : op' ≠ '(' ∧ op' ≠ ')')
    (h : s1 ++ op :: s2 = t1 ++ op' :: t2) (b1 : bal s1 = 0) (b2 : bal t1 = 0)
    (n1 : ∀ a c b, s2 = a ++ c :: b → bal a = 0 → c ≠ op')
    (n2 : ∀ a c b, t2 = a ++ c :: b → bal a = 0 → c ≠ op) :
    s1 = t1 ∧ op = op' ∧ s2 = t2 := by
  rcases List.append_eq_append_iff.1 h with ⟨a', rfl, hc'⟩ | ⟨c', rfl, hc'⟩
  · cases a' with
    | nil =>
      simp only [List.nil_append, List.cons.injEq] at hc'
      exact ⟨by simp, hc'.1, hc'.2⟩
    | cons x a'' =>
      simp only [List.cons_append, List.cons.injEq] at hc'
      obtain ⟨rfl, hc'⟩ := hc'
      rw [bal_append, b1, zero_add, bal, if_neg hop.1, if_neg hop.2, zero_add] at b2
      exact absurd rfl (n1 _ _ _ hc' b2)
  · cases c' with
    | nil =>
      simp only [List.nil_append, List.cons.injEq] at hc'
      exact ⟨by simp, hc'.1.symm, hc'.2.symm⟩
    | cons y c'' =>
      simp only [List.cons_append, List.cons.injEq] at hc'
      obtain ⟨rfl, hc'⟩ := hc'
      rw [bal_append, b2, zero_add, bal, if_neg hop'.1, if_neg hop'.2, zero_add] at b1
      exact absurd rfl (n2 _ _ _ hc' b1)

theorem factor_no_op (paren : Bool) (s : List Char) (v : ℚ) (z : Bool)
    (h : Parses paren Level.factor s v z) (op : Char) (hop : is_op op = true) :
    ∀ a c b, s = a ++ c :: b → bal a = 0 → c ≠ op := by
  intro a c b hab hbal e
  have := (Parses_top _ _ _ _ _ h a c b hab hbal).1 rfl
  rw [e, hop] at this
  cases this

theorem term_no_addsub (paren : Bool) (s : List Char) (v : ℚ) (z : Bool)
    (h : Parses paren Level.term s v z) (op : Char) (hop : op = '+' ∨ op = '-') :
    ∀ a c b, s = a ++ c :: b → bal a = 0 → c ≠ op := by
  intro a c b hab hbal e
  have := (Parses_top _ _ _ _ _ h a c b hab hbal).2 rfl
  rcases hop with h' | h' <;> rw [e, h'] at this
  · exact this.1 rfl
  · exact this.2 rfl

/-- A string has at most one reading: its value and whether it divides by zero
are determined. -/
theorem Parses_unique (paren : Bool) (lvl : Level) (s : List Char) (v : ℚ) (z : Bool)
    (h : Parses paren lvl s v z) :
    ∀ s' v' z', s' = s → Parses paren lvl s' v' z' → v' = v ∧ z' = z := by
  induction h with
  | number ds _ h2 _ =>
    intro s' v' z' hs h'
    cases h' with
    | number ds' _ _ _ => subst hs; exact ⟨rfl, rfl⟩
    | paren s'' v'' z'' _ _ =>
      have := h2 '(' (by rw [← hs]; simp)
      exact absurd this (by decide)
  | paren s v z _ _ ih =>
    intro s' v' z' hs h'
    cases h' with
    | number ds' _ h2' _ =>
      have := h2' '(' (by rw [hs]; simp)
      exact absurd this (by decide)
    | paren s'' v'' z'' _ hin =>
      simp only [List.cons_append, List.cons.injEq, true_and] at hs
      exact ih _ _ _ (List.append_cancel_right hs) hin
  | factor s v z hin ih =>
    intro s' v' z' hs h'
    cases h' with
    | factor _ _ _ hin' => exact ih _ _ _ hs hin'
    | mul s1 s2 v1 v2 z1 z2 h1 _ =>
      exact absurd rfl (factor_no_op _ _ _ _ hin '*' rfl s1 '*' s2 hs.symm
        (Parses_balanced _ _ _ _ _ h1).1)
    | div s1 s2 v1 v2 z1 z2 h1 _ =>
      exact absurd rfl (factor_no_op _ _ _ _ hin '/' rfl s1 '/' s2 hs.symm
        (Parses_balanced _ _ _ _ _ h1).1)
  | mul s1 s2 v1 v2 z1 z2 h1 h2 ih1 ih2 =>
    intro s' v' z' hs h'
    cases h' with
    | factor _ _ _ hin' =>
      exact absurd rfl (factor_no_op _ _ _ _ hin' '*' rfl s1 '*' s2 hs
        (Parses_balanced _ _ _ _ _ h1).1)
    | mul t1 t2 w1 w2 y1 y2 k1 k2 =>
      obtain ⟨e1, _, e2⟩ := split_unique t1 t2 s1 s2 '*' '*' (by decide) (by decide) hs
        (Parses_balanced _ _ _ _ _ k1).1 (Parses_balanced _ _ _ _ _ h1).1
        (factor_no_op _ _ _ _ k2 '*' rfl) (factor_no_op _ _ _ _ h2 '*' rfl)
      obtain ⟨a1, a2⟩ := ih1 _ _ _ e1 k1
      obtain ⟨a3, a4⟩ := ih2 _ _ _ e2 k2
      rw [a1, a2, a3, a4]
      exact ⟨rfl, rfl⟩
    | div t1 t2 w1 w2 y1 y2 k1 k2 =>
      obtain ⟨_, e, _⟩ := split_unique t1 t2 s1 s2 '/' '*' (by decide) (by decide) hs
        (Parses_balanced _ _ _ _ _ k1).1 (Parses_balanced _ _ _ _ _ h1).1
        (factor_no_op _ _ _ _ k2 '*' rfl) (factor_no_op _ _ _ _ h2 '/' rfl)
      exact absurd e (by decide)
  | div s1 s2 v1 v2 z1 z2 h1 h2 ih1 ih2 =>
    intro s' v' z' hs h'
    cases h' with
    | factor _ _ _ hin' =>
      exact absurd rfl (factor_no_op _ _ _ _ hin' '/' rfl s1 '/' s2 hs
        (Parses_balanced _ _ _ _ _ h1).1)
    | mul t1 t2 w1 w2 y1 y2 k1 k2 =>
      obtain ⟨_, e, _⟩ := split_unique t1 t2 s1 s2 '*' '/' (by decide) (by decide) hs
        (Parses_balanced _ _ _ _ _ k1).1 (Parses_balanced _ _ _ _ _ h1).1
        (factor_no_op _ _ _ _ k2 '/' rfl) (factor_no_op _ _ _ _ h2 '*' rfl)
      exact absurd e (by decide)
    | div t1 t2 w1 w2 y1 y2 k1 k2 =>
      obtain ⟨e1, _, e2⟩ := split_unique t1 t2 s1 s2 '/' '/' (by decide) (by decide) hs
        (Parses_balanced _ _ _ _ _ k1).1 (Parses_balanced _ _ _ _ _ h1).1
        (factor_no_op _ _ _ _ k2 '/' rfl) (factor_no_op _ _ _ _ h2 '/' rfl)
      obtain ⟨a1, a2⟩ := ih1 _ _ _ e1 k1
      obtain ⟨a3, a4⟩ := ih2 _ _ _ e2 k2
      rw [a1, a2, a3, a4]
      exact ⟨rfl, rfl⟩
  | term s v z hin ih =>
    intro s' v' z' hs h'
    cases h' with
    | term _ _ _ hin' => exact ih _ _ _ hs hin'
    | add s1 s2 v1 v2 z1 z2 h1 _ =>
      exact absurd rfl (term_no_addsub _ _ _ _ hin '+' (Or.inl rfl) s1 '+' s2 hs.symm
        (Parses_balanced _ _ _ _ _ h1).1)
    | sub s1 s2 v1 v2 z1 z2 h1 _ =>
      exact absurd rfl (term_no_addsub _ _ _ _ hin '-' (Or.inr rfl) s1 '-' s2 hs.symm
        (Parses_balanced _ _ _ _ _ h1).1)
  | add s1 s2 v1 v2 z1 z2 h1 h2 ih1 ih2 =>
    intro s' v' z' hs h'
    cases h' with
    | term _ _ _ hin' =>
      exact absurd rfl (term_no_addsub _ _ _ _ hin' '+' (Or.inl rfl) s1 '+' s2 hs
        (Parses_balanced _ _ _ _ _ h1).1)
    | add t1 t2 w1 w2 y1 y2 k1 k2 =>
      obtain ⟨e1, _, e2⟩ := split_unique t1 t2 s1 s2 '+' '+' (by decide) (by decide) hs
        (Parses_balanced _ _ _ _ _ k1).1 (Parses_balanced _ _ _ _ _ h1).1
        (term_no_addsub _ _ _ _ k2 '+' (Or.inl rfl)) (term_no_addsub _ _ _ _ h2 '+' (Or.inl rfl))
      obtain ⟨a1, a2⟩ := ih1 _ _ _ e1 k1
      obtain ⟨a3, a4⟩ := ih2 _ _ _ e2 k2
      rw [a1, a2, a3, a4]
      exact ⟨rfl, rfl⟩
    | sub t1 t2 w1 w2 y1 y2 k1 k2 =>
      obtain ⟨_, e, _⟩ := split_unique t1 t2 s1 s2 '-' '+' (by decide) (by decide) hs
        (Parses_balanced _ _ _ _ _ k1).1 (Parses_balanced _ _ _ _ _ h1).1
        (term_no_addsub _ _ _ _ k2 '+' (Or.inl rfl)) (term_no_addsub _ _ _ _ h2 '-' (Or.inr rfl))
      exact absurd e (by decide)
  | sub s1 s2 v1 v2 z1 z2 h1 h2 ih1 ih2 =>
    intro s' v' z' hs h'
    cases h' with
    | term _ _ _ hin' =>
      exact absurd rfl (term_no_addsub _ _ _ _ hin' '-' (Or.inr rfl) s1 '-' s2 hs
        (Parses_balanced _ _ _ _ _ h1).1)
    | add t1 t2 w1 w2 y1 y2 k1 k2 =>
      obtain ⟨_, e, _⟩ := split_unique t1 t2 s1 s2 '+' '-' (by decide) (by decide) hs
        (Parses_balanced _ _ _ _ _ k1).1 (Parses_balanced _ _ _ _ _ h1).1
        (term_no_addsub _ _ _ _ k2 '-' (Or.inr rfl)) (term_no_addsub _ _ _ _ h2 '+' (Or.inl rfl))
      exact absurd e (by decide)
    | sub t1 t2 w1 w2 y1 y2 k1 k2 =>
      obtain ⟨e1, _, e2⟩ := split_unique t1 t2 s1 s2 '-' '-' (by decide) (by decide) hs
        (Parses_balanced _ _ _ _ _ k1).1 (Parses_balanced _ _ _ _ _ h1).1
        (term_no_addsub _ _ _ _ k2 '-' (Or.inr rfl)) (term_no_addsub _ _ _ _ h2 '-' (Or.inr rfl))
      obtain ⟨a1, a2⟩ := ih1 _ _ _ e1 k1
      obtain ⟨a3, a4⟩ := ih2 _ _ _ e2 k2
      rw [a1, a2, a3, a4]
      exact ⟨rfl, rfl⟩

/-- A derivation is a reading without a division by zero. -/
theorem Derives_Parses (paren : Bool) (lvl : Level) (s : List Char) (v : ℚ)
    (h : Derives paren lvl s v) : Parses paren lvl s v false := by
  induction h with
  | number ds h1 h2 h3 => exact Parses.number ds h1 h2 h3
  | paren s v hp _ ih => exact Parses.paren s v false hp ih
  | factor s v _ ih => exact Parses.factor s v false ih
  | term s v _ ih => exact Parses.term s v false ih
  | mul s1 s2 v1 v2 _ _ ih1 ih2 => exact Parses.mul s1 s2 v1 v2 false false ih1 ih2
  | div s1 s2 v1 v2 _ _ hz ih1 ih2 =>
    have := Parses.div s1 s2 v1 v2 false false ih1 ih2
    simpa [hz] using this
  | add s1 s2 v1 v2 _ _ ih1 ih2 => exact Parses.add s1 s2 v1 v2 false false ih1 ih2
  | sub s1 s2 v1 v2 _ _ ih1 ih2 => exact Parses.sub s1 s2 v1 v2 false false ih1 ih2

/-- A derivable string has no other reading: every reading has the value of
the derivation and no division by zero. -/
theorem Derives_only_reading (paren : Bool) (lvl : Level) (s : List Char) (v : ℚ)
    (h : Derives paren lvl s v) (v' : ℚ) (z' : Bool) (h' : Parses paren lvl s v' z') :
    v' = v ∧ z' = false :=
  Parses_unique paren lvl s v false (Derives_Parses paren lvl s v h) s v' z' rfl h'

/-! ## Every solution is a string of the grammar -/

/-- The string of a solution of `solve` is the string of a solution of its goal. -/
theorem gen_solve_string (G : opt_rat → List Found) (T U V : opt_rat) (op : Char) (rs : Found)
    (hrs : rs ∈ gen_solve G T U op V) :
    ∃ (T' : opt_rat) (rs' : Found), rs' ∈ G T' ∧ rs.2 = rs'.2 := by
  rcases solve_cases T U op V with ⟨T', post, _, h⟩ | ⟨_, h⟩
  · rw [h G, List.mem_map] at hrs
    obtain ⟨rs', hrs', rfl⟩ := hrs
    exact ⟨T', rs', hrs', rfl⟩
  · rw [h G] at hrs
    cases hrs

theorem binop_shape (paren : Bool) (lvl sublvl : Level) (Gsub Gself : opt_rat → Nat → List Found)
    (hsub : ∀ T w rs, 0 < w → rs ∈ Gsub T w → Shaped paren sublvl rs.2)
    (hself : ∀ T w rs, 0 < w → rs ∈ Gself T w → Shaped paren lvl rs.2)
    (op : Char)
    (hcons : ∀ s1 s2, Shaped paren lvl s1 → Shaped paren sublvl s2 →
      Shaped paren lvl (s1 ++ op :: s2))
    (T : opt_rat) (w : Nat) (rs : Found)
    (hrs : rs ∈ (choices ((w : Int) - 2)).flatMap (fun c' =>
      (Gsub { opt_rat.uninit with set := false } (w - c'.toNat - 1)).flatMap (fun vs =>
        (gen_solve (fun U' => Gself U' c'.toNat) T opt_rat.uninit op vs.1).map
          (fun rs => (rs.1, rs.2 ++ op :: vs.2))))) :
    Shaped paren lvl rs.2 := by
  simp only [List.mem_flatMap, List.mem_map] at hrs
  obtain ⟨c', hc', vs, hvs, rs0, hrs0, rfl⟩ := hrs
  rw [mem_choices] at hc'
  have hv := hsub _ _ vs (by omega) hvs
  obtain ⟨T', rs', hrs', hs⟩ := gen_solve_string _ T opt_rat.uninit vs.1 op rs0 hrs0
  have hu := hself T' c'.toNat rs' (by omega) hrs'
  simp only []
  rw [hs]
  exact hcons _ _ hu hv

/-- The string of a solution of `number`. -/
theorem gen_number_shape (paren : Bool) (T : opt_rat) (w : Nat) (hw : 0 < w) (rs : Found)
    (hrs : rs ∈ gen_number T w) : Shaped paren Level.factor rs.2 := by
  unfold gen_number at hrs
  by_cases hset : T.set = true
  · rw [if_pos hset] at hrs
    split at hrs
    · cases hrs
    · rename_i hbad
      split at hrs
      · rename_i hfit
        rw [List.mem_singleton] at hrs
        subst hrs
        have hp0 : 0 ≤ T.val.p := by
          by_contra h; exact hbad (Or.inr (by omega))
        exact ⟨_, _, Derives_Parses _ _ _ _ (Derives_number_int paren w hw _ hp0 hfit)⟩
      · cases hrs
  · rw [if_neg hset] at hrs
    simp only [List.mem_map] at hrs
    obtain ⟨c0, hc0, rfl⟩ := hrs
    obtain ⟨hn0, hscan⟩ := num_scan_unset w hw c0 hc0
    exact ⟨_, _, Derives_Parses _ _ _ _ (Derives_number_int paren w hw _ hn0 hscan)⟩

/-- Every solution of the grammar functions is a string of the grammar, at the
level of the function, whatever the arithmetic has computed. -/
theorem gen_shape (cfg : Config) (fuel : Nat) :
    (∀ T w rs, 0 < w → rs ∈ gen_expression cfg fuel T w →
      Shaped cfg.ALLOW_PARENTHESIS Level.expression rs.2) ∧
    (∀ T w rs, 0 < w → rs ∈ gen_term cfg fuel T w →
      Shaped cfg.ALLOW_PARENTHESIS Level.term rs.2) ∧
    (∀ T w rs, 0 < w → rs ∈ gen_factor cfg fuel T w →
      Shaped cfg.ALLOW_PARENTHESIS Level.factor rs.2) := by
  induction fuel with
  | zero =>
    refine ⟨?_, ?_, ?_⟩ <;> intro T w rs _ hrs
    · rw [gen_expression] at hrs; cases hrs
    · rw [gen_term] at hrs; cases hrs
    · rw [gen_factor] at hrs; cases hrs
  | succ fuel ih =>
    obtain ⟨ihe, iht, ihf⟩ := ih
    refine ⟨?_, ?_, ?_⟩ <;> intro T w rs hw hrs
    · rw [gen_expression, List.mem_flatMap] at hrs
      obtain ⟨c, _, hrs⟩ := hrs
      split at hrs
      · obtain ⟨v, z, d⟩ := iht T w rs hw hrs
        exact ⟨v, z, Parses.term _ _ _ d⟩
      · by_cases h2 : c = 2
        · simp only [h2, if_true] at hrs
          refine binop_shape _ Level.expression Level.term _ _ iht ihe '+' ?_ T w rs hrs
          rintro s1 s2 ⟨v1, z1, d1⟩ ⟨v2, z2, d2⟩
          exact ⟨_, _, Parses.add _ _ _ _ _ _ d1 d2⟩
        · simp only [h2, if_false] at hrs
          refine binop_shape _ Level.expression Level.term _ _ iht ihe '-' ?_ T w rs hrs
          rintro s1 s2 ⟨v1, z1, d1⟩ ⟨v2, z2, d2⟩
          exact ⟨_, _, Parses.sub _ _ _ _ _ _ d1 d2⟩
    · rw [gen_term, List.mem_flatMap] at hrs
      obtain ⟨c, _, hrs⟩ := hrs
      split at hrs
      · obtain ⟨v, z, d⟩ := ihf T w rs hw hrs
        exact ⟨v, z, Parses.factor _ _ _ d⟩
      · by_cases h2 : c = 2
        · simp only [h2, if_true] at hrs
          refine binop_shape _ Level.term Level.factor _ _ ihf iht '*' ?_ T w rs hrs
          rintro s1 s2 ⟨v1, z1, d1⟩ ⟨v2, z2, d2⟩
          exact ⟨_, _, Parses.mul _ _ _ _ _ _ d1 d2⟩
        · simp only [h2, if_false] at hrs
          refine binop_shape _ Level.term Level.factor _ _ ihf iht '/' ?_ T w rs hrs
          rintro s1 s2 ⟨v1, z1, d1⟩ ⟨v2, z2, d2⟩
          exact ⟨_, _, Parses.div _ _ _ _ _ _ d1 d2⟩
    · rw [gen_factor, List.mem_flatMap] at hrs
      obtain ⟨c, hc, hrs⟩ := hrs
      rw [mem_choices] at hc
      split at hrs
      · exact gen_number_shape _ T w hw rs hrs
      · rename_i hc1
        split at hrs
        · cases hrs
        · rename_i hw3
          rw [List.mem_map] at hrs
          obtain ⟨rs', hrs', rfl⟩ := hrs
          have hparen : cfg.ALLOW_PARENTHESIS = true := by
            by_contra h
            simp only [h, Bool.false_eq_true, if_false] at hc
            omega
          obtain ⟨v, z, d⟩ := ihe T (w - 2) rs' (by omega) hrs'
          exact ⟨v, z, Parses.paren _ _ _ hparen d⟩

/-- The characters of a string of the grammar. -/
theorem Parses_glyph (paren : Bool) (lvl : Level) (s : List Char) (v : ℚ) (z : Bool)
    (h : Parses paren lvl s v z) :
    ∀ c, c ∈ s → c.isDigit = true ∨ is_op c = true ∨ (paren = true ∧ (c = '(' ∨ c = ')')) := by
  induction h with
  | number ds h1 h2 h3 => exact fun c hc => Or.inl (h2 c hc)
  | paren s v z hp h ih =>
    intro c hc
    simp only [List.mem_cons, List.mem_append, List.not_mem_nil, or_false] at hc
    rcases hc with (rfl | hc) | rfl
    · exact Or.inr (Or.inr ⟨hp, Or.inl rfl⟩)
    · exact ih c hc
    · exact Or.inr (Or.inr ⟨hp, Or.inr rfl⟩)
  | factor s v z h ih => exact ih
  | term s v z h ih => exact ih
  | mul s1 s2 v1 v2 z1 z2 h1 h2 ih1 ih2 =>
    intro c hc
    simp only [List.mem_append, List.mem_cons] at hc
    rcases hc with hc | rfl | hc
    · exact ih1 c hc
    · exact Or.inr (Or.inl (by decide))
    · exact ih2 c hc
  | div s1 s2 v1 v2 z1 z2 h1 h2 ih1 ih2 =>
    intro c hc
    simp only [List.mem_append, List.mem_cons] at hc
    rcases hc with hc | rfl | hc
    · exact ih1 c hc
    · exact Or.inr (Or.inl (by decide))
    · exact ih2 c hc
  | add s1 s2 v1 v2 z1 z2 h1 h2 ih1 ih2 =>
    intro c hc
    simp only [List.mem_append, List.mem_cons] at hc
    rcases hc with hc | rfl | hc
    · exact ih1 c hc
    · exact Or.inr (Or.inl (by decide))
    · exact ih2 c hc
  | sub s1 s2 v1 v2 z1 z2 h1 h2 ih1 ih2 =>
    intro c hc
    simp only [List.mem_append, List.mem_cons] at hc
    rcases hc with hc | rfl | hc
    · exact ih1 c hc
    · exact Or.inr (Or.inl (by decide))
    · exact ih2 c hc

/-! ## The strings of the candidate store -/

theorem is_glyph_iff (cfg : Config) (c : Char) :
    is_glyph cfg c = true ↔
      (c.isDigit = true ∨ is_op c = true ∨
        (cfg.ALLOW_PARENTHESIS = true ∧ (c = '(' ∨ c = ')')) ∨
        (cfg.NUMBLE = true ∧ cfg.ALLOW_PARENTHESIS = false ∧ c = '=')) := by
  unfold is_glyph
  simp only [Bool.or_eq_true, Bool.and_eq_true, decide_eq_true_eq, Bool.not_eq_true',
    or_assoc, and_assoc]

theorem Shaped_glyph (cfg : Config) (lvl : Level) (s : List Char)
    (h : Shaped cfg.ALLOW_PARENTHESIS lvl s) : ∀ c, c ∈ s → is_glyph cfg c = true := by
  obtain ⟨v, z, h⟩ := h
  intro c hc
  rw [is_glyph_iff]
  rcases Parses_glyph _ _ _ _ _ h c hc with h | h | h
  · exact Or.inl h
  · exact Or.inr (Or.inl h)
  · exact Or.inr (Or.inr (Or.inl h))

/-- The solutions of the search of `findall`: an expression of `SIZE`
characters, and under `NUMBLE` an expression, `=` and a term. -/
theorem gen_findall_grammar (cfg : Config) (hS : 0 < cfg.SIZE) (target : rat) (rs : Found)
    (hrs : rs ∈ gen_findall cfg target) :
    rs.2.length = cfg.SIZE ∧
    (cfg.NUMBLE = false → Shaped cfg.ALLOW_PARENTHESIS Level.expression rs.2) ∧
    (cfg.NUMBLE = true → ∃ (e t : List Char), rs.2 = e ++ '=' :: t ∧
      Shaped cfg.ALLOW_PARENTHESIS Level.expression e ∧
      Shaped cfg.ALLOW_PARENTHESIS Level.term t) := by
  by_cases hN : cfg.NUMBLE = true
  · unfold gen_findall at hrs
    simp only [hN, if_true, List.mem_flatMap, List.mem_map] at hrs
    obtain ⟨c', hc', vs, hvs, rs0, hrs0, rfl⟩ := hrs
    rw [mem_choices] at hc'
    obtain ⟨le, lt, _⟩ := gen_lengths cfg (search_depth cfg)
    obtain ⟨se, st, _⟩ := gen_shape cfg (search_depth cfg)
    have hvl := lt _ _ vs hvs
    have hvg := st _ _ vs (by omega) hvs
    obtain ⟨T', rs', hrs', hs⟩ := gen_solve_string _ _ _ _ _ rs0 hrs0
    have hl' := le _ _ rs' hrs'
    have hg' := se _ _ rs' (by omega) hrs'
    refine ⟨?_, fun h => ?_, fun _ => ⟨rs0.2, vs.2, rfl, ?_, hvg⟩⟩
    · simp only [List.length_append, List.length_cons, hs, hl', hvl]
      omega
    · rw [hN] at h
      cases h
    · rw [hs]
      exact hg'
  · rw [Bool.not_eq_true] at hN
    unfold gen_findall at hrs
    simp only [hN, Bool.false_eq_true, if_false] at hrs
    exact ⟨(gen_lengths cfg _).1 _ _ rs hrs, fun _ => (gen_shape cfg _).1 _ _ rs hS hrs,
      fun h => by rw [hN] at h; cases h⟩

/-- The strings of the solutions of the search of `findall`, for every variant. -/
theorem gen_findall_shape (cfg : Config)
    (hcfg : cfg.NUMBLE = true → cfg.ALLOW_PARENTHESIS = false) (hS : 0 < cfg.SIZE)
    (target : rat) (rs : Found) (hrs : rs ∈ gen_findall cfg target) :
    rs.2.length = cfg.SIZE ∧ ∀ c, c ∈ rs.2 → is_glyph cfg c = true := by
  obtain ⟨hl, h1, h2⟩ := gen_findall_grammar cfg hS target rs hrs
  refine ⟨hl, ?_⟩
  by_cases hN : cfg.NUMBLE = true
  · obtain ⟨e, t, hs, he, ht⟩ := h2 hN
    intro c hc
    rw [hs] at hc
    simp only [List.mem_append, List.mem_cons] at hc
    rcases hc with hc | rfl | hc
    · exact Shaped_glyph cfg _ _ he c hc
    · rw [is_glyph_iff]
      exact Or.inr (Or.inr (Or.inr ⟨hN, hcfg hN, rfl⟩))
    · exact Shaped_glyph cfg _ _ ht c hc
  · rw [Bool.not_eq_true] at hN
    exact Shaped_glyph cfg _ _ (h1 hN)

theorem decode_encode (cfg : Config) (s : List Char)
    (hs : ∀ c, c ∈ s → is_glyph cfg c = true) :
    (s.map (char_to_mask cfg)).map (mask_to_char cfg) = s := by
  rw [List.map_map]
  conv_rhs => rw [← List.map_id s]
  apply List.map_congr_left
  intro c hc
  exact (glyph_mask cfg c ((is_glyph_iff cfg c).1 (hs c hc))).2.2.2

theorem make_formula_inj (cfg : Config) (s s' : List Char) (hl : s.length = cfg.SIZE)
    (hl' : s'.length = cfg.SIZE) (hs : ∀ c, c ∈ s → is_glyph cfg c = true)
    (hs' : ∀ c, c ∈ s' → is_glyph cfg c = true)
    (h : make_formula cfg s = make_formula cfg s') : s = s' := by
  have hm := congrArg formula.mask h
  rw [make_formula_mask cfg s hl, make_formula_mask cfg s' hl'] at hm
  rw [← decode_encode cfg s hs, ← decode_encode cfg s' hs', hm]

/-- Membership of the formula of a string in the candidate store, decided by
the search restricted to that string. -/
theorem mem_generate_string_iff (cfg : Config) (hN : cfg.NUMBLE = false) (hS : 0 < cfg.SIZE)
    (target : rat) (s : List Char) (hl : s.length = cfg.SIZE)
    (hs : ∀ c, c ∈ s → is_glyph cfg c = true) :
    make_formula cfg s ∈ generate cfg target ↔
      (check_expression cfg (search_depth cfg) ⟨true, target⟩ s ≠ [] ∧
        count_op cfg s ≤ cfg.MAX_OP) := by
  rw [mem_generate_iff cfg target hS]
  have hgf : gen_findall cfg target =
      gen_expression cfg (search_depth cfg) ⟨true, target⟩ cfg.SIZE := by
    unfold gen_findall
    simp only [hN, Bool.false_eq_true, if_false]
  constructor
  · rintro ⟨rs, hrs, hc, hf⟩
    obtain ⟨h1, h2⟩ := gen_findall_shape cfg (fun h => by rw [hN] at h; cases h) hS target
      rs hrs
    have := make_formula_inj cfg s rs.2 hl h1 hs h2 hf
    subst this
    refine ⟨?_, hc⟩
    rw [hgf, ← h1] at hrs
    have := ((check_iff cfg (search_depth cfg)).1 ⟨true, target⟩ rs.2 rs.1 (by omega)).2 hrs
    exact List.ne_nil_of_mem this
  · rintro ⟨hne, hc⟩
    obtain ⟨r, hr⟩ := List.exists_mem_of_ne_nil _ hne
    have := ((check_iff cfg (search_depth cfg)).1 ⟨true, target⟩ s r (by omega)).1 hr
    rw [hl, ← hgf] at this
    exact ⟨(r, s), this, hc, rfl⟩

/-- An example: `15-10` is in the candidate store of the easy variant for the target 5. -/
theorem easy_member :
    make_formula EASY ['1', '5', '-', '1', '0'] ∈ generate EASY ⟨5, 1⟩ := by
  rw [mem_generate_string_iff EASY rfl (by decide) ⟨5, 1⟩
    ['1', '5', '-', '1', '0'] (by decide) (by decide)]
  decide

/-- An example with a division: `50/10` is in the candidate store of the easy
variant for the target 5. -/
theorem easy_member_div :
    make_formula EASY ['5', '0', '/', '1', '0'] ∈ generate EASY ⟨5, 1⟩ := by
  rw [mem_generate_string_iff EASY rfl (by decide) ⟨5, 1⟩
    ['5', '0', '/', '1', '0'] (by decide) (by decide)]
  decide

/-! ## The all-GREEN feedback -/

theorem color_at_zero (i : Nat) : color_at 0 i = GREEN := by
  unfold color_at GREEN
  simp

/-- After `state_update` with the symbols of `f` and the all-GREEN code 0, `f`
is compatible with the resulting state exactly when it was compatible with the
state before; and then the update returns true. -/
theorem all_green_aux (cfg : Config) (st : state) (f : formula) (e : Nat → Nat)
    (hf : ∀ i, i < cfg.SIZE → f.mask.getD i 0 = 2 ^ e i ∧ e i < 32)
    (hused : f.used = used_of cfg f.mask) :
    (state_compatible cfg st f = true →
      (state_update cfg st f.mask 0).1 = true ∧
      state_compatible cfg (state_update cfg st f.mask 0).2 f = true) ∧
    (state_compatible cfg (state_update cfg st f.mask 0).2 f = true →
      state_compatible cfg st f = true) := by
  constructor
  · intro hc
    rw [state_compatible_iff_inter] at hc
    obtain ⟨hm, hp⟩ := hc
    have hok : (state_update cfg st f.mask 0).1 = true := by
      rw [state_update_true_iff]
      intro i hi _
      rw [Nat.land_comm]
      exact hp i hi
    refine ⟨hok, ?_⟩
    rw [state_compatible_iff_inter]
    constructor
    · rw [subset_iff_testBit]
      intro k hk
      rw [state_update_ok_mandatory cfg st f.mask 0 hok k] at hk
      rcases hk with hk | ⟨i, hi, _, hb⟩
      · exact (subset_iff_testBit _ _).mp hm k hk
      · rw [hused, used_of_testBit]
        exact ⟨i, hi, hb⟩
    · intro j hj
      obtain ⟨hj1, hj2⟩ := hf j hj
      rw [hj1, two_pow_land_ne_zero_iff, state_update_ok_bits cfg st f.mask 0 hok j (e j) hj]
      have hag : after_green st f.mask 0 j = 2 ^ e j := by
        unfold after_green
        rw [if_pos (color_at_zero j), hj1]
      rw [hag]
      exact ⟨Nat.testBit_two_pow_self, Or.inl (two_pow_singleton (e j) hj2)⟩
  · intro hc
    rw [state_compatible_iff_inter] at hc ⊢
    obtain ⟨hm, hp⟩ := hc
    constructor
    · exact subset_trans (state_update_mandatory_superset cfg st f.mask 0) hm
    · intro j hj
      have hsub := state_update_possible_subset cfg st f.mask 0
        (fun i hi => ⟨e i, (hf i hi).1⟩) j
      rw [subset_iff_testBit] at hsub
      obtain ⟨k, h1, h2⟩ := (land_ne_zero_iff _ _).mp (hp j hj)
      exact (land_ne_zero_iff _ _).mpr ⟨k, h1, hsub k h2⟩

/-! ## The test `(m & -m) == m` and `state_relax` -/

theorem testBit_sub_one_above (m i j : Nat) (hi : m.testBit i = true) (hij : i < j) :
    (m - 1).testBit j = m.testBit j := by
  have hr : m % 2 ^ j ≠ 0 := by
    intro h0
    have := Nat.testBit_mod_two_pow m j i
    rw [h0, Nat.zero_testBit, hi] at this
    simp [hij] at this
  have hd : 0 < 2 ^ j := Nat.two_pow_pos j
  have hdiv : (m - 1) / 2 ^ j = m / 2 ^ j := by
    have h1 := Nat.div_add_mod m (2 ^ j)
    have h2 := Nat.mod_lt m hd
    apply Nat.div_eq_of_lt_le
    · rw [Nat.mul_comm]; omega
    · rw [Nat.add_mul, Nat.one_mul, Nat.mul_comm]; omega
  rw [Nat.testBit_to_div_mod, Nat.testBit_to_div_mod, hdiv]

theorem testBit_mask_neg (m k : Nat) (h0 : 0 < m) (hm : m < 2 ^ 32) :
    (mask_neg m).testBit k = (decide (k < 32) && !(m - 1).testBit k) := by
  unfold mask_neg
  rw [Nat.mod_eq_of_lt hm, Nat.mod_eq_of_lt (by omega)]
  have e : 2 ^ 32 - m = 2 ^ 32 - ((m - 1) + 1) := by omega
  rw [e, Nat.testBit_two_pow_sub_succ (by omega)]

/-- The test `(m & -m) == m` on a 32-bit mask holds exactly when the mask has
at most one bit: it is empty or a single symbol. -/
theorem single_test_iff (m : Nat) (hm : m < 2 ^ 32) :
    m &&& mask_neg m = m ↔ ∀ i j, m.testBit i = true → m.testBit j = true → i = j := by
  constructor
  · intro ht
    have key : ∀ i j, m.testBit i = true → m.testBit j = true → ¬ i < j := by
      intro i j hi hj hij
      have h0 : 0 < m := by
        rcases Nat.eq_zero_or_pos m with h | h
        · rw [h, Nat.zero_testBit] at hi; cases hi
        · exact h
      have h1 := (subset_iff_testBit _ _).mp ht j hj
      rw [testBit_mask_neg m j h0 hm, testBit_sub_one_above m i j hi hij, hj] at h1
      simp at h1
    intro i j hi hj
    rcases Nat.lt_trichotomy i j with h | h | h
    · exact absurd h (key i j hi hj)
    · exact h
    · exact absurd h (key j i hj hi)
  · intro hu
    by_cases h0 : m = 0
    · subst h0; decide
    · obtain ⟨e, he⟩ := Nat.ne_zero_implies_bit_true h0
      have hme : m = 2 ^ e := by
        apply Nat.eq_of_testBit_eq
        intro i
        rw [Nat.testBit_two_pow]
        by_cases hie : e = i
        · subst hie; simp [he]
        · simp only [hie, decide_False]
          by_contra hne
          rw [Bool.not_eq_false] at hne
          exact hie (hu e i he hne)
      have he32 : e < 32 := by
        by_contra hge
        have h1 := Nat.testBit_implies_ge he
        have h2 : 2 ^ 32 ≤ 2 ^ e := Nat.pow_le_pow_right (by norm_num) (by omega)
        omega
      rw [hme]
      exact two_pow_singleton e he32

/-- `state_relax`, position by position. -/
theorem state_relax_spec (cfg : Config) (st : state) :
    (state_relax cfg st).mandatory = st.mandatory ∧
    (state_relax cfg st).possible.length = st.possible.length ∧
    (∀ j, (state_relax cfg st).possible.getD j 0 =
      if j < cfg.SIZE ∧ j < st.possible.length ∧
          st.possible.getD j 0 &&& mask_neg (st.possible.getD j 0) = st.possible.getD j 0
      then used_of cfg st.possible else st.possible.getD j 0) := by
  unfold state_relax
  simp only []
  have hU : (List.range cfg.SIZE).foldl (fun acc i => acc ||| st.possible.getD i 0) MSKnone =
      used_of cfg st.possible := rfl
  rw [hU]
  refine foldl_range_ind (fun n (s : state) =>
    s.mandatory = st.mandatory ∧ s.possible.length = st.possible.length ∧
    (∀ j, s.possible.getD j 0 =
      if j < n ∧ j < st.possible.length ∧
          st.possible.getD j 0 &&& mask_neg (st.possible.getD j 0) = st.possible.getD j 0
      then used_of cfg st.possible else st.possible.getD j 0)) _ _ _ ?_ ?_
  · simp
  · rintro i hi s ⟨h1, h2, h3⟩
    have hcur : s.possible.getD i 0 = st.possible.getD i 0 := by rw [h3 i]; simp
    rw [hcur]
    by_cases hs : st.possible.getD i 0 &&& mask_neg (st.possible.getD i 0) = st.possible.getD i 0
    · rw [if_pos hs]
      refine ⟨h1, by simp [h2], ?_⟩
      intro j
      rw [getD_set_nat, h3 j, h2]
      by_cases hji : i = j
      · subst hji
        by_cases hl : i < st.possible.length
        · rw [if_pos ⟨rfl, hl⟩, if_pos ⟨Nat.lt_succ_self i, hl, hs⟩]
        · rw [if_neg (fun h => hl h.2), if_neg (fun h => hl h.2.1), if_neg (fun h => hl h.2.1)]
      · rw [if_neg (fun h => hji h.1)]
        by_cases hc : j < i ∧ j < st.possible.length ∧
            st.possible.getD j 0 &&& mask_neg (st.possible.getD j 0) = st.possible.getD j 0
        · rw [if_pos hc, if_pos ⟨by omega, hc.2⟩]
        · rw [if_neg hc, if_neg (fun h => hc ⟨by omega, h.2⟩)]
    · rw [if_neg hs]
      refine ⟨h1, h2, ?_⟩
      intro j
      rw [h3 j]
      by_cases hc : j < i ∧ j < st.possible.length ∧
          st.possible.getD j 0 &&& mask_neg (st.possible.getD j 0) = st.possible.getD j 0
      · rw [if_pos hc, if_pos ⟨by omega, hc.2⟩]
      · rw [if_neg hc, if_neg]
        rintro ⟨a, b, c⟩
        by_cases hji : j = i
        · subst hji; exact hs c
        · exact hc ⟨by omega, b, c⟩

/-! ## Reduced results and the sign of the denominator -/

theorem rat_norm_eq_div (p q : Int) :
    rat_norm p q = ⟨p / (Int.gcd p q : Int), q / (Int.gcd p q : Int)⟩ := by
  unfold rat_norm
  simp only []
  rw [gcd_eq, Int.tdiv_eq_ediv_of_dvd Int.gcd_dvd_left,
    Int.tdiv_eq_ediv_of_dvd Int.gcd_dvd_right]

/-- The result of `rat_norm` is reduced. -/
theorem rat_norm_reduced (p q : Int) (hq : q ≠ 0) :
    Int.gcd (rat_norm p q).p (rat_norm p q).q = 1 := by
  rw [rat_norm_eq_div]
  have hpos : 0 < Int.gcd p q := Int.gcd_pos_of_ne_zero_right p hq
  exact Int.gcd_div_gcd_div_gcd hpos

/-- The function `gcd` of the program on the absolute values. -/
theorem gcd_abs_eq (a b : Int) : gcd |a| |b| = (Int.gcd a b : Int) := by
  rw [gcd_eq]
  unfold Int.gcd
  rw [Int.natAbs_abs, Int.natAbs_abs]

/-- `rat_norm` keeps the sign of the denominator. -/
theorem rat_norm_sign (p q : Int) :
    (0 < q → 0 < (rat_norm p q).q) ∧ (q < 0 → (rat_norm p q).q < 0) := by
  rw [rat_norm_eq_div]
  simp only []
  have hd : ((Int.gcd p q : Nat) : Int) ∣ q := Int.gcd_dvd_right
  constructor
  · intro hq
    have hg : (0 : Int) < (Int.gcd p q : Int) := by
      exact_mod_cast Int.gcd_pos_of_ne_zero_right p (ne_of_gt hq)
    exact Int.ediv_pos_of_pos_of_dvd hq (le_of_lt hg) hd
  · intro hq
    have hg : (0 : Int) < (Int.gcd p q : Int) := by
      exact_mod_cast Int.gcd_pos_of_ne_zero_right p (ne_of_lt hq)
    have h1 := Int.ediv_mul_cancel hd
    by_contra hge
    rw [not_lt] at hge
    have := mul_nonneg hge (le_of_lt hg)
    omega

/-- Two reduced fractions with positive denominators and the same value are
the same pair. -/
theorem normal_form_unique (r s : rat) (hr : 0 < r.q) (hs : 0 < s.q)
    (gr : Int.gcd r.p r.q = 1) (gs : Int.gcd s.p s.q = 1) (h : r.toRat = s.toRat) : r = s := by
  obtain ⟨rp, rq⟩ := r
  obtain ⟨sp, sq⟩ := s
  unfold rat.toRat at h
  simp only at hr hs gr gs h
  obtain ⟨e1, e2⟩ := Rat.div_int_inj hr hs gr gs h
  rw [e1, e2]

/-- A reduced fraction with a positive denominator has the denominator 1
exactly when its value is an integer. -/
theorem whole_iff_integer (r : rat) (hr : 0 < r.q) (gr : Int.gcd r.p r.q = 1) :
    rat_whole r = true ↔ ∃ n : Int, r.toRat = (n : ℚ) := by
  unfold rat_whole
  rw [beq_iff_eq]
  constructor
  · intro h1
    exact ⟨r.p, by unfold rat.toRat; rw [h1]; simp⟩
  · rintro ⟨n, hn⟩
    have := normal_form_unique r ⟨n, 1⟩ hr (by norm_num) gr (by simp) (by
      rw [hn]; unfold rat.toRat; simp)
    rw [this]

/-! ## `ARRAY_REM` and the loops that take entries out of a table -/

/-- `ARRAY_REM` takes out the entry at `index` and nothing else. -/
theorem ARRAY_REM_perm {α : Type} (l : List α) (i : Nat) (hi : i < l.length) :
    ∃ y, l[i]? = some y ∧ List.Perm (y :: ARRAY_REM l i) l := by
  induction l generalizing i with
  | nil => simp at hi
  | cons a t ih =>
    cases t with
    | nil =>
      have h0 : i = 0 := by simp at hi; omega
      subst h0
      exact ⟨a, rfl, by simp [ARRAY_REM]⟩
    | cons b t =>
      obtain ⟨x, hx⟩ : ∃ x, (b :: t).getLast? = some x :=
        ⟨(b :: t).getLast (by simp), List.getLast?_eq_getLast _ _⟩
      have hl : (a :: b :: t).getLast? = some x := by rw [List.getLast?_cons_cons]; exact hx
      have hdl : (b :: t).dropLast ++ [x] = b :: t := List.dropLast_append_getLast? x hx
      cases i with
      | zero =>
        refine ⟨a, rfl, ?_⟩
        unfold ARRAY_REM
        rw [hl]
        simp only [List.set_cons_zero]
        rw [List.dropLast_cons_of_ne_nil (by simp)]
        refine List.Perm.cons a ?_
        rw [← List.singleton_append]
        conv_rhs => rw [← hdl]
        exact List.perm_append_comm
      | succ i =>
        obtain ⟨y, hy, hp⟩ := ih i (by simpa using hi)
        refine ⟨y, by simpa using hy, ?_⟩
        unfold ARRAY_REM at hp ⊢
        rw [hl]
        rw [hx] at hp
        simp only [List.set_cons_succ]
        rw [List.dropLast_cons_of_ne_nil (by
          intro h
          have := congrArg List.length h
          simp at this)]
        exact (List.Perm.swap a y _).trans (List.Perm.cons a hp)

theorem ARRAY_REM_length {α : Type} (l : List α) (i : Nat) (hi : i < l.length) :
    (ARRAY_REM l i).length = l.length - 1 := by
  obtain ⟨y, _, hp⟩ := ARRAY_REM_perm l i hi
  have := hp.length_eq
  simp only [List.length_cons] at this
  omega

theorem ARRAY_REM_getElem?_lt {α : Type} (l : List α) (i j : Nat) (hi : i < l.length)
    (hj : j < i) : (ARRAY_REM l i)[j]? = l[j]? := by
  unfold ARRAY_REM
  cases hx : l.getLast? with
  | none => rfl
  | some x =>
    simp only []
    rw [List.dropLast_eq_take, List.getElem?_take_of_lt (by simp; omega),
      List.getElem?_set_ne (by omega)]

/-- The loop keeps the entries that pass the test, each as often as it was there. -/
theorem prune_loop_filter {α : Type} (keep : α → Bool) (fuel i : Nat) (tab : List α) :
    List.Perm ((prune_loop keep fuel i tab).filter keep) (tab.filter keep) := by
  induction fuel generalizing i tab with
  | zero => exact List.Perm.refl _
  | succ fuel ih =>
    unfold prune_loop
    cases hf : tab[i]? with
    | none => exact List.Perm.refl _
    | some f =>
      simp only []
      by_cases hk : keep f = true
      · rw [if_pos hk]
        exact ih (i + 1) tab
      · rw [if_neg hk]
        refine (ih i (ARRAY_REM tab i)).trans ?_
        have hi : i < tab.length := by
          by_contra h
          rw [List.getElem?_eq_none (by omega)] at hf
          cases hf
        obtain ⟨y, hy, hp⟩ := ARRAY_REM_perm tab i hi
        rw [hf] at hy
        cases hy
        have := hp.filter keep
        rw [List.filter_cons_of_neg hk] at this
        exact this

/-- With as many passes as the table has entries, the loop leaves no entry that fails the test. -/
theorem prune_loop_all {α : Type} (keep : α → Bool) (fuel i : Nat) (tab : List α)
    (hfuel : tab.length - i ≤ fuel)
    (hpre : ∀ j x, j < i → tab[j]? = some x → keep x = true) :
    ∀ x, x ∈ prune_loop keep fuel i tab → keep x = true := by
  induction fuel generalizing i tab with
  | zero =>
    intro x hx
    rw [prune_loop] at hx
    obtain ⟨j, hj, rfl⟩ := List.mem_iff_getElem.mp hx
    exact hpre j _ (by omega) (List.getElem?_eq_getElem hj)
  | succ fuel ih =>
    intro x hx
    unfold prune_loop at hx
    cases hf : tab[i]? with
    | none =>
      rw [hf] at hx
      simp only [] at hx
      obtain ⟨j, hj, rfl⟩ := List.mem_iff_getElem.mp hx
      have hi : tab.length ≤ i := by
        by_contra h
        rw [List.getElem?_eq_getElem (by omega)] at hf
        cases hf
      exact hpre j _ (by omega) (List.getElem?_eq_getElem hj)
    | some f =>
      rw [hf] at hx
      simp only [] at hx
      have hi : i < tab.length := by
        by_contra h
        rw [List.getElem?_eq_none (by omega)] at hf
        cases hf
      by_cases hk : keep f = true
      · rw [if_pos hk] at hx
        refine ih (i + 1) tab (by omega) ?_ x hx
        intro j y hj hy
        by_cases hji : j = i
        · subst hji
          rw [hf] at hy
          cases hy
          exact hk
        · exact hpre j y (by omega) hy
      · rw [if_neg hk] at hx
        refine ih i (ARRAY_REM tab i) (by rw [ARRAY_REM_length tab i hi]; omega) ?_ x hx
        intro j y hj hy
        rw [ARRAY_REM_getElem?_lt tab i j hi hj] at hy
        exact hpre j y hj hy

/-- `remove_impossible` leaves, in some order, exactly the formulas of the
store that are compatible with the state. -/
theorem remove_impossible_perm (cfg : Config) (s : state) (formulae : List formula) :
    List.Perm (remove_impossible cfg s formulae)
      (formulae.filter (state_compatible cfg s)) := by
  unfold remove_impossible
  have h1 := prune_loop_filter (state_compatible cfg s) formulae.length 0 formulae
  have h2 := prune_loop_all (state_compatible cfg s) formulae.length 0 formulae (by omega)
    (fun j x hj _ => absurd hj (Nat.not_lt_zero j))
  rw [List.filter_eq_self.mpr h2] at h1
  exact h1

/-! ## The loops of `play_round` -/

theorem match_loop_eq_iff (cfg : Config) (mask symbs : List Nat) (fuel j : Nat)
    (h : j + fuel = cfg.SIZE) :
    match_loop cfg mask symbs fuel j = cfg.SIZE ↔
      ∀ k, j ≤ k → k < cfg.SIZE → mask.getD k 0 = symbs.getD k 0 := by
  induction fuel generalizing j with
  | zero =>
    rw [match_loop]
    constructor
    · intro _ k h1 h2; omega
    · intro _; omega
  | succ fuel ih =>
    rw [match_loop]
    by_cases hc : j < cfg.SIZE ∧ mask.getD j 0 = symbs.getD j 0
    · rw [if_pos hc, ih (j + 1) (by omega)]
      constructor
      · intro hh k h1 h2
        by_cases hkj : k = j
        · subst hkj; exact hc.2
        · exact hh k (by omega) h2
      · intro hh k h1 h2
        exact hh k (by omega) h2
    · rw [if_neg hc]
      constructor
      · intro hh; omega
      · intro hh
        exact absurd ⟨by omega, hh j (le_refl j) (by omega)⟩ hc

/-- The loop of the relaxed mode takes out one formula whose masks are those
of the guess, when the store holds one, and nothing otherwise. -/
theorem remove_guess_loop_spec (cfg : Config) (symbs : List Nat) (fuel i : Nat)
    (pool : List formula) (hfuel : pool.length - i ≤ fuel)
    (hpre : ∀ j f, j < i → pool[j]? = some f →
      ¬ ∀ k, k < cfg.SIZE → f.mask.getD k 0 = symbs.getD k 0) :
    ((∃ f, f ∈ pool ∧ ∀ k, k < cfg.SIZE → f.mask.getD k 0 = symbs.getD k 0) →
      ∃ f', f' ∈ pool ∧ (∀ k, k < cfg.SIZE → f'.mask.getD k 0 = symbs.getD k 0) ∧
        List.Perm (f' :: remove_guess_loop cfg symbs fuel i pool) pool) ∧
    ((¬ ∃ f, f ∈ pool ∧ ∀ k, k < cfg.SIZE → f.mask.getD k 0 = symbs.getD k 0) →
      remove_guess_loop cfg symbs fuel i pool = pool) := by
  have done : ∀ i', (∀ j f, j < i' → pool[j]? = some f →
        ¬ ∀ k, k < cfg.SIZE → f.mask.getD k 0 = symbs.getD k 0) → pool.length ≤ i' →
      ¬ ∃ f, f ∈ pool ∧ ∀ k, k < cfg.SIZE → f.mask.getD k 0 = symbs.getD k 0 := by
    rintro i' hpre' hle ⟨f, hf, hm⟩
    obtain ⟨j, hj, rfl⟩ := List.mem_iff_getElem.mp hf
    exact hpre' j _ (by omega) (List.getElem?_eq_getElem hj) hm
  induction fuel generalizing i with
  | zero =>
    rw [remove_guess_loop]
    exact ⟨fun h => absurd h (done i hpre (by omega)), fun _ => rfl⟩
  | succ fuel ih =>
    unfold remove_guess_loop
    cases hf : pool[i]? with
    | none =>
      have hi : pool.length ≤ i := by
        by_contra h
        rw [List.getElem?_eq_getElem (by omega)] at hf
        cases hf
      exact ⟨fun h => absurd h (done i hpre hi), fun _ => rfl⟩
    | some f =>
      simp only []
      have hi : i < pool.length := by
        by_contra h
        rw [List.getElem?_eq_none (by omega)] at hf
        cases hf
      by_cases hm : match_loop cfg f.mask symbs cfg.SIZE 0 = cfg.SIZE
      · rw [if_pos hm]
        rw [match_loop_eq_iff cfg f.mask symbs cfg.SIZE 0 (by omega)] at hm
        have hm' : ∀ k, k < cfg.SIZE → f.mask.getD k 0 = symbs.getD k 0 :=
          fun k hk => hm k (Nat.zero_le k) hk
        have hmem : f ∈ pool := List.mem_iff_getElem.mpr ⟨i, hi, by
          rw [List.getElem?_eq_getElem hi] at hf
          exact Option.some.inj hf⟩
        obtain ⟨y, hy, hp⟩ := ARRAY_REM_perm pool i hi
        rw [hf] at hy
        cases hy
        exact ⟨fun _ => ⟨f, hmem, hm', hp⟩, fun h => absurd ⟨f, hmem, hm'⟩ h⟩
      · rw [if_neg hm]
        rw [match_loop_eq_iff cfg f.mask symbs cfg.SIZE 0 (by omega)] at hm
        refine ih (i + 1) (by omega) ?_
        intro j g hj hg
        by_cases hji : j = i
        · subst hji
          rw [hf] at hg
          cases hg
          exact fun h => hm (fun k _ hk => h k hk)
        · exact hpre j g (by omega) hg

/-! ## Reading the feedback -/

theorem read_colors_blanks (cfg : Config) (bs rest : List Char) (colors i index : Nat)
    (hi : i < cfg.SIZE) (hb : ∀ b, b ∈ bs → b = ' ' ∨ b = '\r' ∨ b = '\n') :
    read_colors cfg (bs ++ rest) colors i index = read_colors cfg rest colors i index := by
  induction bs with
  | nil => rfl
  | cons b bs ih =>
    rw [List.cons_append, read_colors, if_pos hi,
      if_pos (hb b (List.mem_cons_self b bs))]
    exact ih (fun b' hb' => hb b' (List.mem_cons_of_mem b hb'))

theorem read_colors_token (cfg : Config) (c : Nat) (hc : c < 3) (rest : List Char)
    (colors i index : Nat) (hi : i < cfg.SIZE) :
    read_colors cfg (token_char c :: rest) colors i index =
      read_colors cfg rest (colors + c * index) (i + 1) (index * 3) := by
  interval_cases c
  · rw [show token_char 0 = '!' from rfl, read_colors, if_pos hi, if_neg (by decide),
      if_pos rfl]
    rfl
  · rw [show token_char 1 = '+' from rfl, read_colors, if_pos hi, if_neg (by decide),
      if_neg (by decide), if_pos rfl]
    rfl
  · rw [show token_char 2 = '-' from rfl, read_colors, if_pos hi, if_neg (by decide),
      if_neg (by decide), if_neg (by decide), if_pos rfl]
    rfl

theorem read_colors_done (cfg : Config) (rest : List Char) (colors i index : Nat)
    (hi : ¬ i < cfg.SIZE) : read_colors cfg rest colors i index = some (colors, rest) := by
  cases rest with
  | nil => rw [read_colors, if_neg hi]
  | cons c rest => rw [read_colors, if_neg hi]

/-- Reading `SIZE` valid tokens, with blanks between them, packs their codes in base 3. -/
theorem read_colors_feedback (cfg : Config) (toks : List (List Char × Nat)) (rest : List Char)
    (colors i index : Nat) (hlen : i + toks.length = cfg.SIZE)
    (hb : ∀ t, t ∈ toks → (∀ b, b ∈ t.1 → b = ' ' ∨ b = '\r' ∨ b = '\n') ∧ t.2 < 3) :
    read_colors cfg (feedback_input toks rest) colors i index =
      some (colors + index * pack (toks.map Prod.snd), rest) := by
  induction toks generalizing colors i index with
  | nil =>
    simp only [feedback_input, List.flatMap_nil, List.nil_append, List.map_nil, pack,
      Nat.mul_zero, Nat.add_zero]
    exact read_colors_done cfg rest colors i index (by simp at hlen; omega)
  | cons t toks ih =>
    have hi : i < cfg.SIZE := by simp at hlen; omega
    obtain ⟨hb1, hb2⟩ := hb t (List.mem_cons_self t toks)
    have e : feedback_input (t :: toks) rest =
        t.1 ++ (token_char t.2 :: feedback_input toks rest) := by
      simp [feedback_input, List.flatMap_cons]
    rw [e, read_colors_blanks cfg _ _ _ _ _ hi hb1, read_colors_token cfg t.2 hb2 _ _ _ _ hi,
      ih _ _ _ (by simp at hlen ⊢; omega) (fun t' ht' => hb t' (List.mem_cons_of_mem t ht'))]
    simp only [List.map_cons, pack]
    congr 2
    ring

theorem pack_lt (cs : List Nat) (h : ∀ c, c ∈ cs → c < 3) : pack cs < 3 ^ cs.length := by
  induction cs with
  | nil => simp [pack]
  | cons c cs ih =>
    have h1 := h c (List.mem_cons_self c cs)
    have h2 := ih (fun c' hc' => h c' (List.mem_cons_of_mem c hc'))
    simp only [pack, List.length_cons, pow_succ]
    omega

theorem pack_eq_zero_iff (cs : List Nat) : pack cs = 0 ↔ ∀ c, c ∈ cs → c = 0 := by
  induction cs with
  | nil => simp [pack]
  | cons c cs ih =>
    simp only [pack, List.mem_cons, forall_eq_or_imp]
    rw [← ih]
    omega

theorem pack_color_at (cs : List Nat) (h : ∀ c, c ∈ cs → c < 3) (i : Nat) (hi : i < cs.length) :
    color_at (pack cs) i = cs.getD i 0 := by
  induction cs generalizing i with
  | nil => simp at hi
  | cons c cs ih =>
    have h1 := h c (List.mem_cons_self c cs)
    cases i with
    | zero =>
      simp only [color_at, pack, pow_zero, Nat.div_one, List.getD_cons_zero]
      omega
    | succ i =>
      have := ih (fun c' hc' => h c' (List.mem_cons_of_mem c hc')) i (by simpa using hi)
      simp only [List.getD_cons_succ]
      rw [← this]
      unfold color_at
      simp only [pack]
      rw [pow_succ, Nat.mul_comm (3 ^ i) 3, ← Nat.div_div_eq_div_mul]
      congr 2
      omega

theorem pack_eq_sum (cs : List Nat) :
    pack cs = ∑ i in Finset.range cs.length, cs.getD i 0 * 3 ^ i := by
  induction cs with
  | nil => simp [pack]
  | cons c cs ih =>
    rw [pack, List.length_cons, Finset.sum_range_succ', ih, Finset.mul_sum]
    simp only [List.getD_cons_succ, List.getD_cons_zero, pow_zero, Nat.mul_one, pow_succ]
    rw [Nat.add_comm]
    congr 1
    apply Finset.sum_congr rfl
    intro i _
    ring

/-! ## One pass of the loop of `play_round` -/

theorem guess_masks_getD (cfg : Config) (buffer : List Char) (i : Nat) (hi : i < cfg.SIZE) :
    (guess_masks cfg buffer).getD i 0 = char_to_mask cfg (buffer.getD i (Char.ofNat 0)) := by
  unfold guess_masks
  rw [List.getD_eq_getElem?_getD, List.getElem?_map, List.getElem?_range hi]
  rfl

theorem set_self {α : Type} (l : List α) (i : Nat) (h : i < l.length) : l.set i l[i] = l := by
  apply List.ext_getElem?
  intro j
  by_cases hji : i = j
  · subst hji
    rw [List.getElem?_set_self h, List.getElem?_eq_getElem h]
  · rw [List.getElem?_set_ne hji]

/-- The error branch writes the guess back: a buffer of glyphs is left as it is. -/
theorem restore_buffer_eq (cfg : Config) (buffer : List Char)
    (hb : ∀ c, c ∈ buffer → is_glyph cfg c = true) :
    restore_buffer cfg (guess_masks cfg buffer) buffer = buffer := by
  unfold restore_buffer
  refine foldl_range_ind (fun _ (buf : List Char) => buf = buffer) _ _ _ rfl ?_
  intro i hi buf hbuf
  subst hbuf
  by_cases hl : i < buf.length
  · rw [guess_masks_getD cfg buf i hi, List.getD_eq_getElem?_getD, List.getElem?_eq_getElem hl]
    simp only [Option.getD_some]
    rw [(glyph_mask cfg buf[i] ((is_glyph_iff cfg _).1 (hb _ (List.getElem_mem _)))).2.2.2]
    exact set_self buf i hl
  · exact List.set_eq_of_length_le (by omega)

theorem count_eq_zero_iff (cfg : Config) (st : state) (thr : Nat) (tab : List formula) :
    0 = state_compatible_count cfg st thr tab ↔
      ∀ f, f ∈ tab → state_compatible cfg st f = false := by
  rw [state_compatible_count_eq]
  unfold compatible_total
  constructor
  · intro h f hf
    have h0 : List.countP (state_compatible cfg st) tab = 0 := by omega
    rw [List.countP_eq_zero] at h0
    simpa using h0 f hf
  · intro h
    have h0 : List.countP (state_compatible cfg st) tab = 0 := by
      rw [List.countP_eq_zero]
      intro f hf
      simp [h f hf]
    omega

/-- The pass returns false, leaving the state and the store as they are, when
the store has at most one formula and when the code read is 0. -/
theorem play_round_body_solved (cfg : Config) (libc : Libc) (relaxed : Bool) (w : World) :
    (w.formulae.length ≤ 1 → play_round_body cfg libc relaxed w = Step.ret false w) ∧
    (∀ inp, 1 < w.formulae.length → read_colors cfg w.input 0 0 1 = some (0, inp) →
      play_round_body cfg libc relaxed w = Step.ret false { w with input := inp }) := by
  constructor
  · intro h
    unfold play_round_body
    simp only [if_pos h]
  · intro inp h hr
    unfold play_round_body
    simp only [if_neg (by omega : ¬ w.formulae.length ≤ 1), hr, if_true]

/-- The pass rolls back when no formula of the store is compatible with the updated state. -/
theorem play_round_body_rollback (cfg : Config) (libc : Libc) (relaxed : Bool) (w : World)
    (colors : Nat) (inp : List Char) (hlen : 1 < w.formulae.length)
    (hread : read_colors cfg w.input 0 0 1 = some (colors, inp)) (hc : colors ≠ 0)
    (hnone : ∀ f, f ∈ w.formulae →
      state_compatible cfg (state_update cfg w.state (guess_masks cfg w.buffer) colors).2 f =
        false) :
    play_round_body cfg libc relaxed w =
      Step.again { w with buffer := restore_buffer cfg (guess_masks cfg w.buffer) w.buffer,
                          input := inp } := by
  unfold play_round_body
  simp only [if_neg (by omega : ¬ w.formulae.length ≤ 1), hread, if_neg (Ne.symm hc),
    if_pos ((count_eq_zero_iff cfg _ _ _).2 hnone)]

/-- The pass accepts the feedback when some formula of the store is compatible
with the updated state, whatever `state_update` returned. -/
theorem play_round_body_accepted (cfg : Config) (libc : Libc) (relaxed : Bool) (w : World)
    (colors : Nat) (inp : List Char) (hlen : 1 < w.formulae.length)
    (hread : read_colors cfg w.input 0 0 1 = some (colors, inp)) (hc : colors ≠ 0)
    (hsome : ∃ f, f ∈ w.formulae ∧
      state_compatible cfg (state_update cfg w.state (guess_masks cfg w.buffer) colors).2 f =
        true) :
    ∃ w', (play_round_body cfg libc relaxed w = Step.ret true w' ∨
        play_round_body cfg libc relaxed w = Step.again w') ∧
      w'.input = inp ∧
      w'.state = (state_update cfg w.state (guess_masks cfg w.buffer) colors).2 ∧
      w'.formulae =
        (if relaxed then
          remove_guess_loop cfg (guess_masks cfg w.buffer) w.formulae.length 0 w.formulae
        else remove_impossible cfg
          (state_update cfg w.state (guess_masks cfg w.buffer) colors).2 w.formulae) := by
  have hcount : ¬ 0 = state_compatible_count cfg
      (state_update cfg w.state (guess_masks cfg w.buffer) colors).2 libc.INT_MAX
      w.formulae := by
    rw [count_eq_zero_iff]
    intro h
    obtain ⟨f, hf, hcf⟩ := hsome
    rw [h f hf] at hcf
    cases hcf
  unfold play_round_body
  simp only [if_neg (by omega : ¬ w.formulae.length ≤ 1), hread, if_neg (Ne.symm hc),
    if_neg hcount, hc, ne_eq, not_false_eq_true, decide_True]
  cases relaxed
  · simp only [Bool.false_eq_true, if_false]
    split
    · exact ⟨_, Or.inl rfl, rfl, rfl, rfl⟩
    · exact ⟨_, Or.inr rfl, rfl, rfl, rfl⟩
  · simp only [if_true]
    split
    · exact ⟨_, Or.inl rfl, rfl, rfl, rfl⟩
    · exact ⟨_, Or.inr rfl, rfl, rfl, rfl⟩


/-! ### The round loop ends -/

theorem read_colors_consumes (cfg : Config) (input : List Char) :
    ∀ (colors i index c : Nat) (inp : List Char),
      read_colors cfg input colors i index = some (c, inp) →
        inp.length ≤ input.length ∧ (c ≠ colors → inp.length < input.length) := by
  induction input with
  | nil =>
    intro colors i index c inp h
    unfold read_colors at h
    by_cases hi : i < cfg.SIZE
    · rw [if_pos hi] at h
      cases h
    · rw [if_neg hi] at h
      cases h
      exact ⟨le_refl _, fun hne => absurd rfl hne⟩
  | cons ch rest ih =>
    intro colors i index c inp h
    unfold read_colors at h
    by_cases hi : i < cfg.SIZE
    · rw [if_pos hi] at h
      have key : ∀ colors' i' index', read_colors cfg rest colors' i' index' = some (c, inp) →
          inp.length ≤ (ch :: rest).length ∧ (c ≠ colors → inp.length < (ch :: rest).length) := by
        intro colors' i' index' h'
        have := (ih colors' i' index' c inp h').1
        simp only [List.length_cons]
        exact ⟨by omega, fun _ => by omega⟩
      split at h
      · exact key _ _ _ h
      · split at h
        · exact key _ _ _ h
        · split at h
          · exact key _ _ _ h
          · split at h
            · exact key _ _ _ h
            · exact key _ _ _ h
    · rw [if_neg hi] at h
      cases h
      exact ⟨le_refl _, fun hne => absurd rfl hne⟩

/-- A pass that asks for feedback again has consumed input. -/
theorem play_round_body_again (cfg : Config) (libc : Libc) (relaxed : Bool) (w w' : World)
    (h : play_round_body cfg libc relaxed w = Step.again w') :
    w'.input.length < w.input.length := by
  by_cases hlen : w.formulae.length ≤ 1
  · rw [(play_round_body_solved cfg libc relaxed w).1 hlen] at h
    cases h
  · have hlen1 : 1 < w.formulae.length := by omega
    cases hread : read_colors cfg w.input 0 0 1 with
    | none =>
      unfold play_round_body at h
      simp only [if_neg hlen, hread] at h
      cases h
    | some r =>
      obtain ⟨colors, inp⟩ := r
      by_cases hc : colors = 0
      · subst hc
        rw [(play_round_body_solved cfg libc relaxed w).2 inp hlen1 hread] at h
        cases h
      · have hlt : inp.length < w.input.length :=
          (read_colors_consumes cfg w.input 0 0 1 colors inp hread).2 hc
        by_cases hnone : ∀ f, f ∈ w.formulae →
            state_compatible cfg (state_update cfg w.state (guess_masks cfg w.buffer) colors).2 f =
              false
        · rw [play_round_body_rollback cfg libc relaxed w colors inp hlen1 hread hc hnone] at h
          cases h
          exact hlt
        · have hsome : ∃ f, f ∈ w.formulae ∧ state_compatible cfg
              (state_update cfg w.state (guess_masks cfg w.buffer) colors).2 f = true := by
            by_contra hcon
            apply hnone
            intro f hf
            cases hv : state_compatible cfg
              (state_update cfg w.state (guess_masks cfg w.buffer) colors).2 f with
            | false => rfl
            | true => exact absurd ⟨f, hf, hv⟩ hcon
          obtain ⟨w1, hor, hin, _, _⟩ :=
            play_round_body_accepted cfg libc relaxed w colors inp hlen1 hread hc hsome
          rcases hor with h1 | h1
          · rw [h1] at h
            cases h
          · rw [h1] at h
            cases h
            rw [hin]
            exact hlt

/-- With more fuel than characters of input the round returns or exits. -/
theorem play_round_returns (cfg : Config) (libc : Libc) (relaxed : Bool) :
    ∀ (fuel : Nat) (w : World), w.input.length < fuel →
      ∀ w', play_round cfg libc relaxed fuel w ≠ Step.again w' := by
  intro fuel
  induction fuel with
  | zero =>
    intro w h
    omega
  | succ n ih =>
    intro w h w'
    unfold play_round
    cases hb : play_round_body cfg libc relaxed w with
    | ret b w1 =>
      simp only []
      intro hh
      cases hh
    | again w1 =>
      simp only []
      have := play_round_body_again cfg libc relaxed w w1 hb
      exact ih w1 (by omega) w'
    | exit =>
      simp only []
      intro hh
      cases hh

/-- A pass on a store of two formulas or more exits exactly at the end of the input. -/
theorem play_round_body_exit_iff (cfg : Config) (libc : Libc) (relaxed : Bool) (w : World)
    (hlen : 1 < w.formulae.length) :
    play_round_body cfg libc relaxed w = Step.exit ↔ read_colors cfg w.input 0 0 1 = none := by
  cases hread : read_colors cfg w.input 0 0 1 with
  | none =>
    unfold play_round_body
    simp only [if_neg (by omega : ¬ w.formulae.length ≤ 1), hread]
  | some r =>
    obtain ⟨colors, inp⟩ := r
    constructor
    · intro h
      by_cases hc : colors = 0
      · subst hc
        rw [(play_round_body_solved cfg libc relaxed w).2 inp hlen hread] at h
        cases h
      · by_cases hnone : ∀ f, f ∈ w.formulae →
            state_compatible cfg (state_update cfg w.state (guess_masks cfg w.buffer) colors).2 f =
              false
        · rw [play_round_body_rollback cfg libc relaxed w colors inp hlen hread hc hnone] at h
          cases h
        · have hsome : ∃ f, f ∈ w.formulae ∧ state_compatible cfg
              (state_update cfg w.state (guess_masks cfg w.buffer) colors).2 f = true := by
            by_contra hcon
            apply hnone
            intro f hf
            cases hv : state_compatible cfg
              (state_update cfg w.state (guess_masks cfg w.buffer) colors).2 f with
            | false => rfl
            | true => exact absurd ⟨f, hf, hv⟩ hcon
          obtain ⟨w1, hor, _, _, _⟩ :=
            play_round_body_accepted cfg libc relaxed w colors inp hlen hread hc hsome
          rcases hor with h1 | h1
          · rw [h1] at h
            cases h
          · rw [h1] at h
            cases h
    · intro h
      cases h


/-! ## The loop of `gcd` stops; glyphs and single bits -/

theorem gcd_loop_stops (fuel a b : Nat) (hb : 0 < b) (hf : b < fuel) :
    (gcd_loop fuel (a : Int) (b : Int)).1 = 0 ∨ (gcd_loop fuel (a : Int) (b : Int)).2 = 0 := by
  induction fuel generalizing a b with
  | zero => omega
  | succ fuel ih =>
    unfold gcd_loop
    simp only [natCast_tmod]
    by_cases h1 : a % b = 0
    · rw [if_neg (by rw [h1]; simp)]
      left
      simp [h1]
    · rw [if_pos (by exact_mod_cast h1)]
      by_cases h2 : b % (a % b) = 0
      · rw [if_neg (by rw [h2]; simp)]
        right
        simp [h2]
      · rw [if_pos (by exact_mod_cast h2)]
        have hlt1 : a % b < b := Nat.mod_lt _ hb
        have hlt2 : b % (a % b) < a % b := Nat.mod_lt _ (Nat.pos_of_ne_zero h1)
        exact ih (a % b) (b % (a % b)) (Nat.pos_of_ne_zero h2) (by omega)

/-- The masks `mask_to_char` does not send to the NUL character. -/
theorem mask_to_char_cases (cfg : Config) (m : Nat) :
    mask_to_char cfg m = Char.ofNat 0 ∨
    ([MSK0, MSK1, MSK2, MSK3, MSK4, MSK5, MSK6, MSK7, MSK8, MSK9,
      MSKadd, MSKsub, MSKmul, MSKdiv].contains m = true ∨
      (cfg.ALLOW_PARENTHESIS = true ∧ [MSKbra, MSKket].contains m = true) ∨
      (cfg.NUMBLE = true ∧ cfg.ALLOW_PARENTHESIS = false ∧ m = MSKequ)) := by
  by_cases hm : [MSK0, MSK1, MSK2, MSK3, MSK4, MSK5, MSK6, MSK7, MSK8, MSK9,
      MSKadd, MSKsub, MSKmul, MSKdiv].contains m = true
  · exact Or.inr (Or.inl hm)
  · have nm : ∀ k, [MSK0, MSK1, MSK2, MSK3, MSK4, MSK5, MSK6, MSK7, MSK8, MSK9,
        MSKadd, MSKsub, MSKmul, MSKdiv].contains k = true → ¬ m = k :=
      fun k hk hmk => hm (hmk ▸ hk)
    unfold mask_to_char
    rw [if_neg (nm MSK0 rfl), if_neg (nm MSK1 rfl), if_neg (nm MSK2 rfl), if_neg (nm MSK3 rfl),
      if_neg (nm MSK4 rfl), if_neg (nm MSK5 rfl), if_neg (nm MSK6 rfl), if_neg (nm MSK7 rfl),
      if_neg (nm MSK8 rfl), if_neg (nm MSK9 rfl), if_neg (nm MSKadd rfl),
      if_neg (nm MSKsub rfl), if_neg (nm MSKmul rfl), if_neg (nm MSKdiv rfl)]
    by_cases h1 : (cfg.ALLOW_PARENTHESIS && decide (m = MSKbra)) = true
    · simp only [Bool.and_eq_true, decide_eq_true_eq] at h1
      exact Or.inr (Or.inr (Or.inl ⟨h1.1, by rw [h1.2]; rfl⟩))
    · rw [if_neg h1]
      by_cases h2 : (cfg.ALLOW_PARENTHESIS && decide (m = MSKket)) = true
      · simp only [Bool.and_eq_true, decide_eq_true_eq] at h2
        exact Or.inr (Or.inr (Or.inl ⟨h2.1, by rw [h2.2]; rfl⟩))
      · rw [if_neg h2]
        by_cases h3 : (!cfg.ALLOW_PARENTHESIS && cfg.NUMBLE && decide (m = MSKequ)) = true
        · simp only [Bool.and_eq_true, decide_eq_true_eq, Bool.not_eq_true'] at h3
          exact Or.inr (Or.inr (Or.inr ⟨h3.1.2, h3.1.1, h3.2⟩))
        · rw [if_neg h3]
          exact Or.inl rfl

/-- The masks of the list above hold one bit of `MSKall`. -/
theorem listed_mask_bit (cfg : Config) (m : Nat)
    (hm : [MSK0, MSK1, MSK2, MSK3, MSK4, MSK5, MSK6, MSK7, MSK8, MSK9,
      MSKadd, MSKsub, MSKmul, MSKdiv].contains m = true ∨
      (cfg.ALLOW_PARENTHESIS = true ∧ [MSKbra, MSKket].contains m = true) ∨
      (cfg.NUMBLE = true ∧ cfg.ALLOW_PARENTHESIS = false ∧ m = MSKequ)) :
    (∃ e, e < 16 ∧ m = 2 ^ e) ∧ m &&& MSKall cfg = m := by
  refine ⟨?_, land_MSKall cfg m hm⟩
  have key : ∀ k, k ∈ [MSK0, MSK1, MSK2, MSK3, MSK4, MSK5, MSK6, MSK7, MSK8, MSK9,
      MSKadd, MSKsub, MSKmul, MSKdiv, MSKbra, MSKket] → ∃ e, e < 16 ∧ k = 2 ^ e := by decide
  rcases hm with hm | ⟨_, hm⟩ | ⟨_, _, hm⟩
  · have := List.mem_of_elem_eq_true hm
    exact key m (by
      simp only [List.mem_cons, List.mem_singleton, List.not_mem_nil, or_false] at this ⊢
      tauto)
  · have := List.mem_of_elem_eq_true hm
    exact key m (by
      simp only [List.mem_cons, List.mem_singleton, List.not_mem_nil, or_false] at this ⊢
      tauto)
  · subst hm
    exact ⟨14, by decide, rfl⟩

theorem MSKall_cases (cfg : Config) :
    (cfg.ALLOW_PARENTHESIS = true ∧ MSKall cfg = 65535) ∨
    (cfg.ALLOW_PARENTHESIS = false ∧ cfg.NUMBLE = true ∧ MSKall cfg = 32767) ∨
    (cfg.ALLOW_PARENTHESIS = false ∧ cfg.NUMBLE = false ∧ MSKall cfg = 16383) := by
  have key : ∀ p n : Bool, MSKall ⟨0, 0, p, n⟩ =
      (if p then 65535 else if n then 32767 else 16383) := by decide
  have e : MSKall cfg = MSKall ⟨0, 0, cfg.ALLOW_PARENTHESIS, cfg.NUMBLE⟩ := rfl
  rw [e, key]
  rcases Bool.eq_false_or_eq_true cfg.ALLOW_PARENTHESIS with hp | hp <;>
  rcases Bool.eq_false_or_eq_true cfg.NUMBLE with hn | hn <;>
  simp [hp, hn]

/-- A single bit of `MSKall` is one of the listed masks. -/
theorem bit_of_MSKall (cfg : Config) (e : Nat) (h : 2 ^ e &&& MSKall cfg = 2 ^ e) :
    [MSK0, MSK1, MSK2, MSK3, MSK4, MSK5, MSK6, MSK7, MSK8, MSK9,
      MSKadd, MSKsub, MSKmul, MSKdiv].contains (2 ^ e) = true ∨
      (cfg.ALLOW_PARENTHESIS = true ∧ [MSKbra, MSKket].contains (2 ^ e) = true) ∨
      (cfg.NUMBLE = true ∧ cfg.ALLOW_PARENTHESIS = false ∧ 2 ^ e = MSKequ) := by
  have hle : 2 ^ e ≤ MSKall cfg := by
    rw [← h]
    exact Nat.and_le_right
  have he : e < 16 := by
    have : MSKall cfg < 2 ^ 16 := by
      rcases MSKall_cases cfg with ⟨_, hK⟩ | ⟨_, _, hK⟩ | ⟨_, _, hK⟩ <;> rw [hK] <;> decide
    exact (Nat.pow_lt_pow_iff_right (by decide : 1 < 2)).mp (lt_of_le_of_lt hle this)
  rcases MSKall_cases cfg with ⟨hp, hK⟩ | ⟨hp, hn, hK⟩ | ⟨hp, hn, hK⟩
  · rw [hK] at h
    rw [hp]
    clear hle hK hp
    have key : ∀ e, e < 16 → 2 ^ e &&& 65535 = 2 ^ e →
        ([MSK0, MSK1, MSK2, MSK3, MSK4, MSK5, MSK6, MSK7, MSK8, MSK9,
          MSKadd, MSKsub, MSKmul, MSKdiv].contains (2 ^ e) = true ∨
         [MSKbra, MSKket].contains (2 ^ e) = true) := by decide
    rcases key e he h with k | k
    · exact Or.inl k
    · exact Or.inr (Or.inl ⟨rfl, k⟩)
  · rw [hK] at h
    rw [hp, hn]
    clear hle hK hp hn
    have key : ∀ e, e < 16 → 2 ^ e &&& 32767 = 2 ^ e →
        ([MSK0, MSK1, MSK2, MSK3, MSK4, MSK5, MSK6, MSK7, MSK8, MSK9,
          MSKadd, MSKsub, MSKmul, MSKdiv].contains (2 ^ e) = true ∨
         2 ^ e = MSKequ) := by decide
    rcases key e he h with k | k
    · exact Or.inl k
    · exact Or.inr (Or.inr ⟨rfl, rfl, k⟩)
  · rw [hK] at h
    clear hle hK hp hn
    have key : ∀ e, e < 16 → 2 ^ e &&& 16383 = 2 ^ e →
        [MSK0, MSK1, MSK2, MSK3, MSK4, MSK5, MSK6, MSK7, MSK8, MSK9,
          MSKadd, MSKsub, MSKmul, MSKdiv].contains (2 ^ e) = true := by decide
    exact Or.inl (key e he h)

/-- The character of a listed mask is a glyph that `char_to_mask` sends back to the mask. -/
theorem listed_mask_char (cfg : Config) (m : Nat)
    (hm : [MSK0, MSK1, MSK2, MSK3, MSK4, MSK5, MSK6, MSK7, MSK8, MSK9,
      MSKadd, MSKsub, MSKmul, MSKdiv].contains m = true ∨
      (cfg.ALLOW_PARENTHESIS = true ∧ [MSKbra, MSKket].contains m = true) ∨
      (cfg.NUMBLE = true ∧ cfg.ALLOW_PARENTHESIS = false ∧ m = MSKequ)) :
    is_glyph cfg (mask_to_char cfg m) = true ∧ char_to_mask cfg (mask_to_char cfg m) = m := by
  rcases hm with hm | ⟨hp, hm⟩ | ⟨hn, hp, hm⟩
  · have hm' := List.mem_of_elem_eq_true hm
    simp only [List.mem_cons, List.mem_singleton, List.not_mem_nil, or_false] at hm'
    rcases hm' with h | h | h | h | h | h | h | h | h | h | h | h | h | h <;> subst h <;>
      exact ⟨rfl, rfl⟩
  · have hm' := List.mem_of_elem_eq_true hm
    simp only [List.mem_cons, List.mem_singleton, List.not_mem_nil, or_false] at hm'
    have e1 : char_to_mask cfg '(' = MSKbra := by simp only [char_to_mask, hp]; rfl
    have e2 : char_to_mask cfg ')' = MSKket := by simp only [char_to_mask, hp]; rfl
    have e3 : mask_to_char cfg MSKbra = '(' := by simp only [mask_to_char, hp]; rfl
    have e4 : mask_to_char cfg MSKket = ')' := by simp only [mask_to_char, hp]; rfl
    rcases hm' with h | h <;> subst h
    · rw [e3, e1]
      exact ⟨(is_glyph_iff cfg _).2 (Or.inr (Or.inr (Or.inl ⟨hp, Or.inl rfl⟩))), rfl⟩
    · rw [e4, e2]
      exact ⟨(is_glyph_iff cfg _).2 (Or.inr (Or.inr (Or.inl ⟨hp, Or.inr rfl⟩))), rfl⟩
  · subst hm
    have e1 : char_to_mask cfg '=' = MSKequ := by simp only [char_to_mask, hp, hn]; rfl
    have e3 : mask_to_char cfg MSKequ = '=' := by simp only [mask_to_char, hp, hn]; rfl
    rw [e3, e1]
    exact ⟨(is_glyph_iff cfg _).2 (Or.inr (Or.inr (Or.inr ⟨hn, hp, rfl⟩))), rfl⟩

/-- A character that is not a glyph of the variant has the mask `MSKnone`. -/
theorem nonglyph_mask (cfg : Config) (c : Char) (h : is_glyph cfg c = false) :
    char_to_mask cfg c = MSKnone := by
  have hg : ¬ (c.isDigit = true ∨ is_op c = true ∨
        (cfg.ALLOW_PARENTHESIS = true ∧ (c = '(' ∨ c = ')')) ∨
        (cfg.NUMBLE = true ∧ cfg.ALLOW_PARENTHESIS = false ∧ c = '=')) := by
    rw [← is_glyph_iff, h]
    simp
  have nd : ∀ d : Char, d.isDigit = true → ¬ c = d :=
    fun d hd' hcd => hg (Or.inl (hcd ▸ hd'))
  have no : ∀ d : Char, is_op d = true → ¬ c = d :=
    fun d hd' hcd => hg (Or.inr (Or.inl (hcd ▸ hd')))
  unfold char_to_mask
  rw [if_neg (nd '0' rfl), if_neg (nd '1' rfl), if_neg (nd '2' rfl), if_neg (nd '3' rfl),
    if_neg (nd '4' rfl), if_neg (nd '5' rfl), if_neg (nd '6' rfl), if_neg (nd '7' rfl),
    if_neg (nd '8' rfl), if_neg (nd '9' rfl), if_neg (no '+' rfl), if_neg (no '-' rfl),
    if_neg (no '*' rfl), if_neg (no '/' rfl)]
  rw [if_neg, if_neg, if_neg]
  · simp only [Bool.and_eq_true, decide_eq_true_eq, Bool.not_eq_true']
    rintro ⟨⟨hp, hn⟩, hc⟩
    exact hg (Or.inr (Or.inr (Or.inr ⟨hn, hp, hc⟩)))
  · simp only [Bool.and_eq_true, decide_eq_true_eq]
    rintro ⟨hp, hc⟩
    exact hg (Or.inr (Or.inr (Or.inl ⟨hp, Or.inr hc⟩)))
  · simp only [Bool.and_eq_true, decide_eq_true_eq]
    rintro ⟨hp, hc⟩
    exact hg (Or.inr (Or.inr (Or.inl ⟨hp, Or.inl hc⟩)))


/-! ## `num` and the decimal representation -/

theorem last_digits_eq_digits (w m : Nat) (h : (Nat.digits 10 m).length = w) :
    last_digits w (m : Int) =
      (Nat.digits 10 m).reverse.map (fun d => Char.ofNat (48 + d)) := by
  induction w generalizing m with
  | zero =>
    rw [List.length_eq_zero] at h
    rw [h]
    rfl
  | succ w ih =>
    have hm : m ≠ 0 := by
      intro h0
      subst h0
      simp at h
    have hd : Nat.digits 10 m = (m % 10) :: Nat.digits 10 (m / 10) :=
      Nat.digits_def' (by norm_num) (Nat.pos_of_ne_zero hm)
    rw [hd] at h ⊢
    simp only [List.length_cons, Nat.add_right_cancel_iff] at h
    rw [last_digits_succ_nat, ih (m / 10) h]
    simp

theorem decimal_length_iff (w m : Nat) :
    (decimal m).length = w + 1 ↔ ((w = 0 ∨ 10 ^ w ≤ m) ∧ m < 10 ^ (w + 1)) := by
  unfold decimal
  by_cases hm : m = 0
  · subst hm
    simp only [if_true, List.length_singleton]
    constructor
    · intro h
      have : w = 0 := by omega
      subst this
      exact ⟨Or.inl rfl, by norm_num⟩
    · rintro ⟨h | h, _⟩
      · omega
      · exact absurd h (by
          have : 0 < 10 ^ w := Nat.pow_pos (by norm_num)
          omega)
  · rw [if_neg hm, List.length_map, List.length_reverse, Nat.digits_len 10 m (by norm_num) hm]
    simp only [Nat.add_right_cancel_iff]
    rw [Nat.log_eq_iff (Or.inr ⟨by norm_num, hm⟩)]
    constructor
    · rintro ⟨h1, h2⟩
      exact ⟨Or.inr h1, h2⟩
    · rintro ⟨h1 | h1, h2⟩
      · subst h1
        exact ⟨by simp; omega, h2⟩
      · exact ⟨h1, h2⟩

/-- `num` on a non-negative `n` and a span of `w + 1` characters. -/
theorem num_decimal (m frm upto : Nat) (buf : List Char) (h1 : frm < upto)
    (h2 : upto ≤ buf.length) :
    ((num (m : Int) frm upto buf).1 = true ↔ (decimal m).length = upto - frm) ∧
    ((num (m : Int) frm upto buf).1 = true →
      (num (m : Int) frm upto buf).2 = splice buf frm (decimal m)) := by
  obtain ⟨e1, _, e3⟩ := num_spec (m : Int) frm upto buf h1 h2
  obtain ⟨w, hw⟩ : ∃ w, upto - frm = w + 1 := ⟨upto - frm - 1, by omega⟩
  rw [hw] at e1 e3
  obtain ⟨s1, s2⟩ := num_scan_nat w m
  have key : num_scan (w + 1) (m : Int) = (0, 0) ↔ (decimal m).length = w + 1 := by
    rw [decimal_length_iff]
    constructor
    · intro h
      have h2' : (num_scan (w + 1) (m : Int)).2 = 0 := by rw [h]
      have h1' : (num_scan (w + 1) (m : Int)).1 = 0 := by rw [h]
      have := s2 h2'
      rw [h1'] at this
      refine ⟨s1.1 h2', ?_⟩
      have hz : m / 10 ^ (w + 1) = 0 := by exact_mod_cast this.symm
      exact (Nat.div_eq_zero_iff (Nat.pow_pos (by norm_num))).mp hz
    · rintro ⟨ha, hb⟩
      have h2' := s1.2 ha
      have := s2 h2'
      rw [Nat.div_eq_of_lt hb] at this
      exact Prod.ext this h2'
  rw [hw]
  refine ⟨e1.trans key, ?_⟩
  intro ht
  have hs := e1.1 ht
  have hl := key.1 hs
  rw [e3 (by rw [hs])]
  congr 1
  unfold decimal at hl ⊢
  by_cases hm : m = 0
  · subst hm
    simp only [if_true, List.length_singleton] at hl ⊢
    have : w = 0 := by omega
    subst this
    rfl
  · rw [if_neg hm] at hl ⊢
    rw [List.length_map, List.length_reverse] at hl
    exact last_digits_eq_digits (w + 1) m hl

/-! ## The continued fraction of `rat_double` -/

theorem to_int64_small (x : Int) (h1 : -2 ^ 63 ≤ x) (h2 : x < 2 ^ 63) : to_int64 x = x := by
  unfold to_int64
  omega

theorem div64_pos (a b : Int) (hb : 0 < b) : div64 a b = some (a.tdiv b) := by
  unfold div64
  rw [if_neg (by omega)]

theorem mod64_pos (a b : Int) (hb : 0 < b) : mod64 a b = some (a.tmod b) := by
  unfold mod64
  rw [if_neg (by omega)]

/-- Every pass of the loop keeps `k[1]*d + k[0]*n` and `h[1]*d + h[0]*n`, which
bound all the products it computes: no operation overflows, no division traps,
and the result has a denominator between 1 and `md`. -/
theorem cf_loop_range (fuel : Nat) :
    ∀ (i : Nat) (d n h0 h1 k0 k1 d0 n0 : Int),
      0 ≤ d → 0 ≤ n → 0 ≤ h0 → 0 ≤ h1 → 0 ≤ k0 → k0 < md → 0 ≤ k1 → k1 < md →
      k1 * d + k0 * n = n0 → h1 * d + h0 * n = d0 → n0 < 2 ^ 63 → d0 < 2 ^ 63 →
      (i = 0 → k1 = 0 ∧ k0 = 1 ∧ 0 < n) → (i ≠ 0 → 1 ≤ k1) →
      ∃ h k, cf_loop fuel i d n h0 h1 k0 k1 = some (h, k) ∧ k ≤ md ∧
        ((0 < fuel ∨ i ≠ 0) → 1 ≤ k) := by
  induction fuel with
  | zero =>
    intro i d n h0 h1 k0 k1 d0 n0 _ _ _ _ _ _ _ hk1 _ _ _ _ _ hi
    refine ⟨h1, k1, rfl, le_of_lt hk1, ?_⟩
    rintro (h | h)
    · omega
    · exact hi h
  | succ fuel ih =>
    intro i d n h0 h1 k0 k1 d0 n0 hd hn hh0 hh1 hk0 hk0' hk1 hk1' I1 I2 hn0 hd0 hi0 hi1
    have hmd : md = 32767 := rfl
    unfold cf_loop
    by_cases hnz : n = 0
    · have hi : i ≠ 0 := by
        intro hi
        have := (hi0 hi).2.2
        omega
      rw [if_neg (by simpa using hnz), Option.some_bind, if_pos ⟨hi, rfl⟩]
      exact ⟨h1, k1, rfl, le_of_lt hk1', fun _ => hi1 hi⟩
    · have hnpos : 0 < n := by omega
      rw [if_pos hnz, div64_pos d n hnpos, Option.some_bind]
      by_cases hbrk : i ≠ 0 ∧ d.tdiv n = 0
      · rw [if_pos hbrk]
        exact ⟨h1, k1, rfl, le_of_lt hk1', fun _ => hi1 hbrk.1⟩
      · rw [if_neg hbrk, mod64_pos d n hnpos, Option.some_bind]
        simp only []
        rw [Int.tdiv_eq_ediv hd hn, Int.tmod_eq_emod hd hn] at *
        have ha0 : 0 ≤ d / n := Int.ediv_nonneg hd hn
        have hr0 : 0 ≤ d % n := Int.emod_nonneg d hnz
        have hrn : d % n < n := Int.emod_lt_of_pos d hnpos
        have hdiv : n * (d / n) + d % n = d := Int.ediv_add_emod d n
        generalize d / n = a at *
        generalize d % n = r at *
        have han : a ≤ a * n := le_mul_of_one_le_right ha0 (by omega)
        have hk1a0 : 0 ≤ k1 * a := mul_nonneg hk1 ha0
        have hh1a0 : 0 ≤ a * h1 := mul_nonneg ha0 hh1
        -- the next convergent
        have J1 : (a * k1 + k0) * n + k1 * r = n0 := by
          rw [← I1, ← hdiv]; ring
        have J2 : (a * h1 + h0) * n + h1 * r = d0 := by
          rw [← I2, ← hdiv]; ring
        have hk2 : a * k1 + k0 ≤ n0 := by
          have e1 : a * k1 + k0 ≤ (a * k1 + k0) * n :=
            le_mul_of_one_le_right (add_nonneg (mul_nonneg ha0 hk1) hk0) (by omega)
          have e2 := mul_nonneg hk1 hr0
          omega
        have hh2 : a * h1 + h0 ≤ d0 := by
          have e1 : a * h1 + h0 ≤ (a * h1 + h0) * n :=
            le_mul_of_one_le_right (add_nonneg hh1a0 hh0) (by omega)
          have e2 := mul_nonneg hh1 hr0
          omega
        have hka : k1 * a = a * k1 := mul_comm _ _
        have ha1 : i ≠ 0 → 1 ≤ a := by
          intro hi
          by_contra hlt
          exact hbrk ⟨hi, by omega⟩
        rw [to_int64_small (k1 * a) (by omega) (by omega),
          to_int64_small (k1 * a + k0) (by omega) (by omega)]
        by_cases hcut : k1 * a + k0 ≥ md
        · rw [if_pos hcut]
          have hk1nz : k1 ≠ 0 := by
            intro h
            rw [h] at hcut
            omega
          have hk1pos : 1 ≤ k1 := by omega
          have hinz : i ≠ 0 := by
            intro hi
            exact hk1nz (hi0 hi).1
          rw [to_int64_small (md - k0) (by omega) (by omega),
            div64_pos (md - k0) k1 (by omega), Option.some_bind]
          rw [Int.tdiv_eq_ediv (by omega) hk1]
          have hx0 : 0 ≤ (md - k0) / k1 := Int.ediv_nonneg (by omega) hk1
          have hxk : (md - k0) / k1 * k1 ≤ md - k0 := Int.ediv_mul_le _ hk1nz
          generalize (md - k0) / k1 = x at *
          have hxle : x ≤ md - k0 := le_trans (le_mul_of_one_le_right hx0 hk1pos) hxk
          rw [to_int64_small (x * 2) (by omega) (by omega)]
          by_cases hupd : x * 2 ≥ a ∨ k1 ≥ md
          · rw [if_pos hupd]
            have hxa : x ≤ a := by
              by_contra hlt
              have h' : a + 1 ≤ x := by omega
              have h'' : (a + 1) * k1 ≤ x * k1 := mul_le_mul_of_nonneg_right h' hk1
              have e' : (a + 1) * k1 = k1 * a + k1 := by ring
              omega
            have hx1 : 1 ≤ x := by
              have := ha1 hinz
              rcases hupd with h | h
              · omega
              · omega
            have hxh : x * h1 ≤ a * h1 := mul_le_mul_of_nonneg_right hxa hh1
            have hxh0 : 0 ≤ x * h1 := mul_nonneg hx0 hh1
            have hxk0 : 0 ≤ x * k1 := mul_nonneg hx0 hk1
            rw [to_int64_small (x * h1) (by omega) (by omega),
              to_int64_small (x * h1 + h0) (by omega) (by omega),
              to_int64_small (x * k1) (by omega) (by omega),
              to_int64_small (x * k1 + k0) (by omega) (by omega)]
            have hk1x : k1 ≤ x * k1 := le_mul_of_one_le_left hk1 hx1
            exact ⟨_, _, rfl, by omega, fun _ => by omega⟩
          · rw [if_neg hupd]
            exact ⟨h1, k1, rfl, le_of_lt hk1', fun _ => hk1pos⟩
        · rw [if_neg hcut]
          have hcut' : a * k1 + k0 < md := by
            have : a * k1 = k1 * a := mul_comm _ _
            omega
          have hak0 : 0 ≤ a * k1 := mul_nonneg ha0 hk1
          rw [to_int64_small (a * h1) (by omega) (by omega),
            to_int64_small (a * h1 + h0) (by omega) (by omega),
            to_int64_small (a * k1) (by omega) (by omega),
            to_int64_small (a * k1 + k0) (by omega) (by omega)]
          obtain ⟨h, k, e, hk, hk'⟩ := ih (i + 1) n r h1 (a * h1 + h0) k1 (a * k1 + k0) d0 n0
            hn hr0 hh1 (by omega) hk1 hk1' (add_nonneg (mul_nonneg ha0 hk1) hk0) hcut' J1 J2
            hn0 hd0
            (fun h => absurd h (Nat.succ_ne_zero i))
            (fun _ => by
              by_cases hi : i = 0
              · rw [(hi0 hi).1, (hi0 hi).2.1]
                norm_num
              · have := ha1 hi
                have h1' := hi1 hi
                have : k1 ≤ a * k1 := le_mul_of_one_le_left hk1 this
                omega)
          exact ⟨h, k, e, hk, fun _ => hk' (Or.inr (Nat.succ_ne_zero i))⟩

/-! ## `rat_double` -/

/-- The scaling loop when `n` does not overflow: `n` is doubled at most `s` times. -/
theorem scale_loop_spec (m : Nat) (s : Nat) :
    ∀ (n : Int), 0 < n → n * 2 ^ s < 2 ^ 63 →
      0 < (scale_loop m s n).2 ∧ (scale_loop m s n).2 < 2 ^ 63 ∧ (scale_loop m s n).1 ≤ m := by
  induction s with
  | zero =>
    intro n h0 h1
    unfold scale_loop
    exact ⟨h0, by simpa using h1, le_refl _⟩
  | succ s ih =>
    intro n h0 h1
    have hp : (1 : Int) ≤ 2 ^ s := one_le_pow₀ (by norm_num)
    have e : n * 2 ^ (s + 1) = n * 2 * 2 ^ s := by rw [pow_succ]; ring
    have hle : n * 2 ≤ n * 2 * 2 ^ s := le_mul_of_one_le_right (by omega) hp
    unfold scale_loop
    by_cases hm : m % 2 ^ (s + 1) = 0
    · rw [if_pos hm]
      exact ⟨h0, by omega, Nat.div_le_self _ _⟩
    · rw [if_neg hm, to_int64_small (n * 2) (by omega) (by omega)]
      exact ih (n * 2) (by omega) (by omega)

/-- The loop on an integer input: `d` over `n = 1`. -/
theorem cf_loop_integer (a : Int) (h0 : 0 ≤ a) (h1 : a < 2 ^ 63) :
    cf_loop 64 0 a 1 0 1 1 0 = some (a, 1) := by
  have e1 : cf_loop 64 0 a 1 0 1 1 0 = cf_loop 63 1 1 0 1 a 0 1 := by
    rw [show (64 : Nat) = 63 + 1 from rfl, cf_loop]
    rw [if_pos (by norm_num), div64_pos a 1 (by norm_num), Option.some_bind,
      if_neg (by simp), mod64_pos a 1 (by norm_num), Option.some_bind]
    simp only [Int.tdiv_one, Int.tmod_one, zero_mul, zero_add, mul_one, add_zero, mul_zero]
    have z0 : to_int64 0 = 0 := by decide
    have z1 : to_int64 1 = 1 := by decide
    have za : to_int64 a = a := to_int64_small a (by omega) h1
    have hmd : ¬ (1 : Int) ≥ md := by decide
    simp only [z0, z1, za, zero_add, add_zero, if_neg hmd]
  rw [e1, show (63 : Nat) = 62 + 1 from rfl, cf_loop]
  simp

theorem scale_loop_integer (a s : Nat) (n : Int) :
    scale_loop (a * 2 ^ s) s n = (a, n) := by
  cases s with
  | zero =>
    unfold scale_loop
    simp
  | succ s =>
    unfold scale_loop
    rw [if_pos (Nat.mul_mod_left a _), Nat.mul_div_cancel a (Nat.pow_pos (by norm_num))]

theorem double_to_int64_small (d : Nat) (h : d < 2 ^ 63) : double_to_int64 d = (d : Int) := by
  unfold double_to_int64
  rw [if_pos h]

section
set_option maxRecDepth 8000

/-- The value `2^-14` is received as `1/16384`. -/
theorem rat_double_two_pow_neg_14 : rat_double ⟨false, 1, 14⟩ = some ⟨1, 16384⟩ := by
  decide

/-- The value `2^-63`: `n` is shifted to `-2^63`, the loop ends with
`k[1] = -2^63`, which is 0 as an `int`. -/
theorem rat_double_two_pow_neg_63 : rat_double ⟨false, 1, 63⟩ = some ⟨1, 0⟩ := by
  decide

/-- The `double` nearest to `0.0001`: `n` is shifted out to 0, and the first
pass of the loop divides by it. -/
theorem rat_double_one_e_minus_4 : rat_double ⟨false, 7378697629483821, 66⟩ = none := by
  decide

end


/-! ## The pieces of `least_worst` -/

/-- `least_worst` in terms of its candidates and of `rnd_thr`. -/
theorem least_worst_pieces (cfg : Config) (libc : Libc) (st : state) (pool : List formula)
    (buffer : List Char) (seed : Nat) :
    least_worst cfg libc st pool buffer seed =
      if pool.length = 0 then (false, buffer, seed)
      else if pool.length = 1 then
        (true, write_guess cfg (pool.getD 0 ⟨0, [], 0⟩) buffer, seed)
      else
        match (least_worst_loop cfg libc st pool (ipow 3 cfg.SIZE).toNat
            (least_worst_rnd_thr libc pool (least_worst_candidates cfg pool))
            (least_worst_candidates cfg pool) ⟨pool.length + 1, pool[0]?, pool, seed⟩).least_f,
          (least_worst_loop cfg libc st pool (ipow 3 cfg.SIZE).toNat
            (least_worst_rnd_thr libc pool (least_worst_candidates cfg pool))
            (least_worst_candidates cfg pool) ⟨pool.length + 1, pool[0]?, pool, seed⟩) with
        | none, v => (decide (v.least_c > 0), buffer, v.seed)
        | some f, v => (decide (v.least_c > 0), write_guess cfg f buffer, v.seed) := by
  unfold least_worst least_worst_candidates least_worst_rnd_thr
  simp only []
  split
  · rfl
  · split
    · rfl
    · split <;> rename_i h <;> simp only [h]

theorem prune_loop_perm {α : Type} (keep : α → Bool) (tab : List α) :
    List.Perm (prune_loop keep tab.length 0 tab) (tab.filter keep) := by
  have h1 := prune_loop_filter keep tab.length 0 tab
  have h2 := prune_loop_all keep tab.length 0 tab (by omega)
    (fun j x hj _ => absurd hj (Nat.not_lt_zero j))
  rw [List.filter_eq_self.mpr h2] at h1
  exact h1

theorem prune_loop_id {α : Type} (keep : α → Bool) (fuel i : Nat) (tab : List α)
    (h : ∀ x, x ∈ tab → keep x = true) : prune_loop keep fuel i tab = tab := by
  induction fuel generalizing i with
  | zero => rfl
  | succ fuel ih =>
    unfold prune_loop
    cases hx : tab[i]? with
    | none => rfl
    | some f =>
      simp only []
      have hf : f ∈ tab := by
        obtain ⟨hi, e⟩ := List.getElem?_eq_some_iff.mp hx
        exact e ▸ List.getElem_mem hi
      rw [if_pos (h f hf)]
      exact ih (i + 1)

/-- The pool reduction, as filters of the pool. -/
theorem least_worst_candidates_spec (cfg : Config) (pool : List formula) :
    (pool.length < MAX_FORMULAE_EXACT → least_worst_candidates cfg pool = pool) ∧
    (MAX_FORMULAE_EXACT ≤ pool.length →
      (pool.filter (fun f => decide (f.used_count = cfg.SIZE))).length < MAX_FORMULAE_EXACT →
      List.Perm (least_worst_candidates cfg pool)
        (pool.filter (fun f => decide (f.used_count = cfg.SIZE)))) ∧
    (MAX_FORMULAE_EXACT ≤ pool.length →
      MAX_FORMULAE_EXACT ≤
        (pool.filter (fun f => decide (f.used_count = cfg.SIZE))).length →
      List.Perm (least_worst_candidates cfg pool)
        ((pool.filter (fun f => decide (f.used_count = cfg.SIZE))).filter
          (fun f => decide (f.used &&& MSK0 = MSKnone)))) := by
  have p1 := prune_loop_perm (fun f : formula => decide (f.used_count = cfg.SIZE)) pool
  have p2 := prune_loop_perm (fun f : formula => decide (f.used &&& MSK0 = MSKnone))
    (prune_loop (fun f : formula => decide (f.used_count = cfg.SIZE)) pool.length 0 pool)
  refine ⟨?_, ?_, ?_⟩
  · intro h
    unfold least_worst_candidates
    simp only [ge_iff_le]
    rw [if_neg (by omega)]
  · intro h h'
    unfold least_worst_candidates
    simp only [ge_iff_le]
    rw [if_pos h, if_neg (by rw [p1.length_eq]; omega)]
    exact p1
  · intro h h'
    unfold least_worst_candidates
    simp only [ge_iff_le]
    rw [if_pos h, if_pos (by rw [p1.length_eq]; omega)]
    exact p2.trans (p1.filter _)

/-! ## The sample list, step by step -/

theorem vars_at_zero (cfg : Config) (libc : Libc) (st : state) (formulae : List formula)
    (all_colors : Nat) (rnd_thr : Int) (candidates : List formula) (vars : least_worst_vars) :
    vars_at cfg libc st formulae all_colors rnd_thr candidates vars 0 = vars := rfl

theorem vars_at_length (cfg : Config) (libc : Libc) (st : state) (formulae : List formula)
    (all_colors : Nat) (rnd_thr : Int) (candidates : List formula) (vars : least_worst_vars) :
    vars_at cfg libc st formulae all_colors rnd_thr candidates vars candidates.length =
      least_worst_loop cfg libc st formulae all_colors rnd_thr candidates vars := by
  unfold vars_at
  rw [List.take_length]

/-- One step of the main loop of `least_worst`. -/
theorem vars_at_succ (cfg : Config) (libc : Libc) (st : state) (formulae : List formula)
    (all_colors : Nat) (rnd_thr : Int) (candidates : List formula) (vars : least_worst_vars)
    (i : Nat) (c : formula) (hc : candidates[i]? = some c) :
    vars_at cfg libc st formulae all_colors rnd_thr candidates vars (i + 1) =
      (if find_worst cfg st c all_colors
            (samples_at cfg libc st formulae all_colors rnd_thr candidates vars i)
            (vars_at cfg libc st formulae all_colors rnd_thr candidates vars i).least_c <
          (vars_at cfg libc st formulae all_colors rnd_thr candidates vars i).least_c then
        { (vars_at cfg libc st formulae all_colors rnd_thr candidates vars i) with
          samples := samples_at cfg libc st formulae all_colors rnd_thr candidates vars i,
          seed := (if rnd_thr ≥ 0 ∧ 0 = (i &&& 7) then
              (refresh_samples libc formulae i rnd_thr
                (vars_at cfg libc st formulae all_colors rnd_thr candidates vars i).seed).2
            else (vars_at cfg libc st formulae all_colors rnd_thr candidates vars i).seed),
          least_c := find_worst cfg st c all_colors
            (samples_at cfg libc st formulae all_colors rnd_thr candidates vars i)
            (vars_at cfg libc st formulae all_colors rnd_thr candidates vars i).least_c,
          least_f := some c }
      else
        { (vars_at cfg libc st formulae all_colors rnd_thr candidates vars i) with
          samples := samples_at cfg libc st formulae all_colors rnd_thr candidates vars i,
          seed := (if rnd_thr ≥ 0 ∧ 0 = (i &&& 7) then
              (refresh_samples libc formulae i rnd_thr
                (vars_at cfg libc st formulae all_colors rnd_thr candidates vars i).seed).2
            else (vars_at cfg libc st formulae all_colors rnd_thr candidates vars i).seed) }) := by
  have hi : i < candidates.length := (List.getElem?_eq_some_iff.mp hc).1
  have e : (List.range i).foldl (fun (v : least_worst_vars) j =>
      match (candidates.take i)[j]? with
      | none => v
      | some candidate =>
        let v : least_worst_vars :=
          if rnd_thr ≥ 0 ∧ 0 = (j &&& 7) then
            let r := refresh_samples libc formulae j rnd_thr v.seed
            { v with samples := r.1, seed := r.2 }
          else v
        let worst := find_worst cfg st candidate all_colors v.samples v.least_c
        if worst < v.least_c then { v with least_c := worst, least_f := some candidate }
        else v) vars =
      vars_at cfg libc st formulae all_colors rnd_thr candidates vars i := by
    unfold vars_at least_worst_loop
    rw [List.length_take, Nat.min_eq_left (by omega)]
  unfold samples_at
  simp only []
  conv_lhs => unfold vars_at least_worst_loop
  rw [List.length_take, Nat.min_eq_left (by omega), List.range_succ, List.foldl_append]
  simp only [List.foldl_cons, List.foldl_nil, List.getElem?_take_of_succ, hc]
  rw [foldl_congr_mem _
    (fun (v : least_worst_vars) j =>
      match (candidates.take i)[j]? with
      | none => v
      | some candidate =>
        let v : least_worst_vars :=
          if rnd_thr ≥ 0 ∧ 0 = (j &&& 7) then
            let r := refresh_samples libc formulae j rnd_thr v.seed
            { v with samples := r.1, seed := r.2 }
          else v
        let worst := find_worst cfg st candidate all_colors v.samples v.least_c
        if worst < v.least_c then { v with least_c := worst, least_f := some candidate }
        else v) (List.range i) (by
      intro j hj b
      rw [List.mem_range] at hj
      rw [List.getElem?_take_of_lt (by omega : j < i + 1)]
      simp only [List.getElem?_take_of_lt hj]), e]
  generalize vars_at cfg libc st formulae all_colors rnd_thr candidates vars i = w
  by_cases hr : rnd_thr ≥ 0 ∧ 0 = (i &&& 7)
  · simp only [if_pos hr]
  · simp only [if_neg hr]


/-! ## Membership in the sample list -/

theorem samples_after_step (cfg : Config) (libc : Libc) (st : state) (formulae : List formula)
    (all_colors : Nat) (rnd_thr : Int) (candidates : List formula) (vars : least_worst_vars)
    (i : Nat) (c : formula) (hc : candidates[i]? = some c) :
    (vars_at cfg libc st formulae all_colors rnd_thr candidates vars (i + 1)).samples =
      samples_at cfg libc st formulae all_colors rnd_thr candidates vars i := by
  rw [vars_at_succ cfg libc st formulae all_colors rnd_thr candidates vars i c hc]
  split <;> rfl

/-- A step that does not rebuild the sample list scores against the list of the step before. -/
theorem samples_at_keep (cfg : Config) (libc : Libc) (st : state) (formulae : List formula)
    (all_colors : Nat) (rnd_thr : Int) (candidates : List formula) (vars : least_worst_vars)
    (i : Nat) (hi : i < candidates.length) (hr : ¬ (rnd_thr ≥ 0 ∧ 0 = ((i + 1) &&& 7))) :
    samples_at cfg libc st formulae all_colors rnd_thr candidates vars (i + 1) =
      samples_at cfg libc st formulae all_colors rnd_thr candidates vars i := by
  conv_lhs => unfold samples_at
  simp only []
  rw [if_neg hr]
  exact samples_after_step cfg libc st formulae all_colors rnd_thr candidates vars i
    candidates[i] (List.getElem?_eq_getElem hi)

theorem land_seven (n : Nat) : n &&& 7 = n % 8 :=
  Nat.and_pow_two_sub_one_eq_mod n 3

/-- The sample list of a step is the one rebuilt at the last step that is a multiple of 8. -/
theorem samples_at_block (cfg : Config) (libc : Libc) (st : state) (formulae : List formula)
    (all_colors : Nat) (rnd_thr : Int) (candidates : List formula) (vars : least_worst_vars)
    (q r : Nat) (hr : r < 8) (hi : 8 * q + r < candidates.length + 1) :
    samples_at cfg libc st formulae all_colors rnd_thr candidates vars (8 * q + r) =
      samples_at cfg libc st formulae all_colors rnd_thr candidates vars (8 * q) := by
  induction r with
  | zero => rfl
  | succ r ih =>
    have e : 8 * q + (r + 1) = (8 * q + r) + 1 := by omega
    rw [e, samples_at_keep cfg libc st formulae all_colors rnd_thr candidates vars (8 * q + r)
      (by omega) (by
        rintro ⟨_, h⟩
        rw [land_seven] at h
        omega)]
    exact ih (by omega) (by omega)

theorem samples_at_rebuilt (cfg : Config) (libc : Libc) (st : state) (formulae : List formula)
    (all_colors : Nat) (rnd_thr : Int) (candidates : List formula) (vars : least_worst_vars)
    (q : Nat) (hthr : 0 ≤ rnd_thr) :
    samples_at cfg libc st formulae all_colors rnd_thr candidates vars (8 * q) =
      (refresh_samples libc formulae (8 * q) rnd_thr
        (vars_at cfg libc st formulae all_colors rnd_thr candidates vars (8 * q)).seed).1 := by
  unfold samples_at
  simp only []
  rw [if_pos ⟨hthr, by rw [land_seven]; omega⟩]

/-- The rebuilt sample list holds the formula of index `i` of the pool. -/
theorem refresh_samples_self (libc : Libc) (formulae : List formula) (i : Nat) (rnd_thr : Int)
    (seed : Nat) (f : formula) (hf : formulae[i]? = some f) :
    f ∈ (refresh_samples libc formulae i rnd_thr seed).1 := by
  have hi : i < formulae.length := (List.getElem?_eq_some_iff.mp hf).1
  unfold refresh_samples
  have key := foldl_range_ind (fun j (acc : List formula × Nat) => i < j → f ∈ acc.1)
    (fun (acc : List formula × Nat) j =>
      match formulae[j]? with
      | none => acc
      | some f =>
        if j = i then (acc.1 ++ [f], acc.2)
        else
          let r := _rnd libc acc.2
          if (r.1 : Int) ≤ rnd_thr then (acc.1 ++ [f], r.2) else (acc.1, r.2))
    ([], seed) formulae.length (fun h => absurd h (Nat.not_lt_zero i)) (by
      intro j hj acc hacc hij
      beta_reduce
      rw [List.getElem?_eq_getElem hj]
      simp only []
      by_cases e : j = i
      · rw [if_pos e]
        have hfj : formulae[j] = f := by
          have h1 := List.getElem?_eq_getElem hj
          have h2 : formulae[j]? = some f := by rw [e]; exact hf
          rw [h2] at h1
          exact (Option.some.inj h1).symm
        rw [hfj]
        exact List.mem_append_right _ (List.mem_singleton_self f)
      · have := hacc (by omega)
        rw [if_neg e]
        split
        · exact List.mem_append_left _ this
        · exact this)
  exact key hi

/-- The rebuilt sample list holds formulas of the pool only. -/
theorem refresh_samples_subset (libc : Libc) (formulae : List formula) (i : Nat)
    (rnd_thr : Int) (seed : Nat) (f : formula)
    (hf : f ∈ (refresh_samples libc formulae i rnd_thr seed).1) : f ∈ formulae := by
  unfold refresh_samples at hf
  have key := foldl_range_ind
    (fun _ (acc : List formula × Nat) => ∀ g, g ∈ acc.1 → g ∈ formulae)
    (fun (acc : List formula × Nat) j =>
      match formulae[j]? with
      | none => acc
      | some f =>
        if j = i then (acc.1 ++ [f], acc.2)
        else
          let r := _rnd libc acc.2
          if (r.1 : Int) ≤ rnd_thr then (acc.1 ++ [f], r.2) else (acc.1, r.2))
    ([], seed) formulae.length (fun g hg => absurd hg (List.not_mem_nil g)) (by
      intro j hj acc hacc g hg
      have hmem : formulae[j] ∈ formulae := List.getElem_mem hj
      beta_reduce at hg
      rw [List.getElem?_eq_getElem hj] at hg
      simp only [] at hg
      split at hg
      · rcases List.mem_append.mp hg with h | h
        · exact hacc g h
        · rw [List.mem_singleton.mp h]; exact hmem
      · split at hg
        · rcases List.mem_append.mp hg with h | h
          · exact hacc g h
          · rw [List.mem_singleton.mp h]; exact hmem
        · exact hacc g hg)
  exact key f hf

/-- When the list is rebuilt at step 0 and the first random number is above
`rnd_thr`, the formula of index 1 is not taken: the list holds formulas of the
other indices only. -/
theorem refresh_samples_skip (libc : Libc) (formulae : List formula) (rnd_thr : Int)
    (seed : Nat) (hr : ¬ ((_rnd libc seed).1 : Int) ≤ rnd_thr) (f : formula)
    (hf : f ∈ (refresh_samples libc formulae 0 rnd_thr seed).1) :
    ∃ j, j ≠ 1 ∧ formulae[j]? = some f := by
  unfold refresh_samples at hf
  have key := foldl_range_ind
    (fun j (acc : List formula × Nat) => (j ≤ 1 → acc.2 = seed) ∧
      ∀ g, g ∈ acc.1 → ∃ j', j' ≠ 1 ∧ formulae[j']? = some g)
    (fun (acc : List formula × Nat) j =>
      match formulae[j]? with
      | none => acc
      | some f =>
        if j = 0 then (acc.1 ++ [f], acc.2)
        else
          let r := _rnd libc acc.2
          if (r.1 : Int) ≤ rnd_thr then (acc.1 ++ [f], r.2) else (acc.1, r.2))
    ([], seed) formulae.length
    ⟨fun _ => rfl, fun g hg => absurd hg (List.not_mem_nil g)⟩ (by
      intro j hj acc hacc
      obtain ⟨hs, hm⟩ := hacc
      beta_reduce
      rw [List.getElem?_eq_getElem hj]
      simp only []
      by_cases e0 : j = 0
      · subst e0
        simp only [if_true]
        refine ⟨fun _ => hs (by omega), fun g hg => ?_⟩
        rcases List.mem_append.mp hg with h | h
        · exact hm g h
        · exact ⟨0, by omega, by rw [List.mem_singleton.mp h, List.getElem?_eq_getElem hj]⟩
      · rw [if_neg e0]
        by_cases e1 : j = 1
        · subst e1
          rw [hs (le_refl 1), if_neg hr]
          exact ⟨fun h => by omega, hm⟩
        · split
          · refine ⟨fun h => by omega, fun g hg => ?_⟩
            rcases List.mem_append.mp hg with h | h
            · exact hm g h
            · exact ⟨j, e1, by rw [List.mem_singleton.mp h, List.getElem?_eq_getElem hj]⟩
          · exact ⟨fun h => by omega, hm⟩)
  exact key.2 f hf


/-! ## Every string is found once -/

theorem nodup_flatMap_of {α β : Type} (l : List α) (f : α → List β) (hl : l.Nodup)
    (h1 : ∀ x, x ∈ l → (f x).Nodup)
    (h2 : ∀ x, x ∈ l → ∀ y, y ∈ l → x ≠ y → ∀ s, s ∈ f x → s ∈ f y → False) :
    (l.flatMap f).Nodup := by
  rw [List.nodup_flatMap]
  refine ⟨h1, hl.pairwise_of_forall_ne ?_⟩
  intro a ha b hb hne
  exact List.disjoint_left.mpr (fun s hs hs' => h2 a ha b hb hne s hs hs')

theorem choices_nodup (N : Int) : (choices N).Nodup := by
  unfold choices
  refine List.Nodup.map ?_ (List.nodup_range _)
  intro a b h
  simp only at h
  omega

/-- The strings `gen_solve` hands on are those of its goal on one target. -/
theorem gen_solve_strings (G : opt_rat → List Found) (T U : opt_rat) (op : Char) (V : opt_rat) :
    (∃ T' : opt_rat, (gen_solve G T U op V).map Prod.snd = (G T').map Prod.snd) ∨
    gen_solve G T U op V = [] := by
  rcases solve_cases T U op V with ⟨T', post, _, h⟩ | ⟨_, h⟩
  · refine Or.inl ⟨T', ?_⟩
    rw [h G, List.map_map]
    rfl
  · exact Or.inr (h G)

/-- A solution of `number` is a run of digits, the digits of the returned value. -/
theorem gen_number_digits (T : opt_rat) (w : Nat) (hw : 0 < w) (rs : Found)
    (hrs : rs ∈ gen_number T w) :
    (∀ c, c ∈ rs.2 → c.isDigit = true) ∧ ∃ n : Int, 0 ≤ n ∧ num_scan w n = (0, 0) ∧
      rs.2 = last_digits w n := by
  have key : ∀ n : Int, 0 ≤ n → ∀ c, c ∈ last_digits w n → c.isDigit = true := by
    intro n hn c hc
    have e : n = ((n.toNat : Nat) : Int) := (Int.toNat_of_nonneg hn).symm
    rw [e] at hc
    exact last_digits_isDigit w _ c hc
  unfold gen_number at hrs
  by_cases hset : T.set = true
  · rw [if_pos hset] at hrs
    split at hrs
    · cases hrs
    · rename_i hbad
      split at hrs
      · rename_i hfit
        rw [List.mem_singleton] at hrs
        subst hrs
        have hp0 : 0 ≤ T.val.p := by
          by_contra h; exact hbad (Or.inr (by omega))
        exact ⟨key _ hp0, _, hp0, hfit, rfl⟩
      · cases hrs
  · rw [if_neg hset] at hrs
    simp only [List.mem_map] at hrs
    obtain ⟨c0, hc0, rfl⟩ := hrs
    obtain ⟨hn0, hscan⟩ := num_scan_unset w hw c0 hc0
    exact ⟨key _ hn0, _, hn0, hscan, rfl⟩

theorem gen_number_nodup (T : opt_rat) (w : Nat) (hw : 0 < w) :
    ((gen_number T w).map Prod.snd).Nodup := by
  unfold gen_number
  by_cases hset : T.set = true
  · rw [if_pos hset]
    split
    · exact List.nodup_nil
    · split
      · exact List.nodup_singleton _
      · exact List.nodup_nil
  · rw [if_neg hset]
    simp only [List.map_map]
    refine List.Nodup.map_on ?_ (choices_nodup _)
    intro c hc c' hc' h
    simp only [Function.comp] at h
    obtain ⟨h0, hs⟩ := num_scan_unset w hw c hc
    obtain ⟨h0', hs'⟩ := num_scan_unset w hw c' hc'
    have e1 := num_value_of_scan w hw _ h0 hs
    have e2 := num_value_of_scan w hw _ h0' hs'
    rw [h] at e1
    rw [e1] at e2
    omega


/-- The strings of a two-operand alternative: a balanced left operand of the
chosen width, the operator, and a solution of the right operand. -/
theorem binop_string (GU GV : opt_rat → Nat → List Found) (T : opt_rat) (w : Nat) (op : Char)
    (lenU : Lengths GU)
    (balU : ∀ T' n rs, 0 < n → rs ∈ GU T' n → bal rs.2 = 0)
    (s : List Char)
    (hs : s ∈ ((choices ((w : Int) - 2)).flatMap (fun c' =>
      (GV { opt_rat.uninit with set := false } (w - c'.toNat - 1)).flatMap (fun vs =>
        (gen_solve (fun U' => GU U' c'.toNat) T opt_rat.uninit op vs.1).map
          (fun rs => (rs.1, rs.2 ++ op :: vs.2))))).map Prod.snd) :
    ∃ (c' : Int) (vs : Found) (sU : List Char), 1 ≤ c' ∧ c' ≤ (w : Int) - 2 ∧
      vs ∈ GV { opt_rat.uninit with set := false } (w - c'.toNat - 1) ∧
      sU.length = c'.toNat ∧ bal sU = 0 ∧ s = sU ++ op :: vs.2 := by
  simp only [List.mem_map, List.mem_flatMap] at hs
  obtain ⟨x, ⟨c', hc', vs, hvs, rs0, hrs0, rfl⟩, rfl⟩ := hs
  rw [mem_choices] at hc'
  refine ⟨c', vs, rs0.2, hc'.1, hc'.2, hvs, ?_, ?_, rfl⟩
  · exact gen_solve_length (fun U' => GU U' c'.toNat) c'.toNat (fun T' rs h => lenU T' _ rs h)
      T opt_rat.uninit op vs.1 rs0 hrs0
  · rcases gen_solve_strings (fun U' => GU U' c'.toNat) T opt_rat.uninit op vs.1 with
      ⟨T', e⟩ | e
    · have hm : rs0.2 ∈ (gen_solve (fun U' => GU U' c'.toNat) T opt_rat.uninit op vs.1).map
          Prod.snd := List.mem_map.mpr ⟨rs0, hrs0, rfl⟩
      rw [e, List.mem_map] at hm
      obtain ⟨rs', hrs', e'⟩ := hm
      rw [← e']
      exact balU T' c'.toNat rs' (by omega) hrs'
    · rw [e] at hrs0
      cases hrs0

/-- A two-operand alternative finds every string once. -/
theorem binop_nodup (GU GV : opt_rat → Nat → List Found) (T : opt_rat) (w : Nat) (op : Char)
    (hop : op ≠ '(' ∧ op ≠ ')')
    (ndU : ∀ T' n, 0 < n → ((GU T' n).map Prod.snd).Nodup)
    (ndV : ∀ n, 0 < n → ((GV { opt_rat.uninit with set := false } n).map Prod.snd).Nodup)
    (lenU : Lengths GU)
    (balU : ∀ T' n rs, 0 < n → rs ∈ GU T' n → bal rs.2 = 0)
    (topV : ∀ n rs, 0 < n → rs ∈ GV { opt_rat.uninit with set := false } n →
      ∀ a c b, rs.2 = a ++ c :: b → bal a = 0 → c ≠ op) :
    (((choices ((w : Int) - 2)).flatMap (fun c' =>
      (GV { opt_rat.uninit with set := false } (w - c'.toNat - 1)).flatMap (fun vs =>
        (gen_solve (fun U' => GU U' c'.toNat) T opt_rat.uninit op vs.1).map
          (fun rs => (rs.1, rs.2 ++ op :: vs.2))))).map Prod.snd).Nodup := by
  rw [List.map_flatMap]
  have inner : ∀ c' vs s, c' ∈ choices ((w : Int) - 2) →
      vs ∈ GV { opt_rat.uninit with set := false } (w - c'.toNat - 1) →
      s ∈ ((gen_solve (fun U' => GU U' c'.toNat) T opt_rat.uninit op vs.1).map
          (fun rs => (rs.1, rs.2 ++ op :: vs.2))).map Prod.snd →
      ∃ sU : List Char, sU.length = c'.toNat ∧ bal sU = 0 ∧ s = sU ++ op :: vs.2 := by
    intro c' vs s hc' hvs hs
    have hc := (mem_choices _ _).1 hc'
    simp only [List.mem_map] at hs
    obtain ⟨x, ⟨rs0, hrs0, rfl⟩, rfl⟩ := hs
    refine ⟨rs0.2, ?_, ?_, rfl⟩
    · exact gen_solve_length (fun U' => GU U' c'.toNat) c'.toNat
        (fun T' rs h => lenU T' _ rs h) T opt_rat.uninit op vs.1 rs0 hrs0
    · rcases gen_solve_strings (fun U' => GU U' c'.toNat) T opt_rat.uninit op vs.1 with
        ⟨T', e⟩ | e
      · have hm : rs0.2 ∈ (gen_solve (fun U' => GU U' c'.toNat) T opt_rat.uninit op
            vs.1).map Prod.snd := List.mem_map.mpr ⟨rs0, hrs0, rfl⟩
        rw [e, List.mem_map] at hm
        obtain ⟨rs', hrs', e'⟩ := hm
        rw [← e']
        exact balU T' c'.toNat rs' (by omega) hrs'
      · rw [e] at hrs0
        cases hrs0
  refine nodup_flatMap_of _ _ (choices_nodup _) ?_ ?_
  · intro c' hc'
    have hc := (mem_choices _ _).1 hc'
    rw [List.map_flatMap]
    have hnV := ndV (w - c'.toNat - 1) (by omega)
    refine nodup_flatMap_of _ _ (List.Nodup.of_map _ hnV) ?_ ?_
    · intro vs hvs
      have e : ((gen_solve (fun U' => GU U' c'.toNat) T opt_rat.uninit op vs.1).map
          (fun rs => (rs.1, rs.2 ++ op :: vs.2))).map Prod.snd =
          ((gen_solve (fun U' => GU U' c'.toNat) T opt_rat.uninit op vs.1).map Prod.snd).map
            (fun s => s ++ op :: vs.2) := by
        rw [List.map_map, List.map_map]
        rfl
      rw [e]
      refine List.Nodup.map (List.append_left_injective _) ?_
      rcases gen_solve_strings (fun U' => GU U' c'.toNat) T opt_rat.uninit op vs.1 with
        ⟨T', e'⟩ | e'
      · rw [e']
        exact ndU T' c'.toNat (by omega)
      · rw [e']
        exact List.nodup_nil
    · intro vs hvs vs' hvs' hne s hs hs'
      obtain ⟨a, ha, _, e1⟩ := inner c' vs s hc' hvs hs
      obtain ⟨a', ha', _, e2⟩ := inner c' vs' s hc' hvs' hs'
      rw [e1] at e2
      have := (List.append_inj e2 (by rw [ha, ha'])).2
      have hv : vs.2 = vs'.2 := (List.cons.inj this).2
      exact hne (List.inj_on_of_nodup_map hnV hvs hvs' hv)
  · intro c' hc' c'' hc'' hne s hs hs'
    have hc := (mem_choices _ _).1 hc'
    have hd := (mem_choices _ _).1 hc''
    rw [List.map_flatMap, List.mem_flatMap] at hs hs'
    obtain ⟨vs, hvs, hs⟩ := hs
    obtain ⟨vs', hvs', hs'⟩ := hs'
    obtain ⟨a, ha, ba, e1⟩ := inner c' vs s hc' hvs hs
    obtain ⟨a', ha', ba', e2⟩ := inner c'' vs' s hc'' hvs' hs'
    rw [e1] at e2
    have := (split_unique a vs.2 a' vs'.2 op op hop hop e2 ba ba'
      (topV _ vs (by omega) hvs) (topV _ vs' (by omega) hvs')).1
    rw [this] at ha
    rw [ha] at ha'
    omega


/-- One level of the grammar finds every string once, when the level below and
the level itself with less fuel do. -/
theorem level_nodup (Glow GU : opt_rat → Nat → List Found) (o1 o2 : Char) (ho : o1 ≠ o2)
    (hop1 : o1 ≠ '(' ∧ o1 ≠ ')') (hop2 : o2 ≠ '(' ∧ o2 ≠ ')')
    (ndLow : ∀ T n, 0 < n → ((Glow T n).map Prod.snd).Nodup)
    (ndU : ∀ T n, 0 < n → ((GU T n).map Prod.snd).Nodup)
    (lenU : Lengths GU)
    (balU : ∀ T n rs, 0 < n → rs ∈ GU T n → bal rs.2 = 0)
    (topLow : ∀ T n rs, 0 < n → rs ∈ Glow T n →
      ∀ a c b, rs.2 = a ++ c :: b → bal a = 0 → c ≠ o1 ∧ c ≠ o2)
    (T : opt_rat) (w : Nat) (hw : 0 < w) :
    ((Glow T w ++
      ((choices ((w : Int) - 2)).flatMap (fun c' =>
        (Glow { opt_rat.uninit with set := false } (w - c'.toNat - 1)).flatMap (fun vs =>
          (gen_solve (fun U' => GU U' c'.toNat) T opt_rat.uninit o1 vs.1).map
            (fun rs => (rs.1, rs.2 ++ o1 :: vs.2)))) ++
       (choices ((w : Int) - 2)).flatMap (fun c' =>
        (Glow { opt_rat.uninit with set := false } (w - c'.toNat - 1)).flatMap (fun vs =>
          (gen_solve (fun U' => GU U' c'.toNat) T opt_rat.uninit o2 vs.1).map
            (fun rs => (rs.1, rs.2 ++ o2 :: vs.2)))))).map Prod.snd).Nodup := by
  have ndV : ∀ n, 0 < n →
      ((Glow { opt_rat.uninit with set := false } n).map Prod.snd).Nodup :=
    fun n hn => ndLow _ n hn
  have top1 : ∀ n rs, 0 < n → rs ∈ Glow { opt_rat.uninit with set := false } n →
      ∀ a c b, rs.2 = a ++ c :: b → bal a = 0 → c ≠ o1 :=
    fun n rs hn h a c b e hb => (topLow _ n rs hn h a c b e hb).1
  have top2 : ∀ n rs, 0 < n → rs ∈ Glow { opt_rat.uninit with set := false } n →
      ∀ a c b, rs.2 = a ++ c :: b → bal a = 0 → c ≠ o2 :=
    fun n rs hn h a c b e hb => (topLow _ n rs hn h a c b e hb).2
  rw [List.map_append, List.map_append]
  refine List.Nodup.append (ndLow T w hw) ?_ ?_
  · refine List.Nodup.append
      (binop_nodup GU Glow T w o1 hop1 ndU ndV lenU balU top1)
      (binop_nodup GU Glow T w o2 hop2 ndU ndV lenU balU top2) ?_
    rw [List.disjoint_left]
    intro s hs hs'
    obtain ⟨c', vs, a, h1, h2, hvs, _, ba, e1⟩ :=
      binop_string GU Glow T w o1 lenU balU s hs
    obtain ⟨c'', vs', a', h1', h2', hvs', _, ba', e2⟩ :=
      binop_string GU Glow T w o2 lenU balU s hs'
    rw [e1] at e2
    exact ho (split_unique a vs.2 a' vs'.2 o1 o2 hop1 hop2 e2 ba ba'
      (top2 _ vs (by omega) hvs) (top1 _ vs' (by omega) hvs')).2.1
  · rw [List.disjoint_left]
    intro s hs hs'
    rw [List.mem_map] at hs
    obtain ⟨rs, hrs, rfl⟩ := hs
    rcases List.mem_append.mp hs' with h | h
    · obtain ⟨c', vs, a, _, _, _, _, ba, e1⟩ :=
        binop_string GU Glow T w o1 lenU balU rs.2 h
      exact (topLow T w rs hw hrs a o1 vs.2 e1 ba).1 rfl
    · obtain ⟨c', vs, a, _, _, _, _, ba, e1⟩ :=
        binop_string GU Glow T w o2 lenU balU rs.2 h
      exact (topLow T w rs hw hrs a o2 vs.2 e1 ba).2 rfl

theorem choices_three : choices 3 = [1, 2, 3] := by decide

theorem choices_two : choices 2 = [1, 2] := by decide

theorem choices_one : choices 1 = [1] := by decide

theorem gen_expression_succ (cfg : Config) (fuel : Nat) (T : opt_rat) (w : Nat) :
    gen_expression cfg (fuel + 1) T w =
      gen_term cfg fuel T w ++
      ((choices ((w : Int) - 2)).flatMap (fun c' =>
        (gen_term cfg fuel { opt_rat.uninit with set := false } (w - c'.toNat - 1)).flatMap
          (fun vs =>
            (gen_solve (fun U' => gen_expression cfg fuel U' c'.toNat) T opt_rat.uninit '+'
              vs.1).map (fun rs => (rs.1, rs.2 ++ '+' :: vs.2)))) ++
       (choices ((w : Int) - 2)).flatMap (fun c' =>
        (gen_term cfg fuel { opt_rat.uninit with set := false } (w - c'.toNat - 1)).flatMap
          (fun vs =>
            (gen_solve (fun U' => gen_expression cfg fuel U' c'.toNat) T opt_rat.uninit '-'
              vs.1).map (fun rs => (rs.1, rs.2 ++ '-' :: vs.2))))) := by
  rw [gen_expression, choices_three]
  simp only [List.flatMap_cons, List.flatMap_nil, List.append_nil, if_true,
    if_neg (show ¬ ((2 : Int) = 1) by decide), if_neg (show ¬ ((3 : Int) = 1) by decide),
    if_neg (show ¬ ((3 : Int) = 2) by decide)]

theorem gen_term_succ (cfg : Config) (fuel : Nat) (T : opt_rat) (w : Nat) :
    gen_term cfg (fuel + 1) T w =
      gen_factor cfg fuel T w ++
      ((choices ((w : Int) - 2)).flatMap (fun c' =>
        (gen_factor cfg fuel { opt_rat.uninit with set := false } (w - c'.toNat - 1)).flatMap
          (fun vs =>
            (gen_solve (fun U' => gen_term cfg fuel U' c'.toNat) T opt_rat.uninit '*'
              vs.1).map (fun rs => (rs.1, rs.2 ++ '*' :: vs.2)))) ++
       (choices ((w : Int) - 2)).flatMap (fun c' =>
        (gen_factor cfg fuel { opt_rat.uninit with set := false } (w - c'.toNat - 1)).flatMap
          (fun vs =>
            (gen_solve (fun U' => gen_term cfg fuel U' c'.toNat) T opt_rat.uninit '/'
              vs.1).map (fun rs => (rs.1, rs.2 ++ '/' :: vs.2))))) := by
  rw [gen_term, choices_three]
  simp only [List.flatMap_cons, List.flatMap_nil, List.append_nil, if_true,
    if_neg (show ¬ ((2 : Int) = 1) by decide), if_neg (show ¬ ((3 : Int) = 1) by decide),
    if_neg (show ¬ ((3 : Int) = 2) by decide)]

theorem gen_factor_succ (cfg : Config) (fuel : Nat) (T : opt_rat) (w : Nat) :
    gen_factor cfg (fuel + 1) T w =
      gen_number T w ++
        (if cfg.ALLOW_PARENTHESIS = true then
          (if (w : Int) < 3 then []
           else (gen_expression cfg fuel T (w - 2)).map (fun rs => (rs.1, '(' :: rs.2 ++ [')'])))
         else []) := by
  rw [gen_factor]
  by_cases hp : cfg.ALLOW_PARENTHESIS = true
  · simp only [hp, if_true]
    rw [show ((1 : Int) + 1) = 2 from rfl, choices_two]
    simp only [List.flatMap_cons, List.flatMap_nil, List.append_nil, if_true,
      if_neg (show ¬ ((2 : Int) = 1) by decide)]
  · simp only [hp, if_false, Bool.false_eq_true]
    rw [show ((1 : Int) + 0) = 1 from rfl, choices_one]
    simp only [List.flatMap_cons, List.flatMap_nil, List.append_nil, if_true]

/-- The grammar functions find every string once. -/
theorem gen_nodup (cfg : Config) (fuel : Nat) :
    (∀ T w, 0 < w → ((gen_expression cfg fuel T w).map Prod.snd).Nodup) ∧
    (∀ T w, 0 < w → ((gen_term cfg fuel T w).map Prod.snd).Nodup) ∧
    (∀ T w, 0 < w → ((gen_factor cfg fuel T w).map Prod.snd).Nodup) := by
  induction fuel with
  | zero =>
    refine ⟨?_, ?_, ?_⟩ <;> intro T w _
    · rw [gen_expression]; exact List.nodup_nil
    · rw [gen_term]; exact List.nodup_nil
    · rw [gen_factor]; exact List.nodup_nil
  | succ fuel ih =>
    obtain ⟨ihe, iht, ihf⟩ := ih
    obtain ⟨se, st, sf⟩ := gen_shape cfg fuel
    obtain ⟨le, lt, lf⟩ := gen_lengths cfg fuel
    refine ⟨?_, ?_, ?_⟩ <;> intro T w hw
    · rw [gen_expression_succ]
      exact level_nodup (gen_term cfg fuel) (gen_expression cfg fuel) '+' '-' (by decide)
        ⟨by decide, by decide⟩ ⟨by decide, by decide⟩ iht ihe le
        (fun T n rs hn h => by
          obtain ⟨v, z, d⟩ := se T n rs hn h
          exact (Parses_balanced _ _ _ _ _ d).1)
        (fun T n rs hn h a c b e hb => by
          obtain ⟨v, z, d⟩ := st T n rs hn h
          exact ⟨term_no_addsub _ _ _ _ d '+' (Or.inl rfl) a c b e hb,
            term_no_addsub _ _ _ _ d '-' (Or.inr rfl) a c b e hb⟩)
        T w hw
    · rw [gen_term_succ]
      exact level_nodup (gen_factor cfg fuel) (gen_term cfg fuel) '*' '/' (by decide)
        ⟨by decide, by decide⟩ ⟨by decide, by decide⟩ ihf iht lt
        (fun T n rs hn h => by
          obtain ⟨v, z, d⟩ := st T n rs hn h
          exact (Parses_balanced _ _ _ _ _ d).1)
        (fun T n rs hn h a c b e hb => by
          obtain ⟨v, z, d⟩ := sf T n rs hn h
          exact ⟨factor_no_op _ _ _ _ d '*' rfl a c b e hb,
            factor_no_op _ _ _ _ d '/' rfl a c b e hb⟩)
        T w hw
    · rw [gen_factor_succ, List.map_append]
      refine List.Nodup.append (gen_number_nodup T w hw) ?_ ?_
      · split
        · split
          · exact List.nodup_nil
          · rename_i hw3
            rw [List.map_map]
            have e : (Prod.snd ∘ fun rs : Found => (rs.1, '(' :: rs.2 ++ [')'])) =
                (fun s : List Char => '(' :: s ++ [')']) ∘ Prod.snd := rfl
            rw [e, ← List.map_map]
            refine List.Nodup.map ?_ (ihe T (w - 2) (by omega))
            intro a b hab
            simp only [List.cons_append, List.cons.injEq, true_and] at hab
            exact List.append_left_injective _ hab
        · exact List.nodup_nil
      · rw [List.disjoint_left]
        intro s hs hs'
        rw [List.mem_map] at hs
        obtain ⟨rs, hrs, rfl⟩ := hs
        have hd := (gen_number_digits T w hw rs hrs).1
        split at hs'
        · split at hs'
          · cases hs'
          · simp only [List.mem_map] at hs'
            obtain ⟨x, ⟨rs', _, rfl⟩, e⟩ := hs'
            have : '(' ∈ rs.2 := by
              rw [← e]
              exact List.mem_cons_self _ _
            have := hd _ this
            revert this
            decide
        · cases hs'


/-- The search `findall` starts finds every string once. -/
theorem gen_findall_nodup (cfg : Config) (target : rat) (hS : 0 < cfg.SIZE) :
    ((gen_findall cfg target).map Prod.snd).Nodup := by
  obtain ⟨ne, nt, _⟩ := gen_nodup cfg (search_depth cfg)
  obtain ⟨se, st, _⟩ := gen_shape cfg (search_depth cfg)
  obtain ⟨le, _, _⟩ := gen_lengths cfg (search_depth cfg)
  unfold gen_findall
  by_cases hN : cfg.NUMBLE = true
  · rw [if_pos hN]
    refine binop_nodup (gen_expression cfg (search_depth cfg)) (gen_term cfg (search_depth cfg))
      ⟨true, target⟩ cfg.SIZE '=' ⟨by decide, by decide⟩ ne
      (fun n hn => nt _ n hn) le
      (fun T n rs hn h => by
        obtain ⟨v, z, d⟩ := se T n rs hn h
        exact (Parses_balanced _ _ _ _ _ d).1) ?_
    intro n rs hn h a c b e _ hc
    obtain ⟨v, z, d⟩ := st _ n rs hn h
    have hg := Parses_glyph _ _ _ _ _ d c (by
      rw [e]
      exact List.mem_append_right _ (List.mem_cons_self _ _))
    rw [hc] at hg
    revert hg
    cases cfg.ALLOW_PARENTHESIS <;> decide
  · rw [if_neg hN]
    exact ne _ _ hS

/-- The store `findall` builds holds no two formulas with the same symbols. -/
theorem generate_nodup (cfg : Config) (hcfg : cfg.NUMBLE = true → cfg.ALLOW_PARENTHESIS = false)
    (hS : 0 < cfg.SIZE) (target : rat) :
    ((generate cfg target).map (fun f => f.mask)).Nodup := by
  have hnd := gen_findall_nodup cfg target hS
  rw [generate_eq cfg target hS, List.map_flatMap]
  refine nodup_flatMap_of _ _ (List.Nodup.of_map _ hnd) ?_ ?_
  · intro rs _
    unfold accept
    split
    · exact List.nodup_nil
    · exact List.nodup_singleton _
  · intro rs hrs rs' hrs' hne m hm hm'
    obtain ⟨l1, g1⟩ := gen_findall_shape cfg hcfg hS target rs hrs
    obtain ⟨l2, g2⟩ := gen_findall_shape cfg hcfg hS target rs' hrs'
    unfold accept at hm hm'
    split at hm
    · cases hm
    · split at hm'
      · cases hm'
      · simp only [List.map_cons, List.map_nil, List.mem_singleton] at hm hm'
        rw [make_formula_mask cfg rs.2 l1] at hm
        rw [make_formula_mask cfg rs'.2 l2] at hm'
        have e : rs.2 = rs'.2 := by
          rw [← decode_encode cfg rs.2 g1, ← decode_encode cfg rs'.2 g2, ← hm, ← hm']
        exact hne (List.inj_on_of_nodup_map hnd hrs hrs' e)

/-! ## Without overflow every solution has the value of the target -/

theorem Within_mono (A B : Int) (r : rat) (h : Within A r) (hAB : A ≤ B) : Within B r :=
  ⟨h.1, le_trans h.2.1 hAB, le_trans h.2.2 hAB⟩

theorem Within_one_le (B : Int) (r : rat) (h : Within B r) : 1 ≤ B := by
  have h1 : 1 ≤ |r.q| := Int.one_le_abs h.1
  exact le_trans h1 h.2.2

theorem abs_is_int_of_abs_le (x M : Int) (h : |x| ≤ M) (hM : M < 2 ^ 31) : abs_is_int x :=
  lt_of_le_of_lt h hM

theorem abs_mul_le (a b A B : Int) (ha : |a| ≤ A) (hb : |b| ≤ B) : |a * b| ≤ A * B := by
  rw [abs_mul]
  exact mul_le_mul ha hb (abs_nonneg b) (le_trans (abs_nonneg a) ha)

/-- `rat_norm` does not enlarge the numerator or the denominator. -/
theorem rat_norm_within (p q M : Int) (hq : q ≠ 0) (hp : |p| ≤ M) (hq' : |q| ≤ M) :
    Within M (rat_norm p q) := by
  refine ⟨(rat_norm_spec p q hq).1, ?_, ?_⟩
  · rw [rat_norm_eq_div]
    exact le_trans (Int.abs_ediv_le_abs p _) hp
  · rw [rat_norm_eq_div]
    exact le_trans (Int.abs_ediv_le_abs q _) hq'

theorem rat_add_within (u v : rat) (A B : Int) (hu : Within A u) (hv : Within B v)
    (h : 2 * (A * B) < 2 ^ 31) :
    Within (2 * (A * B)) (rat_add u v) ∧ (rat_add u v).toRat = u.toRat + v.toRat := by
  have hA := Within_one_le A u hu
  have hB := Within_one_le B v hv
  have hAB : 0 ≤ A * B := mul_nonneg (by omega) (by omega)
  have h1 : |u.p * v.q| ≤ A * B := abs_mul_le _ _ _ _ hu.2.1 hv.2.2
  have h2 : |v.p * u.q| ≤ A * B := by
    rw [mul_comm A B]
    exact abs_mul_le _ _ _ _ hv.2.1 hu.2.2
  have h3 : |u.q * v.q| ≤ A * B := abs_mul_le _ _ _ _ hu.2.2 hv.2.2
  have hn : |u.p * v.q + v.p * u.q| ≤ 2 * (A * B) := by
    have := abs_add (u.p * v.q) (v.p * u.q)
    omega
  have hd : |u.q * v.q| ≤ 2 * (A * B) := by omega
  have i1 := abs_is_int_of_abs_le _ _ hn h
  have i2 := abs_is_int_of_abs_le _ _ hd h
  refine ⟨?_, (rat_add_spec u v hu.1 hv.1 i1 i2).2⟩
  rw [rat_add_eq, to_integer_of_abs_is_int _ i1, to_integer_of_abs_is_int _ i2]
  exact rat_norm_within _ _ _ (mul_ne_zero hu.1 hv.1) hn hd

theorem rat_sub_within (u v : rat) (A B : Int) (hu : Within A u) (hv : Within B v)
    (h : 2 * (A * B) < 2 ^ 31) :
    Within (2 * (A * B)) (rat_sub u v) ∧ (rat_sub u v).toRat = u.toRat - v.toRat := by
  have hA := Within_one_le A u hu
  have hB := Within_one_le B v hv
  have hAB : 0 ≤ A * B := mul_nonneg (by omega) (by omega)
  have h1 : |u.p * v.q| ≤ A * B := abs_mul_le _ _ _ _ hu.2.1 hv.2.2
  have h2 : |v.p * u.q| ≤ A * B := by
    rw [mul_comm A B]
    exact abs_mul_le _ _ _ _ hv.2.1 hu.2.2
  have h3 : |u.q * v.q| ≤ A * B := abs_mul_le _ _ _ _ hu.2.2 hv.2.2
  have hn : |u.p * v.q - v.p * u.q| ≤ 2 * (A * B) := by
    have := abs_sub (u.p * v.q) (v.p * u.q)
    omega
  have hd : |u.q * v.q| ≤ 2 * (A * B) := by omega
  have i1 := abs_is_int_of_abs_le _ _ hn h
  have i2 := abs_is_int_of_abs_le _ _ hd h
  refine ⟨?_, (rat_sub_spec u v hu.1 hv.1 i1 i2).2⟩
  rw [rat_sub_eq, to_integer_of_abs_is_int _ i1, to_integer_of_abs_is_int _ i2]
  exact rat_norm_within _ _ _ (mul_ne_zero hu.1 hv.1) hn hd

theorem rat_mul_within (u v : rat) (A B : Int) (hu : Within A u) (hv : Within B v)
    (h : 2 * (A * B) < 2 ^ 31) :
    Within (2 * (A * B)) (rat_mul u v) ∧ (rat_mul u v).toRat = u.toRat * v.toRat := by
  have hA := Within_one_le A u hu
  have hB := Within_one_le B v hv
  have hAB : 0 ≤ A * B := mul_nonneg (by omega) (by omega)
  have h1 : |u.p * v.p| ≤ A * B := abs_mul_le _ _ _ _ hu.2.1 hv.2.1
  have h3 : |u.q * v.q| ≤ A * B := abs_mul_le _ _ _ _ hu.2.2 hv.2.2
  have hn : |u.p * v.p| ≤ 2 * (A * B) := by omega
  have hd : |u.q * v.q| ≤ 2 * (A * B) := by omega
  have i1 := abs_is_int_of_abs_le _ _ hn h
  have i2 := abs_is_int_of_abs_le _ _ hd h
  refine ⟨?_, (rat_mul_spec u v hu.1 hv.1 i1 i2).2⟩
  unfold rat_mul
  rw [to_integer_of_abs_is_int _ i1, to_integer_of_abs_is_int _ i2]
  exact rat_norm_within _ _ _ (mul_ne_zero hu.1 hv.1) hn hd

theorem rat_div_within (u v : rat) (A B : Int) (hu : Within A u) (hv : Within B v)
    (hvp : v.p ≠ 0) (h : 2 * (A * B) < 2 ^ 31) :
    Within (2 * (A * B)) (rat_div u v) ∧ (rat_div u v).toRat = u.toRat / v.toRat := by
  have hA := Within_one_le A u hu
  have hB := Within_one_le B v hv
  have hAB : 0 ≤ A * B := mul_nonneg (by omega) (by omega)
  have h1 : |u.p * v.q| ≤ A * B := abs_mul_le _ _ _ _ hu.2.1 hv.2.2
  have h3 : |u.q * v.p| ≤ A * B := abs_mul_le _ _ _ _ hu.2.2 hv.2.1
  have hn : |u.p * v.q| ≤ 2 * (A * B) := by omega
  have hd : |u.q * v.p| ≤ 2 * (A * B) := by omega
  have i1 := abs_is_int_of_abs_le _ _ hn h
  have i2 := abs_is_int_of_abs_le _ _ hd h
  refine ⟨?_, (rat_div_spec u v hu.1 hv.1 hvp i1 i2).2⟩
  unfold rat_div
  rw [to_integer_of_abs_is_int _ i1, to_integer_of_abs_is_int _ i2]
  exact rat_norm_within _ _ _ (mul_ne_zero hu.1 hvp) hn hd

theorem Fits_pow (T : opt_rat) (w : Nat) (h : Fits T w) : (10 : Int) ^ w < 2 ^ 31 := by
  by_cases hs : T.set = true
  · obtain ⟨B, hB, hlt⟩ := h.1 hs
    have h1 := Within_one_le B T.val hB
    have hp : (0 : Int) ≤ 10 ^ w := by positivity
    have : (10 : Int) ^ w ≤ B * 10 ^ w := le_mul_of_one_le_left hp h1
    omega
  · rw [Bool.not_eq_true] at hs
    exact h.2 hs

theorem Fits_unset (U : opt_rat) (w : Nat) (h : (10 : Int) ^ w < 2 ^ 31) :
    Fits { U with set := false } w :=
  ⟨fun h' => (by cases h'), fun _ => h⟩

theorem Fits_narrow (T : opt_rat) (w w' : Nat) (h : Fits T w) (hw : w' ≤ w) : Fits T w' := by
  have hp : (10 : Int) ^ w' ≤ 10 ^ w := pow_le_pow_right₀ (by norm_num) hw
  refine ⟨fun hs => ?_, fun hs => by have := h.2 hs; omega⟩
  obtain ⟨B, hB, hlt⟩ := h.1 hs
  have h1 := Within_one_le B T.val hB
  have : B * 10 ^ w' ≤ B * 10 ^ w := mul_le_mul_of_nonneg_left hp (by omega)
  exact ⟨B, hB, by omega⟩

/-- The bound of an operand computed from a set target and a right operand. -/
theorem Fits_left (wa wb : Nat) (B : Int) (r : rat)
    (hlt : B * 10 ^ (wa + wb + 1) < 2 ^ 31) (hr : Within (2 * (B * 10 ^ wb)) r) :
    Fits ⟨true, r⟩ wa := by
  have h1 := Within_one_le _ r hr
  refine ⟨fun _ => ⟨2 * (B * 10 ^ wb), hr, ?_⟩, fun h => (by cases h)⟩
  have hp : (0 : Int) ≤ B * 10 ^ wb * 10 ^ wa := by
    have : (0 : Int) ≤ 10 ^ wa := by positivity
    exact mul_nonneg (by omega) this
  have e : B * 10 ^ (wa + wb + 1) = 10 * (B * 10 ^ wb * 10 ^ wa) := by
    rw [pow_succ, pow_add]
    ring
  have e2 : 2 * (B * 10 ^ wb) * 10 ^ wa = 2 * (B * 10 ^ wb * 10 ^ wa) := by ring
  rw [e] at hlt
  rw [e2]
  omega

theorem two_mul_pow_le (wa wb : Nat) :
    2 * ((10 : Int) ^ wa * 10 ^ wb) ≤ 10 ^ (wa + wb + 1) := by
  have hp : (0 : Int) ≤ 10 ^ wa * 10 ^ wb := by positivity
  have e : (10 : Int) ^ (wa + wb + 1) = 10 * (10 ^ wa * 10 ^ wb) := by
    rw [pow_succ, pow_add]
    ring
  rw [e]
  omega

/-- What `solve` returns when nothing overflows: the string of a solution of
its goal, whose value combined with that of the right operand is the target,
or is the value returned when the target was not set. -/
theorem gen_solve_sound (paren : Bool) (lvl : Level) (G : opt_rat → List Found)
    (T U V : opt_rat) (op : Char) (hop : op = '+' ∨ op = '-' ∨ op = '*' ∨ op = '/')
    (wa wb : Nat)
    (hG : ∀ T' rs', Fits T' wa → rs' ∈ G T' → Good paren lvl T' wa rs')
    (hT : Fits T (wa + wb + 1)) (hV : Within (10 ^ wb) V.val)
    (rs : Found) (hrs : rs ∈ gen_solve G T U op V) :
    ∃ (rs' : Found) (u : ℚ), rs.2 = rs'.2 ∧ Derives paren lvl rs'.2 u ∧
      (op = '/' → V.val.toRat ≠ 0) ∧
      (T.set = true → apply_op op u V.val.toRat = T.val.toRat) ∧
      (T.set = false → rs.1.set = true ∧ Within (10 ^ (wa + wb + 1)) rs.1.val ∧
        rs.1.val.toRat = apply_op op u V.val.toRat) := by
  have hpow := Fits_pow T _ hT
  have hpa : (10 : Int) ^ wa < 2 ^ 31 := by
    have : (10 : Int) ^ wa ≤ 10 ^ (wa + wb + 1) := pow_le_pow_right₀ (by norm_num) (by omega)
    omega
  have hfw : 2 * ((10 : Int) ^ wa * 10 ^ wb) < 2 ^ 31 := by
    have := two_mul_pow_le wa wb
    omega
  -- the goal run on an unset operand
  have fwd : ∀ rs', rs' ∈ G { U with set := false } →
      rs'.1.set = true ∧ Within (10 ^ wa) rs'.1.val ∧ Derives paren lvl rs'.2 rs'.1.val.toRat :=
    fun rs' h => (hG _ rs' (Fits_unset U wa hpa) h).2 rfl
  -- the goal run on an operand computed from the target
  have bwd : ∀ (B : Int) (r : rat) rs', B * 10 ^ (wa + wb + 1) < 2 ^ 31 →
      Within (2 * (B * 10 ^ wb)) r → rs' ∈ G ⟨true, r⟩ → Derives paren lvl rs'.2 r.toRat :=
    fun B r rs' hlt hr h => (hG _ rs' (Fits_left wa wb B r hlt hr) h).1 rfl
  have bnd : ∀ r : rat, Within (2 * (10 ^ wa * 10 ^ wb)) r → Within (10 ^ (wa + wb + 1)) r :=
    fun r h => Within_mono _ _ r h (two_mul_pow_le wa wb)
  have hle : ∀ B : Int, B * 10 ^ (wa + wb + 1) < 2 ^ 31 → 1 ≤ B →
      2 * (B * 10 ^ wb) < 2 ^ 31 := by
    intro B hlt hB
    have hp : (0 : Int) ≤ B * 10 ^ wb * 10 ^ wa := by
      have : (0 : Int) ≤ 10 ^ wa := by positivity
      have : (0 : Int) ≤ 10 ^ wb := by positivity
      positivity
    have h1 : B * 10 ^ wb ≤ B * 10 ^ wb * 10 ^ wa :=
      le_mul_of_one_le_right (by positivity) (one_le_pow₀ (by norm_num))
    have e : B * 10 ^ (wa + wb + 1) = 10 * (B * 10 ^ wb * 10 ^ wa) := by
      rw [pow_succ, pow_add]
      ring
    rw [e] at hlt
    omega
  unfold gen_solve at hrs
  rcases hop with rfl | rfl | rfl | rfl
  · -- '+'
    rw [if_pos rfl] at hrs
    by_cases hset : T.set = true
    · rw [if_pos hset, List.mem_map] at hrs
      obtain ⟨rs', hrs', rfl⟩ := hrs
      obtain ⟨B, hB, hlt⟩ := hT.1 hset
      obtain ⟨w1, v1⟩ := rat_sub_within T.val V.val B (10 ^ wb) hB hV
        (hle B hlt (Within_one_le B _ hB))
      refine ⟨rs', _, rfl, bwd B _ rs' hlt w1 hrs', fun h => absurd h (by decide), fun _ => ?_,
        fun h => ?_⟩
      · simp only [apply_op, if_true]
        rw [v1]; ring
      · rw [hset] at h; cases h
    · rw [if_neg hset, List.mem_map] at hrs
      obtain ⟨rs', hrs', rfl⟩ := hrs
      obtain ⟨s1, b1, d1⟩ := fwd rs' hrs'
      obtain ⟨w1, v1⟩ := rat_add_within rs'.1.val V.val _ _ b1 hV hfw
      refine ⟨rs', _, rfl, d1, fun h => absurd h (by decide), fun h => absurd h hset,
        fun _ => ⟨rfl, bnd _ w1, ?_⟩⟩
      simp only [apply_op, if_true]
      exact v1
  · -- '-'
    rw [if_neg (by decide), if_pos (Or.inr rfl)] at hrs
    by_cases hset : T.set = true
    · rw [if_pos hset, List.mem_map] at hrs
      obtain ⟨rs', hrs', rfl⟩ := hrs
      obtain ⟨B, hB, hlt⟩ := hT.1 hset
      obtain ⟨w1, v1⟩ := rat_add_within T.val V.val B (10 ^ wb) hB hV
        (hle B hlt (Within_one_le B _ hB))
      refine ⟨rs', _, rfl, bwd B _ rs' hlt w1 hrs', fun h => absurd h (by decide), fun _ => ?_,
        fun h => ?_⟩
      · simp only [apply_op, if_true, if_neg (show ¬ ('-' = '+') by decide)]
        rw [v1]; ring
      · rw [hset] at h; cases h
    · rw [if_neg hset, List.mem_map] at hrs
      obtain ⟨rs', hrs', rfl⟩ := hrs
      obtain ⟨s1, b1, d1⟩ := fwd rs' hrs'
      obtain ⟨w1, v1⟩ := rat_sub_within rs'.1.val V.val _ _ b1 hV hfw
      refine ⟨rs', _, rfl, d1, fun h => absurd h (by decide), fun h => absurd h hset,
        fun _ => ⟨rfl, bnd _ w1, ?_⟩⟩
      simp only [apply_op, if_true, if_neg (show ¬ ('-' = '+') by decide)]
      exact v1
  · -- '*'
    rw [if_neg (by decide), if_neg (by decide), if_neg (by decide), if_pos rfl] at hrs
    by_cases hc : (!T.set || decide (Int.lor T.val.p V.val.p = 0)) = true
    · rw [if_pos hc, List.mem_map] at hrs
      obtain ⟨rs', hrs', rfl⟩ := hrs
      obtain ⟨s1, b1, d1⟩ := fwd rs' hrs'
      obtain ⟨w1, v1⟩ := rat_mul_within rs'.1.val V.val _ _ b1 hV hfw
      refine ⟨rs', _, rfl, d1, fun h => absurd h (by decide), fun hset => ?_,
        fun _ => ⟨rfl, bnd _ w1, ?_⟩⟩
      · simp only [hset, Bool.not_true, Bool.false_or, decide_eq_true_eq] at hc
        obtain ⟨hp, hvp⟩ := lor_eq_zero _ _ hc
        simp only [apply_op, if_true, if_neg (show ¬ ('*' = '+') by decide),
          if_neg (show ¬ ('*' = '-') by decide)]
        rw [toRat_eq_zero V.val hvp, toRat_eq_zero T.val hp, mul_zero]
      · simp only [apply_op, if_true, if_neg (show ¬ ('*' = '+') by decide),
          if_neg (show ¬ ('*' = '-') by decide)]
        exact v1
    · rw [if_neg hc] at hrs
      have hset : T.set = true := by
        by_contra h
        apply hc
        simp [h]
      by_cases hvp : V.val.p = 0
      · rw [if_pos hvp] at hrs; cases hrs
      · rw [if_neg hvp, List.mem_map] at hrs
        obtain ⟨rs', hrs', rfl⟩ := hrs
        obtain ⟨B, hB, hlt⟩ := hT.1 hset
        obtain ⟨w1, v1⟩ := rat_div_within T.val V.val B (10 ^ wb) hB hV hvp
          (hle B hlt (Within_one_le B _ hB))
        refine ⟨rs', _, rfl, bwd B _ rs' hlt w1 hrs', fun h => absurd h (by decide),
          fun _ => ?_, fun h => ?_⟩
        · simp only [apply_op, if_true, if_neg (show ¬ ('*' = '+') by decide),
            if_neg (show ¬ ('*' = '-') by decide)]
          rw [v1, div_mul_cancel₀ _ (toRat_ne_zero V.val hV.1 hvp)]
        · rw [hset] at h; cases h
  · -- '/'
    rw [if_neg (by decide), if_neg (by decide), if_pos rfl] at hrs
    by_cases hvp : V.val.p = 0
    · rw [if_pos hvp] at hrs; cases hrs
    · rw [if_neg hvp] at hrs
      have hvne := toRat_ne_zero V.val hV.1 hvp
      by_cases hset : T.set = true
      · rw [if_pos hset, List.mem_map] at hrs
        obtain ⟨rs', hrs', rfl⟩ := hrs
        obtain ⟨B, hB, hlt⟩ := hT.1 hset
        obtain ⟨w1, v1⟩ := rat_mul_within T.val V.val B (10 ^ wb) hB hV
          (hle B hlt (Within_one_le B _ hB))
        refine ⟨rs', _, rfl, bwd B _ rs' hlt w1 hrs', fun _ => hvne, fun _ => ?_, fun h => ?_⟩
        · simp only [apply_op, if_neg (show ¬ ('/' = '+') by decide),
            if_neg (show ¬ ('/' = '-') by decide), if_neg (show ¬ ('/' = '*') by decide)]
          rw [v1, mul_div_cancel_right₀ _ hvne]
        · rw [hset] at h; cases h
      · rw [if_neg hset, List.mem_map] at hrs
        obtain ⟨rs', hrs', rfl⟩ := hrs
        obtain ⟨s1, b1, d1⟩ := fwd rs' hrs'
        obtain ⟨w1, v1⟩ := rat_div_within rs'.1.val V.val _ _ b1 hV hvp hfw
        refine ⟨rs', _, rfl, d1, fun _ => hvne, fun h => absurd h hset,
          fun _ => ⟨rfl, bnd _ w1, ?_⟩⟩
        simp only [apply_op, if_neg (show ¬ ('/' = '+') by decide),
          if_neg (show ¬ ('/' = '-') by decide), if_neg (show ¬ ('/' = '*') by decide)]
        exact v1

theorem binop_sound (paren : Bool) (lvl sublvl : Level) (Gsub Gself : opt_rat → Nat → List Found)
    (hsub : ∀ T w rs, 0 < w → Fits T w → rs ∈ Gsub T w → Good paren sublvl T w rs)
    (hself : ∀ T w rs, 0 < w → Fits T w → rs ∈ Gself T w → Good paren lvl T w rs)
    (op : Char) (hop : op = '+' ∨ op = '-' ∨ op = '*' ∨ op = '/')
    (hcons : ∀ s1 s2 u v, Derives paren lvl s1 u → Derives paren sublvl s2 v →
      (op = '/' → v ≠ 0) → Derives paren lvl (s1 ++ op :: s2) (apply_op op u v))
    (T : opt_rat) (w : Nat) (hT : Fits T w) (rs : Found)
    (hrs : rs ∈ (choices ((w : Int) - 2)).flatMap (fun c' =>
      (Gsub { opt_rat.uninit with set := false } (w - c'.toNat - 1)).flatMap (fun vs =>
        (gen_solve (fun U' => Gself U' c'.toNat) T opt_rat.uninit op vs.1).map
          (fun rs => (rs.1, rs.2 ++ op :: vs.2))))) :
    Good paren lvl T w rs := by
  simp only [List.mem_flatMap, List.mem_map] at hrs
  obtain ⟨c', hc', vs, hvs, rs0, hrs0, rfl⟩ := hrs
  rw [mem_choices] at hc'
  have hw : w = c'.toNat + (w - c'.toNat - 1) + 1 := by omega
  have hpow := Fits_pow T w hT
  have hpb : (10 : Int) ^ (w - c'.toNat - 1) < 2 ^ 31 := by
    have : (10 : Int) ^ (w - c'.toNat - 1) ≤ 10 ^ w :=
      pow_le_pow_right₀ (by norm_num) (by omega)
    omega
  obtain ⟨_, vb, vd⟩ := (hsub _ _ vs (by omega) (Fits_unset _ _ hpb) hvs).2 rfl
  have hT' : Fits T (c'.toNat + (w - c'.toNat - 1) + 1) := by
    rw [← hw]
    exact hT
  obtain ⟨rs', u, hs, ud, hz, hset, hunset⟩ :=
    gen_solve_sound paren lvl (fun U' => Gself U' c'.toNat) T opt_rat.uninit vs.1 op hop
      c'.toNat (w - c'.toNat - 1)
      (fun T' rs' hf h => hself T' c'.toNat rs' (by omega) hf h) hT' vb rs0 hrs0
  have hd := hcons _ _ _ _ ud vd hz
  constructor
  · intro h
    simp only []
    rw [hs, ← hset h]
    exact hd
  · intro h
    obtain ⟨a, b, c⟩ := hunset h
    refine ⟨a, ?_, ?_⟩
    · rw [hw]
      exact b
    · simp only []
      rw [hs, c]
      exact hd

/-- A number found by `number` on `w` characters is below `10 ^ w`. -/
theorem scan_lt_pow (w : Nat) (hw : 0 < w) (n : Int) (hn : 0 ≤ n) (h : num_scan w n = (0, 0)) :
    n < 10 ^ w := by
  have e := num_value_of_scan w hw n hn h
  have e' : n = ((n.toNat : Nat) : Int) := (Int.toNat_of_nonneg hn).symm
  have hv : num_value (last_digits w n) = n.toNat % 10 ^ w := by
    rw [e']
    exact num_value_last_digits w n.toNat
  rw [hv] at e
  have hlt : n.toNat % 10 ^ w < 10 ^ w := Nat.mod_lt _ (Nat.pow_pos (by norm_num))
  have : ((n.toNat % 10 ^ w : Nat) : Int) < ((10 ^ w : Nat) : Int) := by exact_mod_cast hlt
  rw [e] at this
  push_cast at this
  exact this

/-- When nothing overflows, every solution of the grammar functions is a
derivation of the grammar with the value of the target. -/
theorem gen_sound (cfg : Config) (fuel : Nat) :
    (∀ T w rs, 0 < w → Fits T w → rs ∈ gen_expression cfg fuel T w →
      Good cfg.ALLOW_PARENTHESIS Level.expression T w rs) ∧
    (∀ T w rs, 0 < w → Fits T w → rs ∈ gen_term cfg fuel T w →
      Good cfg.ALLOW_PARENTHESIS Level.term T w rs) ∧
    (∀ T w rs, 0 < w → Fits T w → rs ∈ gen_factor cfg fuel T w →
      Good cfg.ALLOW_PARENTHESIS Level.factor T w rs) := by
  induction fuel with
  | zero =>
    refine ⟨?_, ?_, ?_⟩ <;> intro T w rs _ _ hrs
    · rw [gen_expression] at hrs; cases hrs
    · rw [gen_term] at hrs; cases hrs
    · rw [gen_factor] at hrs; cases hrs
  | succ fuel ih =>
    obtain ⟨ihe, iht, ihf⟩ := ih
    refine ⟨?_, ?_, ?_⟩ <;> intro T w rs hw hT hrs
    · rw [gen_expression, List.mem_flatMap] at hrs
      obtain ⟨c, _, hrs⟩ := hrs
      split at hrs
      · obtain ⟨a, b⟩ := iht T w rs hw hT hrs
        exact ⟨fun h => Derives.term _ _ (a h), fun h =>
          ⟨(b h).1, (b h).2.1, Derives.term _ _ (b h).2.2⟩⟩
      · by_cases h2 : c = 2
        · simp only [h2, if_true] at hrs
          refine binop_sound _ Level.expression Level.term _ _ iht ihe '+' (Or.inl rfl) ?_
            T w hT rs hrs
          intro s1 s2 u v d1 d2 _
          simp only [apply_op, if_true]
          exact Derives.add _ _ _ _ d1 d2
        · simp only [h2, if_false] at hrs
          refine binop_sound _ Level.expression Level.term _ _ iht ihe '-' (Or.inr (Or.inl rfl))
            ?_ T w hT rs hrs
          intro s1 s2 u v d1 d2 _
          simp only [apply_op, if_true, if_neg (show ¬ ('-' = '+') by decide)]
          exact Derives.sub _ _ _ _ d1 d2
    · rw [gen_term, List.mem_flatMap] at hrs
      obtain ⟨c, _, hrs⟩ := hrs
      split at hrs
      · obtain ⟨a, b⟩ := ihf T w rs hw hT hrs
        exact ⟨fun h => Derives.factor _ _ (a h), fun h =>
          ⟨(b h).1, (b h).2.1, Derives.factor _ _ (b h).2.2⟩⟩
      · by_cases h2 : c = 2
        · simp only [h2, if_true] at hrs
          refine binop_sound _ Level.term Level.factor _ _ ihf iht '*'
            (Or.inr (Or.inr (Or.inl rfl))) ?_ T w hT rs hrs
          intro s1 s2 u v d1 d2 _
          simp only [apply_op, if_true, if_neg (show ¬ ('*' = '+') by decide),
            if_neg (show ¬ ('*' = '-') by decide)]
          exact Derives.mul _ _ _ _ d1 d2
        · simp only [h2, if_false] at hrs
          refine binop_sound _ Level.term Level.factor _ _ ihf iht '/'
            (Or.inr (Or.inr (Or.inr rfl))) ?_ T w hT rs hrs
          intro s1 s2 u v d1 d2 hz
          simp only [apply_op, if_neg (show ¬ ('/' = '+') by decide),
            if_neg (show ¬ ('/' = '-') by decide), if_neg (show ¬ ('/' = '*') by decide)]
          exact Derives.div _ _ _ _ d1 d2 (hz rfl)
    · rw [gen_factor, List.mem_flatMap] at hrs
      obtain ⟨c, hc, hrs⟩ := hrs
      rw [mem_choices] at hc
      split at hrs
      · -- number
        unfold gen_number at hrs
        by_cases hset : T.set = true
        · rw [if_pos hset] at hrs
          split at hrs
          · cases hrs
          · rename_i hbad
            split at hrs
            · rename_i hfit
              rw [List.mem_singleton] at hrs
              subst hrs
              have hq1 : T.val.q = 1 := by
                by_contra h; exact hbad (Or.inl h)
              have hp0 : 0 ≤ T.val.p := by
                by_contra h; exact hbad (Or.inr (by omega))
              have hval : T.val.toRat = (T.val.p : ℚ) := by
                unfold rat.toRat; rw [hq1]; simp
              refine ⟨fun _ => ?_, fun h => ?_⟩
              · simp only []
                rw [hval]
                exact Derives_number_int _ w hw _ hp0 hfit
              · rw [hset] at h; cases h
            · cases hrs
        · rw [if_neg hset] at hrs
          simp only [List.mem_map] at hrs
          obtain ⟨c0, hc0, rfl⟩ := hrs
          obtain ⟨hn0, hscan⟩ := num_scan_unset w hw c0 hc0
          have hlt := scan_lt_pow w hw _ hn0 hscan
          have hp : (1 : Int) ≤ 10 ^ w := one_le_pow₀ (by norm_num)
          have hval : (rat_integer (c0 + ipow 10 (w - 1) -
              (if ipow 10 (w - 1) = 1 then 2 else 1))).toRat =
              ((c0 + ipow 10 (w - 1) - (if ipow 10 (w - 1) = 1 then 2 else 1) : Int) : ℚ) := by
            unfold rat.toRat rat_integer; simp
          refine ⟨fun h => absurd h hset, fun _ => ⟨rfl, ⟨?_, ?_, ?_⟩, ?_⟩⟩
          · simp [rat_integer]
          · simp only [rat_integer]
            rw [abs_of_nonneg hn0]
            omega
          · simp only [rat_integer]
            rw [abs_of_nonneg (by norm_num)]
            exact hp
          · simp only []
            rw [hval]
            exact Derives_number_int _ w hw _ hn0 hscan
      · rename_i hc1
        split at hrs
        · cases hrs
        · rename_i hw3
          rw [List.mem_map] at hrs
          obtain ⟨rs', hrs', rfl⟩ := hrs
          have hparen : cfg.ALLOW_PARENTHESIS = true := by
            by_contra h
            simp only [h, Bool.false_eq_true, if_false] at hc
            omega
          obtain ⟨a, b⟩ := ihe T (w - 2) rs' (by omega) (Fits_narrow T w _ hT (by omega)) hrs'
          refine ⟨fun h => Derives.paren _ _ hparen (a h), fun h =>
            ⟨(b h).1, ?_, Derives.paren _ _ hparen (b h).2.2⟩⟩
          exact Within_mono _ _ _ (b h).2.1 (pow_le_pow_right₀ (by norm_num) (by omega))

/-- A target whose numerator and denominator, multiplied by `10 ^ w`, are `int`
values fits the search on `w` characters. -/
theorem Fits_target (target : rat) (w : Nat) (hq : target.q ≠ 0)
    (hp : |target.p| * 10 ^ w < 2 ^ 31) (hq' : |target.q| * 10 ^ w < 2 ^ 31) :
    Fits ⟨true, target⟩ w := by
  refine ⟨fun _ => ⟨max |target.p| |target.q|, ⟨hq, le_max_left _ _, le_max_right _ _⟩, ?_⟩,
    fun h => (by cases h)⟩
  rcases le_total |target.p| |target.q| with h | h
  · rw [max_eq_right h]
    exact hq'
  · rw [max_eq_left h]
    exact hp

/-- The solutions of the search of `findall` for a target that fits: the
string is derivable with the value of the target; under `NUMBLE` it is an
expression, `=` and a term, the value of the expression minus the value of the
term being the target. -/
theorem gen_findall_sound (cfg : Config) (hS : 0 < cfg.SIZE) (target : rat)
    (hT : Fits ⟨true, target⟩ cfg.SIZE) (rs : Found) (hrs : rs ∈ gen_findall cfg target) :
    (cfg.NUMBLE = false →
      Derives cfg.ALLOW_PARENTHESIS Level.expression rs.2 target.toRat) ∧
    (cfg.NUMBLE = true →
      ∃ (e t : List Char) (ve vt : ℚ), rs.2 = e ++ '=' :: t ∧
        Derives cfg.ALLOW_PARENTHESIS Level.expression e ve ∧
        Derives cfg.ALLOW_PARENTHESIS Level.term t vt ∧ ve - vt = target.toRat) := by
  obtain ⟨se, st, _⟩ := gen_sound cfg (search_depth cfg)
  by_cases hN : cfg.NUMBLE = true
  · refine ⟨fun h => (by rw [hN] at h; cases h), fun _ => ?_⟩
    unfold gen_findall at hrs
    simp only [hN, if_true, List.mem_flatMap, List.mem_map] at hrs
    obtain ⟨c', hc', vs, hvs, rs0, hrs0, rfl⟩ := hrs
    rw [mem_choices] at hc'
    have hw : cfg.SIZE = c'.toNat + (cfg.SIZE - c'.toNat - 1) + 1 := by omega
    have hpow := Fits_pow _ _ hT
    have hpb : (10 : Int) ^ (cfg.SIZE - c'.toNat - 1) < 2 ^ 31 := by
      have : (10 : Int) ^ (cfg.SIZE - c'.toNat - 1) ≤ 10 ^ cfg.SIZE :=
        pow_le_pow_right₀ (by norm_num) (by omega)
      omega
    obtain ⟨_, vb, vd⟩ := (st _ _ vs (by omega) (Fits_unset _ _ hpb) hvs).2 rfl
    obtain ⟨B, hB, hlt⟩ := hT.1 rfl
    have hB1 := Within_one_le B _ hB
    rw [hw] at hlt
    have hle : 2 * (B * 10 ^ (cfg.SIZE - c'.toNat - 1)) < 2 ^ 31 := by
      have hp : (0 : Int) ≤ B * 10 ^ (cfg.SIZE - c'.toNat - 1) * 10 ^ c'.toNat := by positivity
      have h1 : B * 10 ^ (cfg.SIZE - c'.toNat - 1) ≤
          B * 10 ^ (cfg.SIZE - c'.toNat - 1) * 10 ^ c'.toNat :=
        le_mul_of_one_le_right (by positivity) (one_le_pow₀ (by norm_num))
      have e : B * 10 ^ (c'.toNat + (cfg.SIZE - c'.toNat - 1) + 1) =
          10 * (B * 10 ^ (cfg.SIZE - c'.toNat - 1) * 10 ^ c'.toNat) := by
        rw [pow_succ, pow_add]
        ring
      rw [e] at hlt
      omega
    obtain ⟨w1, v1⟩ := rat_add_within target vs.1.val B _ hB vb hle
    unfold gen_solve at hrs0
    simp only [show ¬ ('=' = '+') by decide, if_false, true_or, if_true, List.mem_map] at hrs0
    obtain ⟨rs', hrs', rfl⟩ := hrs0
    have hd := (se _ c'.toNat rs' (by omega) (Fits_left _ _ B _ hlt w1) hrs').1 rfl
    refine ⟨rs'.2, vs.2, _, _, rfl, hd, vd, ?_⟩
    simp only []
    rw [v1]
    ring
  · rw [Bool.not_eq_true] at hN
    refine ⟨fun _ => ?_, fun h => (by rw [hN] at h; cases h)⟩
    unfold gen_findall at hrs
    simp only [hN, Bool.false_eq_true, if_false] at hrs
    exact (se _ _ rs hS hT hrs).1 rfl

/-! ## Properties of the generated candidates -/

/-- C1, as stated, fails on the 32-bit `integer`.  In the easy variant (5
characters) with the target 16777216, which is `2^24`, the candidate store
holds the formula of the string `0/256`: for the alternative `term / factor`
with the right operand 256, `solve` computes the left operand as the product of
16777216 and 256, which is `2^32` and is 0 as an `int`, and `number` writes
`0`.  The string is derivable from the grammar and its only value is 0, not
the target.  The other half of the claim holds for every target, whatever the
arithmetic has computed: the string of a stored formula has `SIZE` characters
and can be read as an expression of the grammar (under `NUMBLE`: as an
expression, `=` and a term).  And the claim holds for the targets with which
nothing overflows: when the numerator and the denominator of the target,
multiplied by `10 ^ SIZE`, are `int` values, the string of every stored formula
is derivable with the value of the target and has no other value (under
`NUMBLE`: the value of the expression minus the value of the term is the
target). -/
theorem generation_stores_wrapped_product :
    (['0', '/', '2', '5', '6'] : List Char).length = EASY.SIZE ∧
    make_formula EASY ['0', '/', '2', '5', '6'] ∈ generate EASY ⟨16777216, 1⟩ ∧
    (make_formula EASY ['0', '/', '2', '5', '6']).mask.map (mask_to_char EASY) =
      ['0', '/', '2', '5', '6'] ∧
    Derives EASY.ALLOW_PARENTHESIS Level.expression ['0', '/', '2', '5', '6'] 0 ∧
    (∀ v, Derives EASY.ALLOW_PARENTHESIS Level.expression ['0', '/', '2', '5', '6'] v →
      v = 0 ∧ v ≠ rat.toRat ⟨16777216, 1⟩) ∧
    rat_mul ⟨16777216, 1⟩ ⟨256, 1⟩ = ⟨0, 1⟩ ∧
    (∀ (goal : goal) (U : opt_rat) (frm upto : Nat) (k : opt_rat → Globals → Globals)
      (g : Globals),
      solve ⟨true, ⟨16777216, 1⟩⟩ goal U frm upto '/' ⟨true, ⟨256, 1⟩⟩ k g =
        goal ⟨true, ⟨0, 1⟩⟩ frm upto (fun _ g => k ⟨true, ⟨16777216, 1⟩⟩ g)
          { g with buffer := g.buffer.set upto '/' }) ∧
    (∀ (cfg : Config), (cfg.NUMBLE = true → cfg.ALLOW_PARENTHESIS = false) → 0 < cfg.SIZE →
      ∀ (target : rat) (f : formula), f ∈ generate cfg target →
        (f.mask.map (mask_to_char cfg)).length = cfg.SIZE ∧
        (f.mask.map (mask_to_char cfg)).map (char_to_mask cfg) = f.mask ∧
        (cfg.NUMBLE = false →
          Shaped cfg.ALLOW_PARENTHESIS Level.expression (f.mask.map (mask_to_char cfg))) ∧
        (cfg.NUMBLE = true →
          ∃ (e t : List Char), f.mask.map (mask_to_char cfg) = e ++ '=' :: t ∧
            Shaped cfg.ALLOW_PARENTHESIS Level.expression e ∧
            Shaped cfg.ALLOW_PARENTHESIS Level.term t)) ∧
    (∀ (cfg : Config), (cfg.NUMBLE = true → cfg.ALLOW_PARENTHESIS = false) → 0 < cfg.SIZE →
      ∀ (target : rat), target.q ≠ 0 → |target.p| * 10 ^ cfg.SIZE < 2 ^ 31 →
        |target.q| * 10 ^ cfg.SIZE < 2 ^ 31 → ∀ (f : formula), f ∈ generate cfg target →
        (cfg.NUMBLE = false →
          Derives cfg.ALLOW_PARENTHESIS Level.expression (f.mask.map (mask_to_char cfg))
            target.toRat ∧
          (∀ v, Derives cfg.ALLOW_PARENTHESIS Level.expression
            (f.mask.map (mask_to_char cfg)) v → v = target.toRat)) ∧
        (cfg.NUMBLE = true →
          ∃ (e t : List Char) (ve vt : ℚ), f.mask.map (mask_to_char cfg) = e ++ '=' :: t ∧
            Derives cfg.ALLOW_PARENTHESIS Level.expression e ve ∧
            Derives cfg.ALLOW_PARENTHESIS Level.term t vt ∧ ve - vt = target.toRat)) := by
  have d0 : Derives false Level.factor ['0'] ((num_value ['0'] : Nat) : ℚ) :=
    Derives.number _ (by decide) (by decide) (by decide)
  have d256 : Derives false Level.factor ['2', '5', '6'] ((num_value ['2', '5', '6'] : Nat) : ℚ) :=
    Derives.number _ (by decide) (by decide) (by decide)
  have h0 : num_value ['0'] = 0 := by decide
  have h256 : num_value ['2', '5', '6'] = 256 := by decide
  have d : Derives false Level.expression ['0', '/', '2', '5', '6'] 0 := by
    have := Derives.term _ _ (Derives.div _ _ _ _ (Derives.factor _ _ d0) d256
      (by rw [h256]; norm_num))
    rw [h0, h256] at this
    norm_num at this
    exact this
  refine ⟨rfl, ?_, by decide, d, ?_, by decide, ?_, ?_, ?_⟩
  · rw [mem_generate_string_iff EASY rfl (by decide) ⟨16777216, 1⟩
      ['0', '/', '2', '5', '6'] (by decide) (by decide)]
    decide
  · intro v hv
    have e := (Derives_only_reading _ _ _ _ d v false (Derives_Parses _ _ _ _ hv)).1
    refine ⟨e, ?_⟩
    rw [e]
    unfold rat.toRat
    norm_num
  · intro goal U frm upto k g
    rfl
  · intro cfg hcfg hS target f hf
    obtain ⟨rs, hrs, _, rfl⟩ := (mem_generate_iff cfg target hS f).1 hf
    obtain ⟨hl, hgl⟩ := gen_findall_shape cfg hcfg hS target rs hrs
    obtain ⟨_, h1, h2⟩ := gen_findall_grammar cfg hS target rs hrs
    rw [make_formula_mask cfg rs.2 hl, decode_encode cfg rs.2 hgl]
    exact ⟨hl, rfl, h1, h2⟩
  · intro cfg hcfg hS target hq hp hq' f hf
    obtain ⟨rs, hrs, _, rfl⟩ := (mem_generate_iff cfg target hS f).1 hf
    obtain ⟨hl, hgl⟩ := gen_findall_shape cfg hcfg hS target rs hrs
    obtain ⟨h1, h2⟩ := gen_findall_sound cfg hS target
      (Fits_target target cfg.SIZE hq hp hq') rs hrs
    rw [make_formula_mask cfg rs.2 hl, decode_encode cfg rs.2 hgl]
    refine ⟨fun hN => ⟨h1 hN, fun v hv => ?_⟩, h2⟩
    exact (Derives_only_reading _ _ _ _ (h1 hN) v false (Derives_Parses _ _ _ _ hv)).1

/-- C2, as stated, fails.  In the hard variant (8 characters, at most 3
operators, parentheses allowed) with the target -24, the string `12*(1-3)` has
8 characters and 2 operators, is derivable from the grammar with the value -24
and divides by nothing, yet its formula is not in the candidate store: `solve`
computes the left operand as -24 divided by -2, `rat_div` and `rat_norm` leave
it as the fraction with numerator -12 and denominator -1, and `number` rejects
a denominator other than 1.  The mirrored string `(1-3)*12` is in the store.
A larger nesting bound changes nothing. -/
theorem generation_misses_negative_divisor :
    (['1', '2', '*', '(', '1', '-', '3', ')'] : List Char).length = HARD.SIZE ∧
    count_op HARD ['1', '2', '*', '(', '1', '-', '3', ')'] ≤ HARD.MAX_OP ∧
    Derives HARD.ALLOW_PARENTHESIS Level.expression ['1', '2', '*', '(', '1', '-', '3', ')']
      (rat.toRat ⟨-24, 1⟩) ∧
    make_formula HARD ['1', '2', '*', '(', '1', '-', '3', ')'] ∉ generate HARD ⟨-24, 1⟩ ∧
    make_formula HARD ['(', '1', '-', '3', ')', '*', '1', '2'] ∈ generate HARD ⟨-24, 1⟩ ∧
    rat_div ⟨-24, 1⟩ ⟨-2, 1⟩ = ⟨-12, -1⟩ ∧
    (∀ fuel, search_depth HARD ≤ fuel →
      expression HARD fuel ⟨true, ⟨-24, 1⟩⟩ 0 HARD.SIZE =
        expression HARD (search_depth HARD) ⟨true, ⟨-24, 1⟩⟩ 0 HARD.SIZE) := by
  refine ⟨rfl, by decide, ?_, ?_, ?_, by decide,
    fun fuel h => (search_depth_enough HARD fuel h _).1⟩
  · have d1 : Derives true Level.factor ['1'] ((num_value ['1'] : Nat) : ℚ) :=
      Derives.number _ (by decide) (by decide) (by decide)
    have d3 : Derives true Level.factor ['3'] ((num_value ['3'] : Nat) : ℚ) :=
      Derives.number _ (by decide) (by decide) (by decide)
    have d12 : Derives true Level.factor ['1', '2'] ((num_value ['1', '2'] : Nat) : ℚ) :=
      Derives.number _ (by decide) (by decide) (by decide)
    have d := Derives.term _ _ (Derives.mul _ _ _ _ (Derives.factor _ _ d12)
      (Derives.paren _ _ rfl (Derives.sub _ _ _ _ (Derives.term _ _ (Derives.factor _ _ d1))
        (Derives.factor _ _ d3))))
    have e : ((num_value ['1', '2'] : Nat) : ℚ) *
        (((num_value ['1'] : Nat) : ℚ) - ((num_value ['3'] : Nat) : ℚ)) =
        rat.toRat ⟨-24, 1⟩ := by
      have h1 : num_value ['1'] = 1 := by decide
      have h3 : num_value ['3'] = 3 := by decide
      have h12 : num_value ['1', '2'] = 12 := by decide
      rw [h1, h3, h12]
      unfold rat.toRat
      norm_num
    rw [← e]
    exact d
  · rw [mem_generate_string_iff HARD rfl (by decide) ⟨-24, 1⟩
      ['1', '2', '*', '(', '1', '-', '3', ')'] (by decide) (by decide)]
    decide
  · rw [mem_generate_string_iff HARD rfl (by decide) ⟨-24, 1⟩
      ['(', '1', '-', '3', ')', '*', '1', '2'] (by decide) (by decide)]
    decide

/-- C3. Every formula that `findall` appends to the candidate store has
exactly `SIZE` positions, each holding one glyph of the variant (a non-zero
mask with a single bit, inside `MSKall`), and at most `MAX_OP` of the positions
hold the mask of one of `+ - * /`; and the formula of a string of `SIZE`
characters with more than `MAX_OP` operators is never in the store.  This holds
for every variant (under `NUMBLE` parentheses are not allowed) and every
target, whatever the 32-bit arithmetic of the search has computed. -/
theorem appended_formula_shape (cfg : Config)
    (hcfg : cfg.NUMBLE = true → cfg.ALLOW_PARENTHESIS = false) (hS : 0 < cfg.SIZE)
    (target : rat) (f : formula) (hf : f ∈ generate cfg target) :
    f.mask.length = cfg.SIZE ∧
    (∀ m, m ∈ f.mask → m ≠ 0 ∧ popcount m = 1 ∧ m &&& MSKall cfg = m) ∧
    f.mask.countP is_op_mask ≤ cfg.MAX_OP ∧
    (∀ s : List Char, s.length = cfg.SIZE → cfg.MAX_OP < count_op cfg s →
      f ≠ make_formula cfg s) := by
  obtain ⟨rs, hrs, hc, rfl⟩ := (mem_generate_iff cfg target hS f).1 hf
  obtain ⟨hl, hg⟩ := gen_findall_shape cfg hcfg hS target rs hrs
  have hcount : (make_formula cfg rs.2).mask.countP is_op_mask ≤ cfg.MAX_OP := by
    rw [make_formula_mask cfg rs.2 hl, mask_count_op, ← count_op_eq cfg rs.2 hl]
    exact hc
  refine ⟨?_, ?_, hcount, ?_⟩
  · rw [make_formula_mask cfg rs.2 hl, List.length_map, hl]
  · intro m hm
    rw [make_formula_mask cfg rs.2 hl, List.mem_map] at hm
    obtain ⟨c, hc', rfl⟩ := hm
    have := glyph_mask cfg c ((is_glyph_iff cfg c).1 (hg c hc'))
    exact ⟨this.1, this.2.1, this.2.2.1⟩
  · intro s hs hgt he
    rw [he, make_formula_mask cfg s hs, mask_count_op, ← count_op_eq cfg s hs] at hcount
    omega

/-- The formula of `15-10` in the store of the easy variant for the target 5. -/
theorem appended_formula_shape_witness :
    make_formula EASY ['1', '5', '-', '1', '0'] ∈ generate EASY ⟨5, 1⟩ ∧
    (make_formula EASY ['1', '5', '-', '1', '0']).mask.length = EASY.SIZE ∧
    (∀ m, m ∈ (make_formula EASY ['1', '5', '-', '1', '0']).mask →
      m ≠ 0 ∧ popcount m = 1 ∧ m &&& MSKall EASY = m) ∧
    (make_formula EASY ['1', '5', '-', '1', '0']).mask.countP is_op_mask ≤ EASY.MAX_OP ∧
    (∀ s : List Char, s.length = EASY.SIZE → EASY.MAX_OP < count_op EASY s →
      make_formula EASY ['1', '5', '-', '1', '0'] ≠ make_formula EASY s) :=
  ⟨easy_member,
    appended_formula_shape EASY (by decide) (by decide) ⟨5, 1⟩ _ easy_member⟩

/-- C4, as stated, fails on the 32-bit `integer`.  The value `2^-14` is
received as the target `1/16384`.  In the hard variant, `term` on the whole
buffer takes the alternative `term * factor` with the right operand on the last
six characters, where `factor` finds the number 262144; its numerator is not
zero, so the guard of `solve` lets it pass, and `rat_div` computes the left
operand as `1 / (16384 * 262144)`: the denominator is `2^32`, which is 0 as an
`int`.  `solve` runs its goal on the target `1/0`, a rational with a zero
denominator, although both operands have a non-zero denominator and the
divisor is not zero.  What the guard does is what the claim says: for `/`
with a zero `V`, and for `*` with a set non-zero target and a zero `V`, the
branch is abandoned; and for the targets with which nothing overflows (the
numerator and the denominator, multiplied by `10 ^ SIZE`, are `int` values) no
reading of the string of a stored formula has a division whose right operand
has the value zero. -/
theorem division_overflow_yields_zero_denominator :
    rat_double ⟨false, 1, 14⟩ = some ⟨1, 16384⟩ ∧
    (⟨true, ⟨262144, 1⟩⟩, ['2', '6', '2', '1', '4', '4']) ∈
      gen_factor HARD (search_depth HARD - 2) { opt_rat.uninit with set := false } 6 ∧
    (⟨1, 16384⟩ : rat).q ≠ 0 ∧ (⟨262144, 1⟩ : rat).q ≠ 0 ∧ (⟨262144, 1⟩ : rat).p ≠ 0 ∧
    rat_div ⟨1, 16384⟩ ⟨262144, 1⟩ = ⟨1, 0⟩ ∧
    (∀ (goal : goal) (U : opt_rat) (frm upto : Nat) (k : opt_rat → Globals → Globals)
      (g : Globals),
      solve ⟨true, ⟨1, 16384⟩⟩ goal U frm upto '*' ⟨true, ⟨262144, 1⟩⟩ k g =
        goal ⟨true, ⟨1, 0⟩⟩ frm upto (fun _ g => k ⟨true, ⟨1, 16384⟩⟩ g)
          { g with buffer := g.buffer.set upto '*' }) ∧
    (∀ (T U V : opt_rat) (op : Char) (goal : goal) (frm upto : Nat)
      (k : opt_rat → Globals → Globals) (g : Globals),
      V.val.p = 0 → (op = '/' ∨ (op = '*' ∧ T.set = true ∧ T.val.p ≠ 0)) →
      solve T goal U frm upto op V k g = { g with buffer := g.buffer.set upto op }) ∧
    (∀ (cfg : Config), (cfg.NUMBLE = true → cfg.ALLOW_PARENTHESIS = false) → 0 < cfg.SIZE →
      ∀ (target : rat), target.q ≠ 0 → |target.p| * 10 ^ cfg.SIZE < 2 ^ 31 →
        |target.q| * 10 ^ cfg.SIZE < 2 ^ 31 → ∀ (f : formula), f ∈ generate cfg target →
        (cfg.NUMBLE = false →
          (∃ v, Parses cfg.ALLOW_PARENTHESIS Level.expression (f.mask.map (mask_to_char cfg))
            v false) ∧
          (∀ v z, Parses cfg.ALLOW_PARENTHESIS Level.expression
            (f.mask.map (mask_to_char cfg)) v z → z = false)) ∧
        (cfg.NUMBLE = true →
          ∃ (e t : List Char), f.mask.map (mask_to_char cfg) = e ++ '=' :: t ∧
            (∃ v, Parses cfg.ALLOW_PARENTHESIS Level.expression e v false) ∧
            (∀ v z, Parses cfg.ALLOW_PARENTHESIS Level.expression e v z → z = false) ∧
            (∃ v, Parses cfg.ALLOW_PARENTHESIS Level.term t v false) ∧
            (∀ v z, Parses cfg.ALLOW_PARENTHESIS Level.term t v z → z = false))) := by
  refine ⟨rat_double_two_pow_neg_14, ?_, by decide, by decide, by decide, by decide, ?_, ?_,
    ?_⟩
  · have h := ((check_iff HARD (search_depth HARD - 2)).2.2
      { opt_rat.uninit with set := false } ['2', '6', '2', '1', '4', '4']
      ⟨true, ⟨262144, 1⟩⟩ (by decide)).1
    exact h (by decide)
  · intro goal U frm upto k g
    rfl
  · intro T U V op goal frm upto k g hV hop
    unfold solve
    rcases hop with rfl | ⟨rfl, hs, hp⟩
    · rw [if_neg (by decide), if_neg (by decide), if_pos rfl, if_pos hV]
      rfl
    · have hl : ¬ Int.lor T.val.p V.val.p = 0 := fun h => hp (lor_eq_zero _ _ h).1
      have hc : ¬ ((!T.set || decide (Int.lor T.val.p V.val.p = 0)) = true) := by
        simp [hs, hl]
      rw [if_neg (by decide), if_neg (by decide), if_neg (by decide), if_pos rfl, if_neg hc,
        if_pos hV]
      rfl
  · intro cfg hcfg hS target hq hp hq' f hf
    obtain ⟨rs, hrs, _, rfl⟩ := (mem_generate_iff cfg target hS f).1 hf
    obtain ⟨hl, hgl⟩ := gen_findall_shape cfg hcfg hS target rs hrs
    obtain ⟨h1, h2⟩ := gen_findall_sound cfg hS target
      (Fits_target target cfg.SIZE hq hp hq') rs hrs
    rw [make_formula_mask cfg rs.2 hl, decode_encode cfg rs.2 hgl]
    refine ⟨fun hN => ?_, fun hN => ?_⟩
    · exact ⟨⟨_, Derives_Parses _ _ _ _ (h1 hN)⟩,
        fun v z h => (Derives_only_reading _ _ _ _ (h1 hN) v z h).2⟩
    · obtain ⟨e, t, ve, vt, hs, he, ht, _⟩ := h2 hN
      exact ⟨e, t, hs, ⟨_, Derives_Parses _ _ _ _ he⟩,
        fun v z h => (Derives_only_reading _ _ _ _ he v z h).2,
        ⟨_, Derives_Parses _ _ _ _ ht⟩,
        fun v z h => (Derives_only_reading _ _ _ _ ht v z h).2⟩

theorem worst_upto_is_max (cfg : Config) (st : state) (g : formula) (tab : List formula)
    (n : Nat) :
    (∀ c, c < n →
      compatible_total cfg (state_update cfg st g.mask c).2 tab ≤ worst_upto cfg st g tab n) ∧
    (0 < n → ∃ c, c < n ∧
      compatible_total cfg (state_update cfg st g.mask c).2 tab = worst_upto cfg st g tab n) := by
  induction n with
  | zero => exact ⟨fun c hc => by omega, fun h => by omega⟩
  | succ n ih =>
    rw [worst_upto_succ]
    obtain ⟨ih1, ih2⟩ := ih
    constructor
    · intro c hc
      by_cases e : c = n
      · subst e; exact le_max_right _ _
      · exact le_trans (ih1 c (by omega)) (le_max_left _ _)
    · intro _
      by_cases hle : worst_upto cfg st g tab n ≤
          compatible_total cfg (state_update cfg st g.mask n).2 tab
      · exact ⟨n, by omega, by rw [max_eq_right hle]⟩
      · have hn : 0 < n := by
          by_contra h0
          have : n = 0 := by omega
          subst this
          exact hle (by simp [worst_upto])
        obtain ⟨c, hc, he⟩ := ih2 hn
        exact ⟨c, by omega, by rw [max_eq_left (by omega)]; exact he⟩

/-- What `write_guess` writes: position `i` of the buffer, for `i < SIZE`,
receives the character of the mask `i` of the formula, and nothing else changes. -/
theorem write_guess_spec (cfg : Config) (f : formula) (buffer : List Char) :
    (write_guess cfg f buffer).length = buffer.length ∧
    ∀ i, (write_guess cfg f buffer)[i]? =
      if i < cfg.SIZE ∧ i < buffer.length then some (mask_to_char cfg (f.mask.getD i 0))
      else buffer[i]? := by
  unfold write_guess
  have key := foldl_range_ind
    (fun n (buf : List Char) => buf.length = buffer.length ∧
      ∀ i, buf[i]? =
        if i < n ∧ i < buffer.length then some (mask_to_char cfg (f.mask.getD i 0))
        else buffer[i]?)
    (fun buf i => buf.set i (mask_to_char cfg (f.mask.getD i 0))) buffer cfg.SIZE
    ⟨rfl, fun i => by simp⟩
    (fun n _ buf ih => by
      obtain ⟨hl, hb⟩ := ih
      refine ⟨by rw [List.length_set, hl], fun i => ?_⟩
      rw [List.getElem?_set, hl]
      by_cases hi : n = i
      · subst hi
        by_cases hlt : n < buffer.length
        · simp [hlt]
        · rw [if_pos rfl, if_neg hlt, if_neg (by omega)]
          exact (List.getElem?_eq_none (by omega)).symm
      · rw [if_neg hi, hb i]
        by_cases hlt : i < n ∧ i < buffer.length
        · rw [if_pos hlt, if_pos ⟨by omega, hlt.2⟩]
        · rw [if_neg hlt, if_neg (by omega)])
  exact key

/-- C5. With at least 2 and fewer than `MAX_FORMULAE_EXACT` formulas in the
pool (no pool reduction, no sampling) and the sequential scan, `least_worst`
writes into the buffer the first formula of the pool whose worst-case count is
minimal: no pool member has a smaller worst-case count and every earlier
member has a strictly greater one.  Writing the formula means that the buffer
keeps its length, that each of its first `SIZE` positions holds the character
`mask_to_char` gives for the mask of the formula at that position, and that
the positions from `SIZE` on are unchanged.  The worst-case count of a formula
is the maximum, over the `3^SIZE` feedback codes, of the number of pool
formulas compatible with the updated copy of the state. -/
theorem least_worst_minimax (cfg : Config) (libc : Libc) (st : state) (pool : List formula)
    (buffer : List Char) (seed : Nat) (h2 : 2 ≤ pool.length)
    (hlt : pool.length < MAX_FORMULAE_EXACT) :
    (∀ g : formula,
      (∀ c, c < 3 ^ cfg.SIZE →
        compatible_total cfg (state_update cfg st g.mask c).2 pool ≤
          worst_case_count cfg st g pool) ∧
      ∃ c, c < 3 ^ cfg.SIZE ∧
        compatible_total cfg (state_update cfg st g.mask c).2 pool =
          worst_case_count cfg st g pool) ∧
    ∃ (idx : Nat) (f : formula), pool[idx]? = some f ∧
      (least_worst cfg libc st pool buffer seed).2.1 = write_guess cfg f buffer ∧
      (least_worst cfg libc st pool buffer seed).2.1.length = buffer.length ∧
      (∀ i, i < cfg.SIZE → i < buffer.length →
        (least_worst cfg libc st pool buffer seed).2.1[i]? =
          some (mask_to_char cfg (f.mask.getD i 0))) ∧
      (∀ i, cfg.SIZE ≤ i →
        (least_worst cfg libc st pool buffer seed).2.1[i]? = buffer[i]?) ∧
      (buffer.length = cfg.SIZE → f.mask.length = cfg.SIZE →
        (least_worst cfg libc st pool buffer seed).2.1 = f.mask.map (mask_to_char cfg)) ∧
      (∀ (j : Nat) (g : formula), pool[j]? = some g →
        worst_case_count cfg st f pool ≤ worst_case_count cfg st g pool) ∧
      (∀ (j : Nat) (g : formula), j < idx → pool[j]? = some g →
        worst_case_count cfg st f pool < worst_case_count cfg st g pool) := by
  constructor
  · intro g
    obtain ⟨h1, h2'⟩ := worst_upto_is_max cfg st g pool (3 ^ cfg.SIZE)
    exact ⟨h1, h2' (by positivity)⟩
  · obtain ⟨idx, f, hf, hlf, _, _, hmin, hfirst⟩ :=
      least_worst_loop_spec cfg libc st pool seed (by omega)
    have hw : (least_worst cfg libc st pool buffer seed).2.1 = write_guess cfg f buffer := by
      rw [least_worst_exact cfg libc st pool buffer seed h2 hlt, hlf]
    obtain ⟨wl, wg⟩ := write_guess_spec cfg f buffer
    refine ⟨idx, f, hf, hw, ?_, ?_, ?_, ?_, hmin, hfirst⟩
    · rw [hw, wl]
    · intro i h1 h2
      rw [hw, wg i, if_pos ⟨h1, h2⟩]
    · intro i hi
      rw [hw, wg i, if_neg (by omega)]
    · intro hb hm
      rw [hw]
      apply List.ext_getElem?
      intro i
      rw [wg i, List.getElem?_map]
      by_cases hi : i < cfg.SIZE
      · rw [if_pos ⟨hi, by omega⟩, List.getD_eq_getElem?_getD,
          List.getElem?_eq_getElem (by omega)]
        rfl
      · rw [if_neg (by omega), List.getElem?_eq_none (by omega),
          List.getElem?_eq_none (by omega)]
        rfl

section
set_option maxRecDepth 100000

/-- The guess for the pool of `15-10` and `12+34` in the EASY variant. -/
theorem least_worst_two_formulas :
    (least_worst EASY ⟨2147483647, 2147483647⟩ (state_init EASY)
      [⟨2083, [2, 32, 2048, 2, 1], 4⟩, ⟨1054, [2, 4, 1024, 8, 16], 5⟩]
      (List.replicate 5 (Char.ofNat 0)) 1).2.1 = ['1', '5', '-', '1', '0'] := by
  decide

end

/-- A pool of two formulas, `15-10` and `12+34`, in the EASY variant: the
guess written is `15-10`. -/
theorem least_worst_minimax_witness :
    (2 : Nat) ≤ ([⟨2083, [2, 32, 2048, 2, 1], 4⟩, ⟨1054, [2, 4, 1024, 8, 16], 5⟩] :
      List formula).length ∧
    ([⟨2083, [2, 32, 2048, 2, 1], 4⟩, ⟨1054, [2, 4, 1024, 8, 16], 5⟩] :
      List formula).length < MAX_FORMULAE_EXACT ∧
    (least_worst EASY ⟨2147483647, 2147483647⟩ (state_init EASY)
      [⟨2083, [2, 32, 2048, 2, 1], 4⟩, ⟨1054, [2, 4, 1024, 8, 16], 5⟩]
      (List.replicate 5 (Char.ofNat 0)) 1).2.1 = ['1', '5', '-', '1', '0'] ∧
    ∃ (idx : Nat) (f : formula),
      ([⟨2083, [2, 32, 2048, 2, 1], 4⟩, ⟨1054, [2, 4, 1024, 8, 16], 5⟩] : List formula)[idx]? =
        some f ∧
      (least_worst EASY ⟨2147483647, 2147483647⟩ (state_init EASY)
        [⟨2083, [2, 32, 2048, 2, 1], 4⟩, ⟨1054, [2, 4, 1024, 8, 16], 5⟩]
        (List.replicate 5 (Char.ofNat 0)) 1).2.1 =
        write_guess EASY f (List.replicate 5 (Char.ofNat 0)) ∧
      (least_worst EASY ⟨2147483647, 2147483647⟩ (state_init EASY)
        [⟨2083, [2, 32, 2048, 2, 1], 4⟩, ⟨1054, [2, 4, 1024, 8, 16], 5⟩]
        (List.replicate 5 (Char.ofNat 0)) 1).2.1.length =
        (List.replicate 5 (Char.ofNat 0)).length ∧
      (∀ i, i < EASY.SIZE → i < (List.replicate 5 (Char.ofNat 0)).length →
        (least_worst EASY ⟨2147483647, 2147483647⟩ (state_init EASY)
          [⟨2083, [2, 32, 2048, 2, 1], 4⟩, ⟨1054, [2, 4, 1024, 8, 16], 5⟩]
          (List.replicate 5 (Char.ofNat 0)) 1).2.1[i]? =
          some (mask_to_char EASY (f.mask.getD i 0))) ∧
      (∀ i, EASY.SIZE ≤ i →
        (least_worst EASY ⟨2147483647, 2147483647⟩ (state_init EASY)
          [⟨2083, [2, 32, 2048, 2, 1], 4⟩, ⟨1054, [2, 4, 1024, 8, 16], 5⟩]
          (List.replicate 5 (Char.ofNat 0)) 1).2.1[i]? =
          (List.replicate 5 (Char.ofNat 0))[i]?) ∧
      ((List.replicate 5 (Char.ofNat 0)).length = EASY.SIZE → f.mask.length = EASY.SIZE →
        (least_worst EASY ⟨2147483647, 2147483647⟩ (state_init EASY)
          [⟨2083, [2, 32, 2048, 2, 1], 4⟩, ⟨1054, [2, 4, 1024, 8, 16], 5⟩]
          (List.replicate 5 (Char.ofNat 0)) 1).2.1 = f.mask.map (mask_to_char EASY)) ∧
      (∀ (j : Nat) (g : formula),
        ([⟨2083, [2, 32, 2048, 2, 1], 4⟩, ⟨1054, [2, 4, 1024, 8, 16], 5⟩] : List formula)[j]? =
          some g →
        worst_case_count EASY (state_init EASY) f
            [⟨2083, [2, 32, 2048, 2, 1], 4⟩, ⟨1054, [2, 4, 1024, 8, 16], 5⟩] ≤
          worst_case_count EASY (state_init EASY) g
            [⟨2083, [2, 32, 2048, 2, 1], 4⟩, ⟨1054, [2, 4, 1024, 8, 16], 5⟩]) ∧
      (∀ (j : Nat) (g : formula), j < idx →
        ([⟨2083, [2, 32, 2048, 2, 1], 4⟩, ⟨1054, [2, 4, 1024, 8, 16], 5⟩] : List formula)[j]? =
          some g →
        worst_case_count EASY (state_init EASY) f
            [⟨2083, [2, 32, 2048, 2, 1], 4⟩, ⟨1054, [2, 4, 1024, 8, 16], 5⟩] <
          worst_case_count EASY (state_init EASY) g
            [⟨2083, [2, 32, 2048, 2, 1], 4⟩, ⟨1054, [2, 4, 1024, 8, 16], 5⟩]) :=
  ⟨by decide, by decide, least_worst_two_formulas,
    (least_worst_minimax EASY ⟨2147483647, 2147483647⟩ (state_init EASY)
      [⟨2083, [2, 32, 2048, 2, 1], 4⟩, ⟨1054, [2, 4, 1024, 8, 16], 5⟩]
      (List.replicate 5 (Char.ofNat 0)) 1 (by decide) (by decide)).2⟩

/-! ## Properties of the feedback state -/

/-- C6. Narrowing never eliminates the true answer (Mathler variants): when
the hidden formula `h` is compatible with the state and the feedback code is
the one the game gives to the guess `g` against `h`, `state_update` returns
true and `h` is still compatible with the updated state.  Both formulas hold a
single symbol bit at each of the `SIZE` positions and `h.used` is the union of
the symbols of `h`. -/
theorem narrowing_keeps_answer (cfg : Config) (hN : cfg.NUMBLE = false) (st : state)
    (g h : formula) (eg eh : Nat → Nat)
    (hg : ∀ i, i < cfg.SIZE → g.mask.getD i 0 = 2 ^ eg i)
    (hh : ∀ i, i < cfg.SIZE → h.mask.getD i 0 = 2 ^ eh i ∧ eh i < 32)
    (hused : h.used = used_of cfg h.mask)
    (hc : state_compatible cfg st h = true) :
    (state_update cfg st g.mask (score cfg g.mask h.mask)).1 = true ∧
    state_compatible cfg (state_update cfg st g.mask (score cfg g.mask h.mask)).2 h = true :=
  narrowing_sound_aux cfg hN st g h eg eh hg hh hused hc

/-- The guess `12+34` is scored against the hidden formula `15-10` from the
initial state of the EASY variant. -/
theorem narrowing_keeps_answer_witness :
    (state_update EASY (state_init EASY) [2, 4, 1024, 8, 16]
      (score EASY [2, 4, 1024, 8, 16] [2, 32, 2048, 2, 1])).1 = true ∧
    state_compatible EASY (state_update EASY (state_init EASY) [2, 4, 1024, 8, 16]
      (score EASY [2, 4, 1024, 8, 16] [2, 32, 2048, 2, 1])).2
      ⟨2083, [2, 32, 2048, 2, 1], 4⟩ = true :=
  narrowing_keeps_answer EASY rfl (state_init EASY) ⟨1054, [2, 4, 1024, 8, 16], 5⟩
    ⟨2083, [2, 32, 2048, 2, 1], 4⟩ (fun i => [1, 2, 10, 3, 4].getD i 0)
    (fun i => [1, 5, 11, 1, 0].getD i 0) (by decide) (by decide) (by decide) (by decide)

/-- C7. For a formula holding one symbol bit `2 ^ e i` at each position,
`state_compatible` is true exactly when every bit of `mandatory` is in `used`
and, at each of the `SIZE` positions, the symbol of the formula is a member of
the possible set; and the compiled pointer-walking implementation agrees with
the alternative implementation kept in the source. -/
theorem state_compatible_plain (cfg : Config) (st : state) (f : formula) (e : Nat → Nat)
    (hsym : ∀ i, i < cfg.SIZE → f.mask.getD i 0 = 2 ^ e i) :
    (state_compatible cfg st f = true ↔
      (∀ k, st.mandatory.testBit k = true → f.used.testBit k = true) ∧
      ∀ i, i < cfg.SIZE → (st.possible.getD i 0).testBit (e i) = true) ∧
    state_compatible cfg st f = state_compatible_ref cfg st f := by
  constructor
  · rw [state_compatible_iff_inter, subset_iff_testBit]
    constructor
    · rintro ⟨h1, h2⟩
      refine ⟨h1, fun i hi => ?_⟩
      have := h2 i hi
      rw [hsym i hi, two_pow_land_ne_zero_iff] at this
      exact this
    · rintro ⟨h1, h2⟩
      refine ⟨h1, fun i hi => ?_⟩
      rw [hsym i hi, two_pow_land_ne_zero_iff]
      exact h2 i hi
  · rw [Bool.eq_iff_iff, state_compatible_iff_inter, state_compatible_ref_iff_inter]

/-- The formula `15-10` against the initial state of the EASY variant. -/
theorem state_compatible_plain_witness :
    (state_compatible EASY (state_init EASY) ⟨2083, [2, 32, 2048, 2, 1], 4⟩ = true ↔
      (∀ k, (state_init EASY).mandatory.testBit k = true → (2083 : Nat).testBit k = true) ∧
      ∀ i, i < EASY.SIZE →
        ((state_init EASY).possible.getD i 0).testBit ([1, 5, 11, 1, 0].getD i 0) = true) ∧
    state_compatible EASY (state_init EASY) ⟨2083, [2, 32, 2048, 2, 1], 4⟩ =
      state_compatible_ref EASY (state_init EASY) ⟨2083, [2, 32, 2048, 2, 1], 4⟩ :=
  state_compatible_plain EASY (state_init EASY) ⟨2083, [2, 32, 2048, 2, 1], 4⟩
    (fun i => [1, 5, 11, 1, 0].getD i 0) (by decide)

/-- C8. `state_update` is monotone: for a guess holding a single bit at each
of the `SIZE` positions and any feedback code, whether the function returns
true or false, the possible set of every position afterwards is a subset of its
value before, and `mandatory` afterwards is a superset of its value before. -/
theorem state_update_monotone (cfg : Config) (st : state) (formula : List Nat) (colors : Nat)
    (hsym : ∀ i, i < cfg.SIZE → ∃ e, formula.getD i 0 = 2 ^ e) :
    (state_update cfg st formula colors).2.possible.length = st.possible.length ∧
    (∀ i k, ((state_update cfg st formula colors).2.possible.getD i 0).testBit k = true →
      (st.possible.getD i 0).testBit k = true) ∧
    (∀ k, st.mandatory.testBit k = true →
      (state_update cfg st formula colors).2.mandatory.testBit k = true) := by
  refine ⟨state_update_length cfg st formula colors, ?_, ?_⟩
  · intro i
    exact (subset_iff_testBit _ _).mp (state_update_possible_subset cfg st formula colors hsym i)
  · exact (subset_iff_testBit _ _).mp (state_update_mandatory_superset cfg st formula colors)

/-- The guess `12+34` with the feedback code 5 from the initial EASY state. -/
theorem state_update_monotone_witness :
    (state_update EASY (state_init EASY) [2, 4, 1024, 8, 16] 5).2.possible.length =
      (state_init EASY).possible.length ∧
    (∀ i k, ((state_update EASY (state_init EASY) [2, 4, 1024, 8, 16] 5).2.possible.getD i
        0).testBit k = true → ((state_init EASY).possible.getD i 0).testBit k = true) ∧
    (∀ k, (state_init EASY).mandatory.testBit k = true →
      (state_update EASY (state_init EASY) [2, 4, 1024, 8, 16] 5).2.mandatory.testBit k = true) :=
  state_update_monotone EASY (state_init EASY) [2, 4, 1024, 8, 16] 5
    (fun i hi => ⟨[1, 2, 10, 3, 4].getD i 0, by
      have h : ∀ j, j < EASY.SIZE →
          [2, 4, 1024, 8, 16].getD j 0 = 2 ^ [1, 2, 10, 3, 4].getD j 0 := by decide
      exact h i hi⟩)

/-- C9. `state_update` returns false exactly when some position coloured
GREEN holds a guessed symbol that has no bit in the possible set that position
had before the call; otherwise it returns true. -/
theorem state_update_false_iff (cfg : Config) (st : state) (formula : List Nat)
    (colors : Nat) :
    (state_update cfg st formula colors).1 = false ↔
      ∃ i, i < cfg.SIZE ∧ color_at colors i = GREEN ∧
        st.possible.getD i 0 &&& formula.getD i 0 = 0 := by
  rw [← Bool.not_eq_true, state_update_true_iff]
  constructor
  · intro h
    by_contra hne
    apply h
    intro i hi hc hz
    exact hne ⟨i, hi, hc, hz⟩
  · rintro ⟨i, hi, hc, hz⟩ h
    exact h i hi hc hz

/-- C10, as stated, fails.  In the EASY variant the guess `11+23` with `1`
GREEN at position 0 and BLACK at position 1 (and `3` BLACK at position 4)
removes the symbol `1` from the possible set of the unsolved position 4. -/
theorem green_and_black_symbol_is_removed :
    (state_update EASY (state_init EASY) [MSK1, MSK1, MSKadd, MSK2, MSK3] 168).1 = true ∧
    color_at 168 0 = GREEN ∧ color_at 168 1 = BLACK ∧ color_at 168 4 = BLACK ∧
    (∀ i, i < EASY.SIZE → color_at 168 i ≠ YELLOW) ∧
    ((state_init EASY).possible.getD 4 0).testBit 1 = true ∧
    after_green (state_init EASY) [MSK1, MSK1, MSKadd, MSK2, MSK3] 168 4 &&&
      mask_neg (after_green (state_init EASY) [MSK1, MSK1, MSKadd, MSK2, MSK3] 168 4) ≠
      after_green (state_init EASY) [MSK1, MSK1, MSKadd, MSK2, MSK3] 168 4 ∧
    ((state_update EASY (state_init EASY) [MSK1, MSK1, MSKadd, MSK2, MSK3]
      168).2.possible.getD 4 0).testBit 1 = false := by
  decide

/-- C10, amended.  After a successful `state_update`, bit `k` is in the
possible set of position `j` exactly when it is there after the yellow and the
green step and either that set passes the singleton test `(m & -m) == m`, or
`k` is a bit of the 32-bit frame that is not impossible.  A bit is impossible
exactly when it belongs to a symbol at a BLACK position that meets no symbol at
a YELLOW position (GREEN positions are not looked at), or, under `NUMBLE`, when
it belongs to an `=` at a GREEN position. -/
theorem state_update_impossible_symbols (cfg : Config) (st : state) (formula : List Nat)
    (colors : Nat) (hok : (state_update cfg st formula colors).1 = true) (j k : Nat)
    (hj : j < cfg.SIZE) :
    ((state_update cfg st formula colors).2.possible.getD j 0).testBit k = true ↔
      (after_green st formula colors j).testBit k = true ∧
      (after_green st formula colors j &&& mask_neg (after_green st formula colors j) =
          after_green st formula colors j ∨
        (k < 32 ∧
          ¬ ((∃ i, i < cfg.SIZE ∧ color_at colors i = BLACK ∧
                (formula.getD i 0).testBit k = true ∧
                ∀ i', i' < cfg.SIZE → color_at colors i' = YELLOW →
                  formula.getD i' 0 &&& formula.getD i 0 = 0) ∨
             (cfg.NUMBLE = true ∧ ∃ i, i < cfg.SIZE ∧ color_at colors i = GREEN ∧
                formula.getD i 0 = MSKequ ∧ (formula.getD i 0).testBit k = true)))) :=
  state_update_ok_bits cfg st formula colors hok j k hj

/-- The guess `11+23` with the code 168 at position 4 and bit 1 (the symbol `1`). -/
theorem state_update_impossible_symbols_witness :
    (state_update EASY (state_init EASY) [MSK1, MSK1, MSKadd, MSK2, MSK3] 168).1 = true ∧
    4 < EASY.SIZE ∧
    (((state_update EASY (state_init EASY) [MSK1, MSK1, MSKadd, MSK2, MSK3]
        168).2.possible.getD 4 0).testBit 1 = true ↔
      (after_green (state_init EASY) [MSK1, MSK1, MSKadd, MSK2, MSK3] 168 4).testBit 1 = true ∧
      (after_green (state_init EASY) [MSK1, MSK1, MSKadd, MSK2, MSK3] 168 4 &&&
          mask_neg (after_green (state_init EASY) [MSK1, MSK1, MSKadd, MSK2, MSK3] 168 4) =
          after_green (state_init EASY) [MSK1, MSK1, MSKadd, MSK2, MSK3] 168 4 ∨
        (1 < 32 ∧
          ¬ ((∃ i, i < EASY.SIZE ∧ color_at 168 i = BLACK ∧
                (([MSK1, MSK1, MSKadd, MSK2, MSK3] : List Nat).getD i 0).testBit 1 = true ∧
                ∀ i', i' < EASY.SIZE → color_at 168 i' = YELLOW →
                  ([MSK1, MSK1, MSKadd, MSK2, MSK3] : List Nat).getD i' 0 &&&
                    ([MSK1, MSK1, MSKadd, MSK2, MSK3] : List Nat).getD i 0 = 0) ∨
             (EASY.NUMBLE = true ∧ ∃ i, i < EASY.SIZE ∧ color_at 168 i = GREEN ∧
                ([MSK1, MSK1, MSKadd, MSK2, MSK3] : List Nat).getD i 0 = MSKequ ∧
                (([MSK1, MSK1, MSKadd, MSK2, MSK3] : List Nat).getD i 0).testBit 1 = true))))) :=
  ⟨by decide, by decide,
    state_update_impossible_symbols EASY (state_init EASY) [MSK1, MSK1, MSKadd, MSK2, MSK3] 168
      (by decide) 4 1 (by decide)⟩


/-! ## Claims on the all-GREEN feedback and on `state_relax` -/

/-- C11, counterexample. In the EASY variant, after the guess `12+34` was
answered all BLACK, the state excludes the symbol `1` everywhere. Updating that
state with the symbols of `15-10` and the all-GREEN code 0 returns false, and
`state_compatible` reports `15-10` not compatible with the resulting state. -/
theorem all_green_on_excluded_formula :
    (⟨2083, [MSK1, MSK5, MSKsub, MSK1, MSK0], 4⟩ : formula).used =
      used_of EASY [MSK1, MSK5, MSKsub, MSK1, MSK0] ∧
    (state_update EASY
      (state_update EASY (state_init EASY) [MSK1, MSK2, MSKadd, MSK3, MSK4] 242).2
      [MSK1, MSK5, MSKsub, MSK1, MSK0] 0).1 = false ∧
    state_compatible EASY
      (state_update EASY
        (state_update EASY (state_init EASY) [MSK1, MSK2, MSKadd, MSK3, MSK4] 242).2
        [MSK1, MSK5, MSKsub, MSK1, MSK0] 0).2
      ⟨2083, [MSK1, MSK5, MSKsub, MSK1, MSK0], 4⟩ = false := by
  decide

/-- C11, amended. For every state and every formula `f` holding a single
symbol `2 ^ e i` at each of the `SIZE` positions, with `used` their union: after
`state_update` with the symbols of `f` and the all-GREEN code 0, `f` is
compatible with the resulting state exactly when it was compatible with the
state before the update; in that case the update returns true. -/
theorem all_green_compatible_iff (cfg : Config) (st : state) (f : formula) (e : Nat → Nat)
    (hf : ∀ i, i < cfg.SIZE → f.mask.getD i 0 = 2 ^ e i ∧ e i < 32)
    (hused : f.used = used_of cfg f.mask) :
    (state_compatible cfg (state_update cfg st f.mask 0).2 f = true ↔
      state_compatible cfg st f = true) ∧
    (state_compatible cfg st f = true → (state_update cfg st f.mask 0).1 = true) :=
  ⟨⟨(all_green_aux cfg st f e hf hused).2, fun h => ((all_green_aux cfg st f e hf hused).1 h).2⟩,
    fun h => ((all_green_aux cfg st f e hf hused).1 h).1⟩

/-- The formula `15-10` with the state reached from the initial EASY state by
the guess `12+34` answered with the code 240 (GREEN, then four BLACK). -/
theorem all_green_compatible_iff_witness :
    state_compatible EASY (state_update EASY (state_init EASY) [2, 4, 1024, 8, 16] 240).2
      ⟨2083, [2, 32, 2048, 2, 1], 4⟩ = true ∧
    (state_compatible EASY
        (state_update EASY (state_update EASY (state_init EASY) [2, 4, 1024, 8, 16] 240).2
          (⟨2083, [2, 32, 2048, 2, 1], 4⟩ : formula).mask 0).2
        ⟨2083, [2, 32, 2048, 2, 1], 4⟩ = true ↔
      state_compatible EASY (state_update EASY (state_init EASY) [2, 4, 1024, 8, 16] 240).2
        ⟨2083, [2, 32, 2048, 2, 1], 4⟩ = true) ∧
    (state_compatible EASY (state_update EASY (state_init EASY) [2, 4, 1024, 8, 16] 240).2
        ⟨2083, [2, 32, 2048, 2, 1], 4⟩ = true →
      (state_update EASY (state_update EASY (state_init EASY) [2, 4, 1024, 8, 16] 240).2
        (⟨2083, [2, 32, 2048, 2, 1], 4⟩ : formula).mask 0).1 = true) :=
  ⟨by decide,
    all_green_compatible_iff EASY (state_update EASY (state_init EASY) [2, 4, 1024, 8, 16] 240).2
      ⟨2083, [2, 32, 2048, 2, 1], 4⟩ (fun i => [1, 5, 11, 1, 0].getD i 0) (by decide)
      (by decide)⟩

/-- A mask with a single bit is a power of two. -/
theorem single_bit_iff_two_pow (m : Nat) (h0 : m ≠ 0) :
    (∀ i j, m.testBit i = true → m.testBit j = true → i = j) ↔ ∃ e, m = 2 ^ e := by
  constructor
  · intro h
    obtain ⟨i, hi⟩ := Nat.ne_zero_implies_bit_true h0
    refine ⟨i, Nat.eq_of_testBit_eq (fun j => ?_)⟩
    rw [Nat.testBit_two_pow]
    by_cases hij : i = j
    · rw [← hij, hi]
      simp
    · have : m.testBit j = false := by
        by_contra hj
        rw [Bool.not_eq_false] at hj
        exact hij (h i j hi hj)
      rw [this]
      simp [hij]
  · rintro ⟨e, rfl⟩ i j hi hj
    rw [Nat.testBit_two_pow] at hi hj
    simp only [decide_eq_true_eq] at hi hj
    omega

/-- When `state_compatible_count` is not zero, some formula of the table is
compatible with the state, and then no position has an empty possible set. -/
theorem possible_nonempty_of_count (cfg : Config) (st : state) (thr : Nat) (tab : List formula)
    (h : state_compatible_count cfg st thr tab ≠ 0) :
    ∀ j, j < cfg.SIZE → st.possible.getD j 0 ≠ 0 := by
  rw [state_compatible_count_eq] at h
  have hpos : 0 < compatible_total cfg st tab := by
    rcases Nat.eq_zero_or_pos (compatible_total cfg st tab) with h0 | h0
    · rw [h0] at h
      simp at h
    · exact h0
  unfold compatible_total at hpos
  rw [List.countP_pos_iff] at hpos
  obtain ⟨f, _, hf⟩ := hpos
  intro j hj h0
  have := ((state_compatible_iff_inter cfg st f).1 hf).2 j hj
  rw [h0, Nat.and_zero] at this
  exact this rfl

/-- C17. `state_relax` is called at one place, in `play_round`, after
`state_compatible_count` has found a formula compatible with the state, so that
no position has an empty possible set.  On such a state, `state_relax`
replaces the possible set of every singleton position (a single bit `2^e`) by
the union of all positions' possible sets as they were before the call, and
leaves `mandatory` and the possible set of every position that is not a
singleton unchanged. -/
theorem state_relax_singletons (cfg : Config) (st : state)
    (hlen : st.possible.length = cfg.SIZE)
    (hm : ∀ j, j < cfg.SIZE → st.possible.getD j 0 < 2 ^ 32)
    (hne : ∀ j, j < cfg.SIZE → st.possible.getD j 0 ≠ 0) :
    (state_relax cfg st).mandatory = st.mandatory ∧
    (state_relax cfg st).possible.length = st.possible.length ∧
    (∀ j, j < cfg.SIZE →
      ((∃ e, st.possible.getD j 0 = 2 ^ e) →
        (state_relax cfg st).possible.getD j 0 = used_of cfg st.possible) ∧
      ((¬ ∃ e, st.possible.getD j 0 = 2 ^ e) →
        (state_relax cfg st).possible.getD j 0 = st.possible.getD j 0)) ∧
    (∀ (thr : Nat) (tab : List formula), state_compatible_count cfg st thr tab ≠ 0 →
      ∀ j, j < cfg.SIZE → st.possible.getD j 0 ≠ 0) := by
  obtain ⟨h1, h2, h3⟩ := state_relax_spec cfg st
  refine ⟨h1, h2, fun j hj => ⟨?_, ?_⟩, possible_nonempty_of_count cfg st⟩
  · intro hone
    rw [h3 j, if_pos ⟨hj, by omega,
      (single_test_iff _ (hm j hj)).2 ((single_bit_iff_two_pow _ (hne j hj)).2 hone)⟩]
  · intro hnot
    rw [h3 j, if_neg]
    rintro ⟨_, _, ht⟩
    exact hnot ((single_bit_iff_two_pow _ (hne j hj)).1 ((single_test_iff _ (hm j hj)).1 ht))

/-- The EASY state with the possible sets `{1}`, `{1,2}`, `{2}`, `{3}`, `{2,3}`. -/
theorem state_relax_singletons_witness :
    (state_relax EASY ⟨MSK1, [2, 6, 4, 8, 12]⟩).mandatory = MSK1 ∧
    (state_relax EASY ⟨MSK1, [2, 6, 4, 8, 12]⟩).possible = [14, 6, 14, 14, 12] ∧
    (state_relax EASY ⟨MSK1, [2, 6, 4, 8, 12]⟩).possible.length =
      (⟨MSK1, [2, 6, 4, 8, 12]⟩ : state).possible.length ∧
    (∀ j, j < EASY.SIZE →
      ((∃ e, (⟨MSK1, [2, 6, 4, 8, 12]⟩ : state).possible.getD j 0 = 2 ^ e) →
        (state_relax EASY ⟨MSK1, [2, 6, 4, 8, 12]⟩).possible.getD j 0 =
          used_of EASY (⟨MSK1, [2, 6, 4, 8, 12]⟩ : state).possible) ∧
      ((¬ ∃ e, (⟨MSK1, [2, 6, 4, 8, 12]⟩ : state).possible.getD j 0 = 2 ^ e) →
        (state_relax EASY ⟨MSK1, [2, 6, 4, 8, 12]⟩).possible.getD j 0 =
          (⟨MSK1, [2, 6, 4, 8, 12]⟩ : state).possible.getD j 0)) :=
  ⟨by decide, by decide,
    (state_relax_singletons EASY ⟨MSK1, [2, 6, 4, 8, 12]⟩ (by decide) (by decide)
      (by decide)).2.1,
    (state_relax_singletons EASY ⟨MSK1, [2, 6, 4, 8, 12]⟩ (by decide) (by decide)
      (by decide)).2.2.1⟩

/-! ## Claims on the rational arithmetic -/

/-- C18, as stated, fails on the 32-bit `integer`.  `rat_mul` of `16777216/1`
and `256/1` (the call `solve` makes in the easy variant for the target 16777216
and the right operand 256 of a division) returns `0/1`: the product `2^32` is 0
as an `int`, and the value of the result is not the product of the values.
`rat_div` of `1/16384` by `262144/1` (hard variant, target `2^-14`) returns
`1/0`, a zero denominator from operands with non-zero denominators and a
non-zero divisor.  The operations are exact whenever the numerator and the
denominator they compute are `int` values other than `INT_MIN`. -/
theorem rat_operations_wrap :
    (⟨16777216, 1⟩ : rat).q ≠ 0 ∧ (⟨256, 1⟩ : rat).q ≠ 0 ∧
    rat_mul ⟨16777216, 1⟩ ⟨256, 1⟩ = ⟨0, 1⟩ ∧
    (rat_mul ⟨16777216, 1⟩ ⟨256, 1⟩).toRat ≠
      (⟨16777216, 1⟩ : rat).toRat * (⟨256, 1⟩ : rat).toRat ∧
    (∀ (goal : goal) (U : opt_rat) (frm upto : Nat) (k : opt_rat → Globals → Globals)
      (g : Globals),
      solve ⟨true, ⟨16777216, 1⟩⟩ goal U frm upto '/' ⟨true, ⟨256, 1⟩⟩ k g =
        goal ⟨true, rat_mul ⟨16777216, 1⟩ ⟨256, 1⟩⟩ frm upto
          (fun _ g => k ⟨true, ⟨16777216, 1⟩⟩ g)
          { g with buffer := g.buffer.set upto '/' }) ∧
    (⟨1, 16384⟩ : rat).q ≠ 0 ∧ (⟨262144, 1⟩ : rat).q ≠ 0 ∧ (⟨262144, 1⟩ : rat).p ≠ 0 ∧
    (rat_div ⟨1, 16384⟩ ⟨262144, 1⟩).q = 0 ∧
    (∀ u v : rat, u.q ≠ 0 → v.q ≠ 0 → abs_is_int (u.q * v.q) →
      (abs_is_int (u.p * v.q + v.p * u.q) →
        (rat_add u v).q ≠ 0 ∧ (rat_add u v).toRat = u.toRat + v.toRat) ∧
      (abs_is_int (u.p * v.q - v.p * u.q) →
        (rat_sub u v).q ≠ 0 ∧ (rat_sub u v).toRat = u.toRat - v.toRat) ∧
      (abs_is_int (u.p * v.p) →
        (rat_mul u v).q ≠ 0 ∧ (rat_mul u v).toRat = u.toRat * v.toRat)) ∧
    (∀ u v : rat, u.q ≠ 0 → v.q ≠ 0 → v.p ≠ 0 → abs_is_int (u.p * v.q) → abs_is_int (u.q * v.p) →
      (rat_div u v).q ≠ 0 ∧ (rat_div u v).toRat = u.toRat / v.toRat) := by
  have hmul : rat_mul ⟨16777216, 1⟩ ⟨256, 1⟩ = ⟨0, 1⟩ := by decide
  refine ⟨by decide, by decide, hmul, ?_, fun goal U frm upto k g => rfl, by decide, by decide,
    by decide, by decide, ?_, ?_⟩
  · rw [hmul]
    unfold rat.toRat
    norm_num
  · intro u v hu hv h2
    exact ⟨fun h1 => rat_add_spec u v hu hv h1 h2, fun h1 => rat_sub_spec u v hu hv h1 h2,
      fun h1 => rat_mul_spec u v hu hv h1 h2⟩
  · intro u v hu hv hvp h1 h2
    exact rat_div_spec u v hu hv hvp h1 h2

/-- C20. The normal form is not kept by `rat_div`. The inputs `-24/1` and
`-2/1` are in normal form; the result is the pair `(-12, -1)`, whose denominator
is negative: its value is the integer 12, `rat_whole` rejects it, and
`rat_mul` of `-6/1` and `-2/1` has the same value with the other pair
`(12, 1)`. For inputs with positive denominators the results of `rat_add`,
`rat_sub` and `rat_mul` do have a positive denominator, and the denominator of
the result of `rat_div` has the sign of the numerator of the divisor, whenever
the numerator and the denominator computed are `int` values other than
`INT_MIN`; a reduced pair with a positive
denominator is determined by its value, and `rat_whole` holds for it exactly
when the value is an integer. -/
theorem rat_div_loses_normal_form :
    ((0 : Int) < (⟨-24, 1⟩ : rat).q ∧ gcd |(⟨-24, 1⟩ : rat).p| |(⟨-24, 1⟩ : rat).q| = 1) ∧
    ((0 : Int) < (⟨-2, 1⟩ : rat).q ∧ gcd |(⟨-2, 1⟩ : rat).p| |(⟨-2, 1⟩ : rat).q| = 1) ∧
    rat_div ⟨-24, 1⟩ ⟨-2, 1⟩ = ⟨-12, -1⟩ ∧
    (rat_div ⟨-24, 1⟩ ⟨-2, 1⟩).toRat = 12 ∧
    rat_whole (rat_div ⟨-24, 1⟩ ⟨-2, 1⟩) = false ∧
    rat_mul ⟨-6, 1⟩ ⟨-2, 1⟩ = ⟨12, 1⟩ ∧
    (rat_mul ⟨-6, 1⟩ ⟨-2, 1⟩).toRat = (rat_div ⟨-24, 1⟩ ⟨-2, 1⟩).toRat ∧
    rat_mul ⟨-6, 1⟩ ⟨-2, 1⟩ ≠ rat_div ⟨-24, 1⟩ ⟨-2, 1⟩ ∧
    (∀ u v : rat, 0 < u.q → 0 < v.q →
      (abs_is_int (u.q * v.q) →
        (abs_is_int (u.p * v.q + v.p * u.q) → 0 < (rat_add u v).q) ∧
        (abs_is_int (u.p * v.q - v.p * u.q) → 0 < (rat_sub u v).q) ∧
        (abs_is_int (u.p * v.p) → 0 < (rat_mul u v).q)) ∧
      (0 < v.p → abs_is_int (u.p * v.q) → abs_is_int (u.q * v.p) → 0 < (rat_div u v).q) ∧
      (v.p < 0 → abs_is_int (u.p * v.q) → abs_is_int (u.q * v.p) → (rat_div u v).q < 0)) ∧
    (∀ r s : rat, 0 < r.q → 0 < s.q → gcd |r.p| |r.q| = 1 → gcd |s.p| |s.q| = 1 →
      r.toRat = s.toRat → r = s) ∧
    (∀ r : rat, 0 < r.q → gcd |r.p| |r.q| = 1 →
      (rat_whole r = true ↔ ∃ n : Int, r.toRat = (n : ℚ))) := by
  have red : ∀ a b : Int, gcd |a| |b| = 1 → Int.gcd a b = 1 := by
    intro a b h
    rw [gcd_abs_eq] at h
    exact_mod_cast h
  have hdiv : rat_div ⟨-24, 1⟩ ⟨-2, 1⟩ = ⟨-12, -1⟩ := by decide
  have hmul : rat_mul ⟨-6, 1⟩ ⟨-2, 1⟩ = ⟨12, 1⟩ := by decide
  refine ⟨⟨by decide, by decide⟩, ⟨by decide, by decide⟩, hdiv, ?_, by decide, hmul, ?_,
    by decide, ?_, ?_, ?_⟩
  · rw [hdiv]
    unfold rat.toRat
    norm_num
  · rw [hdiv, hmul]
    unfold rat.toRat
    norm_num
  · intro u v hu hv
    refine ⟨fun h => ?_, fun hp _ h => ?_, fun hp _ h => ?_⟩
    · have hq : 0 < to_integer (u.q * v.q) := by
        rw [to_integer_of_abs_is_int _ h]
        exact mul_pos hu hv
      rw [rat_add_eq, rat_sub_eq]
      exact ⟨fun _ => (rat_norm_sign _ _).1 hq, fun _ => (rat_norm_sign _ _).1 hq,
        fun _ => (rat_norm_sign _ _).1 hq⟩
    · have hq : 0 < to_integer (u.q * v.p) := by
        rw [to_integer_of_abs_is_int _ h]
        exact mul_pos hu hp
      exact (rat_norm_sign _ _).1 hq
    · have hq : to_integer (u.q * v.p) < 0 := by
        rw [to_integer_of_abs_is_int _ h]
        exact mul_neg_of_pos_of_neg hu hp
      exact (rat_norm_sign _ _).2 hq
  · intro r s hr hs gr gs h
    exact normal_form_unique r s hr hs (red _ _ gr) (red _ _ gs) h
  · intro r hr gr
    exact whole_iff_integer r hr (red _ _ gr)


/-! ## Claims on the feedback round -/

/-- C12. In `play_round`, when the non-zero feedback read yields an updated
state with which no formula of the pool is `state_compatible`, the pass ends
with the state it started with, the same pool and, the buffer holding glyphs,
the same guess; only the input has advanced. The loop goes on from that world,
and its next pass, the pool still having two formulas or more, reads feedback
again: it exits exactly when the input ends before `SIZE` tokens. -/
theorem rollback_is_atomic (cfg : Config) (libc : Libc) (relaxed : Bool) (w : World)
    (colors : Nat) (inp : List Char) (hlen : 1 < w.formulae.length)
    (hread : read_colors cfg w.input 0 0 1 = some (colors, inp)) (hc : colors ≠ 0)
    (hnone : ∀ f, f ∈ w.formulae →
      state_compatible cfg (state_update cfg w.state (guess_masks cfg w.buffer) colors).2 f =
        false)
    (hbuf : ∀ c, c ∈ w.buffer → is_glyph cfg c = true) :
    play_round_body cfg libc relaxed w = Step.again { w with input := inp } ∧
    (∀ fuel, play_round cfg libc relaxed (fuel + 1) w =
      play_round cfg libc relaxed fuel { w with input := inp }) ∧
    (play_round_body cfg libc relaxed { w with input := inp } = Step.exit ↔
      read_colors cfg inp 0 0 1 = none) := by
  have hbody : play_round_body cfg libc relaxed w = Step.again { w with input := inp } := by
    rw [play_round_body_rollback cfg libc relaxed w colors inp hlen hread hc hnone,
      restore_buffer_eq cfg w.buffer hbuf]
  refine ⟨hbody, ?_, ?_⟩
  · intro fuel
    rw [play_round, hbody]
  · exact play_round_body_exit_iff cfg libc relaxed { w with input := inp } hlen

/-- The guess `15-10` on the pool `15-10`, `50/10`, answered all BLACK. -/
theorem rollback_is_atomic_witness :
    play_round_body EASY ⟨2147483647, 2147483647⟩ false
      ⟨state_init EASY,
        [make_formula EASY ['1', '5', '-', '1', '0'], make_formula EASY ['5', '0', '/', '1', '0']],
        ['1', '5', '-', '1', '0'], ['-', '-', '-', '-', '-', '\n', '!'], 1⟩ =
      Step.again ⟨state_init EASY,
        [make_formula EASY ['1', '5', '-', '1', '0'], make_formula EASY ['5', '0', '/', '1', '0']],
        ['1', '5', '-', '1', '0'], ['\n', '!'], 1⟩ :=
  (rollback_is_atomic EASY ⟨2147483647, 2147483647⟩ false
    ⟨state_init EASY,
      [make_formula EASY ['1', '5', '-', '1', '0'], make_formula EASY ['5', '0', '/', '1', '0']],
      ['1', '5', '-', '1', '0'], ['-', '-', '-', '-', '-', '\n', '!'], 1⟩
    242 ['\n', '!'] (by decide) (by decide) (by decide) (by decide) (by decide)).1

/-- C14. After a strict-mode pass whose feedback is accepted (it is not zero
and some formula of the pool is compatible with the updated state), the state
is the updated state and the pool is a permutation of the formulas of the
pre-round pool that are `state_compatible` with it. -/
theorem strict_round_prunes (cfg : Config) (libc : Libc) (w : World)
    (colors : Nat) (inp : List Char) (hlen : 1 < w.formulae.length)
    (hread : read_colors cfg w.input 0 0 1 = some (colors, inp)) (hc : colors ≠ 0)
    (hsome : ∃ f, f ∈ w.formulae ∧
      state_compatible cfg (state_update cfg w.state (guess_masks cfg w.buffer) colors).2 f =
        true) :
    ∃ w', (play_round_body cfg libc false w = Step.ret true w' ∨
        play_round_body cfg libc false w = Step.again w') ∧
      w'.state = (state_update cfg w.state (guess_masks cfg w.buffer) colors).2 ∧
      List.Perm w'.formulae (w.formulae.filter (state_compatible cfg w'.state)) := by
  obtain ⟨w', hor, _, hst, hf⟩ :=
    play_round_body_accepted cfg libc false w colors inp hlen hread hc hsome
  refine ⟨w', hor, hst, ?_⟩
  rw [hf, hst]
  simp only [Bool.false_eq_true, if_false]
  exact remove_impossible_perm cfg _ w.formulae

/-- The guess `15-10` on the pool `15-10`, `50/10`, `20-15`, answered `-+!!+`. -/
theorem strict_round_prunes_witness :
    ∃ w', (play_round_body EASY ⟨2147483647, 2147483647⟩ false
          ⟨state_init EASY,
            [make_formula EASY ['1', '5', '-', '1', '0'],
             make_formula EASY ['5', '0', '/', '1', '0'],
             make_formula EASY ['2', '0', '-', '1', '5']],
            ['1', '5', '-', '1', '0'], ['-', '+', '!', '!', '+'], 1⟩ = Step.ret true w' ∨
        play_round_body EASY ⟨2147483647, 2147483647⟩ false
          ⟨state_init EASY,
            [make_formula EASY ['1', '5', '-', '1', '0'],
             make_formula EASY ['5', '0', '/', '1', '0'],
             make_formula EASY ['2', '0', '-', '1', '5']],
            ['1', '5', '-', '1', '0'], ['-', '+', '!', '!', '+'], 1⟩ = Step.again w') ∧
      w'.state = (state_update EASY (state_init EASY)
        (guess_masks EASY ['1', '5', '-', '1', '0']) 86).2 ∧
      List.Perm w'.formulae
        ([make_formula EASY ['1', '5', '-', '1', '0'],
          make_formula EASY ['5', '0', '/', '1', '0'],
          make_formula EASY ['2', '0', '-', '1', '5']].filter (state_compatible EASY w'.state)) :=
  strict_round_prunes EASY ⟨2147483647, 2147483647⟩
    ⟨state_init EASY,
      [make_formula EASY ['1', '5', '-', '1', '0'],
       make_formula EASY ['5', '0', '/', '1', '0'],
       make_formula EASY ['2', '0', '-', '1', '5']],
      ['1', '5', '-', '1', '0'], ['-', '+', '!', '!', '+'], 1⟩
    86 [] (by decide) (by decide) (by decide)
    ⟨make_formula EASY ['2', '0', '-', '1', '5'], by decide, by decide⟩


/-- C13. An incoherent feedback is accepted. EASY variant, target 5, the 95
generated formulas in their order of generation. The first guess `85/17`
answered `-!---` in the relaxed round leaves the state with the possible set
`{5}` at position 1 and the other 94 formulas in the pool. In the next, strict,
round the guess `34-29` is answered `-!--+` (code 155): the GREEN `4` at
position 1 is excluded there, and `state_update` returns false. The pass does
not roll back: it returns true with the partly updated state (the YELLOW `9` is
recorded, the BLACK symbols are not), the pool pruned to `95-90` and the next
guess `95-90`. -/
theorem incoherent_feedback_is_accepted :
    (∃ w', (play_round_body EASY ⟨2147483647, 2147483647⟩ true
          ⟨state_init EASY,
           List.map (fun s => make_formula EASY (String.toList s)) [
            "50/10", "55/11", "60/12", "65/13", "70/14", "75/15", "80/16", "85/17", "90/18", "95/19",
            "15-10", "16-11", "17-12", "18-13", "19-14", "20-15", "21-16", "22-17", "23-18", "24-19",
            "25-20", "26-21", "27-22", "28-23", "29-24", "30-25", "31-26", "32-27", "33-28", "34-29",
            "35-30", "36-31", "37-32", "38-33", "39-34", "40-35", "41-36", "42-37", "43-38", "44-39",
            "45-40", "46-41", "47-42", "48-43", "49-44", "50-45", "51-46", "52-47", "53-48", "54-49",
            "55-50", "56-51", "57-52", "58-53", "59-54", "60-55", "61-56", "62-57", "63-58", "64-59",
            "65-60", "66-61", "67-62", "68-63", "69-64", "70-65", "71-66", "72-67", "73-68", "74-69",
            "75-70", "76-71", "77-72", "78-73", "79-74", "80-75", "81-76", "82-77", "83-78", "84-79",
            "85-80", "86-81", "87-82", "88-83", "89-84", "90-85", "91-86", "92-87", "93-88", "94-89",
            "95-90", "96-91", "97-92", "98-93", "99-94"],
           ['8', '5', '/', '1', '7'], ['-', '!', '-', '-', '-'], 3735928559⟩ = Step.ret true w' ∨
        play_round_body EASY ⟨2147483647, 2147483647⟩ true
          ⟨state_init EASY,
           List.map (fun s => make_formula EASY (String.toList s)) [
            "50/10", "55/11", "60/12", "65/13", "70/14", "75/15", "80/16", "85/17", "90/18", "95/19",
            "15-10", "16-11", "17-12", "18-13", "19-14", "20-15", "21-16", "22-17", "23-18", "24-19",
            "25-20", "26-21", "27-22", "28-23", "29-24", "30-25", "31-26", "32-27", "33-28", "34-29",
            "35-30", "36-31", "37-32", "38-33", "39-34", "40-35", "41-36", "42-37", "43-38", "44-39",
            "45-40", "46-41", "47-42", "48-43", "49-44", "50-45", "51-46", "52-47", "53-48", "54-49",
            "55-50", "56-51", "57-52", "58-53", "59-54", "60-55", "61-56", "62-57", "63-58", "64-59",
            "65-60", "66-61", "67-62", "68-63", "69-64", "70-65", "71-66", "72-67", "73-68", "74-69",
            "75-70", "76-71", "77-72", "78-73", "79-74", "80-75", "81-76", "82-77", "83-78", "84-79",
            "85-80", "86-81", "87-82", "88-83", "89-84", "90-85", "91-86", "92-87", "93-88", "94-89",
            "95-90", "96-91", "97-92", "98-93", "99-94"],
           ['8', '5', '/', '1', '7'], ['-', '!', '-', '-', '-'], 3735928559⟩ = Step.again w') ∧
      w'.state = ⟨32, [7805, 32, 7805, 7805, 7805]⟩ ∧
      w'.formulae = List.map (fun s => make_formula EASY (String.toList s)) [
        "50/10", "55/11", "60/12", "65/13", "70/14", "75/15", "80/16", "99-94", "90/18", "95/19",
        "15-10", "16-11", "17-12", "18-13", "19-14", "20-15", "21-16", "22-17", "23-18", "24-19",
        "25-20", "26-21", "27-22", "28-23", "29-24", "30-25", "31-26", "32-27", "33-28", "34-29",
        "35-30", "36-31", "37-32", "38-33", "39-34", "40-35", "41-36", "42-37", "43-38", "44-39",
        "45-40", "46-41", "47-42", "48-43", "49-44", "50-45", "51-46", "52-47", "53-48", "54-49",
        "55-50", "56-51", "57-52", "58-53", "59-54", "60-55", "61-56", "62-57", "63-58", "64-59",
        "65-60", "66-61", "67-62", "68-63", "69-64", "70-65", "71-66", "72-67", "73-68", "74-69",
        "75-70", "76-71", "77-72", "78-73", "79-74", "80-75", "81-76", "82-77", "83-78", "84-79",
        "85-80", "86-81", "87-82", "88-83", "89-84", "90-85", "91-86", "92-87", "93-88", "94-89",
        "95-90", "96-91", "97-92", "98-93"]) ∧
    read_colors EASY ['-', '!', '-', '-', '+'] 0 0 1 = some (155, []) ∧
    state_update EASY ⟨32, [7805, 32, 7805, 7805, 7805]⟩
        (guess_masks EASY ['3', '4', '-', '2', '9']) 155 =
      (false, ⟨544, [7805, 32, 7805, 7805, 7293]⟩) ∧
    play_round_body EASY ⟨2147483647, 2147483647⟩ false
      ⟨⟨32, [7805, 32, 7805, 7805, 7805]⟩,
       List.map (fun s => make_formula EASY (String.toList s)) [
        "50/10", "55/11", "60/12", "65/13", "70/14", "75/15", "80/16", "99-94", "90/18", "95/19",
        "15-10", "16-11", "17-12", "18-13", "19-14", "20-15", "21-16", "22-17", "23-18", "24-19",
        "25-20", "26-21", "27-22", "28-23", "29-24", "30-25", "31-26", "32-27", "33-28", "34-29",
        "35-30", "36-31", "37-32", "38-33", "39-34", "40-35", "41-36", "42-37", "43-38", "44-39",
        "45-40", "46-41", "47-42", "48-43", "49-44", "50-45", "51-46", "52-47", "53-48", "54-49",
        "55-50", "56-51", "57-52", "58-53", "59-54", "60-55", "61-56", "62-57", "63-58", "64-59",
        "65-60", "66-61", "67-62", "68-63", "69-64", "70-65", "71-66", "72-67", "73-68", "74-69",
        "75-70", "76-71", "77-72", "78-73", "79-74", "80-75", "81-76", "82-77", "83-78", "84-79",
        "85-80", "86-81", "87-82", "88-83", "89-84", "90-85", "91-86", "92-87", "93-88", "94-89",
        "95-90", "96-91", "97-92", "98-93"],
       ['3', '4', '-', '2', '9'], ['-', '!', '-', '-', '+'], 3735928559⟩ =
    Step.ret true ⟨⟨544, [7805, 32, 7805, 7805, 7293]⟩,
      [make_formula EASY ['9', '5', '-', '9', '0']], ['9', '5', '-', '9', '0'], [],
      3735928559⟩ := by
  refine ⟨?_, by decide, by decide, by decide⟩
  obtain ⟨w', hor, _, hst, hf⟩ := play_round_body_accepted EASY ⟨2147483647, 2147483647⟩ true
    ⟨state_init EASY,
     List.map (fun s => make_formula EASY (String.toList s)) [
      "50/10", "55/11", "60/12", "65/13", "70/14", "75/15", "80/16", "85/17", "90/18", "95/19",
      "15-10", "16-11", "17-12", "18-13", "19-14", "20-15", "21-16", "22-17", "23-18", "24-19",
      "25-20", "26-21", "27-22", "28-23", "29-24", "30-25", "31-26", "32-27", "33-28", "34-29",
      "35-30", "36-31", "37-32", "38-33", "39-34", "40-35", "41-36", "42-37", "43-38", "44-39",
      "45-40", "46-41", "47-42", "48-43", "49-44", "50-45", "51-46", "52-47", "53-48", "54-49",
      "55-50", "56-51", "57-52", "58-53", "59-54", "60-55", "61-56", "62-57", "63-58", "64-59",
      "65-60", "66-61", "67-62", "68-63", "69-64", "70-65", "71-66", "72-67", "73-68", "74-69",
      "75-70", "76-71", "77-72", "78-73", "79-74", "80-75", "81-76", "82-77", "83-78", "84-79",
      "85-80", "86-81", "87-82", "88-83", "89-84", "90-85", "91-86", "92-87", "93-88", "94-89",
      "95-90", "96-91", "97-92", "98-93", "99-94"],
     ['8', '5', '/', '1', '7'], ['-', '!', '-', '-', '-'], 3735928559⟩
    236 [] (by decide) (by decide) (by decide)
    ⟨make_formula EASY ['9', '5', '-', '9', '0'], by decide, by decide⟩
  exact ⟨w', hor, hst.trans (by decide), hf.trans (by decide)⟩


/-- C15. After a relaxed-mode pass whose feedback is accepted (it is not zero
and some formula of the pool is compatible with the updated state), the guess
being a formula of the pool: the state is `state_update` applied to the
pre-round state with the guess and the code read, and the pre-round pool is a
permutation of the new pool with one formula `g` added, where `g` is a formula
of the pre-round pool holding the symbols of the guess. -/
theorem relaxed_round_removes_guess (cfg : Config) (libc : Libc) (w : World)
    (colors : Nat) (inp : List Char) (hlen : 1 < w.formulae.length)
    (hread : read_colors cfg w.input 0 0 1 = some (colors, inp)) (hc : colors ≠ 0)
    (hsome : ∃ f, f ∈ w.formulae ∧
      state_compatible cfg (state_update cfg w.state (guess_masks cfg w.buffer) colors).2 f =
        true)
    (hguess : ∃ f, f ∈ w.formulae ∧
      ∀ k, k < cfg.SIZE → f.mask.getD k 0 = (guess_masks cfg w.buffer).getD k 0) :
    ∃ w' g, (play_round_body cfg libc true w = Step.ret true w' ∨
        play_round_body cfg libc true w = Step.again w') ∧
      w'.state = (state_update cfg w.state (guess_masks cfg w.buffer) colors).2 ∧
      g ∈ w.formulae ∧
      (∀ k, k < cfg.SIZE → g.mask.getD k 0 = (guess_masks cfg w.buffer).getD k 0) ∧
      List.Perm (g :: w'.formulae) w.formulae := by
  obtain ⟨w', hor, _, hst, hf⟩ :=
    play_round_body_accepted cfg libc true w colors inp hlen hread hc hsome
  obtain ⟨g, hg, hgm, hperm⟩ :=
    (remove_guess_loop_spec cfg (guess_masks cfg w.buffer) w.formulae.length 0 w.formulae
      (by omega) (fun j f hj _ => absurd hj (Nat.not_lt_zero j))).1 hguess
  refine ⟨w', g, hor, hst, hg, hgm, ?_⟩
  rw [hf]
  simp only [if_true]
  exact hperm

/-- The guess `15-10` on the pool `50/10`, `15-10`, `20-15`, answered `-+!!+`. -/
theorem relaxed_round_removes_guess_witness :
    ∃ w' g, (play_round_body EASY ⟨2147483647, 2147483647⟩ true
          ⟨state_init EASY,
            [make_formula EASY ['5', '0', '/', '1', '0'],
             make_formula EASY ['1', '5', '-', '1', '0'],
             make_formula EASY ['2', '0', '-', '1', '5']],
            ['1', '5', '-', '1', '0'], ['-', '+', '!', '!', '+'], 1⟩ = Step.ret true w' ∨
        play_round_body EASY ⟨2147483647, 2147483647⟩ true
          ⟨state_init EASY,
            [make_formula EASY ['5', '0', '/', '1', '0'],
             make_formula EASY ['1', '5', '-', '1', '0'],
             make_formula EASY ['2', '0', '-', '1', '5']],
            ['1', '5', '-', '1', '0'], ['-', '+', '!', '!', '+'], 1⟩ = Step.again w') ∧
      w'.state = (state_update EASY (state_init EASY)
        (guess_masks EASY ['1', '5', '-', '1', '0']) 86).2 ∧
      g ∈ [make_formula EASY ['5', '0', '/', '1', '0'],
           make_formula EASY ['1', '5', '-', '1', '0'],
           make_formula EASY ['2', '0', '-', '1', '5']] ∧
      (∀ k, k < EASY.SIZE →
        g.mask.getD k 0 = (guess_masks EASY ['1', '5', '-', '1', '0']).getD k 0) ∧
      List.Perm (g :: w'.formulae)
        [make_formula EASY ['5', '0', '/', '1', '0'],
         make_formula EASY ['1', '5', '-', '1', '0'],
         make_formula EASY ['2', '0', '-', '1', '5']] :=
  relaxed_round_removes_guess EASY ⟨2147483647, 2147483647⟩
    ⟨state_init EASY,
      [make_formula EASY ['5', '0', '/', '1', '0'],
       make_formula EASY ['1', '5', '-', '1', '0'],
       make_formula EASY ['2', '0', '-', '1', '5']],
      ['1', '5', '-', '1', '0'], ['-', '+', '!', '!', '+'], 1⟩
    86 [] (by decide) (by decide) (by decide)
    ⟨make_formula EASY ['2', '0', '-', '1', '5'], by decide, by decide⟩
    ⟨make_formula EASY ['1', '5', '-', '1', '0'], by decide, by decide⟩

/-- C16. On a pool of two formulas or more, an input made of `SIZE` valid
tokens `c_0 .. c_(SIZE-1)`, each after any number of blanks, is read as the code
`pack`, which is the sum of `c_i * 3 ^ i`, lies below `3 ^ SIZE` and is 0 exactly
when every token is GREEN; and when every token is GREEN the pass, hence
`play_round`, returns false with the state, the pool and the buffer as they
were, in strict and in relaxed mode alike. -/
theorem all_green_feedback_solves (cfg : Config) (libc : Libc) (relaxed : Bool) (w : World)
    (toks : List (List Char × Nat)) (rest : List Char)
    (hlen : 1 < w.formulae.length)
    (hinput : w.input = feedback_input toks rest)
    (htoks : toks.length = cfg.SIZE)
    (hb : ∀ t, t ∈ toks → (∀ b, b ∈ t.1 → b = ' ' ∨ b = '\r' ∨ b = '\n') ∧ t.2 < 3) :
    read_colors cfg w.input 0 0 1 = some (pack (toks.map Prod.snd), rest) ∧
    pack (toks.map Prod.snd) =
      ∑ i in Finset.range cfg.SIZE, (toks.map Prod.snd).getD i 0 * 3 ^ i ∧
    pack (toks.map Prod.snd) < 3 ^ cfg.SIZE ∧
    (pack (toks.map Prod.snd) = 0 ↔ ∀ t, t ∈ toks → t.2 = GREEN) ∧
    ((∀ t, t ∈ toks → t.2 = GREEN) →
      play_round_body cfg libc relaxed w = Step.ret false { w with input := rest } ∧
      ∀ fuel, play_round cfg libc relaxed (fuel + 1) w =
        Step.ret false { w with input := rest }) := by
  have hread : read_colors cfg w.input 0 0 1 = some (pack (toks.map Prod.snd), rest) := by
    rw [hinput, read_colors_feedback cfg toks rest 0 0 1 (by omega) hb]
    simp
  have hzero : pack (toks.map Prod.snd) = 0 ↔ ∀ t, t ∈ toks → t.2 = GREEN := by
    rw [pack_eq_zero_iff]
    constructor
    · intro h t ht
      exact h t.2 (List.mem_map.mpr ⟨t, ht, rfl⟩)
    · intro h c hc
      obtain ⟨t, ht, rfl⟩ := List.mem_map.mp hc
      exact h t ht
  refine ⟨hread, ?_, ?_, hzero, ?_⟩
  · rw [pack_eq_sum, List.length_map, htoks]
  · have := pack_lt (toks.map Prod.snd) (by
      intro c hc
      obtain ⟨t, ht, rfl⟩ := List.mem_map.mp hc
      exact (hb t ht).2)
    rwa [List.length_map, htoks] at this
  · intro hg
    have h0 := hzero.2 hg
    rw [h0] at hread
    have hbody := (play_round_body_solved cfg libc relaxed w).2 rest hlen hread
    refine ⟨hbody, fun fuel => ?_⟩
    rw [play_round, hbody]

/-- The input `! ! !`, newline, `!!`, newline, on the pool `15-10`, `50/10` in
relaxed mode. -/
theorem all_green_feedback_solves_witness :
    read_colors EASY ['!', ' ', '!', ' ', '!', '\n', '!', '!', '\n'] 0 0 1 = some (0, ['\n']) ∧
    play_round EASY ⟨2147483647, 2147483647⟩ true 1
      ⟨state_init EASY,
        [make_formula EASY ['1', '5', '-', '1', '0'], make_formula EASY ['5', '0', '/', '1', '0']],
        ['1', '5', '-', '1', '0'], ['!', ' ', '!', ' ', '!', '\n', '!', '!', '\n'], 1⟩ =
      Step.ret false ⟨state_init EASY,
        [make_formula EASY ['1', '5', '-', '1', '0'], make_formula EASY ['5', '0', '/', '1', '0']],
        ['1', '5', '-', '1', '0'], ['\n'], 1⟩ :=
  ⟨(all_green_feedback_solves EASY ⟨2147483647, 2147483647⟩ true
      ⟨state_init EASY,
        [make_formula EASY ['1', '5', '-', '1', '0'], make_formula EASY ['5', '0', '/', '1', '0']],
        ['1', '5', '-', '1', '0'], ['!', ' ', '!', ' ', '!', '\n', '!', '!', '\n'], 1⟩
      [([], 0), ([' '], 0), ([' '], 0), (['\n'], 0), ([], 0)] ['\n']
      (by decide) (by decide) (by decide) (by decide)).1,
   ((all_green_feedback_solves EASY ⟨2147483647, 2147483647⟩ true
      ⟨state_init EASY,
        [make_formula EASY ['1', '5', '-', '1', '0'], make_formula EASY ['5', '0', '/', '1', '0']],
        ['1', '5', '-', '1', '0'], ['!', ' ', '!', ' ', '!', '\n', '!', '!', '\n'], 1⟩
      [([], 0), ([' '], 0), ([' '], 0), (['\n'], 0), ([], 0)] ['\n']
      (by decide) (by decide) (by decide) (by decide)).2.2.2.2 (by decide)).2 0⟩


/-! ## Claims on the glyph masks, the branch-and-bound scan and `gcd` -/

/-- C22. `char_to_mask` and `mask_to_char` are inverse bijections between the
glyphs of the variant and the single bits of `MSKall`: the mask of a glyph is a
power of two (one bit set), lies in `MSKall` and is sent back to the glyph; the
character of a single bit of `MSKall` is a glyph, sent back to that bit; every
other character has the mask `MSKnone` and every other mask the NUL character. -/
theorem glyph_mask_bijection (cfg : Config) :
    (∀ c, is_glyph cfg c = true →
      (∃ e, char_to_mask cfg c = 2 ^ e) ∧ popcount (char_to_mask cfg c) = 1 ∧
      char_to_mask cfg c &&& MSKall cfg = char_to_mask cfg c ∧
      mask_to_char cfg (char_to_mask cfg c) = c) ∧
    (∀ e, 2 ^ e &&& MSKall cfg = 2 ^ e →
      is_glyph cfg (mask_to_char cfg (2 ^ e)) = true ∧
      char_to_mask cfg (mask_to_char cfg (2 ^ e)) = 2 ^ e) ∧
    (∀ c, is_glyph cfg c = false → char_to_mask cfg c = MSKnone) ∧
    (∀ m, (¬ ∃ e, m = 2 ^ e ∧ m &&& MSKall cfg = m) → mask_to_char cfg m = Char.ofNat 0) := by
  refine ⟨?_, ?_, nonglyph_mask cfg, ?_⟩
  · intro c hc
    obtain ⟨_, h2, h3, h4⟩ := glyph_mask cfg c ((is_glyph_iff cfg c).1 hc)
    refine ⟨?_, h2, h3, h4⟩
    rcases mask_to_char_cases cfg (char_to_mask cfg c) with h | h
    · rw [h4] at h
      rw [h] at hc
      have : is_glyph cfg (Char.ofNat 0) = false := by
        unfold is_glyph
        simp
        decide
      rw [this] at hc
      cases hc
    · obtain ⟨⟨e, _, he⟩, _⟩ := listed_mask_bit cfg _ h
      exact ⟨e, he⟩
  · intro e he
    exact listed_mask_char cfg _ (bit_of_MSKall cfg e he)
  · intro m hm
    rcases mask_to_char_cases cfg m with h | h
    · exact h
    · obtain ⟨⟨e, _, he⟩, hl⟩ := listed_mask_bit cfg m h
      exact absurd ⟨e, he, hl⟩ hm

/-- C23. The sequential `find_worst`, called with the `3 ^ SIZE` feedback codes
as `least_worst` does, returns `min (M, least_c + 1)`, where `M` is the maximum
over the codes `0 .. 3 ^ SIZE - 1` of the number of listed formulas
`state_compatible` with the state updated by the candidate and the code; so the
result is below `least_c` exactly when `M` is, and is then `M`.  The state is
read only: every update is made on a copy. -/
theorem find_worst_branch_and_bound (cfg : Config) (st : state) (g : formula)
    (tab : List formula) (least_c : Nat) :
    find_worst cfg st g (ipow 3 cfg.SIZE).toNat tab least_c =
      min (worst_case_count cfg st g tab) (least_c + 1) ∧
    (∀ c, c < 3 ^ cfg.SIZE →
      compatible_total cfg (state_update cfg st g.mask c).2 tab ≤
        worst_case_count cfg st g tab) ∧
    (∃ c, c < 3 ^ cfg.SIZE ∧
      compatible_total cfg (state_update cfg st g.mask c).2 tab =
        worst_case_count cfg st g tab) ∧
    (find_worst cfg st g (ipow 3 cfg.SIZE).toNat tab least_c < least_c ↔
      worst_case_count cfg st g tab < least_c) ∧
    (find_worst cfg st g (ipow 3 cfg.SIZE).toNat tab least_c < least_c →
      find_worst cfg st g (ipow 3 cfg.SIZE).toNat tab least_c =
        worst_case_count cfg st g tab) := by
  have h := find_worst_eq cfg st g tab least_c
  rw [all_colors_eq, h]
  obtain ⟨m1, m2⟩ := worst_upto_is_max cfg st g tab (3 ^ cfg.SIZE)
  refine ⟨rfl, m1, m2 (by positivity), ?_, ?_⟩
  · constructor
    · intro hh
      rcases min_lt_iff.mp hh with h' | h'
      · exact h'
      · exact absurd h' (by simp)
    · intro hh
      exact min_lt_iff.mpr (Or.inl hh)
  · intro hh
    rcases min_lt_iff.mp hh with h' | h'
    · exact min_eq_left (le_trans (le_of_lt h') (Nat.le_succ _))
    · exact absurd h' (by simp)

/-- C29. `gcd` returns the greatest common divisor of the absolute values of
its arguments, with `gcd(a,0) = |a|`, `gcd(0,b) = |b|` and `gcd(0,0) = 0`; when
`b` is not zero its loop has stopped within `|b| + 1` iterations (one of the two
variables is zero, which is the exit test); and the result is not zero as soon
as one argument is not, so that `rat_norm` does not divide by zero then. -/
theorem gcd_is_greatest_common_divisor (a b : Int) :
    gcd a b = (Nat.gcd a.natAbs b.natAbs : Int) ∧
    (gcd a b ∣ a ∧ gcd a b ∣ b ∧ ∀ d : Int, d ∣ a → d ∣ b → d ∣ gcd a b) ∧
    gcd a 0 = |a| ∧ gcd 0 b = |b| ∧ gcd 0 0 = 0 ∧
    (b ≠ 0 → (gcd_loop (|b|.toNat + 1) |a| |b|).1 = 0 ∨
      (gcd_loop (|b|.toNat + 1) |a| |b|).2 = 0) ∧
    ((a ≠ 0 ∨ b ≠ 0) → gcd a b ≠ 0) := by
  refine ⟨gcd_eq a b, ?_, ?_, ?_, ?_, ?_, ?_⟩
  · rw [gcd_eq]
    exact ⟨Int.gcd_dvd_left, Int.gcd_dvd_right, fun d h1 h2 => Int.dvd_gcd h1 h2⟩
  · rw [gcd_eq, Int.gcd_zero_right, Int.natCast_natAbs]
  · rw [gcd_eq, Int.gcd_zero_left, Int.natCast_natAbs]
  · rw [gcd_eq]
    rfl
  · intro hb
    have ha' : |a| = ((a.natAbs : Nat) : Int) := (Int.natCast_natAbs a).symm
    have hb' : |b| = ((b.natAbs : Nat) : Int) := (Int.natCast_natAbs b).symm
    rw [ha', hb', Int.toNat_natCast]
    exact gcd_loop_stops _ _ _ (Int.natAbs_pos.mpr hb) (by omega)
  · intro h
    rw [gcd_eq]
    intro h0
    have : Int.gcd a b = 0 := by exact_mod_cast h0
    rw [Int.gcd_eq_zero_iff] at this
    rcases h with h | h
    · exact h this.1
    · exact h this.2


/-! ## Claim on the leaf check -/

/-- C26. On a span `frm < upto` inside the buffer and for every `n >= 0`:
`num` returns true exactly when the decimal representation of `n` without
leading zeros (`0` for zero) has `upto - frm` digits, the buffer then holds
those digits on the span, and in every case nothing is written outside the
span.  `number` with a set target runs its continuation, with the target
unchanged and its digits in the span, exactly when the target has the
denominator 1, a non-negative numerator and `num` accepts it; otherwise the
continuation is not run: the branch is abandoned with the store of formulas
unchanged and the buffer changed at most on the span. -/
theorem num_fills_span (frm upto : Nat) (h1 : frm < upto) :
    (∀ (n : Nat) (buf : List Char), upto ≤ buf.length →
      ((num (n : Int) frm upto buf).1 = true ↔ (decimal n).length = upto - frm) ∧
      ((num (n : Int) frm upto buf).1 = true →
        (num (n : Int) frm upto buf).2 = splice buf frm (decimal n)) ∧
      Frame (fun q => frm ≤ q ∧ q < upto) buf (num (n : Int) frm upto buf).2) ∧
    (∀ (T : opt_rat) (g : Globals), T.set = true → upto ≤ g.buffer.length →
      ((T.val.q = 1 ∧ 0 ≤ T.val.p ∧ (num T.val.p frm upto g.buffer).1 = true) →
        ∀ k, number T frm upto k g =
          k T { g with buffer := splice g.buffer frm (decimal T.val.p.toNat) }) ∧
      (¬ (T.val.q = 1 ∧ 0 ≤ T.val.p ∧ (num T.val.p frm upto g.buffer).1 = true) →
        ∃ g' : Globals, (∀ k, number T frm upto k g = g') ∧ g'.formulae = g.formulae ∧
          Frame (fun q => frm ≤ q ∧ q < upto) g.buffer g'.buffer)) := by
  constructor
  · intro n buf h2
    obtain ⟨a, b⟩ := num_decimal n frm upto buf h1 h2
    exact ⟨a, b, (num_spec (n : Int) frm upto buf h1 h2).2.1⟩
  · intro T g hT h2
    constructor
    · rintro ⟨hq, hp, hn⟩ k
      have e : T.val.p = ((T.val.p.toNat : Nat) : Int) := (Int.toNat_of_nonneg hp).symm
      have hb := (num_decimal T.val.p.toNat frm upto g.buffer h1 h2).2
      rw [← e] at hb
      unfold number
      rw [if_pos hT, if_neg (by
        rintro (h | h)
        · exact h hq
        · omega)]
      simp only [hn, Bool.not_true, Bool.false_eq_true, if_false]
      rw [hb hn]
    · intro hne
      by_cases hc : T.val.q ≠ 1 ∨ T.val.p < 0
      · refine ⟨g, ?_, rfl, ⟨rfl, fun _ _ => rfl⟩⟩
        intro k
        unfold number
        rw [if_pos hT, if_pos hc]
        rfl
      · have hq : T.val.q = 1 := by
          by_contra h
          exact hc (Or.inl h)
        have hp : 0 ≤ T.val.p := by
          by_contra h
          exact hc (Or.inr (by omega))
        have hn : (num T.val.p frm upto g.buffer).1 = false := by
          cases hv : (num T.val.p frm upto g.buffer).1 with
          | false => rfl
          | true => exact absurd ⟨hq, hp, hv⟩ hne
        refine ⟨{ g with buffer := (num T.val.p frm upto g.buffer).2 }, ?_, rfl,
          (num_spec T.val.p frm upto g.buffer h1 h2).2.1⟩
        intro k
        unfold number
        rw [if_pos hT, if_neg hc]
        simp only [hn, Bool.not_false, if_true]
        rfl

/-- The span `[1, 3)` of a buffer of four characters: `42` fills it, `7` and `123` do not. -/
theorem num_fills_span_witness :
    ((num 42 1 3 ['a', 'b', 'c', 'd']).1 = true ↔ (decimal 42).length = 3 - 1) ∧
    (num 42 1 3 ['a', 'b', 'c', 'd']).2 = splice ['a', 'b', 'c', 'd'] 1 (decimal 42) ∧
    splice ['a', 'b', 'c', 'd'] 1 (decimal 42) = ['a', '4', '2', 'd'] ∧
    ((num 7 1 3 ['a', 'b', 'c', 'd']).1 = true ↔ (decimal 7).length = 3 - 1) ∧
    (num 7 1 3 ['a', 'b', 'c', 'd']).1 = false ∧
    ((num 123 1 3 ['a', 'b', 'c', 'd']).1 = true ↔ (decimal 123).length = 3 - 1) ∧
    (num 123 1 3 ['a', 'b', 'c', 'd']).1 = false :=
  ⟨((num_fills_span 1 3 (by decide)).1 42 ['a', 'b', 'c', 'd'] (by decide)).1,
    ((num_fills_span 1 3 (by decide)).1 42 ['a', 'b', 'c', 'd'] (by decide)).2.1 (by decide),
    by simp [splice, decimal],
    ((num_fills_span 1 3 (by decide)).1 7 ['a', 'b', 'c', 'd'] (by decide)).1,
    by decide,
    ((num_fills_span 1 3 (by decide)).1 123 ['a', 'b', 'c', 'd'] (by decide)).1,
    by decide⟩

/-! ## Claims on the decimal input -/

/-- C21, as stated, fails: the bound holds for the inputs that need at most 62
doublings only.  The value `2^-63` is doubled 63 times: `n` becomes `-2^63` in
the `int64_t` shift, the loop ends with `k[1] = -2^63`, and the fraction
produced is `1/0`.  The `double` nearest to `0.0001` is an odd multiple of
`2^-66`: `n` is shifted out to 0 and the first pass of the loop computes
`x % n`, a division by zero, so that no fraction is produced.  For an input
`m / 2^s` with `m < 2^63` and `s <= 62` nothing overflows: the loop applied to
an integer `0 <= d < 2^63` over `n = 2^s` returns a denominator between 1 and
32767, and so does `rat_double`. -/
theorem rat_double_scaling_overflow :
    double.toRat ⟨false, 1, 63⟩ = 1 / 2 ^ 63 ∧
    rat_double ⟨false, 1, 63⟩ = some ⟨1, 0⟩ ∧
    |double.toRat ⟨false, 7378697629483821, 66⟩ - 1 / 10000| ≤ 1 / 2 ^ 67 ∧
    rat_double ⟨false, 7378697629483821, 66⟩ = none ∧
    (∀ (d : Int) (s : Nat), 0 ≤ d → d < 2 ^ 63 → s ≤ 62 →
      ∃ h k, cf_loop 64 0 d (2 ^ s) 0 1 1 0 = some (h, k) ∧ 1 ≤ k ∧ k ≤ 32767) ∧
    (∀ f : double, f.m < 2 ^ 63 → f.s ≤ 62 →
      ∃ r, rat_double f = some r ∧ 1 ≤ r.q ∧ r.q ≤ 32767) := by
  have loop : ∀ (d n : Int), 0 ≤ d → d < 2 ^ 63 → 0 < n → n < 2 ^ 63 →
      ∃ h k, cf_loop 64 0 d n 0 1 1 0 = some (h, k) ∧ 1 ≤ k ∧ k ≤ 32767 := by
    intro d n hd hd' hn hn'
    obtain ⟨h, k, e, hk, hk'⟩ := cf_loop_range 64 0 d n 0 1 1 0 d n hd (le_of_lt hn)
      (le_refl 0) (by norm_num) (by norm_num) (by decide) (le_refl 0) (by decide)
      (by ring) (by ring) hn' hd' (fun _ => ⟨rfl, rfl, hn⟩) (fun h => absurd rfl h)
    exact ⟨h, k, e, hk' (Or.inl (by norm_num)), hk⟩
  refine ⟨?_, rat_double_two_pow_neg_63, ?_, rat_double_one_e_minus_4, ?_, ?_⟩
  · unfold double.toRat
    norm_num
  · unfold double.toRat
    rw [abs_le]
    norm_num
  · intro d s hd hd' hs
    have hp : (2 : Int) ^ s ≤ 2 ^ 62 := pow_le_pow_right₀ (by norm_num) hs
    exact loop d (2 ^ s) hd hd' (by positivity) (by omega)
  · intro f hm hs
    have hp : (2 : Int) ^ f.s ≤ 2 ^ 62 := pow_le_pow_right₀ (by norm_num) hs
    obtain ⟨hn, hn', hdm⟩ := scale_loop_spec f.m f.s 1 (by norm_num) (by omega)
    have hd : (scale_loop f.m f.s 1).1 < 2 ^ 63 := by omega
    have hd' : ((scale_loop f.m f.s 1).1 : Int) < 2 ^ 63 := by exact_mod_cast hd
    obtain ⟨h, k, e, hk, hk'⟩ := loop _ _ (Int.natCast_nonneg _) hd' hn hn'
    unfold rat_double
    simp only []
    rw [double_to_int64_small _ hd, e, Option.map_some']
    refine ⟨_, rfl, ?_⟩
    show 1 ≤ to_integer k ∧ to_integer k ≤ 32767
    rw [to_integer_small k (by omega) (by omega)]
    exact ⟨hk, hk'⟩

/-- C28. For every integer `v` with `|v| < 2^31`, given as a `double` in any of
its forms `|v| * 2^s / 2^s`, `rat_double` produces exactly the fraction `v/1`. -/
theorem rat_double_integer (v : Int) (s : Nat) (hv : |v| < 2 ^ 31) :
    double.toRat ⟨decide (v < 0), v.natAbs * 2 ^ s, s⟩ = (v : ℚ) ∧
    rat_double ⟨decide (v < 0), v.natAbs * 2 ^ s, s⟩ = some ⟨v, 1⟩ := by
  have habs : |v| = ((v.natAbs : Nat) : Int) := (Int.natCast_natAbs v).symm
  have hlt : ((v.natAbs : Nat) : Int) < 2 ^ 31 := by rw [← habs]; exact hv
  have e1 : ((v.natAbs : Nat) : ℚ) = (((v.natAbs : Nat) : Int) : ℚ) := (Int.cast_natCast _).symm
  constructor
  · unfold double.toRat
    simp only [Nat.cast_mul, Nat.cast_pow, Nat.cast_ofNat]
    have h2 : (2 : ℚ) ^ s ≠ 0 := by positivity
    rw [mul_div_assoc, div_self h2, mul_one, e1]
    by_cases hneg : v < 0
    · simp only [hneg, decide_True, if_true]
      have : ((v.natAbs : Nat) : Int) = -v := by omega
      rw [this, Int.cast_neg]
      ring
    · simp only [hneg, decide_False, Bool.false_eq_true, if_false]
      have : ((v.natAbs : Nat) : Int) = v := by omega
      rw [this]
      ring
  · have hnat : v.natAbs < 2 ^ 63 := by
      have : ((v.natAbs : Nat) : Int) < 2 ^ 63 := by omega
      exact_mod_cast this
    unfold rat_double
    simp only []
    rw [scale_loop_integer, double_to_int64_small _ hnat,
      cf_loop_integer ((v.natAbs : Nat) : Int) (Int.natCast_nonneg _) (by omega),
      Option.map_some', to_integer_small 1 (by norm_num) (by norm_num)]
    by_cases hneg : v < 0
    · have hm : v.natAbs * 2 ^ s ≠ 0 :=
        Nat.mul_ne_zero (by omega) (Nat.pos_iff_ne_zero.mp (Nat.pow_pos (by norm_num)))
      have hx : to_integer (to_int64 (-((v.natAbs : Nat) : Int))) = v := by
        rw [to_int64_small _ (by omega) (by omega), to_integer_small _ (by omega) (by omega)]
        omega
      simp only [hneg, decide_True, hm, ne_eq, not_false_eq_true, Bool.and_self, if_true, hx]
    · have hx : to_integer ((v.natAbs : Nat) : Int) = v := by
        rw [to_integer_small _ (by omega) (by omega)]
        omega
      simp only [hneg, decide_False, Bool.false_and, Bool.false_eq_true, if_false, hx]

/-- The input `-24`, given as `-48/2`. -/
theorem rat_double_integer_witness :
    double.toRat ⟨decide ((-24 : Int) < 0), (-24 : Int).natAbs * 2 ^ 1, 1⟩ = ((-24 : Int) : ℚ) ∧
    rat_double ⟨decide ((-24 : Int) < 0), (-24 : Int).natAbs * 2 ^ 1, 1⟩ = some ⟨-24, 1⟩ :=
  rat_double_integer (-24) 1 (by decide)


/-! ## Claims on the pool reduction and on the sampling of `least_worst` -/

/-- C24, counterexample. A pool of 15000 copies of `12+34` and one `10+36`
(EASY variant): every formula has `SIZE` distinct symbols, so both reductions
run.  The candidate `12+34`, which does not contain the digit 0, remains, and
`10+36`, which contains it, is removed. -/
theorem pool_reduction_removes_zero :
    MAX_FORMULAE_EXACT ≤
      (List.replicate 15000 (⟨1054, [2, 4, 1024, 8, 16], 5⟩ : formula) ++
        [(⟨1099, [2, 1, 1024, 8, 64], 5⟩ : formula)]).length ∧
    MAX_FORMULAE_EXACT ≤
      ((List.replicate 15000 (⟨1054, [2, 4, 1024, 8, 16], 5⟩ : formula) ++
        [(⟨1099, [2, 1, 1024, 8, 64], 5⟩ : formula)]).filter
          (fun f => decide (f.used_count = EASY.SIZE))).length ∧
    (⟨1054, [2, 4, 1024, 8, 16], 5⟩ : formula).used &&& MSK0 = MSKnone ∧
    (⟨1054, [2, 4, 1024, 8, 16], 5⟩ : formula) ∈
      least_worst_candidates EASY
        (List.replicate 15000 (⟨1054, [2, 4, 1024, 8, 16], 5⟩ : formula) ++
          [(⟨1099, [2, 1, 1024, 8, 64], 5⟩ : formula)]) ∧
    (⟨1099, [2, 1, 1024, 8, 64], 5⟩ : formula).used &&& MSK0 ≠ MSKnone ∧
    (⟨1099, [2, 1, 1024, 8, 64], 5⟩ : formula) ∉
      least_worst_candidates EASY
        (List.replicate 15000 (⟨1054, [2, 4, 1024, 8, 16], 5⟩ : formula) ++
          [(⟨1099, [2, 1, 1024, 8, 64], 5⟩ : formula)]) := by
  have hall : ∀ f, f ∈ List.replicate 15000 (⟨1054, [2, 4, 1024, 8, 16], 5⟩ : formula) ++
      [(⟨1099, [2, 1, 1024, 8, 64], 5⟩ : formula)] →
      (fun f : formula => decide (f.used_count = EASY.SIZE)) f = true := by
    intro f hf
    rcases List.mem_append.mp hf with h | h
    · rw [(List.mem_replicate.mp h).2]
      decide
    · rw [List.mem_singleton.mp h]
      decide
  have hlen : MAX_FORMULAE_EXACT ≤
      (List.replicate 15000 (⟨1054, [2, 4, 1024, 8, 16], 5⟩ : formula) ++
        [(⟨1099, [2, 1, 1024, 8, 64], 5⟩ : formula)]).length := by
    rw [List.length_append, List.length_replicate]
    decide
  have hlen' : MAX_FORMULAE_EXACT ≤
      ((List.replicate 15000 (⟨1054, [2, 4, 1024, 8, 16], 5⟩ : formula) ++
        [(⟨1099, [2, 1, 1024, 8, 64], 5⟩ : formula)]).filter
          (fun f => decide (f.used_count = EASY.SIZE))).length := by
    rw [List.filter_eq_self.mpr hall]
    exact hlen
  have hperm := (least_worst_candidates_spec EASY _).2.2 hlen hlen'
  refine ⟨hlen, hlen', by decide, ?_, by decide, ?_⟩
  · rw [hperm.mem_iff, List.mem_filter, List.mem_filter]
    refine ⟨⟨List.mem_append_left _ (List.mem_replicate.mpr ⟨by decide, rfl⟩), by decide⟩,
      by decide⟩
  · rw [hperm.mem_iff, List.mem_filter]
    rintro ⟨_, h⟩
    revert h
    decide

/-- C24, amended. In `least_worst` the candidates are the pool itself when it
holds fewer than `MAX_FORMULAE_EXACT` (15000) formulas.  Otherwise they are
first restricted to the formulas whose distinct-symbol count equals `SIZE`; and
when 15000 candidates or more still remain, the formulas that contain the digit
zero are excluded, so that no remaining candidate contains the digit 0.  The
order of the candidates may change. -/
theorem pool_reduction (cfg : Config) (pool : List formula) :
    (pool.length < MAX_FORMULAE_EXACT → least_worst_candidates cfg pool = pool) ∧
    (MAX_FORMULAE_EXACT ≤ pool.length →
      (pool.filter (fun f => decide (f.used_count = cfg.SIZE))).length < MAX_FORMULAE_EXACT →
      List.Perm (least_worst_candidates cfg pool)
        (pool.filter (fun f => decide (f.used_count = cfg.SIZE)))) ∧
    (MAX_FORMULAE_EXACT ≤ pool.length →
      MAX_FORMULAE_EXACT ≤
        (pool.filter (fun f => decide (f.used_count = cfg.SIZE))).length →
      List.Perm (least_worst_candidates cfg pool)
        ((pool.filter (fun f => decide (f.used_count = cfg.SIZE))).filter
          (fun f => decide (f.used &&& MSK0 = MSKnone))) ∧
      ∀ f, f ∈ least_worst_candidates cfg pool →
        f ∈ pool ∧ f.used_count = cfg.SIZE ∧ f.used &&& MSK0 = MSKnone) ∧
    (∀ (libc : Libc) (st : state) (buffer : List Char) (seed : Nat), 2 ≤ pool.length →
      (least_worst cfg libc st pool buffer seed).1 =
        decide ((least_worst_loop cfg libc st pool (ipow 3 cfg.SIZE).toNat
          (least_worst_rnd_thr libc pool (least_worst_candidates cfg pool))
          (least_worst_candidates cfg pool)
          ⟨pool.length + 1, pool[0]?, pool, seed⟩).least_c > 0)) := by
  obtain ⟨h1, h2, h3⟩ := least_worst_candidates_spec cfg pool
  refine ⟨h1, h2, ?_, ?_⟩
  · intro ha hb
    refine ⟨h3 ha hb, ?_⟩
    intro f hf
    rw [(h3 ha hb).mem_iff, List.mem_filter, List.mem_filter] at hf
    obtain ⟨⟨m1, m2⟩, m3⟩ := hf
    exact ⟨m1, of_decide_eq_true m2, of_decide_eq_true m3⟩
  · intro libc st buffer seed h2
    rw [least_worst_pieces, if_neg (by omega), if_neg (by omega)]
    split <;> rfl

/-- C25, counterexample. EASY variant, a pool of 30000 formulas, all with five
distinct symbols and without the digit 0: `12+34`, `14+32`, then `32+14`; no
candidate is removed and `rnd_thr` is a quarter of `RAND_MAX`, so sampling is
active.  With the seed `0xDEADBEEF` the first random number is 599691355, above
`rnd_thr`: the list built at step 0 does not take the formula of index 1, and
step 1, which does not rebuild the list, scores the candidate `14+32` against a
sample list `14+32` is not a member of. -/
theorem scored_candidate_outside_sample :
    least_worst_candidates EASY
        ((⟨1054, [2, 4, 1024, 8, 16], 5⟩ : formula) :: ⟨1054, [2, 16, 1024, 8, 4], 5⟩ ::
          List.replicate 29998 ⟨1054, [8, 4, 1024, 2, 16], 5⟩) =
      (⟨1054, [2, 4, 1024, 8, 16], 5⟩ : formula) :: ⟨1054, [2, 16, 1024, 8, 4], 5⟩ ::
        List.replicate 29998 ⟨1054, [8, 4, 1024, 2, 16], 5⟩ ∧
    least_worst_rnd_thr ⟨2147483647, 2147483647⟩
        ((⟨1054, [2, 4, 1024, 8, 16], 5⟩ : formula) :: ⟨1054, [2, 16, 1024, 8, 4], 5⟩ ::
          List.replicate 29998 ⟨1054, [8, 4, 1024, 2, 16], 5⟩)
        ((⟨1054, [2, 4, 1024, 8, 16], 5⟩ : formula) :: ⟨1054, [2, 16, 1024, 8, 4], 5⟩ ::
          List.replicate 29998 ⟨1054, [8, 4, 1024, 2, 16], 5⟩) = 536870911 ∧
    (_rnd ⟨2147483647, 2147483647⟩ 3735928559).1 = 599691355 ∧
    ((⟨1054, [2, 4, 1024, 8, 16], 5⟩ : formula) :: ⟨1054, [2, 16, 1024, 8, 4], 5⟩ ::
        List.replicate 29998 ⟨1054, [8, 4, 1024, 2, 16], 5⟩)[1]? =
      some ⟨1054, [2, 16, 1024, 8, 4], 5⟩ ∧
    (⟨1054, [2, 16, 1024, 8, 4], 5⟩ : formula) ∉
      samples_at EASY ⟨2147483647, 2147483647⟩ (state_init EASY)
        ((⟨1054, [2, 4, 1024, 8, 16], 5⟩ : formula) :: ⟨1054, [2, 16, 1024, 8, 4], 5⟩ ::
          List.replicate 29998 ⟨1054, [8, 4, 1024, 2, 16], 5⟩)
        (ipow 3 EASY.SIZE).toNat 536870911
        ((⟨1054, [2, 4, 1024, 8, 16], 5⟩ : formula) :: ⟨1054, [2, 16, 1024, 8, 4], 5⟩ ::
          List.replicate 29998 ⟨1054, [8, 4, 1024, 2, 16], 5⟩)
        ⟨30001, some ⟨1054, [2, 4, 1024, 8, 16], 5⟩,
          (⟨1054, [2, 4, 1024, 8, 16], 5⟩ : formula) :: ⟨1054, [2, 16, 1024, 8, 4], 5⟩ ::
            List.replicate 29998 ⟨1054, [8, 4, 1024, 2, 16], 5⟩, 3735928559⟩ 1 := by
  generalize hp : ((⟨1054, [2, 4, 1024, 8, 16], 5⟩ : formula) ::
    ⟨1054, [2, 16, 1024, 8, 4], 5⟩ ::
      List.replicate 29998 ⟨1054, [8, 4, 1024, 2, 16], 5⟩) = pool
  have hlen : pool.length = 30000 := by
    rw [← hp, List.length_cons, List.length_cons, List.length_replicate]
  have hmem : ∀ f, f ∈ pool → f = ⟨1054, [2, 4, 1024, 8, 16], 5⟩ ∨
      f = ⟨1054, [2, 16, 1024, 8, 4], 5⟩ ∨ f = ⟨1054, [8, 4, 1024, 2, 16], 5⟩ := by
    intro f hf
    rw [← hp] at hf
    rcases List.mem_cons.mp hf with h | h
    · exact Or.inl h
    · rcases List.mem_cons.mp h with h | h
      · exact Or.inr (Or.inl h)
      · exact Or.inr (Or.inr (List.mem_replicate.mp h).2)
  have hget : ∀ j f, j ≠ 1 → pool[j]? = some f →
      f ≠ ⟨1054, [2, 16, 1024, 8, 4], 5⟩ := by
    intro j f hj hf
    rw [← hp] at hf
    cases j with
    | zero =>
      rw [List.getElem?_cons_zero] at hf
      rw [← Option.some.inj hf]
      decide
    | succ j =>
      cases j with
      | zero => exact absurd rfl hj
      | succ j =>
        rw [List.getElem?_cons_succ, List.getElem?_cons_succ] at hf
        obtain ⟨hlt, e⟩ := List.getElem?_eq_some_iff.mp hf
        have hm := List.getElem_mem hlt
        rw [e] at hm
        rw [(List.mem_replicate.mp hm).2]
        decide
  have hcand : least_worst_candidates EASY pool = pool := by
    unfold least_worst_candidates
    simp only [ge_iff_le]
    have e1 : prune_loop (fun f : formula => decide (f.used_count = EASY.SIZE)) pool.length 0
        pool = pool :=
      prune_loop_id _ _ _ _ (by
        intro f hf
        rcases hmem f hf with h | h | h <;> rw [h] <;> decide)
    have e2 : prune_loop (fun f : formula => decide (f.used &&& MSK0 = MSKnone)) pool.length 0
        pool = pool :=
      prune_loop_id _ _ _ _ (by
        intro f hf
        rcases hmem f hf with h | h | h <;> rw [h] <;> decide)
    have hM : MAX_FORMULAE_EXACT ≤ pool.length := by rw [hlen]; decide
    rw [if_pos hM, e1, if_pos hM, e2]
  have hthr : least_worst_rnd_thr ⟨2147483647, 2147483647⟩ pool pool = 536870911 := by
    unfold least_worst_rnd_thr
    rw [hlen, if_pos (by decide)]
    decide
  have hrnd : (_rnd ⟨2147483647, 2147483647⟩ 3735928559).1 = 599691355 := by decide
  have hone : pool[1]? = some ⟨1054, [2, 16, 1024, 8, 4], 5⟩ := by
    rw [← hp, List.getElem?_cons_succ, List.getElem?_cons_zero]
  refine ⟨hcand, hthr, hrnd, hone, ?_⟩
  have h0 : (0 : Nat) < pool.length := by omega
  rw [samples_at_keep EASY _ _ pool _ 536870911 pool _ 0 h0 (by
      rintro ⟨_, h⟩
      revert h
      decide),
    show (0 : Nat) = 8 * 0 from rfl,
    samples_at_rebuilt EASY _ _ pool _ 536870911 pool _ 0 (by decide)]
  intro hin
  have hseed : (vars_at EASY ⟨2147483647, 2147483647⟩ (state_init EASY) pool
      (ipow 3 EASY.SIZE).toNat 536870911 pool
      ⟨30001, some ⟨1054, [2, 4, 1024, 8, 16], 5⟩, pool, 3735928559⟩ (8 * 0)).seed =
        3735928559 := rfl
  rw [hseed] at hin
  obtain ⟨j, hj, hf⟩ := refresh_samples_skip ⟨2147483647, 2147483647⟩ pool 536870911
    3735928559 (by rw [hrnd]; decide) _ hin
  exact hget j _ hj hf rfl

/-- C25, amended. When sampling is active in `least_worst` (`rnd_thr >= 0`), the
sample list is rebuilt only at the steps `i` that are multiples of 8; the list
of step `i` is the one built at step `i - i mod 8`, which holds the pool formula
of index `i - i mod 8` and formulas of the pool only.  So the candidate scored
at step `i` is a member of its sample list when `i` is a multiple of 8 and the
candidate is the pool formula of the same index (as when no candidate was
removed); at the other steps it is a member only if it was drawn.  The list
`samples_at` is the one `find_worst` receives at step `i`. -/
theorem sample_membership (cfg : Config) (libc : Libc) (st : state) (pool : List formula)
    (all_colors : Nat) (rnd_thr : Int) (candidates : List formula) (vars : least_worst_vars)
    (hthr : 0 ≤ rnd_thr) :
    (∀ i, i < candidates.length →
      samples_at cfg libc st pool all_colors rnd_thr candidates vars i =
        (refresh_samples libc pool (i - i % 8) rnd_thr
          (vars_at cfg libc st pool all_colors rnd_thr candidates vars (i - i % 8)).seed).1) ∧
    (∀ i f, i < candidates.length → pool[i - i % 8]? = some f →
      f ∈ samples_at cfg libc st pool all_colors rnd_thr candidates vars i) ∧
    (∀ i f, i < candidates.length →
      f ∈ samples_at cfg libc st pool all_colors rnd_thr candidates vars i → f ∈ pool) ∧
    (∀ i c, i % 8 = 0 → candidates[i]? = some c → pool[i]? = some c →
      c ∈ samples_at cfg libc st pool all_colors rnd_thr candidates vars i) ∧
    (∀ i c, candidates[i]? = some c →
      (vars_at cfg libc st pool all_colors rnd_thr candidates vars (i + 1)).least_c =
        min (vars_at cfg libc st pool all_colors rnd_thr candidates vars i).least_c
          (find_worst cfg st c all_colors
            (samples_at cfg libc st pool all_colors rnd_thr candidates vars i)
            (vars_at cfg libc st pool all_colors rnd_thr candidates vars i).least_c)) ∧
    vars_at cfg libc st pool all_colors rnd_thr candidates vars candidates.length =
      least_worst_loop cfg libc st pool all_colors rnd_thr candidates vars := by
  have hblock : ∀ i, i < candidates.length →
      samples_at cfg libc st pool all_colors rnd_thr candidates vars i =
        (refresh_samples libc pool (i - i % 8) rnd_thr
          (vars_at cfg libc st pool all_colors rnd_thr candidates vars (i - i % 8)).seed).1 := by
    intro i hi
    have e : i = 8 * (i / 8) + i % 8 := (Nat.div_add_mod i 8).symm
    have e' : i - i % 8 = 8 * (i / 8) := by omega
    rw [e', ← samples_at_rebuilt cfg libc st pool all_colors rnd_thr candidates vars (i / 8) hthr]
    conv_lhs => rw [e]
    exact samples_at_block cfg libc st pool all_colors rnd_thr candidates vars (i / 8) (i % 8)
      (Nat.mod_lt _ (by norm_num)) (by omega)
  refine ⟨hblock, ?_, ?_, ?_, ?_, vars_at_length cfg libc st pool all_colors rnd_thr candidates
    vars⟩
  · intro i f hi hf
    rw [hblock i hi]
    exact refresh_samples_self libc pool _ rnd_thr _ f hf
  · intro i f hi hf
    rw [hblock i hi] at hf
    exact refresh_samples_subset libc pool _ rnd_thr _ f hf
  · intro i c h8 hc hp
    have hi : i < candidates.length := (List.getElem?_eq_some_iff.mp hc).1
    rw [hblock i hi]
    have e : i - i % 8 = i := by omega
    rw [e]
    exact refresh_samples_self libc pool i rnd_thr _ c hp
  · intro i c hc
    rw [vars_at_succ cfg libc st pool all_colors rnd_thr candidates vars i c hc]
    split
    · rename_i h
      exact (min_eq_right (le_of_lt h)).symm
    · rename_i h
      exact (min_eq_left (not_lt.mp h)).symm

/-- Three formulas, `rnd_thr = 0`: the first formula is in the sample list of step 1. -/
theorem sample_membership_witness :
    (⟨1054, [2, 4, 1024, 8, 16], 5⟩ : formula) ∈
      samples_at EASY ⟨2147483647, 2147483647⟩ (state_init EASY)
        [⟨1054, [2, 4, 1024, 8, 16], 5⟩, ⟨1054, [2, 16, 1024, 8, 4], 5⟩,
          ⟨1054, [8, 4, 1024, 2, 16], 5⟩] 243 0
        [⟨1054, [2, 4, 1024, 8, 16], 5⟩, ⟨1054, [2, 16, 1024, 8, 4], 5⟩,
          ⟨1054, [8, 4, 1024, 2, 16], 5⟩]
        ⟨4, some ⟨1054, [2, 4, 1024, 8, 16], 5⟩,
          [⟨1054, [2, 4, 1024, 8, 16], 5⟩, ⟨1054, [2, 16, 1024, 8, 4], 5⟩,
            ⟨1054, [8, 4, 1024, 2, 16], 5⟩], 3735928559⟩ 1 :=
  (sample_membership EASY ⟨2147483647, 2147483647⟩ (state_init EASY)
    [⟨1054, [2, 4, 1024, 8, 16], 5⟩, ⟨1054, [2, 16, 1024, 8, 4], 5⟩,
      ⟨1054, [8, 4, 1024, 2, 16], 5⟩] 243 0
    [⟨1054, [2, 4, 1024, 8, 16], 5⟩, ⟨1054, [2, 16, 1024, 8, 4], 5⟩,
      ⟨1054, [8, 4, 1024, 2, 16], 5⟩]
    ⟨4, some ⟨1054, [2, 4, 1024, 8, 16], 5⟩,
      [⟨1054, [2, 4, 1024, 8, 16], 5⟩, ⟨1054, [2, 16, 1024, 8, 4], 5⟩,
        ⟨1054, [8, 4, 1024, 2, 16], 5⟩], 3735928559⟩ (by decide)).2.1 1
    ⟨1054, [2, 4, 1024, 8, 16], 5⟩ (by decide) (by decide)


/-! ## Claim on the absence of duplicates -/

/-- C27. For every target, the list of formulas `findall` appends contains no
two entries with the same symbol sequence: the list of the mask sequences has
no duplicate, nor has the list of the strings they stand for, nor the list of
the formulas.  The proof follows the choice structure of the search and the
shape of the strings, not the values the 32-bit arithmetic computes. -/
theorem generated_formulas_distinct (cfg : Config)
    (hcfg : cfg.NUMBLE = true → cfg.ALLOW_PARENTHESIS = false) (hS : 0 < cfg.SIZE)
    (target : rat) :
    ((generate cfg target).map (fun f => f.mask)).Nodup ∧
    ((generate cfg target).map (fun f => f.mask.map (mask_to_char cfg))).Nodup ∧
    (generate cfg target).Nodup ∧
    (findall cfg target (Globals.init cfg)).formulae = generate cfg target := by
  have h := generate_nodup cfg hcfg hS target
  have hstr : ((generate cfg target).map (fun f => f.mask.map (mask_to_char cfg))).Nodup := by
    have e : (generate cfg target).map (fun f => f.mask.map (mask_to_char cfg)) =
        ((generate cfg target).map (fun f => f.mask)).map (fun m => m.map (mask_to_char cfg)) := by
      rw [List.map_map]
      rfl
    rw [e]
    refine List.Nodup.map_on ?_ h
    intro m hm m' hm' hmm
    rw [List.mem_map] at hm hm'
    obtain ⟨f, hf, rfl⟩ := hm
    obtain ⟨f', hf', rfl⟩ := hm'
    rw [mem_generate_iff cfg target hS] at hf hf'
    obtain ⟨rs, hrs, _, rfl⟩ := hf
    obtain ⟨rs', hrs', _, rfl⟩ := hf'
    obtain ⟨l1, g1⟩ := gen_findall_shape cfg hcfg hS target rs hrs
    obtain ⟨l2, g2⟩ := gen_findall_shape cfg hcfg hS target rs' hrs'
    simp only [] at hmm ⊢
    rw [make_formula_mask cfg rs.2 l1, make_formula_mask cfg rs'.2 l2] at hmm ⊢
    rw [decode_encode cfg rs.2 g1, decode_encode cfg rs'.2 g2] at hmm
    rw [hmm]
  exact ⟨h, hstr, List.Nodup.of_map _ h, rfl⟩

/-- The EASY variant with the target 5. -/
theorem generated_formulas_distinct_witness :
    ((generate EASY ⟨5, 1⟩).map (fun f => f.mask)).Nodup ∧
    ((generate EASY ⟨5, 1⟩).map (fun f => f.mask.map (mask_to_char EASY))).Nodup ∧
    (generate EASY ⟨5, 1⟩).Nodup ∧
    (findall EASY ⟨5, 1⟩ (Globals.init EASY)).formulae = generate EASY ⟨5, 1⟩ :=
  generated_formulas_distinct EASY (by decide) (by decide) ⟨5, 1⟩

end Mathler
